import Mathlib

/-!
# anise-repo-devkit: repository reconciliation (`pkg/devkit`)

A shallow embedding of `RepoKnife.Analyze`, `RepoKnife.CheckFilesWithTrees`,
`RepoKnife.GetFilteredList` (`pkg/devkit/repo.go`) and `RepoCleaner.Run`
(`pkg/devkit/clean.go`), followed by the properties of the classified view
`{MetaMap, PkgsMap, Files2Remove}`.

Conventions of the embedding:

* a Go `map[string]V` is an association list with unique keys (`GoMap V`);
  `m[k] = v` is `GoMap.set`, `_, ok := m[k]` is `GoMap.has`,
  `delete(m, k)` is `GoMap.delete`;
* the iteration order of `for k, v := range m` is not fixed by Go: every
  `range` statement over a map takes its order from a `RangeOrder`, which may
  return any permutation of the entries and is indexed by the `range` site;
* a Go `(value, error)` result is an `Except Error value`; a function that
  mutates its receiver before returning an error returns the receiver together
  with an `Option Error`;
* the artifact store behind a `RepoBackendHandler` is an explicit state `σ`.
-/

namespace Devkit

/-! ## Regular expressions (the fragment used by the fixed patterns) -/

/-- One element of a pattern: a literal character, `.`, `.*` or `$`. -/
inductive Atom where
  | lit (c : Char)
  | any
  | anyStar
  | eol
  deriving DecidableEq, Repr

/-- Reads a pattern without `|`: `.*` is a greedy star over `.`, a `.` alone is
any character but a newline, `$` is the end of the text, every other character
stands for itself. -/
def parseAtoms : List Char → List Atom
  | [] => []
  | [c] => if c = '.' then [Atom.any] else if c = '$' then [Atom.eol] else [Atom.lit c]
  | c :: d :: rest =>
    if c = '.' then
      if d = '*' then Atom.anyStar :: parseAtoms rest
      else Atom.any :: parseAtoms (d :: rest)
    else if c = '$' then Atom.eol :: parseAtoms (d :: rest)
    else Atom.lit c :: parseAtoms (d :: rest)

/-- Splits a pattern at the top-level `|`. -/
def splitAlt : List Char → List (List Char)
  | [] => [[]]
  | c :: rest =>
    if c = '|' then [] :: splitAlt rest
    else
      match splitAlt rest with
      | [] => [[c]]
      | a :: as => (c :: a) :: as

/-- Greedy `.*` followed by the continuation `k`: the longest run of
non-newline characters after which `k` succeeds. -/
def starMatch (k : List Char → Option (List Char)) : List Char → Option (List Char)
  | [] => k []
  | c :: t =>
    if c = '\n' then k (c :: t)
    else
      match starMatch k t with
      | some r => some r
      | none => k (c :: t)

/-- Matches a sequence of atoms at the start of the text and returns what is
left of the text after the match. -/
def matchHere : List Atom → List Char → Option (List Char)
  | [], s => some s
  | Atom.lit a :: p, s =>
    match s with
    | c :: t => if a = c then matchHere p t else none
    | [] => none
  | Atom.any :: p, s =>
    match s with
    | c :: t => if c = '\n' then none else matchHere p t
    | [] => none
  | Atom.anyStar :: p, s => starMatch (matchHere p) s
  | Atom.eol :: p, s =>
    match s with
    | [] => matchHere p []
    | _ :: _ => none

/-- The first alternative, in the order they are written, that matches at the
start of the text. -/
def matchAlt : List (List Atom) → List Char → Option (List Char)
  | [], _ => none
  | p :: ps, s =>
    match matchHere p s with
    | some r => some r
    | none => matchAlt ps s

/-- Unanchored search: does some alternative match at some position. -/
def searchAlt (alts : List (List Atom)) : List Char → Bool
  | [] => (matchAlt alts []).isSome
  | c :: t => (matchAlt alts (c :: t)).isSome || searchAlt alts t

/-- A compiled regular expression, known by what `MatchString` answers. -/
structure Regexp where
  MatchString : String → Bool

/-- The alternatives of a pattern of the fragment. -/
def compileAlts (pattern : String) : List (List Atom) :=
  (splitAlt pattern.data).map parseAtoms

/-- `regexp.MustCompile` on a pattern of the fragment. -/
def MustCompile (pattern : String) : Regexp :=
  ⟨fun s => searchAlt (compileAlts pattern) s.data⟩

/-- Leftmost-first replacement of every non-empty match by `repl`; `fuel`
bounds the number of scanned positions. -/
def replaceAll (alts : List (List Atom)) (repl : List Char) :
    Nat → List Char → List Char
  | 0, s => s
  | _ + 1, [] => []
  | fuel + 1, c :: t =>
    match matchAlt alts (c :: t) with
    | some r =>
      if r.length < (c :: t).length then repl ++ replaceAll alts repl fuel r
      else c :: replaceAll alts repl fuel t
    | none => c :: replaceAll alts repl fuel t

/-- `regexp.MustCompile(pattern).ReplaceAllString(src, repl)` for a pattern of
the fragment whose matches are never empty. -/
def ReplaceAllString (pattern : String) (src repl : String) : String :=
  ⟨replaceAll (compileAlts pattern) repl.data (src.data.length + 1) src.data⟩

/-- Modelled from the spec: `tmtools.RegexEntry` (github.com/geaaru/time-master,
not part of the sources): "drop any key matching any exclude regex": true when
the entry matches one of the regular expressions of the list. -/
def RegexEntry (entry : String) (regexes : List Regexp) : Bool :=
  regexes.any (fun r => r.MatchString entry)

/-! ## `path/filepath.Base` (Unix separator) -/

/-- Drops the trailing slashes of a reversed path. -/
def dropSlashes : List Char → List Char
  | [] => []
  | c :: t => if c = '/' then dropSlashes t else c :: t

/-- The characters of a reversed path up to its first slash. -/
def takeToSlash : List Char → List Char
  | [] => []
  | c :: t => if c = '/' then [] else c :: takeToSlash t

/-- Last element of a path: `filepath.Base`. -/
def Base (path : String) : String :=
  if path.data = [] then "."
  else
    let stripped := dropSlashes path.data.reverse
    let last := (takeToSlash stripped).reverse
    if last = [] then "/" else ⟨last⟩

/-! ## Data model -/

/-- Go's `error`, kept as its message. -/
abbrev Error := String

/-- Identity of a package (`anise_pkg.DefaultPackage`): the fields read here. -/
structure DefaultPackage where
  Name : String
  Category : String
  Version : String
  deriving DecidableEq, Repr

/-- The compile-spec block of a metadata record: only the package identity is
read. -/
structure CompilationSpec where
  Package : DefaultPackage
  deriving DecidableEq, Repr

/-- A decoded metadata sidecar (`artifact.PackageArtifact`). -/
structure PackageArtifact where
  Path : String
  CompileSpec : CompilationSpec
  deriving DecidableEq, Repr

/-- `anise_pkg.NewPackage(name, version, requires, conflicts)`: the category is
left empty and set by the caller. -/
def NewPackage (name version : String) : DefaultPackage :=
  { Name := name, Category := "", Version := version }

/-- The runtime catalog loaded from the trees: its definitions. -/
structure InMemoryDatabase where
  World : List DefaultPackage
  deriving Repr

/-- Modelled from the spec: `FindPackage` of the luet package database
(github.com/geaaru/luet, not part of the sources): the "exact-package lookup",
"`find_exact(category, name, version)` → definition or null". -/
def InMemoryDatabase.FindPackage (db : InMemoryDatabase) (p : DefaultPackage) :
    Option DefaultPackage :=
  db.World.find? (fun q =>
    q.Category == p.Category && q.Name == p.Name && q.Version == p.Version)

/-! ## Go maps -/

/-- A `map[string]V`: an association list whose keys are distinct. -/
abbrev GoMap (V : Type) := List (String × V)

/-- The comma-ok test: `_, ok := m[k]`. -/
def GoMap.has {V : Type} : GoMap V → String → Bool
  | [], _ => false
  | e :: m, k => if e.1 = k then true else GoMap.has m k

/-- The value stored for a key, `m[k]`, when there is one. -/
def GoMap.get? {V : Type} : GoMap V → String → Option V
  | [], _ => none
  | e :: m, k => if e.1 = k then some e.2 else GoMap.get? m k

/-- The assignment `m[k] = v`: overwrites the value of a key already there. -/
def GoMap.set {V : Type} : GoMap V → String → V → GoMap V
  | [], k, v => [(k, v)]
  | e :: m, k, v => if e.1 = k then (k, v) :: m else e :: GoMap.set m k v

/-- The builtin `delete(m, k)`. -/
def GoMap.delete {V : Type} (m : GoMap V) (k : String) : GoMap V :=
  m.filter (fun e => e.1 != k)

/-- The keys of a map. -/
def GoMap.keys {V : Type} (m : GoMap V) : List String :=
  m.map (fun e => e.1)

/-- The order in which each `for ... range` statement over a map visits the
entries: any permutation, chosen per `range` site. -/
structure RangeOrder where
  metaOrder : Nat → List (String × PackageArtifact) → List (String × PackageArtifact)
  pkgsOrder : Nat → List (String × String) → List (String × String)
  metaOrder_perm : ∀ site l, (metaOrder site l).Perm l
  pkgsOrder_perm : ∀ site l, (pkgsOrder site l).Perm l

/-- Every `range` visits the entries in the order they were inserted. -/
def RangeOrder.insertion : RangeOrder :=
  ⟨fun _ l => l, fun _ l => l, fun _ l => List.Perm.refl l, fun _ l => List.Perm.refl l⟩

/-- Every `range` visits the entries in the reverse of the insertion order. -/
def RangeOrder.reversed : RangeOrder :=
  ⟨fun _ l => l.reverse, fun _ l => l.reverse,
   fun _ l => List.reverse_perm l, fun _ l => List.reverse_perm l⟩

/-! ## Configuration and backend (`pkg/specs`) -/

/-- The `cleaner` section: the exclude regexes, compiled. -/
structure AniseRDCCleaner where
  Excludes : List Regexp

/-- One entry of `exclude_pkgs` (`AnisePackage`): name, category and a version
selector. -/
structure AnisePackage where
  Name : String
  Category : String
  Version : String
  deriving DecidableEq, Repr

/-- The `list` section: the packages to ignore. -/
structure AniseRDCList where
  ExcludePkgs : List AnisePackage := []

/-- The configuration read by the knife. -/
structure AniseRDConfig where
  Cleaner : AniseRDCCleaner
  List : AniseRDCList := { ExcludePkgs := [] }

/-- `GetCleaner`. -/
def AniseRDConfig.GetCleaner (c : AniseRDConfig) : AniseRDCCleaner := c.Cleaner

/-- `HasExcludes`: `len(c.Excludes) > 0`. -/
def AniseRDCCleaner.HasExcludes (c : AniseRDCCleaner) : Bool :=
  decide (c.Excludes.length > 0)

/-- The interface `RepoBackendHandler` over a store of type `σ`. -/
structure RepoBackendHandler (σ : Type) where
  GetFilesList : σ → Except Error (List String)
  GetMetadata : σ → String → Except Error PackageArtifact
  CleanFile : σ → String → Option Error × σ

/-- A directory as `BackendLocal` sees it: file names with the record their
body decodes to (`none`: the body is not a metadata document). -/
abbrev LocalDir := List (String × Option PackageArtifact)

/-- The local backend (`pkg/backends/local.go`) on a directory that can be
read: the listing is the file names, `GetMetadata` reads and decodes one file,
`CleanFile` unlinks it. -/
def BackendLocal : RepoBackendHandler LocalDir where
  GetFilesList := fun dir => Except.ok (dir.map (fun e => e.1))
  GetMetadata := fun dir file =>
    match dir.find? (fun e => e.1 == file) with
    | none => Except.error ("Error on open file " ++ file)
    | some (_, none) => Except.error "yaml: unmarshal errors"
    | some (_, some art) => Except.ok art
  CleanFile := fun dir file =>
    if dir.any (fun e => e.1 == file) then (none, dir.filter (fun e => e.1 != file))
    else (some ("remove " ++ file ++ ": no such file or directory"), dir)

/-! ## The knife (`pkg/devkit/repo.go`) -/

/-- The receiver `RepoKnife`. -/
structure RepoKnife (σ : Type) where
  Specs : AniseRDConfig
  BackendHandler : RepoBackendHandler σ
  ReciperRuntime : InMemoryDatabase
  PkgsMap : GoMap String := []
  MetaMap : GoMap PackageArtifact := []
  Files2Remove : List String := []
  ProcessedFiles : Nat := 0

/-- The patterns of the repository files. -/
def repoRegex : List Regexp :=
  [ MustCompile "repository.meta.yaml.tar.*|repository.meta.yaml",
    MustCompile "repository.yaml",
    MustCompile "tree.tar.*|tree.tar",
    MustCompile "compilertree.tar.*|compilertree.tar" ]

/-- The pattern of the metadata files. -/
def metaFilesRegex : List Regexp := [MustCompile ".*metadata.yaml"]

/-- The pattern of the package tarballs. -/
def pkgFilesRegex : List Regexp := [MustCompile ".*package.tar|.*package.tar.*"]

/-- The pattern replaced to get the metadata name of a tarball. -/
def replaceRegex : String := ".package.tar$|.package.tar.gz$|.package.tar.zst$"

/-- `GetFilteredList`: the files that match no exclude regex. -/
def RepoKnife.GetFilteredList {σ : Type} (c : RepoKnife σ) (files : List String) :
    Except Error (List String) :=
  Except.ok (files.filter (fun f => !RegexEntry f c.Specs.GetCleaner.Excludes))

/-- The body of the classification loop of `Analyze` for one file `f`: the
knife after it and the error it returns with, if any. -/
def RepoKnife.classifyFile {σ : Type} (st : σ) (c : RepoKnife σ) (f : String) :
    RepoKnife σ × Option Error :=
  if RegexEntry f repoRegex then (c, none)
  else if RegexEntry f metaFilesRegex then
    match c.BackendHandler.GetMetadata st f with
    | Except.error err => (c, some err)
    | Except.ok art => ({ c with MetaMap := GoMap.set c.MetaMap f art }, none)
  else if RegexEntry f pkgFilesRegex then
    let metaFile := ReplaceAllString replaceRegex f ".metadata.yaml"
    ({ c with PkgsMap := GoMap.set c.PkgsMap f metaFile }, none)
  else
    ({ c with Files2Remove := c.Files2Remove ++ [f] }, none)

/-- The classification loop of `Analyze` (`for _, f := range files`): it stops
at the first error. -/
def RepoKnife.classifyFiles {σ : Type} (st : σ) :
    RepoKnife σ → List String → RepoKnife σ × Option Error
  | c, [] => (c, none)
  | c, f :: rest =>
    match RepoKnife.classifyFile st c f with
    | (c1, some err) => (c1, some err)
    | (c1, none) => RepoKnife.classifyFiles st c1 rest

/-- The body of the loop "check if there are all package for every metafile":
the knife and `meta2Remove` after one entry of `MetaMap`. -/
def RepoKnife.checkMetaFile {σ : Type} (acc : RepoKnife σ × List String)
    (e : String × PackageArtifact) : RepoKnife σ × List String :=
  let pkg := Base e.2.Path
  if GoMap.has acc.1.PkgsMap pkg then acc
  else ({ acc.1 with Files2Remove := acc.1.Files2Remove ++ [e.1] }, acc.2 ++ [e.1])

/-- The loop "check if there are all package for every metafile": returns the
knife and `meta2Remove`. -/
def RepoKnife.checkMetaFiles {σ : Type} (c : RepoKnife σ)
    (entries : List (String × PackageArtifact)) : RepoKnife σ × List String :=
  entries.foldl RepoKnife.checkMetaFile (c, [])

/-- The loop `for _, m := range meta2Remove { delete(c.PkgsMap, m) }`. -/
def RepoKnife.deleteMeta2Remove {σ : Type} (c : RepoKnife σ) (meta2Remove : List String) :
    RepoKnife σ :=
  meta2Remove.foldl (fun (acc : RepoKnife σ) m =>
    { acc with PkgsMap := GoMap.delete acc.PkgsMap m }) c

/-- The body of the loop "check if there are all metadata for every package
tarball", for one entry of `PkgsMap`. -/
def RepoKnife.checkPkgFile {σ : Type} (acc : RepoKnife σ) (e : String × String) :
    RepoKnife σ :=
  if GoMap.has acc.MetaMap e.2 then acc
  else { acc with Files2Remove := acc.Files2Remove ++ [e.1] }

/-- The loop "check if there are all metadata for every package tarball". -/
def RepoKnife.checkPkgFiles {σ : Type} (c : RepoKnife σ)
    (entries : List (String × String)) : RepoKnife σ :=
  entries.foldl RepoKnife.checkPkgFile c

/-- The package `CheckFilesWithTrees` looks up for a record: name and version
through `NewPackage`, then the category. -/
def searchPackage (art : PackageArtifact) : DefaultPackage :=
  { NewPackage art.CompileSpec.Package.Name art.CompileSpec.Package.Version with
    Category := art.CompileSpec.Package.Category }

/-- The body of the loop of `CheckFilesWithTrees` for one entry of `MetaMap`. -/
def RepoKnife.checkTree {σ : Type} (acc : RepoKnife σ) (e : String × PackageArtifact) :
    RepoKnife σ :=
  let pkg := searchPackage e.2
  match acc.ReciperRuntime.FindPackage pkg with
  | none =>
    let pkgFile := Base e.2.Path
    { acc with Files2Remove := (acc.Files2Remove ++ [e.1]) ++ [pkgFile] }
  | some _ => acc

/-- `CheckFilesWithTrees`: a record whose package is not found in the runtime
database has its metadata file and its tarball added to `Files2Remove`; the
returned error is always `nil`. -/
def RepoKnife.CheckFilesWithTrees {σ : Type} (c : RepoKnife σ) (ord : RangeOrder) :
    RepoKnife σ × Option Error :=
  ((ord.metaOrder 2 c.MetaMap).foldl RepoKnife.checkTree c, none)

/-- `Analyze`: the knife after the call and the error returned. -/
def RepoKnife.Analyze {σ : Type} (c : RepoKnife σ) (ord : RangeOrder) (st : σ) :
    RepoKnife σ × Option Error :=
  let c0 := { c with PkgsMap := [], MetaMap := [], Files2Remove := [] }
  match c0.BackendHandler.GetFilesList st with
  | Except.error err => (c0, some err)
  | Except.ok files =>
    let c1 := { c0 with ProcessedFiles := files.length }
    match (if c1.Specs.GetCleaner.HasExcludes then c1.GetFilteredList files
           else Except.ok files) with
    | Except.error err => (c1, some err)
    | Except.ok files =>
      match RepoKnife.classifyFiles st c1 files with
      | (c2, some err) => (c2, some err)
      | (c2, none) =>
        let r := c2.checkMetaFiles (ord.metaOrder 0 c2.MetaMap)
        let c4 := r.1.deleteMeta2Remove r.2
        let c5 := c4.checkPkgFiles (ord.pkgsOrder 1 c4.PkgsMap)
        match c5.CheckFilesWithTrees ord with
        | (c6, some err) => (c6, some err)
        | (c6, none) => (c6, none)

/-! ## The cleaner (`pkg/devkit/clean.go`) -/

/-- The receiver `RepoCleaner`: a knife and the dry-run flag. -/
structure RepoCleaner (σ : Type) extends RepoKnife σ where
  DryRun : Bool

/-- What a `Run` leaves: the returned error, the cleaner, the store, and the
keys `CleanFile` was called with, in call order. -/
structure RunResult (σ : Type) where
  err : Option Error
  cleaner : RepoCleaner σ
  store : σ
  cleaned : List String

/-- The removal loop of `Run` (`for _, f := range c.Files2Remove`): the store
and the keys passed to `CleanFile` so far. -/
def RepoCleaner.removeFiles {σ : Type} (c : RepoCleaner σ) (st : σ) (files : List String) :
    σ × List String :=
  files.foldl (fun (acc : σ × List String) f =>
    if c.DryRun then acc
    else ((c.BackendHandler.CleanFile acc.1 f).2, acc.2 ++ [f])) (st, [])

/-- `Run`: analyzes, walks `Files2Remove`, and returns `nil`. -/
def RepoCleaner.Run {σ : Type} (c : RepoCleaner σ) (ord : RangeOrder) (st : σ) :
    RunResult σ :=
  let a := c.toRepoKnife.Analyze ord st
  let c1 : RepoCleaner σ := { c with toRepoKnife := a.1 }
  let r := c1.removeFiles st c1.Files2Remove
  { err := none, cleaner := c1, store := r.1, cleaned := r.2 }

/-! ## Classes of keys -/

/-- The key matches a repository-index pattern. -/
def isIndexKey (f : String) : Bool := RegexEntry f repoRegex

/-- The key is classified as metadata: no index pattern, the metadata pattern. -/
def isMetaKey (f : String) : Bool := !isIndexKey f && RegexEntry f metaFilesRegex

/-- The key is classified as payload: neither index nor metadata, the tarball
pattern. -/
def isPkgKey (f : String) : Bool :=
  !isIndexKey f && !RegexEntry f metaFilesRegex && RegexEntry f pkgFilesRegex

/-- The key is a stray: it matches none of the three pattern lists. -/
def isStrayKey (f : String) : Bool :=
  !isIndexKey f && !RegexEntry f metaFilesRegex && !RegexEntry f pkgFilesRegex

/-- The metadata name `Analyze` stores for a tarball. -/
def siblingMeta (f : String) : String := ReplaceAllString replaceRegex f ".metadata.yaml"

/-- The listing after the exclude step of `Analyze`. -/
def RepoKnife.surviving {σ : Type} (c : RepoKnife σ) (files : List String) : List String :=
  files.filter (fun f => !RegexEntry f c.Specs.GetCleaner.Excludes)

/-- The knife the classification loop of `Analyze` starts from: the maps and
the removal list reset, the number of listed files recorded. -/
def RepoKnife.start {σ : Type} (c : RepoKnife σ) (listing : List String) : RepoKnife σ :=
  { c with PkgsMap := [], MetaMap := [], Files2Remove := [], ProcessedFiles := listing.length }

/-! ## What the loops of the analysis append -/

/-- Keys appended by the first pairing loop: the metadata files whose tarball
is not a key of `PkgsMap`, in visiting order. -/
def orphanMeta (pkgs : GoMap String) : List (String × PackageArtifact) → List String
  | [] => []
  | e :: es =>
    if GoMap.has pkgs (Base e.2.Path) then orphanMeta pkgs es
    else e.1 :: orphanMeta pkgs es

/-- Keys appended by the second pairing loop: the tarballs whose metadata name
is not a key of `MetaMap`, in visiting order. -/
def orphanPkgs (metas : GoMap PackageArtifact) : List (String × String) → List String
  | [] => []
  | e :: es =>
    if GoMap.has metas e.2 then orphanPkgs metas es
    else e.1 :: orphanPkgs metas es

/-- Keys appended by `CheckFilesWithTrees`: metadata file and tarball of every
record whose package is not found, in visiting order. -/
def staleFiles (db : InMemoryDatabase) : List (String × PackageArtifact) → List String
  | [] => []
  | e :: es =>
    match db.FindPackage (searchPackage e.2) with
    | none => e.1 :: Base e.2.Path :: staleFiles db es
    | some _ => staleFiles db es

/-! ## Concrete stores and trees -/

/-- The package `cat/a-1.0`. -/
def pkgA : DefaultPackage := { Name := "a", Category := "cat", Version := "1.0" }

/-- The package `cat/b-1.0`. -/
def pkgB : DefaultPackage := { Name := "b", Category := "cat", Version := "1.0" }

/-- The metadata record of `cat/a-1.0`, with its tarball `a-1.0.package.tar`. -/
def artA : PackageArtifact := { Path := "a-1.0.package.tar", CompileSpec := ⟨pkgA⟩ }

/-- A metadata record of `cat/a-1.0` whose payload path names an index file. -/
def artIndexPath : PackageArtifact := { Path := "repository.yaml", CompileSpec := ⟨pkgA⟩ }

/-- A knife on the local backend with the given excludes and tree. -/
def localKnife (excludes : List Regexp) (world : List DefaultPackage) : RepoKnife LocalDir :=
  { Specs := { Cleaner := ⟨excludes⟩ }, BackendHandler := BackendLocal,
    ReciperRuntime := ⟨world⟩ }

/-- Scenario S1: a pair, a stray and an index file. -/
def storeS1 : LocalDir :=
  [("a-1.0.package.tar", none), ("a-1.0.metadata.yaml", some artA), ("stray.txt", none),
   ("repository.yaml", none)]

/-- Scenario S2: a tarball without its metadata. -/
def storeS2 : LocalDir := [("a-1.0.package.tar", none)]

/-- Scenario S4: a pair (its package is to be looked up in the tree). -/
def storeS4 : LocalDir := [("a-1.0.package.tar", none), ("a-1.0.metadata.yaml", some artA)]

/-- A metadata file whose record names `repository.yaml` as its payload, next to
the repository index itself. -/
def storeIndexPath : LocalDir :=
  [("a-1.0.metadata.yaml", some artIndexPath), ("repository.yaml", none)]

/-- One of each: a stray, a metadata file without tarball, a tarball without
metadata, and the pair of `cat/a-1.0`. -/
def storeMixed : LocalDir :=
  [("stray.txt", none),
   ("b-1.0.metadata.yaml", some { Path := "b-1.0.package.tar", CompileSpec := ⟨pkgB⟩ }),
   ("c-1.0.package.tar.gz", none),
   ("a-1.0.package.tar", none), ("a-1.0.metadata.yaml", some artA)]

/-- A stray listed before a metadata file whose body does not decode. -/
def storeStrayThenBad : LocalDir := [("stray.txt", none), ("bad.metadata.yaml", none)]

/-- The same files, the undecodable metadata file listed first. -/
def storeBadThenStray : LocalDir := [("bad.metadata.yaml", none), ("stray.txt", none)]

/-- A cleaner on the local backend, without excludes, with an empty tree. -/
def localCleaner (dryRun : Bool) : RepoCleaner LocalDir :=
  { toRepoKnife := localKnife [] [], DryRun := dryRun }

/-! ## The ignore list (`pkg/specs/config.go`) -/

/-- The two functions of `pkg/version` that `ToIgnore` calls, over the type `V`
of parsed versions: `ParseVersion` and `PackageAdmit(selector, candidate)`. The
package is not part of the sources; `ToIgnore` is embedded over any such pair. -/
structure VersionLib (V : Type) where
  ParseVersion : String → Except Error V
  PackageAdmit : V → V → Except Error Bool

/-- `HasFilters`: `len(c.ExcludePkgs) > 0`. -/
def AniseRDCList.HasFilters (c : AniseRDCList) : Bool :=
  decide (c.ExcludePkgs.length > 0)

/-- The body of the loop of `ToIgnore` over `ExcludePkgs`: `ans` after the
entry `f`, for the parsed version `pSelector` of the package. -/
def AniseRDCList.ignoreStep {V : Type} (lib : VersionLib V) (pkg : DefaultPackage)
    (pSelector : V) (ans : Bool) (f : AnisePackage) : Bool :=
  if f.Name ≠ pkg.Name ∨ f.Category ≠ pkg.Category then ans
  else
    match lib.ParseVersion f.Version with
    | Except.error _ => ans
    | Except.ok selector =>
      match lib.PackageAdmit selector pSelector with
      | Except.error _ => ans
      | Except.ok adm => if adm then true else ans

/-- `ToIgnore`: whether the package is dropped from the missing list. -/
def AniseRDCList.ToIgnore {V : Type} (c : AniseRDCList) (lib : VersionLib V)
    (pkg : DefaultPackage) : Bool :=
  if c.HasFilters then
    match lib.ParseVersion pkg.Version with
    | Except.error _ => true
    | Except.ok pSelector => c.ExcludePkgs.foldl (AniseRDCList.ignoreStep lib pkg pSelector) false
  else false

/-! ## The lister (`pkg/devkit/list.go`) -/

/-- Modelled from the spec: `HumanReadableString` of a luet package (not part of
the sources): the fingerprint, "the canonical `category/name-version` string
used for set operations on packages". -/
def DefaultPackage.HumanReadableString (p : DefaultPackage) : String :=
  p.Category ++ "/" ++ p.Name ++ "-" ++ p.Version

/-- The receiver `RepoList`: a knife. -/
structure RepoList (σ : Type) extends RepoKnife σ

/-- `ListPkgsAvailable`: the lister after the call and what is returned, the
package of every record of `MetaMap` (`range` site 3) or the error of
`Analyze`. -/
def RepoList.ListPkgsAvailable {σ : Type} (c : RepoList σ) (ord : RangeOrder) (st : σ) :
    RepoList σ × Except Error (List DefaultPackage) :=
  match c.toRepoKnife.Analyze ord st with
  | (k, some err) => ({ c with toRepoKnife := k }, Except.error err)
  | (k, none) =>
    ({ c with toRepoKnife := k },
     Except.ok ((ord.metaOrder 3 k.MetaMap).foldl
       (fun (ans : List DefaultPackage) e => ans ++ [e.2.CompileSpec.Package]) []))

/-- `ListPkgsMissing`: the lister after the call and what is returned, the
packages of `World` whose fingerprint is not the fingerprint of a record of
`MetaMap` (`range` site 4) and that are not ignored, or the error of
`Analyze`. -/
def RepoList.ListPkgsMissing {σ V : Type} (c : RepoList σ) (lib : VersionLib V)
    (ord : RangeOrder) (st : σ) : RepoList σ × Except Error (List DefaultPackage) :=
  match c.toRepoKnife.Analyze ord st with
  | (k, some err) => ({ c with toRepoKnife := k }, Except.error err)
  | (k, none) =>
    let mPkgs : GoMap Bool := (ord.metaOrder 4 k.MetaMap).foldl
      (fun (m : GoMap Bool) e => GoMap.set m e.2.CompileSpec.Package.HumanReadableString true) []
    ({ c with toRepoKnife := k },
     Except.ok (k.ReciperRuntime.World.foldl
       (fun (ans : List DefaultPackage) p =>
         if GoMap.has mPkgs p.HumanReadableString then ans
         else if k.Specs.List.ToIgnore lib p then ans
         else ans ++ [p]) []))

/-! ## A version library for the concrete cases -/

/-- A parsed version or selector: the comparator (empty when there is none) and
the integer components of the base. -/
structure SpecVersion where
  Operator : String
  Base : List Nat
  deriving DecidableEq, Repr

/-- The value of a non-empty string of decimal digits, read after `acc`. -/
def digitsToNat : Nat → List Char → Option Nat
  | acc, [] => some acc
  | acc, c :: t => if c.isDigit then digitsToNat (acc * 10 + (c.toNat - 48)) t else none

/-- Splits at the dots. -/
def splitDots : List Char → List (List Char)
  | [] => [[]]
  | c :: rest =>
    if c = '.' then [] :: splitDots rest
    else
      match splitDots rest with
      | [] => [[c]]
      | a :: as => (c :: a) :: as

/-- The integer components, when every component is a non-empty digit string. -/
def parseComponents : List (List Char) → Option (List Nat)
  | [] => some []
  | cs :: rest =>
    if cs = [] then none
    else
      match digitsToNat 0 cs, parseComponents rest with
      | some n, some ns => some (n :: ns)
      | _, _ => none

/-- The leading comparator (`>=`, `<=`, `>`, `<`, `=`, `~`) and what follows. -/
def stripOperator : List Char → String × List Char
  | [] => ("", [])
  | [c] => if c = '>' ∨ c = '<' ∨ c = '=' ∨ c = '~' then (String.singleton c, []) else ("", [c])
  | c :: d :: rest =>
    if (c = '>' ∨ c = '<') ∧ d = '=' then (String.mk [c, d], rest)
    else if c = '>' ∨ c = '<' ∨ c = '=' ∨ c = '~' then (String.singleton c, d :: rest)
    else ("", c :: d :: rest)

/-- Lexicographic comparison of the base components as integers. -/
def compareBase : List Nat → List Nat → Ordering
  | [], [] => Ordering.eq
  | [], _ :: _ => Ordering.lt
  | _ :: _, [] => Ordering.gt
  | a :: as, b :: bs =>
    if a < b then Ordering.lt else if b < a then Ordering.gt else compareBase as bs

/-- Modelled from the spec: `ParseVersion` of `pkg/version` (not part of the
sources), reduced to the base of the grammar of §4.1: a tolerated leading
comparator, then dot-separated integers ("`parse(string) → version |
ParseError`"); suffix, revision and build are left out, so strings that carry
them, and the empty string, do not parse. -/
def specParseVersion (s : String) : Except Error SpecVersion :=
  match parseComponents (splitDots (stripOperator s.data).2) with
  | some base => Except.ok { Operator := (stripOperator s.data).1, Base := base }
  | none => Except.error ("Invalid version " ++ s)

/-- Modelled from the spec: `PackageAdmit` of `pkg/version` (not part of the
sources): "`admit(selector, candidate) → bool`: evaluates whether `candidate`
satisfies `selector`", the ordering being on the base components as integers;
a selector without comparator is an equality. -/
def specPackageAdmit (selector candidate : SpecVersion) : Except Error Bool :=
  let o := compareBase candidate.Base selector.Base
  Except.ok (
    if selector.Operator = ">=" then o != Ordering.lt
    else if selector.Operator = ">" then o == Ordering.gt
    else if selector.Operator = "<=" then o != Ordering.gt
    else if selector.Operator = "<" then o == Ordering.lt
    else o == Ordering.eq)

/-- The version library of the concrete cases. -/
def specVersionLib : VersionLib SpecVersion :=
  { ParseVersion := specParseVersion, PackageAdmit := specPackageAdmit }

/-- A lister on the local backend with the given ignore list and tree. -/
def localList (ignore : List AnisePackage) (world : List DefaultPackage) : RepoList LocalDir :=
  { toRepoKnife :=
      { Specs := { Cleaner := ⟨[]⟩, List := { ExcludePkgs := ignore } },
        BackendHandler := BackendLocal, ReciperRuntime := ⟨world⟩ } }

/-- The package `cat/c-1.0`. -/
def pkgC : DefaultPackage := { Name := "c", Category := "cat", Version := "1.0" }

/-- A metadata file of `cat/a-1.0` without its tarball. -/
def storeMetaOnly : LocalDir := [("a-1.0.metadata.yaml", some artA)]

/-- Whether the ignore-list entry `f` makes `ToIgnore` true for the package:
same name, same category, a selector that parses and admits the parsed version
of the package. -/
def AniseRDCList.entryAdmits {V : Type} (lib : VersionLib V) (pkg : DefaultPackage)
    (pSelector : V) (f : AnisePackage) : Bool :=
  decide (f.Name = pkg.Name) && decide (f.Category = pkg.Category) &&
    (match lib.ParseVersion f.Version with
     | Except.error _ => false
     | Except.ok selector =>
       match lib.PackageAdmit selector pSelector with
       | Except.error _ => false
       | Except.ok adm => adm)

/-! ## Backends that remove exactly the given key -/

/-- `CleanFile` removes exactly the given key from what the listing returns,
and leaves the metadata of every other key as it is. -/
def RemovesExactly {σ : Type} (b : RepoBackendHandler σ) : Prop :=
  ∀ (st : σ) (k : String),
    (∀ listing, b.GetFilesList st = Except.ok listing →
      b.GetFilesList (b.CleanFile st k).2 = Except.ok (listing.filter (fun x => x != k))) ∧
    (∀ k2, k2 ≠ k → b.GetMetadata (b.CleanFile st k).2 k2 = b.GetMetadata st k2)

/-- What the classification loop appends to `Files2Remove`: the strays up to
the first metadata file that does not decode. -/
def strayPrefix {σ : Type} (b : RepoBackendHandler σ) (st : σ) : List String → List String
  | [] => []
  | f :: rest =>
    if isIndexKey f then strayPrefix b st rest
    else if isMetaKey f then
      match b.GetMetadata st f with
      | Except.error _ => []
      | Except.ok _ => strayPrefix b st rest
    else if isPkgKey f then strayPrefix b st rest
    else f :: strayPrefix b st rest

/-- A cleaner on the local backend, without excludes, with the given tree. -/
def localCleanerOn (world : List DefaultPackage) (dryRun : Bool) : RepoCleaner LocalDir :=
  { toRepoKnife := localKnife [] world, DryRun := dryRun }

/-- A tarball named `*.package.tar.xz` with its metadata file. -/
def storeXz : LocalDir :=
  [("a-1.0.package.tar.xz", none),
   ("a-1.0.metadata.yaml", some { Path := "a-1.0.package.tar.xz", CompileSpec := ⟨pkgA⟩ })]

/-! ## The build catalog -/

/-- A package object of the build side (`luet_pkg.DefaultPackage`): the
identity and the `PackageRequires` the resolver reads and rewrites, each
require a (category, name, selector) triple. -/
structure LuetPackage where
  Category : String
  Name : String
  Version : String
  PackageRequires : List DefaultPackage
  deriving DecidableEq, Repr

/-- The identity of a package object; a pointer to a registered object is held
as the identity of the object, the object itself under its key in `Map`. -/
def LuetPackage.toDefault (p : LuetPackage) : DefaultPackage :=
  { Name := p.Name, Category := p.Category, Version := p.Version }

/-- A require entry as a package object: it carries no requires of its own. -/
def DefaultPackage.toLuet (p : DefaultPackage) : LuetPackage :=
  { Category := p.Category, Name := p.Name, Version := p.Version, PackageRequires := [] }

/-- The build catalog loaded from the trees (`reciperBuild.GetDatabase()`). -/
structure BuildDatabase where
  World : List LuetPackage
  deriving Repr

/-- Modelled from the spec: `FindPackage` of the luet package database
(github.com/geaaru/luet, not part of the sources) on the build catalog:
"`find_exact(category, name, version)` → definition or null". -/
def BuildDatabase.FindPackage (db : BuildDatabase) (p : DefaultPackage) :
    Except Error LuetPackage :=
  match db.World.find? (fun q =>
    q.Category == p.Category && q.Name == p.Name && q.Version == p.Version) with
  | some q => Except.ok q
  | none => Except.error "package not found"

/-- Modelled from the spec: `FindPackages` of the luet package database
(github.com/geaaru/luet, not part of the sources): the "prefix match by
`(category, name)`", "`find_all(category, name)` → list of definitions across
all versions", in the order of the catalog. -/
def BuildDatabase.FindPackages (db : BuildDatabase) (p : DefaultPackage) :
    Except Error (List LuetPackage) :=
  Except.ok (db.World.filter (fun q => q.Category == p.Category && q.Name == p.Name))

/-! ## Stage 4: leaves, trees and levels (`converter/stage4_api.go`) -/

/-- How a call ends: it returns, with its result or its error, on the state it
leaves behind; or it dies on a nil pointer; or the recursion allowance of the
model is used up before it returns. -/
inductive Outcome (σ α : Type) where
  | ret (s : σ) (r : Except Error α)
  | crash
  | outOfFuel

/-- The key of a package: `fmt.Sprintf("%s/%s", p.GetCategory(), p.GetName())`. -/
def pkgKey (p : DefaultPackage) : String := p.Category ++ "/" ++ p.Name

/-- The comparison `f.GetCategory() == g.GetCategory() && f.GetName() == g.GetName()`. -/
def sameCatName (f g : DefaultPackage) : Bool :=
  f.Category == g.Category && f.Name == g.Name

/-- The type `Stage4Leaf`; a nil father is `none`. -/
structure Stage4Leaf where
  Package : DefaultPackage
  Father : List (Option DefaultPackage)
  Position : Nat
  Counter : Int
  deriving DecidableEq, Repr

/-- The type `Stage4Tree`. -/
structure Stage4Tree where
  Id : Nat
  Map : GoMap Stage4Leaf
  Deps : List DefaultPackage
  deriving DecidableEq, Repr

/-- The type `Stage4Levels`: the trees and the registered package objects.
`Changed`, `CacheLeaf`, `Name` and `Quiet` never reach a result and are left
out. -/
structure Stage4Levels where
  Levels : List Stage4Tree
  Map : GoMap LuetPackage
  deriving DecidableEq, Repr

/-- `NewStage4Leaf(pkg, father, pos)` for a package that is not nil. -/
def NewStage4Leaf (pkg : DefaultPackage) (father : Option DefaultPackage) (pos : Nat) :
    Stage4Leaf :=
  { Package := pkg,
    Father := match father with
      | some f => [some f]
      | none => [],
    Position := pos,
    Counter := 1 }

/-- The search loop of `AddFather` and `DelFather`: the index of the first
father with the category and name of `father`; `none` when the loop
dereferences a nil pointer. -/
def fatherIndex : List (Option DefaultPackage) → Option DefaultPackage → Option (Option Nat)
  | [], _ => some none
  | f :: rest, father =>
    match f, father with
    | some f, some g =>
      if sameCatName f g then some (some 0)
      else
        match fatherIndex rest father with
        | some (some i) => some (some (i + 1))
        | other => other
    | _, _ => none

/-- `AddFather`; `none` when it dereferences a nil pointer. -/
def Stage4Leaf.AddFather (l : Stage4Leaf) (father : Option DefaultPackage) :
    Option Stage4Leaf :=
  match fatherIndex l.Father father with
  | none => none
  | some (some _) => some l
  | some none => some { l with Father := l.Father ++ [father], Counter := l.Counter + 1 }

/-- `DelFather`; `none` when it dereferences a nil pointer. -/
def Stage4Leaf.DelFather (l : Stage4Leaf) (father : Option DefaultPackage) :
    Option Stage4Leaf :=
  match fatherIndex l.Father father with
  | none => none
  | some none => some l
  | some (some pos) =>
    some { l with Father := l.Father.take pos ++ l.Father.drop (pos + 1),
                  Counter := l.Counter - 1 }

/-- `NewStage4Tree(id)`. -/
def NewStage4Tree (id : Nat) : Stage4Tree := { Id := id, Map := [], Deps := [] }

/-- `Stage4Tree.AddDependency(p, father)`; `none` when `AddFather` dereferences
a nil pointer. The error it returns is always nil. -/
def Stage4Tree.AddDependency (t : Stage4Tree) (p : DefaultPackage)
    (father : Option DefaultPackage) : Option Stage4Tree :=
  match GoMap.get? t.Map (pkgKey p) with
  | some leaf =>
    match leaf.AddFather father with
    | none => none
    | some leaf2 => some { t with Map := GoMap.set t.Map (pkgKey p) leaf2 }
  | none =>
    some { t with Map := GoMap.set t.Map (pkgKey p) (NewStage4Leaf p father t.Deps.length),
                  Deps := t.Deps ++ [p] }

/-- `Stage4Tree.DropDependency(p)`: the tree it leaves and the error it
returns. The three slice expressions are the ones of the source for a leaf
whose `Position` is below `len(t.Deps)`, which the trees keep. -/
def Stage4Tree.DropDependency (t : Stage4Tree) (p : DefaultPackage) :
    Stage4Tree × Option Error :=
  match GoMap.get? t.Map (pkgKey p) with
  | none => (t, some ("Package " ++ pkgKey p ++ " is not present on tree."))
  | some leaf =>
    if leaf.Counter > 1 then
      ({ t with Map := GoMap.set t.Map (pkgKey p) { leaf with Counter := leaf.Counter - 1 } },
       none)
    else
      let deps :=
        if (t.Deps.length : Int) = (leaf.Position : Int) - 1 then t.Deps.take (leaf.Position - 1)
        else if leaf.Position = 0 then t.Deps.drop 1
        else t.Deps.take leaf.Position ++ t.Deps.drop (leaf.Position + 1)
      ({ t with
          Map := (GoMap.delete t.Map (pkgKey p)).map (fun e =>
            if e.2.Position > leaf.Position then
              (e.1, { e.2 with Position := e.2.Position - 1 })
            else e),
          Deps := deps },
       none)

/-! ## Stage 4: the levels (`converter/stage4_levels.go`) -/

/-- The order in which each `for ... range` statement over a map of Stage 4
visits the keys: any permutation, chosen anew each time a statement runs (the
number counts the statements run so far). -/
structure KeyOrder where
  order : Nat → List String → List String
  order_perm : ∀ n ks, (order n ks).Perm ks

/-- Every `range` visits the keys in the order they were inserted. -/
def KeyOrder.insertion : KeyOrder := ⟨fun _ ks => ks, fun _ ks => List.Perm.refl ks⟩

/-- Every `range` visits the keys in the reverse of the insertion order. -/
def KeyOrder.reversed : KeyOrder := ⟨fun _ ks => ks.reverse, fun _ ks => List.reverse_perm ks⟩

/-- `AddTree`. -/
def Stage4Levels.AddTree (l : Stage4Levels) (t : Stage4Tree) : Stage4Levels :=
  { l with Levels := l.Levels ++ [t] }

/-- `NewStage4LevelsWithSize(nLevels)`. -/
def NewStage4LevelsWithSize (nLevels : Nat) : Stage4Levels :=
  (List.range nLevels).foldl (fun l i => l.AddTree (NewStage4Tree (i + 1)))
    { Levels := [], Map := [] }

/-- The leaf of a key in the tree of a level, `l.Levels[level].Map[key]`. -/
def Stage4Levels.leaf? (l : Stage4Levels) (level : Nat) (key : String) : Option Stage4Leaf :=
  match l.Levels.get? level with
  | none => none
  | some t => GoMap.get? t.Map key

/-- A method of the leaf of a key in the tree of a level, run in place; `none`
when the method dereferences a nil pointer. -/
def Stage4Levels.onLeaf (l : Stage4Levels) (level : Nat) (key : String)
    (f : Stage4Leaf → Option Stage4Leaf) : Option Stage4Levels :=
  match l.Levels.get? level with
  | none => none
  | some t =>
    match GoMap.get? t.Map key with
    | none => none
    | some leaf =>
      match f leaf with
      | none => none
      | some leaf2 =>
        some { l with Levels := l.Levels.set level { t with Map := GoMap.set t.Map key leaf2 } }

/-- The statement `l.Levels[level].AddDependency(p, father)`; `none` when the
index is out of range or `AddFather` dereferences a nil pointer. -/
def Stage4Levels.treeAdd (l : Stage4Levels) (level : Nat) (p : DefaultPackage)
    (father : Option DefaultPackage) : Option Stage4Levels :=
  match l.Levels.get? level with
  | none => none
  | some t =>
    match t.AddDependency p father with
    | none => none
    | some t2 => some { l with Levels := l.Levels.set level t2 }

/-- The statement `l.Levels[level].DropDependency(p)`, its error dropped as
every caller does; `none` when the index is out of range. -/
def Stage4Levels.treeDrop (l : Stage4Levels) (level : Nat) (p : DefaultPackage) :
    Option Stage4Levels :=
  match l.Levels.get? level with
  | none => none
  | some t => some { l with Levels := l.Levels.set level (t.DropDependency p).1 }

/-- `Stage4Levels.AddDependency(p, father, level)`: the object `p` is
registered under its key unless the key has an object already. -/
def Stage4Levels.AddDependency (l : Stage4Levels) (p : LuetPackage)
    (father : Option DefaultPackage) (level : Nat) : Outcome Stage4Levels Unit :=
  if level ≥ l.Levels.length then Outcome.ret l (Except.error "Invalid level")
  else
    match GoMap.get? l.Map (pkgKey p.toDefault) with
    | some v =>
      match l.treeAdd level v.toDefault father with
      | none => Outcome.crash
      | some l2 => Outcome.ret l2 (Except.ok ())
    | none =>
      match Stage4Levels.treeAdd { l with Map := GoMap.set l.Map (pkgKey p.toDefault) p }
          level p.toDefault father with
      | none => Outcome.crash
      | some l2 => Outcome.ret l2 (Except.ok ())

/-- `IsInStack(stack, pkg)`. -/
def IsInStack (stack : List String) (pkg : String) : Bool :=
  stack.any (fun p => p == pkg)

/-- The requires of a registered object, `p.GetRequires()`; `none` for a
pointer that is not registered, which the levels never hold. -/
def Stage4Levels.requires? (l : Stage4Levels) (p : DefaultPackage) :
    Option (List DefaultPackage) :=
  (GoMap.get? l.Map (pkgKey p)).map (fun o => o.PackageRequires)

/-- The loop over the requires in `AddDependencyRecursive`, `rec` being the
recursive call. -/
def addRequiresLoop
    (rec : Stage4Levels → DefaultPackage → Option DefaultPackage → List String → Nat →
      Outcome Stage4Levels Bool)
    (p : DefaultPackage) (stack : List String) (level : Nat) :
    List DefaultPackage → Stage4Levels → Outcome Stage4Levels Bool
  | [], l => Outcome.ret l (Except.ok true)
  | d :: ds, l =>
    match GoMap.get? l.Map (pkgKey d) with
    | none =>
      Outcome.ret l (Except.error ("For package " ++ pkgKey p ++ " not found dependency " ++
        pkgKey d))
    | some v =>
      match rec l v.toDefault (some p) stack (level + 1) with
      | Outcome.ret l2 (Except.ok true) => addRequiresLoop rec p stack level ds l2
      | other => other

/-- `AddDependencyRecursive(p, father, stack, level)`; the first argument
bounds the depth of the recursion. -/
def Stage4Levels.AddDependencyRecursive : Nat → Stage4Levels → DefaultPackage →
    Option DefaultPackage → List String → Nat → Outcome Stage4Levels Bool
  | 0, _, _, _, _, _ => Outcome.outOfFuel
  | depth + 1, l, p, father, stack, level =>
    if level ≥ l.Levels.length then Outcome.ret l (Except.error "Invalid level")
    else if !GoMap.has l.Map (pkgKey p) then
      Outcome.ret l (Except.error ("On add dependency not found package " ++ pkgKey p))
    else if IsInStack stack (pkgKey p) then Outcome.ret l (Except.ok true)
    else
      match l.requires? p with
      | none => Outcome.crash
      | some reqs =>
        match addRequiresLoop (Stage4Levels.AddDependencyRecursive depth) p
            (stack ++ [pkgKey p]) level reqs l with
        | Outcome.ret l2 (Except.ok true) =>
          match l2.treeAdd level p father with
          | none => Outcome.crash
          | some l3 => Outcome.ret l3 (Except.ok true)
        | other => other

/-- The slice left by `RemoveDependencyFromLuetPackage`: the requires without
the first one of the category and name of `dep`; `none` when there is none. -/
def removeRequire : List DefaultPackage → DefaultPackage → Option (List DefaultPackage)
  | [], _ => none
  | d :: ds, dep =>
    if sameCatName d dep then some ds
    else (removeRequire ds dep).map (fun r => d :: r)

/-- `RemoveDependencyFromLuetPackage(pkg, dep)` on the registered object
`pkg`: the levels it leaves and the error it returns; `none` for a pointer
that is not registered. -/
def Stage4Levels.RemoveDependencyFromLuetPackage (l : Stage4Levels) (pkg dep : DefaultPackage) :
    Option (Stage4Levels × Option Error) :=
  match GoMap.get? l.Map (pkgKey pkg) with
  | none => none
  | some o =>
    match removeRequire o.PackageRequires dep with
    | none =>
      some (l, some ("Dependency " ++ pkgKey dep ++ " not found on package " ++ pkgKey pkg))
    | some reqs =>
      some ({ l with Map := GoMap.set l.Map (pkgKey pkg) { o with PackageRequires := reqs } },
        none)

/-- `AddDependencyToLuetPackage(pkg, dep)` on the registered object `pkg`;
`none` for a pointer that is not registered. -/
def Stage4Levels.AddDependencyToLuetPackage (l : Stage4Levels) (pkg dep : DefaultPackage) :
    Option Stage4Levels :=
  match GoMap.get? l.Map (pkgKey pkg) with
  | none => none
  | some o =>
    if o.PackageRequires.any (fun d => sameCatName d dep) then some l
    else
      let added : DefaultPackage :=
        { Category := dep.Category, Name := dep.Name, Version := ">=0" }
      let o2 : LuetPackage := { o with PackageRequires := o.PackageRequires ++ [added] }
      some { l with Map := GoMap.set l.Map (pkgKey pkg) o2 }

/-! ## Stage 4: the analysis of a leaf (`converter/stage4.go`) -/

/-- `Dump` of the levels, whose value `AnalyzeLeaf` computes for its first
debug line: whether it dereferences a nil father (it prints the fathers of
every leaf with a positive counter). -/
def Stage4Levels.dumpCrashes (l : Stage4Levels) : Bool :=
  l.Levels.any (fun t => t.Map.any (fun e => decide (e.2.Counter > 0) && e.2.Father.any
    (fun f => f.isNone)))

/-- The local variables of `AnalyzeLeaf` that its loops update. -/
structure LeafVars where
  firstFatherLeaf : Option DefaultPackage
  lastFatherLeaf : Option DefaultPackage
  fathersHandled : List String
  rescan : Bool
  toRemove : List DefaultPackage

/-- The loop `for _, f := range toRemove { leaf.DelFather(f) }` on the leaf of
`key` at `level`; `none` when `DelFather` dereferences a nil pointer. -/
def Stage4Levels.delFathers (level : Nat) (key : String) :
    List DefaultPackage → Stage4Levels → Option Stage4Levels
  | [], l => some l
  | f :: fs, l =>
    match l.onLeaf level key (fun leaf => leaf.DelFather (some f)) with
    | none => none
    | some l2 => Stage4Levels.delFathers level key fs l2

/-- One round, for an index `idx` above 0, of the loop of `AnalyzeLeaf` over
the fathers of the leaf it analyses: the edge from the father `idx` to the
package is removed, the father `idx-1` is added under the father `idx` at the
level of the leaf, and becomes a require of the father `idx`. `sprintf` is
`fmt.Sprintf` with two arguments, `depth` bounds `AddDependencyRecursive`. -/
def Stage4Levels.serializeFather (sprintf : String → String → String) (depth pos : Nat)
    (pkg : DefaultPackage) (idx : Nat) (l : Stage4Levels) (v : LeafVars) :
    Outcome (Stage4Levels × LeafVars) Unit :=
  match l.leaf? pos (pkgKey pkg) with
  | none => Outcome.crash
  | some leaf =>
    match leaf.Father.get? idx, leaf.Father.get? (idx - 1) with
    | some (some f), some prev =>
      match l.RemoveDependencyFromLuetPackage f pkg with
      | none => Outcome.crash
      | some (l1, some err) => Outcome.ret (l1, v) (Except.error err)
      | some (l1, none) =>
        match prev with
        | none => Outcome.crash
        | some prev =>
          match l1.AddDependencyRecursive depth prev (some f) [] pos with
          | Outcome.crash => Outcome.crash
          | Outcome.outOfFuel => Outcome.outOfFuel
          | Outcome.ret l2 (Except.error err) => Outcome.ret (l2, v) (Except.error err)
          | Outcome.ret l2 (Except.ok false) =>
            Outcome.ret (l2, { v with toRemove := v.toRemove ++ [f] }) (Except.ok ())
          | Outcome.ret l2 (Except.ok true) =>
            match l2.AddDependencyToLuetPackage f prev with
            | none => Outcome.crash
            | some l3 =>
              Outcome.ret (l3, { v with
                lastFatherLeaf := some f,
                fathersHandled := v.fathersHandled ++ [sprintf f.Category f.Name],
                rescan := true,
                toRemove := v.toRemove ++ [f] }) (Except.ok ())
    | _, _ => Outcome.crash

/-- The loop of `AnalyzeLeaf` over the fathers of the leaf it analyses, from
the index 1 on. -/
def Stage4Levels.serializeFathers (sprintf : String → String → String) (depth pos : Nat)
    (pkg : DefaultPackage) : List Nat → Stage4Levels → LeafVars →
    Outcome (Stage4Levels × LeafVars) Unit
  | [], l, v => Outcome.ret (l, v) (Except.ok ())
  | idx :: rest, l, v =>
    match Stage4Levels.serializeFather sprintf depth pos pkg idx l v with
    | Outcome.ret (l2, v2) (Except.ok _) =>
      Stage4Levels.serializeFathers sprintf depth pos pkg rest l2 v2
    | other => other

/-- The leaf `l2` of the package in an upper tree: the one the tree holds for
the key, or, once `DropDependency` has deleted it from the tree, the leaf as
it was then. -/
def Stage4Levels.upperLeaf? (l : Stage4Levels) (level : Nat) (key : String)
    (detached : Option Stage4Leaf) : Option Stage4Leaf :=
  match detached with
  | some c => some c
  | none => l.leaf? level key

/-- The statement `treeUpper.DropDependency(leaf.Package)` while `l2` is in
use: the levels it leaves, and `l2` when the statement deletes it from the
tree; `none` when the index is out of range. -/
def Stage4Levels.dropUpper (l : Stage4Levels) (level : Nat) (pkg : DefaultPackage)
    (detached : Option Stage4Leaf) : Option (Stage4Levels × Option Stage4Leaf) :=
  match l.treeDrop level pkg with
  | none => none
  | some l2 =>
    match detached, l.leaf? level (pkgKey pkg), l2.leaf? level (pkgKey pkg) with
    | none, some cur, none => some (l2, some cur)
    | _, _, _ => some (l2, detached)

/-- One round of the loop of `AnalyzeLeaf` over the fathers of `l2`, the leaf
of the package in the upper tree `nextLevel`. -/
def Stage4Levels.upperFather (sprintf : String → String → String) (depth nextLevel : Nat)
    (pkg : DefaultPackage) (idx : Nat) (l : Stage4Levels) (detached : Option Stage4Leaf)
    (v : LeafVars) : Outcome (Stage4Levels × Option Stage4Leaf × LeafVars) Unit :=
  match l.upperLeaf? nextLevel (pkgKey pkg) detached with
  | none => Outcome.crash
  | some l2 =>
    match l2.Father.get? idx with
    | some (some f) =>
      if (match v.firstFatherLeaf with
          | some first => sameCatName f first
          | none => false) then
        match l.dropUpper nextLevel pkg detached with
        | none => Outcome.crash
        | some (l1, det1) => Outcome.ret (l1, det1, v) (Except.ok ())
      else if (match v.lastFatherLeaf with
          | some last => sameCatName f last
          | none => false) then
        Outcome.ret (l, detached, v) (Except.ok ())
      else if v.fathersHandled.any (fun k => k == sprintf f.Category f.Name) then
        Outcome.ret (l, detached, { v with toRemove := v.toRemove ++ [f] }) (Except.ok ())
      else
        match l.RemoveDependencyFromLuetPackage f pkg with
        | none => Outcome.crash
        | some (l1, some err) => Outcome.ret (l1, detached, v) (Except.error err)
        | some (l1, none) =>
          match v.lastFatherLeaf with
          | none => Outcome.crash
          | some last =>
            match l1.AddDependencyRecursive depth last (some f) [] nextLevel with
            | Outcome.crash => Outcome.crash
            | Outcome.outOfFuel => Outcome.outOfFuel
            | Outcome.ret l2 (Except.error err) =>
              Outcome.ret (l2, detached, v) (Except.error err)
            | Outcome.ret l2 (Except.ok false) =>
              Outcome.ret (l2, detached, v) (Except.ok ())
            | Outcome.ret l2 (Except.ok true) =>
              match l2.AddDependencyToLuetPackage f last with
              | none => Outcome.crash
              | some l3 =>
                Outcome.ret (l3, detached, { v with
                  fathersHandled := v.fathersHandled ++ [sprintf f.Category f.Name],
                  lastFatherLeaf := some f,
                  toRemove := v.toRemove ++ [f],
                  rescan := true }) (Except.ok ())
    | _ => Outcome.crash

/-- The loop of `AnalyzeLeaf` over the fathers of `l2`. -/
def Stage4Levels.upperFathers (sprintf : String → String → String) (depth nextLevel : Nat)
    (pkg : DefaultPackage) : List Nat → Stage4Levels → Option Stage4Leaf → LeafVars →
    Outcome (Stage4Levels × Option Stage4Leaf × LeafVars) Unit
  | [], l, detached, v => Outcome.ret (l, detached, v) (Except.ok ())
  | idx :: rest, l, detached, v =>
    match Stage4Levels.upperFather sprintf depth nextLevel pkg idx l detached v with
    | Outcome.ret (l2, det2, v2) (Except.ok _) =>
      Stage4Levels.upperFathers sprintf depth nextLevel pkg rest l2 det2 v2
    | other => other

/-- The loop `for _, f := range toRemove { l2.DelFather(f) }`: on the leaf the
tree holds, or on `l2` alone once it is deleted from the tree; `none` when
`DelFather` dereferences a nil pointer. -/
def Stage4Levels.delUpperFathers (level : Nat) (key : String) :
    List DefaultPackage → Stage4Levels → Option Stage4Leaf →
    Option (Stage4Levels × Option Stage4Leaf)
  | [], l, detached => some (l, detached)
  | f :: fs, l, detached =>
    match detached with
    | some c =>
      match c.DelFather (some f) with
      | none => none
      | some c2 => Stage4Levels.delUpperFathers level key fs l (some c2)
    | none =>
      match l.onLeaf level key (fun leaf => leaf.DelFather (some f)) with
      | none => none
      | some l2 => Stage4Levels.delUpperFathers level key fs l2 none

/-- The statements of the loop `for nextLevel >= 0` of `AnalyzeLeaf` for an
upper tree that holds a leaf `l2` of the key. -/
def Stage4Levels.upperFound (sprintf : String → String → String) (depth nextLevel : Nat)
    (pkg : DefaultPackage) (l : Stage4Levels) (v : LeafVars) (l2 : Stage4Leaf) :
    Outcome (Stage4Levels × LeafVars) Unit :=
  if l2.Father.length = 0 then
    if nextLevel = 0 then
      match l.treeDrop nextLevel pkg with
      | none => Outcome.crash
      | some l1 => Outcome.ret (l1, v) (Except.ok ())
    else Outcome.ret (l, v) (Except.ok ())
  else
    match Stage4Levels.upperFathers sprintf depth nextLevel pkg
        (List.range l2.Father.length) l none { v with toRemove := [] } with
    | Outcome.crash => Outcome.crash
    | Outcome.outOfFuel => Outcome.outOfFuel
    | Outcome.ret (l1, _, v1) (Except.error err) => Outcome.ret (l1, v1) (Except.error err)
    | Outcome.ret (l1, det1, v1) (Except.ok _) =>
      match Stage4Levels.delUpperFathers nextLevel (pkgKey pkg) v1.toRemove l1 det1 with
      | none => Outcome.crash
      | some (l3, _) =>
        if nextLevel > 0 then
          match l3.treeDrop nextLevel pkg with
          | none => Outcome.crash
          | some l4 => Outcome.ret (l4, v1) (Except.ok ())
        else Outcome.ret (l3, v1) (Except.ok ())

/-- The debug line that ends each round of the loop `for nextLevel >= 0`: it
dereferences `lastFatherLeaf`. -/
def debugLastFather (o : Outcome (Stage4Levels × LeafVars) Unit) :
    Outcome (Stage4Levels × LeafVars) Unit :=
  match o with
  | Outcome.ret (l, v) (Except.ok _) =>
    match v.lastFatherLeaf with
    | none => Outcome.crash
    | some _ => Outcome.ret (l, v) (Except.ok ())
  | other => other

/-- The body of the loop `for nextLevel >= 0` of `AnalyzeLeaf` for one upper
level. -/
def Stage4Levels.upperLevel (sprintf : String → String → String) (depth nextLevel : Nat)
    (pkg : DefaultPackage) (l : Stage4Levels) (v : LeafVars) :
    Outcome (Stage4Levels × LeafVars) Unit :=
  match l.Levels.get? nextLevel with
  | none => Outcome.crash
  | some treeUpper =>
    debugLastFather
      (match GoMap.get? treeUpper.Map (pkgKey pkg) with
       | none => Outcome.ret (l, v) (Except.ok ())
       | some l2 => Stage4Levels.upperFound sprintf depth nextLevel pkg l v l2)

/-- The loop `for nextLevel >= 0` of `AnalyzeLeaf`, over the upper levels from
the nearest to level 0. -/
def Stage4Levels.upperLevels (sprintf : String → String → String) (depth : Nat)
    (pkg : DefaultPackage) : List Nat → Stage4Levels → LeafVars →
    Outcome (Stage4Levels × LeafVars) Unit
  | [], l, v => Outcome.ret (l, v) (Except.ok ())
  | nextLevel :: rest, l, v =>
    match Stage4Levels.upperLevel sprintf depth nextLevel pkg l v with
    | Outcome.ret (l2, v2) (Except.ok _) =>
      Stage4Levels.upperLevels sprintf depth pkg rest l2 v2
    | other => other

/-- The statements of `AnalyzeLeaf` on the fathers of the leaf it analyses, up
to the loop over the upper levels. -/
def Stage4Levels.leafFathers (sprintf : String → String → String) (depth : Nat)
    (l : Stage4Levels) (pos : Nat) (leaf : Stage4Leaf) :
    Outcome (Stage4Levels × LeafVars) Unit :=
  let v0 : LeafVars :=
    { firstFatherLeaf := none, lastFatherLeaf := leaf.Father.head?.join,
      fathersHandled := [], rescan := false, toRemove := [] }
  if leaf.Counter > 1 then
    if leaf.Father.length > 0 then
      match Stage4Levels.serializeFathers sprintf depth pos leaf.Package
          ((List.range leaf.Father.length).drop 1) l
          { v0 with firstFatherLeaf := leaf.Father.head?.join } with
      | Outcome.ret (l1, v1) (Except.ok _) =>
        match Stage4Levels.delFathers pos (pkgKey leaf.Package) v1.toRemove l1 with
        | none => Outcome.crash
        | some l2 => Outcome.ret (l2, v1) (Except.ok ())
      | other => other
    else Outcome.ret (l, v0) (Except.ok ())
  else if leaf.Father.length > 0 then
    Outcome.ret (l, { v0 with firstFatherLeaf := leaf.Father.head?.join }) (Except.ok ())
  else Outcome.ret (l, v0) (Except.ok ())

/-- `AnalyzeLeaf(pos, tree, leaf)` for the leaf of the tree `pos`: the levels
it leaves and whether it asks for a rescan. The leaf stays in its tree during
the call (only upper trees drop), so its fields are read from the tree. -/
def Stage4Levels.AnalyzeLeaf (sprintf : String → String → String) (depth : Nat)
    (l : Stage4Levels) (pos : Nat) (leaf : Stage4Leaf) : Outcome Stage4Levels Bool :=
  if l.dumpCrashes then Outcome.crash
  else if leaf.Father.length = 0 && pos != 0 then
    Outcome.ret l (Except.error ("Unexpected leaf without father at level " ++ toString pos ++
      " for package " ++ pkgKey leaf.Package))
  else
    match l.leafFathers sprintf depth pos leaf with
    | Outcome.crash => Outcome.crash
    | Outcome.outOfFuel => Outcome.outOfFuel
    | Outcome.ret (l2, _) (Except.error err) => Outcome.ret l2 (Except.error err)
    | Outcome.ret (l2, v2) (Except.ok _) =>
      match Stage4Levels.upperLevels sprintf depth leaf.Package (List.range pos).reverse l2 v2 with
      | Outcome.crash => Outcome.crash
      | Outcome.outOfFuel => Outcome.outOfFuel
      | Outcome.ret (l3, _) (Except.error err) => Outcome.ret l3 (Except.error err)
      | Outcome.ret (l3, v3) (Except.ok _) => Outcome.ret l3 (Except.ok v3.rescan)

/-! ## Stage 4: the resolve loop, the construction and the alignment -/

/-- The loop of `analyzeLevelLeafs` over the leaves of the tree `pos`, in the
order `keys`: it stops at the first leaf that asks for a rescan. -/
def Stage4Levels.analyzeLeafs (sprintf : String → String → String) (depth pos : Nat) :
    List String → Stage4Levels → Outcome Stage4Levels Bool
  | [], l => Outcome.ret l (Except.ok false)
  | k :: ks, l =>
    match l.leaf? pos k with
    | none => Stage4Levels.analyzeLeafs sprintf depth pos ks l
    | some leaf =>
      match l.AnalyzeLeaf sprintf depth pos leaf with
      | Outcome.ret l2 (Except.ok false) => Stage4Levels.analyzeLeafs sprintf depth pos ks l2
      | other => other

/-- `analyzeLevelLeafs(pos)`; `step` counts the `range` statements run. -/
def Stage4Levels.analyzeLevelLeafs (sprintf : String → String → String) (ord : KeyOrder)
    (step depth : Nat) (l : Stage4Levels) (pos : Nat) : Outcome Stage4Levels Bool :=
  match l.Levels.get? pos with
  | none => Outcome.crash
  | some tree =>
    Stage4Levels.analyzeLeafs sprintf depth pos (ord.order step (GoMap.keys tree.Map)) l

/-- The loop `for pos > 0` of `Resolve`; the first argument bounds the number
of rounds. -/
def Stage4Levels.resolveLoop (sprintf : String → String → String) (ord : KeyOrder)
    (depth initialLevels : Nat) : Nat → Nat → Stage4Levels → Nat → Outcome Stage4Levels Unit
  | 0, _, _, _ => Outcome.outOfFuel
  | fuel + 1, step, l, pos =>
    if pos > 0 then
      match l.analyzeLevelLeafs sprintf ord step depth (pos - 1) with
      | Outcome.crash => Outcome.crash
      | Outcome.outOfFuel => Outcome.outOfFuel
      | Outcome.ret l2 (Except.error err) => Outcome.ret l2 (Except.error err)
      | Outcome.ret l2 (Except.ok rescan) =>
        Stage4Levels.resolveLoop sprintf ord depth initialLevels fuel (step + 1) l2
          (if rescan then initialLevels else pos - 1)
    else Outcome.ret l (Except.ok ())

/-- The trees `Resolve` appends so that there are as many levels as leaves in
the first tree. -/
def Stage4Levels.addMissingLevels (l : Stage4Levels) (n : Nat) : Stage4Levels :=
  (List.range n).foldl (fun acc i => acc.AddTree (NewStage4Tree (l.Levels.length + (i + 1)))) l

/-- `Resolve()`; `fuel` bounds the rounds of its loop, `depth` the recursion of
`AddDependencyRecursive`, `step` is the number of the first `range`. -/
def Stage4Levels.Resolve (sprintf : String → String → String) (ord : KeyOrder)
    (depth fuel step : Nat) (l : Stage4Levels) : Outcome Stage4Levels Unit :=
  match l.Levels.head? with
  | none => Outcome.crash
  | some t0 =>
    let l1 := l.addMissingLevels (t0.Map.length - l.Levels.length)
    Stage4Levels.resolveLoop sprintf ord depth l1.Levels.length fuel step l1 l.Levels.length

/-- The type `Stage4Worker`: the levels and the package objects met so far
(`Changed` never reaches a result and is left out). -/
structure Stage4Worker where
  Levels : Stage4Levels
  Map : GoMap LuetPackage
  deriving DecidableEq, Repr

/-- The loop over the requires in `Stage4AddDeps2Levels`, `rec` being the
recursive call. -/
def addDepsLoop
    (rec : LuetPackage → Option DefaultPackage → Stage4Worker → Nat → List String →
      Outcome Stage4Worker Unit)
    (father : DefaultPackage) (level : Nat) (stack : List String) :
    List DefaultPackage → Stage4Worker → Outcome Stage4Worker Unit
  | [], w => Outcome.ret w (Except.ok ())
  | dep :: deps, w =>
    match rec dep.toLuet (some father) w (level + 1) stack with
    | Outcome.ret w2 (Except.ok _) => addDepsLoop rec father level stack deps w2
    | other => other

/-- `Stage4AddDeps2Levels(pkg, father, w, level, stack)` for a level from 1
on; the first argument bounds the depth of the recursion. -/
def Stage4AddDeps2Levels (db : BuildDatabase) : Nat → LuetPackage → Option DefaultPackage →
    Stage4Worker → Nat → List String → Outcome Stage4Worker Unit
  | 0, _, _, _, _, _ => Outcome.outOfFuel
  | depth + 1, pkg, father, w, level, stack =>
    if IsInStack stack (pkgKey pkg.toDefault) then
      Outcome.ret w (Except.error ("Cycle for package " ++ pkgKey pkg.toDefault))
    else
      let w1 : Stage4Worker :=
        if w.Levels.Levels.length < level then
          { w with Levels := w.Levels.AddTree (NewStage4Tree level) }
        else w
      match (match GoMap.get? w1.Map (pkgKey pkg.toDefault) with
        | some v => Except.ok (v, w1)
        | none =>
          match db.FindPackages { Category := pkg.Category, Name := pkg.Name, Version := ">=0" } with
          | Except.error err =>
            Except.error ("Error on retrieve dependencies of the package " ++ pkg.Category ++
              "/" ++ pkg.Name ++ ": " ++ err)
          | Except.ok ppp =>
            let pkg2 : LuetPackage :=
              match ppp with
              | q :: _ => { pkg with PackageRequires := q.PackageRequires }
              | [] => pkg
            Except.ok (pkg2, { w1 with Map := GoMap.set w1.Map (pkgKey pkg.toDefault) pkg2 })) with
      | Except.error err => Outcome.ret w1 (Except.error err)
      | Except.ok (pkg3, w2) =>
        match w2.Levels.AddDependency pkg3 father (level - 1) with
        | Outcome.crash => Outcome.crash
        | Outcome.outOfFuel => Outcome.outOfFuel
        | Outcome.ret l3 _ =>
          addDepsLoop (Stage4AddDeps2Levels db depth) pkg3.toDefault level
            (stack ++ [pkgKey pkg.toDefault]) pkg3.PackageRequires { w2 with Levels := l3 }

/-- The loop of `Stage4AlignLevel1` over the registered packages, in the order
`keys`. -/
def alignLoop (depth : Nat) : List String → Stage4Levels → Outcome Stage4Levels Unit
  | [], l => Outcome.ret l (Except.ok ())
  | k :: ks, l =>
    match GoMap.get? l.Map k with
    | none => alignLoop depth ks l
    | some v =>
      match l.Levels.head? with
      | none => Outcome.crash
      | some t0 =>
        if GoMap.has t0.Map k then alignLoop depth ks l
        else
          match l.AddDependencyRecursive depth v.toDefault none [] 0 with
          | Outcome.ret l2 (Except.ok _) => alignLoop depth ks l2
          | Outcome.ret l2 (Except.error err) => Outcome.ret l2 (Except.error err)
          | Outcome.crash => Outcome.crash
          | Outcome.outOfFuel => Outcome.outOfFuel

/-- `Stage4AlignLevel1(w)`, its `range` being the statement 0. -/
def Stage4AlignLevel1 (ord : KeyOrder) (depth : Nat) (w : Stage4Worker) :
    Outcome Stage4Worker Unit :=
  match alignLoop depth (ord.order 0 (GoMap.keys w.Levels.Map)) w.Levels with
  | Outcome.ret l r => Outcome.ret { w with Levels := l } r
  | Outcome.crash => Outcome.crash
  | Outcome.outOfFuel => Outcome.outOfFuel

/-! ## The missing packages in build order (`pkg/devkit/list.go`) -/

/-- The loop of `retrieveMissingOrdered` that adds, for every value of
`missings`, an entry under the key of the value (its `range` is the statement
1; the entries it adds are their own images, so that visiting them changes
nothing). -/
def addCatNameKeys (ord : KeyOrder) (missings : GoMap DefaultPackage) : GoMap DefaultPackage :=
  (ord.order 1 (GoMap.keys missings)).foldl
    (fun m k =>
      match GoMap.get? m k with
      | some v => GoMap.set m (pkgKey v) v
      | none => m) missings

/-- One round of the loop of `retrieveMissingOrdered` over the dependencies of
the trees: the answer and `processedDeps` so far. -/
def retrieveStep (missings : GoMap DefaultPackage)
    (acc : List DefaultPackage × GoMap Bool) (dep : DefaultPackage) :
    List DefaultPackage × GoMap Bool :=
  if GoMap.has acc.2 (pkgKey dep) then acc
  else
    (match GoMap.get? missings (pkgKey dep) with
     | some v => acc.1 ++ [v]
     | none => acc.1,
     GoMap.set acc.2 (pkgKey dep) true)

/-- `retrieveMissingOrdered(w, missings)`: the trees from the last to the
first, each in the order of its `Deps`. -/
def retrieveMissingOrdered (ord : KeyOrder) (w : Stage4Worker)
    (missings : GoMap DefaultPackage) : List DefaultPackage :=
  (w.Levels.Levels.reverse.foldl
    (fun acc t => t.Deps.foldl (retrieveStep (addCatNameKeys ord missings)) acc) ([], [])).1

/-- The loop of `ListPkgsMissingByDeps` that resolves every missing package in
the build catalog: `mMissings` and `pList`, or the error of the first package
that is not found. -/
def resolveMissings (db : BuildDatabase) :
    List DefaultPackage → GoMap DefaultPackage × List LuetPackage →
    Except Error (GoMap DefaultPackage × List LuetPackage)
  | [], acc => Except.ok acc
  | p :: rest, acc =>
    match db.FindPackage p with
    | Except.error _ => Except.error ("Error on resolve package " ++ p.HumanReadableString)
    | Except.ok r =>
      resolveMissings db rest (GoMap.set acc.1 p.HumanReadableString p, acc.2 ++ [r])

/-- The loop of `ListPkgsMissingByDeps` that adds every package of `pList` to
the first level. -/
def addRoots (db : BuildDatabase) (depth : Nat) :
    List LuetPackage → Stage4Worker → Outcome Stage4Worker Unit
  | [], w => Outcome.ret w (Except.ok ())
  | p :: rest, w =>
    match Stage4AddDeps2Levels db depth p none w 1 [] with
    | Outcome.ret w2 (Except.ok _) => addRoots db depth rest w2
    | Outcome.ret w2 (Except.error err) =>
      Outcome.ret w2 (Except.error ("Error on initialize stage4 tree: " ++ err))
    | other => other

/-- The two statements of `ListPkgsMissingByDeps` under `withResolve`, whose
errors it drops. -/
def alignAndResolve (sprintf : String → String → String) (ord : KeyOrder) (fuel : Nat)
    (w : Stage4Worker) : Outcome Stage4Worker Unit :=
  match Stage4AlignLevel1 ord fuel w with
  | Outcome.crash => Outcome.crash
  | Outcome.outOfFuel => Outcome.outOfFuel
  | Outcome.ret w1 _ =>
    match w1.Levels.Resolve sprintf ord fuel fuel 2 with
    | Outcome.crash => Outcome.crash
    | Outcome.outOfFuel => Outcome.outOfFuel
    | Outcome.ret l2 _ => Outcome.ret { w1 with Levels := l2 } (Except.ok ())

/-- The body of `ListPkgsMissingByDeps` from the list of `ListPkgsMissing` and
the loaded build catalog on; `fuel` bounds every recursion and the rounds of
`Resolve`. -/
def orderMissings (db : BuildDatabase) (list : List DefaultPackage) (withResolve : Bool)
    (sprintf : String → String → String) (ord : KeyOrder) (fuel : Nat) :
    Outcome Unit (List DefaultPackage) :=
  match resolveMissings db list ([], []) with
  | Except.error err => Outcome.ret () (Except.error err)
  | Except.ok (mMissings, pList) =>
    match addRoots db fuel pList
        { Levels := NewStage4LevelsWithSize 1, Map := [] } with
    | Outcome.crash => Outcome.crash
    | Outcome.outOfFuel => Outcome.outOfFuel
    | Outcome.ret _ (Except.error err) => Outcome.ret () (Except.error err)
    | Outcome.ret worker (Except.ok _) =>
      if withResolve then
        match alignAndResolve sprintf ord fuel worker with
        | Outcome.crash => Outcome.crash
        | Outcome.outOfFuel => Outcome.outOfFuel
        | Outcome.ret worker2 _ =>
          Outcome.ret () (Except.ok (retrieveMissingOrdered ord worker2 mMissings))
      else Outcome.ret () (Except.ok (retrieveMissingOrdered ord worker mMissings))

/-- `ListPkgsMissingByDeps(treePaths, withResolve)`: the lister after the call
and how the call ends; `trees` is what loading `treePaths` gives. -/
def RepoList.ListPkgsMissingByDeps {σ V : Type} (c : RepoList σ) (lib : VersionLib V)
    (rord : RangeOrder) (st : σ) (trees : Except Error BuildDatabase) (withResolve : Bool)
    (sprintf : String → String → String) (ord : KeyOrder) (fuel : Nat) :
    Outcome (RepoList σ) (List DefaultPackage) :=
  match c.ListPkgsMissing lib rord st with
  | (c1, Except.error err) => Outcome.ret c1 (Except.error err)
  | (c1, Except.ok list) =>
    match trees with
    | Except.error err => Outcome.ret c1 (Except.error ("Error on load tree" ++ err))
    | Except.ok db =>
      match orderMissings db list withResolve sprintf ord fuel with
      | Outcome.ret _ r => Outcome.ret c1 r
      | Outcome.crash => Outcome.crash
      | Outcome.outOfFuel => Outcome.outOfFuel

/-! ## What the trees keep -/

/-- Every leaf of the tree sits under the key of its package, and `Position`
is the index of its package in `Deps`. -/
def Stage4Tree.WF (t : Stage4Tree) : Prop :=
  ∀ k leaf, GoMap.get? t.Map k = some leaf →
    pkgKey leaf.Package = k ∧ t.Deps.get? leaf.Position = some leaf.Package

/-- The tree lists a package of the key in `Deps`. -/
def Stage4Tree.holds (t : Stage4Tree) (k : String) : Prop := k ∈ t.Deps.map pkgKey

/-- The tree of the level `i` lists a package of the key. -/
def Stage4Levels.holdsAt (l : Stage4Levels) (i : Nat) (k : String) : Prop :=
  ∃ t, l.Levels.get? i = some t ∧ t.holds k

/-- Every tree of the levels is well formed, every registered object sits
under its key, and every key a tree lists has a registered object. -/
def Stage4Levels.WF (l : Stage4Levels) : Prop :=
  (∀ t ∈ l.Levels, t.WF) ∧
  (∀ k o, GoMap.get? l.Map k = some o → pkgKey o.toDefault = k) ∧
  (∀ i k, l.holdsAt i k → (GoMap.get? l.Map k).isSome)

/-- Some tree of the levels lists a package of the key. -/
def Stage4Levels.holds (l : Stage4Levels) (k : String) : Prop := ∃ i, l.holdsAt i k

/-- From `l` to `l2` the trees stay well formed, no level is lost, every tree
lists the keys it listed and holds the leaves it held. -/
def Stage4Levels.Mono (l l2 : Stage4Levels) : Prop :=
  l.WF → (l2.WF ∧ l.Levels.length ≤ l2.Levels.length ∧
    (∀ i k, l.holdsAt i k → l2.holdsAt i k) ∧
    (∀ i k, (l.leaf? i k).isSome → (l2.leaf? i k).isSome) ∧
    (∀ k, (GoMap.get? l2.Map k).isSome = (GoMap.get? l.Map k).isSome))

/-- From `l` to `l2` the trees stay well formed, no level is lost, and only
the key `K` may leave a tree, above the level `pos`. -/
def Stage4Levels.Step (pos : Nat) (K : String) (l l2 : Stage4Levels) : Prop :=
  l.WF → (l2.WF ∧ l.Levels.length ≤ l2.Levels.length ∧
    (∀ i k, (pos ≤ i ∨ k ≠ K) → l.holdsAt i k → l2.holdsAt i k) ∧
    (∀ i k, (pos ≤ i ∨ k ≠ K) → (l.leaf? i k).isSome → (l2.leaf? i k).isSome) ∧
    (∀ k, (GoMap.get? l2.Map k).isSome = (GoMap.get? l.Map k).isSome))

/-- From `l` to `l2` the trees stay well formed, no level is lost, and every
key that some tree lists is still listed by some tree. -/
def Stage4Levels.Keeps (l l2 : Stage4Levels) : Prop :=
  l.WF → (l2.WF ∧ l.Levels.length ≤ l2.Levels.length ∧ (∀ k, l.holds k → l2.holds k) ∧
    (∀ k, (GoMap.get? l2.Map k).isSome = (GoMap.get? l.Map k).isSome))

/-- The requires the level construction gives the node of a package: those of
the first definition the catalog lists for the category and name. -/
def BuildDatabase.requiresOf (db : BuildDatabase) (p : DefaultPackage) : List DefaultPackage :=
  match db.FindPackages { Category := p.Category, Name := p.Name, Version := ">=0" } with
  | Except.ok (q :: _) => q.PackageRequires
  | _ => []

/-- The packages the catalog names: its definitions and their requires. -/
def BuildDatabase.atoms (db : BuildDatabase) : List DefaultPackage :=
  db.World.flatMap (fun q => q.toDefault :: q.PackageRequires)

/-- What the level construction keeps of the worker: well-formed levels, and
every object met is named by the catalog and sits under its key with the
requires of its node; the levels register no other object. -/
def Stage4Worker.WF (db : BuildDatabase) (w : Stage4Worker) : Prop :=
  w.Levels.WF ∧
  (∀ k o, GoMap.get? w.Map k = some o →
    pkgKey o.toDefault = k ∧ o.PackageRequires = db.requiresOf o.toDefault ∧
    o.toDefault ∈ db.atoms) ∧
  (∀ k, (GoMap.get? w.Levels.Map k).isSome → (GoMap.get? w.Map k).isSome)

/-- Apart from the nodes `X` under construction, every require of a node that
a tree lists is listed by the tree of the next level. -/
def Stage4Worker.Closed (w : Stage4Worker) (X : Nat → String → Prop) : Prop :=
  ∀ i k o, w.Levels.holdsAt i k → GoMap.get? w.Map k = some o → ¬ X i k →
    ∀ d ∈ o.PackageRequires, w.Levels.holdsAt (i + 1) (pkgKey d)

/-- From `w` to `w2` nothing is lost: levels, listed keys, objects met. -/
def Stage4Worker.Grows (w w2 : Stage4Worker) : Prop :=
  w.Levels.Levels.length ≤ w2.Levels.Levels.length ∧
  (∀ i k, w.Levels.holdsAt i k → w2.Levels.holdsAt i k) ∧
  (∀ k o, GoMap.get? w.Map k = some o → GoMap.get? w2.Map k = some o)

/-! ## Results of a call, and concrete build catalogs -/

/-- The value a call returns, when it returns without an error. -/
def Outcome.value {σ α : Type} : Outcome σ α → Option α
  | Outcome.ret _ (Except.ok a) => some a
  | _ => none

/-- What `fmt.Sprintf(format, a)` prints for a format that holds no verb. -/
def goSprintf (format a : String) : String := format ++ "%!(EXTRA string=" ++ a ++ ")"

/-- A second version of the package `cat/a`. -/
def pkgA2 : DefaultPackage := { Name := "a", Category := "cat", Version := "2.0" }

/-- A package `cat/d`. -/
def pkgD : DefaultPackage := { Name := "d", Category := "cat", Version := "1.0" }

/-- A require on any version of a package. -/
def anyVersion (p : DefaultPackage) : DefaultPackage := { p with Version := ">=0" }

/-- A definition of the build catalog. -/
def buildDef (p : DefaultPackage) (requires : List DefaultPackage) : LuetPackage :=
  { Category := p.Category, Name := p.Name, Version := p.Version,
    PackageRequires := requires.map anyVersion }

/-- A build catalog with two versions of `cat/a`, without requires. -/
def buildTwoVersions : BuildDatabase := ⟨[buildDef pkgA [], buildDef pkgA2 []]⟩

/-- A build catalog in which `cat/a` requires `cat/b`. -/
def buildAB : BuildDatabase := ⟨[buildDef pkgA [pkgB], buildDef pkgB []]⟩

/-- A build catalog in which the version 1.0 of `cat/a` requires `cat/b` and
the version 2.0, listed first, requires nothing. -/
def buildMixed : BuildDatabase :=
  ⟨[buildDef pkgA2 [], buildDef pkgA [pkgB], buildDef pkgB []]⟩

/-- The build catalog of scenario S6: `a` requires `b`, `b` requires `c`, `d`
requires `b`. -/
def buildS6 : BuildDatabase :=
  ⟨[buildDef pkgA [pkgB], buildDef pkgB [pkgC], buildDef pkgC [], buildDef pkgD [pkgB]]⟩

/-! ## The graph of the build catalog -/

/-- The node of `p` requires the node of `q`: a require of the first
definition the catalog lists for the category and name of `p` has the category
and name of `q`. -/
def BuildDatabase.Requires (db : BuildDatabase) (p q : DefaultPackage) : Prop :=
  ∃ d ∈ db.requiresOf p, sameCatName d q = true

/-- The node of `p` reaches the node of `q` through one require or more. -/
def BuildDatabase.DependsOn (db : BuildDatabase) : DefaultPackage → DefaultPackage → Prop :=
  Relation.TransGen db.Requires

/-- The keys of the catalog identify category and name: two packages the
catalog names with one key `category/name` have one category and one name. -/
def BuildDatabase.KeyFaithful (db : BuildDatabase) : Prop :=
  ∀ p ∈ db.atoms, ∀ q ∈ db.atoms, pkgKey p = pkgKey q → sameCatName p q = true

/-! ## The recursion allowance of the model -/

/-- A call with a smaller recursion allowance: either the allowance was used
up before it returned, or it ended as the call `b` does. -/
def Outcome.Below {σ α : Type} (a b : Outcome σ α) : Prop :=
  a = Outcome.outOfFuel ∨ a = b

/-- The first `k` rounds of the loop `for pos > 0` of `Resolve` from the tree
index `pos`: the levels and the index the next round starts from, or `none`
when the loop ends, or dies, within these rounds. It is the loop of
`Stage4Levels.resolveLoop` without its end. -/
def Stage4Levels.resolveRounds (sprintf : String → String → String) (ord : KeyOrder)
    (depth initialLevels : Nat) : Nat → Nat → Stage4Levels → Nat → Option (Stage4Levels × Nat)
  | 0, _, l, pos => some (l, pos)
  | k + 1, step, l, pos =>
    if pos > 0 then
      match l.analyzeLevelLeafs sprintf ord step depth (pos - 1) with
      | Outcome.ret l2 (Except.ok rescan) =>
        Stage4Levels.resolveRounds sprintf ord depth initialLevels k (step + 1) l2
          (if rescan then initialLevels else pos - 1)
      | _ => none
    else none

/-- The levels a call leaves when it returns without an error. -/
def Outcome.state? {σ α : Type} : Outcome σ α → Option σ
  | Outcome.ret s (Except.ok _) => some s
  | _ => none

/-- The levels and the tree index the loop of `Resolve` starts from: the
trees `Resolve` appends are there, the index is the number of trees before. -/
def Stage4Levels.resolveStart (l : Stage4Levels) : Option (Stage4Levels × Nat) :=
  match l.Levels.head? with
  | none => none
  | some t0 => some (l.addMissingLevels (t0.Map.length - l.Levels.length), l.Levels.length)

/-! ## Two build catalogs with a require listed twice -/

/-- A package `cat/e`. -/
def pkgE : DefaultPackage := { Name := "e", Category := "cat", Version := "1.0" }

/-- A package `cat/f`. -/
def pkgF : DefaultPackage := { Name := "f", Category := "cat", Version := "1.0" }

/-- A package `cat/g`. -/
def pkgG : DefaultPackage := { Name := "g", Category := "cat", Version := "1.0" }

/-- An acyclic build catalog in which `c` lists its require `g` twice: `a`
requires `b`, `g`; `b` requires `f`, `c`, `e`; `c` requires `g`, `d`, `f`, `g`;
`d` requires `g`, `e`; `e` requires `g`. -/
def buildTwice : BuildDatabase :=
  ⟨[buildDef pkgA [pkgB, pkgG], buildDef pkgB [pkgF, pkgC, pkgE],
    buildDef pkgC [pkgG, pkgD, pkgF, pkgG], buildDef pkgD [pkgG, pkgE], buildDef pkgE [pkgG],
    buildDef pkgF [], buildDef pkgG []]⟩

/-- An acyclic build catalog in which `c` lists its require `e` twice: `a`
requires `e`, `d`; `d` requires `g`, `c`, `b`; `b` requires `f`; `g` requires
`e`; `c` requires `e`, `e`; `f` requires `e`. -/
def buildLoop : BuildDatabase :=
  ⟨[buildDef pkgA [pkgE, pkgD], buildDef pkgD [pkgG, pkgC, pkgB], buildDef pkgB [pkgF],
    buildDef pkgG [pkgE], buildDef pkgC [pkgE, pkgE], buildDef pkgF [pkgE], buildDef pkgE []]⟩

/-- The levels the loop of `Resolve` comes back to on the catalog `buildLoop`
with `a` missing: seven trees, and registered objects in which `b` requires
`c` and `c` requires `b`. -/
def loopLevels : Stage4Levels :=
  { Levels :=
      [⟨1, [("cat/a", ⟨pkgA, [], 0, 1⟩), ("cat/d", ⟨anyVersion pkgD, [], 1, 1⟩)],
        [pkgA, anyVersion pkgD]⟩,
       ⟨2, [("cat/d", ⟨anyVersion pkgD, [some pkgA], 0, 1⟩)], [anyVersion pkgD]⟩,
       ⟨3, [("cat/b", ⟨anyVersion pkgB, [some (anyVersion pkgD)], 0, 1⟩)], [anyVersion pkgB]⟩,
       ⟨4, [("cat/c", ⟨anyVersion pkgC, [some (anyVersion pkgB)], 0, 1⟩)], [anyVersion pkgC]⟩,
       ⟨5, [("cat/g", ⟨anyVersion pkgG, [some (anyVersion pkgC)], 0, 1⟩),
            ("cat/b", ⟨anyVersion pkgB, [some (anyVersion pkgC)], 1, 1⟩)],
        [anyVersion pkgG, anyVersion pkgB]⟩,
       ⟨6, [("cat/f", ⟨anyVersion pkgF, [some (anyVersion pkgG)], 0, 1⟩)], [anyVersion pkgF]⟩,
       ⟨7, [("cat/e", ⟨anyVersion pkgE, [some (anyVersion pkgF)], 0, 1⟩)], [anyVersion pkgE]⟩],
    Map :=
      [("cat/a", buildDef pkgA [pkgD]), ("cat/e", buildDef (anyVersion pkgE) []),
       ("cat/d", buildDef (anyVersion pkgD) [pkgB]), ("cat/g", buildDef (anyVersion pkgG) [pkgF]),
       ("cat/c", buildDef (anyVersion pkgC) [pkgG, pkgB]),
       ("cat/b", buildDef (anyVersion pkgB) [pkgC]),
       ("cat/f", buildDef (anyVersion pkgF) [pkgE])] }

/-! ## The slot of a category (`specs/solution.go`) and further stores and catalogs -/

/-- The part of a slot before its first `/`, the whole slot when it holds no
`/`: the value of `slot[0:strings.Index(slot, "/")]` (the byte `/` never
occurs inside the encoding of another character, so the cut falls at the same
place on characters as on bytes). -/
def slotMajor (slot : String) : String :=
  String.mk (slot.data.takeWhile (fun ch => ch != '/'))

/-- `SanitizeCategory(cat, slot)` of `specs/solution.go`;
`strings.Contains(slot, "/")` is the test that the character occurs. -/
def SanitizeCategory (cat slot : String) : String :=
  if slot != "0" then
    let slot1 := if slot.data.contains '/' then slotMajor slot else slot
    if slot1 != "0" && slot1 != "" then cat ++ "-" ++ slot1 else cat
  else cat

/-- A metadata file of `cat/a-1.0` whose record names a payload that is not
listed, next to the payload `a-1.0.package.tar`, whose metadata name it is. -/
def storeOtherPath : LocalDir :=
  [("a-1.0.metadata.yaml", some { Path := "x-1.0.package.tar", CompileSpec := ⟨pkgA⟩ }),
   ("a-1.0.package.tar", none)]

/-- A build catalog that defines `cat/b` alone. -/
def buildOnlyB : BuildDatabase := ⟨[buildDef pkgB []]⟩

/-- A build catalog in which `cat/a` requires `cat/b` and `cat/b` requires
`cat/a`. -/
def buildCycle : BuildDatabase := ⟨[buildDef pkgA [pkgB], buildDef pkgB [pkgA]]⟩

/-! ## Stores with a shared payload, and the requires graph of the levels -/

/-- A metadata record of `cat/b-1.0` whose payload path names the tarball of
`cat/a-1.0`. -/
def artBonA : PackageArtifact := { Path := "a-1.0.package.tar", CompileSpec := ⟨pkgB⟩ }

/-- The pair of `cat/a-1.0` next to a second metadata file, of `cat/b-1.0`,
whose record names the same tarball. -/
def storeSharedPayload : LocalDir :=
  [("a-1.0.package.tar", none), ("a-1.0.metadata.yaml", some artA),
   ("b-1.0.metadata.yaml", some artBonA)]

/-- A metadata record of `cat/b-1.0` whose payload path names the metadata file
of `cat/a-1.0`. -/
def artBonMeta : PackageArtifact := { Path := "a-1.0.metadata.yaml", CompileSpec := ⟨pkgB⟩ }

/-- The pair of `cat/a-1.0` next to a second metadata file, of `cat/b-1.0`,
whose record names the metadata file of the pair as its payload. -/
def storeNamesMetadata : LocalDir :=
  [("a-1.0.package.tar", none), ("a-1.0.metadata.yaml", some artA),
   ("b-1.0.metadata.yaml", some artBonMeta)]

/-- The knife after the classification of the pair of `cat/a-1.0`, with the
given tree. -/
def pairKnife (world : List DefaultPackage) : RepoKnife LocalDir :=
  { localKnife [] world with
    MetaMap := [("a-1.0.metadata.yaml", artA)],
    PkgsMap := [("a-1.0.package.tar", "a-1.0.metadata.yaml")] }

/-- The tarball of `cat/a-1.0` without its own metadata file, named by the
record of `cat/b-1.0`. -/
def storeForeignPayload : LocalDir :=
  [("a-1.0.package.tar", none), ("b-1.0.metadata.yaml", some artBonA)]

/-- The registered object of the key `k` requires the key `k2`: one of its
`PackageRequires` has the key `k2`. -/
def Stage4Levels.Requires (l : Stage4Levels) (k k2 : String) : Prop :=
  ∃ o, GoMap.get? l.Map k = some o ∧ ∃ d ∈ o.PackageRequires, pkgKey d = k2

/-- The requires graph of the registered objects has no cycle. -/
def Stage4Levels.Acyclic (l : Stage4Levels) : Prop :=
  ∀ k, ¬ Relation.TransGen l.Requires k k

/-- The keys of the requires of the registered object of a key. -/
def Stage4Levels.requiresKeys (l : Stage4Levels) (k : String) : List String :=
  match GoMap.get? l.Map k with
  | some o => o.PackageRequires.map pkgKey
  | none => []

/-- The levels the loop of `Resolve` reaches after five rounds on the catalog
`buildTwice` with `a` missing: the registered requires are acyclic (`a`: `b`,
`c`; `b`: `f`, `c`, `e`; `c`: `d`, `f`, `e`; `d`: `e`; `e`: `g`), and in the
third tree the leaf of `e` has the fathers `b`, `d`, `c`. -/
def twiceLevels : Stage4Levels :=
  { Levels :=
      [⟨1, [("cat/a", ⟨pkgA, [], 0, 1⟩), ("cat/b", ⟨anyVersion pkgB, [], 1, 1⟩),
            ("cat/f", ⟨anyVersion pkgF, [], 2, 1⟩), ("cat/c", ⟨anyVersion pkgC, [], 3, 1⟩),
            ("cat/d", ⟨anyVersion pkgD, [], 4, 1⟩), ("cat/e", ⟨anyVersion pkgE, [], 5, 1⟩)],
        [pkgA, anyVersion pkgB, anyVersion pkgF, anyVersion pkgC, anyVersion pkgD,
         anyVersion pkgE]⟩,
       ⟨2, [("cat/b", ⟨anyVersion pkgB, [some pkgA], 0, 1⟩),
            ("cat/f", ⟨anyVersion pkgF, [some (anyVersion pkgB), some (anyVersion pkgC)], 1, 2⟩),
            ("cat/c", ⟨anyVersion pkgC, [some (anyVersion pkgB), some pkgA], 2, 2⟩),
            ("cat/e", ⟨anyVersion pkgE, [some (anyVersion pkgB), some (anyVersion pkgD)], 3, 2⟩),
            ("cat/d", ⟨anyVersion pkgD, [some (anyVersion pkgC)], 4, 1⟩)],
        [anyVersion pkgB, anyVersion pkgF, anyVersion pkgC, anyVersion pkgE, anyVersion pkgD]⟩,
       ⟨3, [("cat/f", ⟨anyVersion pkgF, [some (anyVersion pkgB), some (anyVersion pkgC)], 0, 2⟩),
            ("cat/c", ⟨anyVersion pkgC, [some (anyVersion pkgB)], 1, 1⟩),
            ("cat/e", ⟨anyVersion pkgE,
              [some (anyVersion pkgB), some (anyVersion pkgD), some (anyVersion pkgC)], 2, 3⟩),
            ("cat/d", ⟨anyVersion pkgD, [some (anyVersion pkgC)], 3, 1⟩)],
        [anyVersion pkgF, anyVersion pkgC, anyVersion pkgE, anyVersion pkgD]⟩,
       ⟨4, [("cat/d", ⟨anyVersion pkgD, [some (anyVersion pkgC)], 0, 1⟩),
            ("cat/f", ⟨anyVersion pkgF, [some (anyVersion pkgC)], 1, 1⟩),
            ("cat/e", ⟨anyVersion pkgE, [some (anyVersion pkgD)], 2, 1⟩)],
        [anyVersion pkgD, anyVersion pkgF, anyVersion pkgE]⟩,
       ⟨5, [("cat/e", ⟨anyVersion pkgE, [some (anyVersion pkgD)], 0, 1⟩)], [anyVersion pkgE]⟩,
       ⟨6, [("cat/g", ⟨anyVersion pkgG, [some (anyVersion pkgE)], 0, 1⟩)], [anyVersion pkgG]⟩,
       ⟨7, [], []⟩],
    Map :=
      [("cat/a", buildDef pkgA [pkgB, pkgC]),
       ("cat/b", buildDef (anyVersion pkgB) [pkgF, pkgC, pkgE]),
       ("cat/f", buildDef (anyVersion pkgF) []),
       ("cat/c", buildDef (anyVersion pkgC) [pkgD, pkgF, pkgE]),
       ("cat/g", buildDef (anyVersion pkgG) []),
       ("cat/d", buildDef (anyVersion pkgD) [pkgE]),
       ("cat/e", buildDef (anyVersion pkgE) [pkgG])] }

/-- The leaf of `e` in the fifth tree of `twiceLevels`: its only father is `d`. -/
def twiceLeaf : Stage4Leaf := ⟨anyVersion pkgE, [some (anyVersion pkgD)], 0, 1⟩

/-! ## Leaves without a nil father -/

/-- No leaf of the levels has a nil father. -/
def Stage4Levels.NoNilFather (l : Stage4Levels) : Prop :=
  ∀ i k leaf, l.leaf? i k = some leaf → ∀ f ∈ leaf.Father, f ≠ none

/-- A build catalog with three versions of `cat/c`, in which `cat/a` requires
`cat/b` and `cat/b` requires `cat/a`. -/
def buildCycleThree : BuildDatabase :=
  ⟨[buildDef pkgC [], buildDef { pkgC with Version := "2.0" } [],
    buildDef { pkgC with Version := "3.0" } [], buildDef pkgA [pkgB], buildDef pkgB [pkgA]]⟩

/-! ## Lemmas on Go maps -/

theorem GoMap.has_eq_isSome {V : Type} (m : GoMap V) (k : String) :
    GoMap.has m k = (GoMap.get? m k).isSome := by
  induction m with
  | nil => rfl
  | cons e m ih =>
    by_cases h : e.1 = k
    · simp [GoMap.has, GoMap.get?, h]
    · simp [GoMap.has, GoMap.get?, h, ih]

theorem GoMap.get?_set {V : Type} (m : GoMap V) (k : String) (v : V) (k2 : String) :
    GoMap.get? (GoMap.set m k v) k2 = if k2 = k then some v else GoMap.get? m k2 := by
  induction m with
  | nil =>
    by_cases h : k = k2
    · simp [GoMap.set, GoMap.get?, h]
    · have h2 : ¬ k2 = k := fun e => h e.symm
      simp [GoMap.set, GoMap.get?, h, h2]
  | cons e m ih =>
    by_cases he : e.1 = k
    · by_cases h : k = k2
      · subst h
        simp [GoMap.set, GoMap.get?, he]
      · have h2 : ¬ k2 = k := fun e => h e.symm
        have h3 : ¬ e.1 = k2 := fun e2 => h (he.symm.trans e2)
        simp [GoMap.set, GoMap.get?, he, h, h2, h3]
    · by_cases h : e.1 = k2
      · have h2 : ¬ k2 = k := fun e2 => he (h.trans e2)
        simp [GoMap.set, GoMap.get?, he, h, h2]
      · simp [GoMap.set, GoMap.get?, he, h, ih]

theorem GoMap.has_set {V : Type} (m : GoMap V) (k : String) (v : V) (k2 : String) :
    GoMap.has (GoMap.set m k v) k2 = (decide (k2 = k) || GoMap.has m k2) := by
  rw [GoMap.has_eq_isSome, GoMap.has_eq_isSome, GoMap.get?_set]
  by_cases h : k2 = k <;> simp [h]

theorem GoMap.keys_set_subset {V : Type} (m : GoMap V) (k : String) (v : V) (x : String)
    (hx : x ∈ GoMap.keys (GoMap.set m k v)) : x = k ∨ x ∈ GoMap.keys m := by
  induction m with
  | nil => simpa [GoMap.set, GoMap.keys] using hx
  | cons e m ih =>
    by_cases he : e.1 = k
    · have hk : GoMap.keys (GoMap.set (e :: m) k v) = k :: GoMap.keys m := by
        simp [GoMap.set, GoMap.keys, he]
      rw [hk] at hx
      rcases List.mem_cons.mp hx with h | h
      · exact Or.inl h
      · exact Or.inr (List.mem_cons_of_mem _ h)
    · have hk : GoMap.keys (GoMap.set (e :: m) k v) = e.1 :: GoMap.keys (GoMap.set m k v) := by
        simp [GoMap.set, GoMap.keys, he]
      rw [hk] at hx
      rcases List.mem_cons.mp hx with h | h
      · exact Or.inr (by rw [h]; exact List.mem_cons_self _ _)
      · rcases ih h with h2 | h2
        · exact Or.inl h2
        · exact Or.inr (List.mem_cons_of_mem _ h2)

theorem GoMap.keys_set_nodup {V : Type} (m : GoMap V) (k : String) (v : V)
    (h : (GoMap.keys m).Nodup) : (GoMap.keys (GoMap.set m k v)).Nodup := by
  induction m with
  | nil => simp [GoMap.set, GoMap.keys]
  | cons e m ih =>
    have hn : e.1 ∉ GoMap.keys m ∧ (GoMap.keys m).Nodup := List.nodup_cons.mp h
    by_cases he : e.1 = k
    · have : GoMap.keys (GoMap.set (e :: m) k v) = GoMap.keys (e :: m) := by
        simp [GoMap.set, GoMap.keys, he]
      rw [this]; exact h
    · have hk : GoMap.keys (GoMap.set (e :: m) k v) = e.1 :: GoMap.keys (GoMap.set m k v) := by
        simp [GoMap.set, GoMap.keys, he]
      rw [hk]
      refine List.nodup_cons.mpr ⟨?_, ih hn.2⟩
      intro hmem
      rcases GoMap.keys_set_subset m k v e.1 hmem with h1 | h1
      · exact he h1
      · exact hn.1 h1

theorem GoMap.get?_of_mem {V : Type} (m : GoMap V) (h : (GoMap.keys m).Nodup)
    (k : String) (v : V) (hm : (k, v) ∈ m) : GoMap.get? m k = some v := by
  induction m with
  | nil => cases hm
  | cons e m ih =>
    have hn : e.1 ∉ GoMap.keys m ∧ (GoMap.keys m).Nodup := List.nodup_cons.mp h
    rcases List.mem_cons.mp hm with h1 | h1
    · subst h1; simp [GoMap.get?]
    · have hne : ¬ e.1 = k := by
        intro he
        apply hn.1
        rw [he]
        exact List.mem_map.mpr ⟨(k, v), h1, rfl⟩
      simp [GoMap.get?, hne, ih hn.2 h1]

theorem GoMap.mem_of_get? {V : Type} (m : GoMap V) (k : String) (v : V)
    (hg : GoMap.get? m k = some v) : (k, v) ∈ m := by
  induction m with
  | nil => simp [GoMap.get?] at hg
  | cons e m ih =>
    by_cases he : e.1 = k
    · simp [GoMap.get?, he] at hg
      have : e = (k, v) := Prod.ext he hg
      rw [this]; exact List.mem_cons_self _ _
    · simp [GoMap.get?, he] at hg
      exact List.mem_cons_of_mem _ (ih hg)

theorem GoMap.has_of_mem {V : Type} (m : GoMap V) (k : String) (v : V) (h : (k, v) ∈ m) :
    GoMap.has m k = true := by
  induction m with
  | nil => cases h
  | cons e m ih =>
    rcases List.mem_cons.mp h with h1 | h1
    · subst h1; simp [GoMap.has]
    · by_cases he : e.1 = k
      · simp [GoMap.has, he]
      · simp [GoMap.has, he, ih h1]

theorem GoMap.mem_of_has {V : Type} (m : GoMap V) (k : String) (h : GoMap.has m k = true) :
    ∃ v, (k, v) ∈ m := by
  rw [GoMap.has_eq_isSome] at h
  obtain ⟨v, hv⟩ := Option.isSome_iff_exists.mp h
  exact ⟨v, GoMap.mem_of_get? m k v hv⟩

theorem GoMap.delete_of_not_has {V : Type} (m : GoMap V) (k : String)
    (h : GoMap.has m k = false) : GoMap.delete m k = m := by
  simp only [GoMap.delete]
  apply List.filter_eq_self.mpr
  intro e he
  simp only [bne_iff_ne, ne_eq]
  intro hk
  have := GoMap.has_of_mem m k e.2 (by rw [← hk]; exact he)
  rw [h] at this
  exact Bool.noConfusion this

/-! ## Closed forms of the loops -/

theorem checkMetaFiles_fold {σ : Type} (entries : List (String × PackageArtifact)) :
    ∀ (acc : RepoKnife σ × List String),
      entries.foldl RepoKnife.checkMetaFile acc
      = ({ acc.1 with
            Files2Remove := acc.1.Files2Remove ++ orphanMeta acc.1.PkgsMap entries },
         acc.2 ++ orphanMeta acc.1.PkgsMap entries) := by
  induction entries with
  | nil => intro acc; simp [orphanMeta]
  | cons e es ih =>
    intro acc
    rw [List.foldl_cons, ih]
    by_cases h : GoMap.has acc.1.PkgsMap (Base e.2.Path) = true
    · simp [RepoKnife.checkMetaFile, orphanMeta, h]
    · simp [RepoKnife.checkMetaFile, orphanMeta, h, List.append_assoc]

theorem checkMetaFiles_eq {σ : Type} (c : RepoKnife σ)
    (entries : List (String × PackageArtifact)) :
    c.checkMetaFiles entries =
      ({ c with Files2Remove := c.Files2Remove ++ orphanMeta c.PkgsMap entries },
       orphanMeta c.PkgsMap entries) := by
  have := checkMetaFiles_fold entries (c, [])
  simpa [RepoKnife.checkMetaFiles] using this

theorem checkPkgFiles_fold {σ : Type} (entries : List (String × String)) :
    ∀ (acc : RepoKnife σ),
      entries.foldl RepoKnife.checkPkgFile acc
      = { acc with Files2Remove := acc.Files2Remove ++ orphanPkgs acc.MetaMap entries } := by
  induction entries with
  | nil => intro acc; simp [orphanPkgs]
  | cons e es ih =>
    intro acc
    rw [List.foldl_cons, ih]
    by_cases h : GoMap.has acc.MetaMap e.2 = true
    · simp [RepoKnife.checkPkgFile, orphanPkgs, h]
    · simp [RepoKnife.checkPkgFile, orphanPkgs, h, List.append_assoc]

theorem checkPkgFiles_eq {σ : Type} (c : RepoKnife σ) (entries : List (String × String)) :
    c.checkPkgFiles entries =
      { c with Files2Remove := c.Files2Remove ++ orphanPkgs c.MetaMap entries } :=
  checkPkgFiles_fold entries c

theorem checkTrees_fold {σ : Type} (entries : List (String × PackageArtifact)) :
    ∀ (acc : RepoKnife σ),
      entries.foldl RepoKnife.checkTree acc
      = { acc with
          Files2Remove := acc.Files2Remove ++ staleFiles acc.ReciperRuntime entries } := by
  induction entries with
  | nil => intro acc; simp [staleFiles]
  | cons e es ih =>
    intro acc
    rw [List.foldl_cons, ih]
    cases h : acc.ReciperRuntime.FindPackage (searchPackage e.2) with
    | none => simp [RepoKnife.checkTree, staleFiles, h, List.append_assoc]
    | some q => simp [RepoKnife.checkTree, staleFiles, h]

theorem CheckFilesWithTrees_eq {σ : Type} (c : RepoKnife σ) (ord : RangeOrder) :
    c.CheckFilesWithTrees ord =
      ({ c with Files2Remove :=
          c.Files2Remove ++ staleFiles c.ReciperRuntime (ord.metaOrder 2 c.MetaMap) }, none) := by
  simp only [RepoKnife.CheckFilesWithTrees]
  rw [checkTrees_fold]

theorem deleteMeta2Remove_noop {σ : Type} (l : List String) :
    ∀ (c : RepoKnife σ), (∀ m ∈ l, GoMap.has c.PkgsMap m = false) →
      c.deleteMeta2Remove l = c := by
  induction l with
  | nil => intro c _; rfl
  | cons m ms ih =>
    intro c h
    have h1 : GoMap.delete c.PkgsMap m = c.PkgsMap :=
      GoMap.delete_of_not_has _ _ (h m (List.mem_cons_self _ _))
    have h2 : ({ c with PkgsMap := GoMap.delete c.PkgsMap m } : RepoKnife σ) = c := by
      rw [h1]
    simp only [RepoKnife.deleteMeta2Remove, List.foldl_cons, h2]
    exact ih c (fun x hx => h x (List.mem_cons_of_mem _ hx))

/-! ## The classification loop -/

theorem key_class_cases (f : String) :
    isIndexKey f = true ∨ isMetaKey f = true ∨ isPkgKey f = true ∨ isStrayKey f = true := by
  simp only [isMetaKey, isPkgKey, isStrayKey]
  cases isIndexKey f <;> cases RegexEntry f metaFilesRegex <;>
    cases RegexEntry f pkgFilesRegex <;> simp

theorem classifyFile_index {σ : Type} (st : σ) (c : RepoKnife σ) (f : String)
    (h : isIndexKey f = true) : RepoKnife.classifyFile st c f = (c, none) := by
  simp only [isIndexKey] at h
  simp [RepoKnife.classifyFile, h]

theorem classifyFile_meta {σ : Type} (st : σ) (c : RepoKnife σ) (f : String)
    (h : isMetaKey f = true) :
    RepoKnife.classifyFile st c f =
      match c.BackendHandler.GetMetadata st f with
      | Except.error err => (c, some err)
      | Except.ok art => ({ c with MetaMap := GoMap.set c.MetaMap f art }, none) := by
  simp only [isMetaKey, isIndexKey, Bool.and_eq_true, Bool.not_eq_true'] at h
  simp [RepoKnife.classifyFile, h.1, h.2]

theorem classifyFile_pkg {σ : Type} (st : σ) (c : RepoKnife σ) (f : String)
    (h : isPkgKey f = true) :
    RepoKnife.classifyFile st c f =
      ({ c with PkgsMap := GoMap.set c.PkgsMap f (siblingMeta f) }, none) := by
  simp only [isPkgKey, isIndexKey, Bool.and_eq_true, Bool.not_eq_true'] at h
  simp [RepoKnife.classifyFile, h.1.1, h.1.2, h.2, siblingMeta]

theorem classifyFile_stray {σ : Type} (st : σ) (c : RepoKnife σ) (f : String)
    (h : isStrayKey f = true) :
    RepoKnife.classifyFile st c f =
      ({ c with Files2Remove := c.Files2Remove ++ [f] }, none) := by
  simp only [isStrayKey, isIndexKey, Bool.and_eq_true, Bool.not_eq_true'] at h
  simp [RepoKnife.classifyFile, h.1.1, h.1.2, h.2]

theorem key_class_excl (f : String) :
    (isIndexKey f = true → isMetaKey f = false ∧ isPkgKey f = false ∧ isStrayKey f = false) ∧
    (isMetaKey f = true → isPkgKey f = false ∧ isStrayKey f = false ∧ isIndexKey f = false) ∧
    (isPkgKey f = true → isStrayKey f = false ∧ isIndexKey f = false ∧ isMetaKey f = false) ∧
    (isStrayKey f = true → isIndexKey f = false ∧ isMetaKey f = false ∧ isPkgKey f = false) := by
  simp only [isMetaKey, isPkgKey, isStrayKey]
  cases isIndexKey f <;> cases RegexEntry f metaFilesRegex <;>
    cases RegexEntry f pkgFilesRegex <;> simp

/-- What a successful classification leaves, from any starting knife. -/
theorem classifyFiles_ok {σ : Type} (st : σ) (files : List String) :
    ∀ (c c2 : RepoKnife σ), RepoKnife.classifyFiles st c files = (c2, none) →
      c2.Specs = c.Specs ∧ c2.BackendHandler = c.BackendHandler ∧
      c2.ReciperRuntime = c.ReciperRuntime ∧ c2.ProcessedFiles = c.ProcessedFiles ∧
      c2.Files2Remove = c.Files2Remove ++ files.filter (fun f => isStrayKey f) ∧
      (∀ k, GoMap.get? c2.MetaMap k =
        if k ∈ files ∧ isMetaKey k = true then (c.BackendHandler.GetMetadata st k).toOption
        else GoMap.get? c.MetaMap k) ∧
      (∀ k, GoMap.get? c2.PkgsMap k =
        if k ∈ files ∧ isPkgKey k = true then some (siblingMeta k)
        else GoMap.get? c.PkgsMap k) ∧
      ((GoMap.keys c.MetaMap).Nodup → (GoMap.keys c2.MetaMap).Nodup) ∧
      ((GoMap.keys c.PkgsMap).Nodup → (GoMap.keys c2.PkgsMap).Nodup) ∧
      (∀ k ∈ files, isMetaKey k = true →
        ∃ art, c.BackendHandler.GetMetadata st k = Except.ok art) := by
  induction files with
  | nil =>
    intro c c2 h
    simp only [RepoKnife.classifyFiles, Prod.mk.injEq, and_true] at h
    subst h
    simp
  | cons f rest ih =>
    intro c c2 h
    have hx := key_class_excl f
    rcases key_class_cases f with hc | hc | hc | hc
    · -- repository file: skipped
      simp only [RepoKnife.classifyFiles, classifyFile_index st c f hc] at h
      obtain ⟨h1, h2, h3, h4, h5, h6, h7, h8, h9, h10⟩ := ih c c2 h
      have hm := (hx.1 hc).1
      have hp := (hx.1 hc).2.1
      have hs := (hx.1 hc).2.2
      refine ⟨h1, h2, h3, h4, ?_, ?_, ?_, h8, h9, ?_⟩
      · simp [h5, List.filter, hs]
      · intro k
        rw [h6 k]
        by_cases hk : k = f
        · subst hk; simp [hm]
        · simp [hk]
      · intro k
        rw [h7 k]
        by_cases hk : k = f
        · subst hk; simp [hp]
        · simp [hk]
      · intro k hk hkm
        rcases List.mem_cons.mp hk with e | e
        · subst e; rw [hm] at hkm; exact Bool.noConfusion hkm
        · exact h10 k e hkm
    · -- metadata file
      rw [RepoKnife.classifyFiles, classifyFile_meta st c f hc] at h
      cases hg : c.BackendHandler.GetMetadata st f with
      | error err => simp [hg] at h
      | ok art =>
        simp only [hg] at h
        obtain ⟨h1, h2, h3, h4, h5, h6, h7, h8, h9, h10⟩ := ih _ c2 h
        have hp := (hx.2.1 hc).1
        have hs := (hx.2.1 hc).2.1
        refine ⟨h1, h2, h3, h4, ?_, ?_, ?_, ?_, h9, ?_⟩
        · simp [h5, List.filter, hs]
        · intro k
          rw [h6 k]
          simp only [GoMap.get?_set]
          by_cases hk : k = f
          · subst hk; simp [hc, hg, Except.toOption]
          · simp [hk]
        · intro k
          rw [h7 k]
          by_cases hk : k = f
          · subst hk; simp [hp]
          · simp [hk]
        · intro hn
          exact h8 (GoMap.keys_set_nodup _ _ _ hn)
        · intro k hk hkm
          rcases List.mem_cons.mp hk with e | e
          · subst e; exact ⟨art, hg⟩
          · exact h10 k e hkm
    · -- package tarball
      simp only [RepoKnife.classifyFiles, classifyFile_pkg st c f hc] at h
      obtain ⟨h1, h2, h3, h4, h5, h6, h7, h8, h9, h10⟩ := ih _ c2 h
      have hs := (hx.2.2.1 hc).1
      have hm := (hx.2.2.1 hc).2.2
      refine ⟨h1, h2, h3, h4, ?_, ?_, ?_, h8, ?_, ?_⟩
      · simp [h5, List.filter, hs]
      · intro k
        rw [h6 k]
        by_cases hk : k = f
        · subst hk; simp [hm]
        · simp [hk]
      · intro k
        rw [h7 k]
        simp only [GoMap.get?_set]
        by_cases hk : k = f
        · subst hk; simp [hc]
        · simp [hk]
      · intro hn
        exact h9 (GoMap.keys_set_nodup _ _ _ hn)
      · intro k hk hkm
        rcases List.mem_cons.mp hk with e | e
        · subst e; rw [hm] at hkm; exact Bool.noConfusion hkm
        · exact h10 k e hkm
    · -- anything else: file to remove
      simp only [RepoKnife.classifyFiles, classifyFile_stray st c f hc] at h
      obtain ⟨h1, h2, h3, h4, h5, h6, h7, h8, h9, h10⟩ := ih _ c2 h
      have hm := (hx.2.2.2 hc).2.1
      have hp := (hx.2.2.2 hc).2.2
      refine ⟨h1, h2, h3, h4, ?_, ?_, ?_, h8, h9, ?_⟩
      · simp [h5, List.filter, hc, List.append_assoc]
      · intro k
        rw [h6 k]
        by_cases hk : k = f
        · subst hk; simp [hm]
        · simp [hk]
      · intro k
        rw [h7 k]
        by_cases hk : k = f
        · subst hk; simp [hp]
        · simp [hk]
      · intro k hk hkm
        rcases List.mem_cons.mp hk with e | e
        · subst e; rw [hm] at hkm; exact Bool.noConfusion hkm
        · exact h10 k e hkm

theorem classifyFile_frame {σ : Type} (st : σ) (c : RepoKnife σ) (f : String) :
    (RepoKnife.classifyFile st c f).1.BackendHandler = c.BackendHandler := by
  rcases key_class_cases f with hc | hc | hc | hc
  · rw [classifyFile_index st c f hc]
  · rw [classifyFile_meta st c f hc]
    cases c.BackendHandler.GetMetadata st f <;> rfl
  · rw [classifyFile_pkg st c f hc]
  · rw [classifyFile_stray st c f hc]

/-- The classification succeeds exactly when every metadata file decodes. -/
theorem classifyFiles_none_iff {σ : Type} (st : σ) (files : List String) :
    ∀ (c : RepoKnife σ), (RepoKnife.classifyFiles st c files).2 = none ↔
      ∀ k ∈ files, isMetaKey k = true →
        ∃ art, c.BackendHandler.GetMetadata st k = Except.ok art := by
  induction files with
  | nil => intro c; simp [RepoKnife.classifyFiles]
  | cons f rest ih =>
    intro c
    have hx := key_class_excl f
    have hstep : ∀ c1, RepoKnife.classifyFile st c f = (c1, none) →
        ((RepoKnife.classifyFiles st c (f :: rest)).2 = none ↔
          ∀ k ∈ rest, isMetaKey k = true →
            ∃ art, c.BackendHandler.GetMetadata st k = Except.ok art) := by
      intro c1 h1
      have hb : c1.BackendHandler = c.BackendHandler := by
        have := classifyFile_frame st c f
        rw [h1] at this
        exact this
      simp only [RepoKnife.classifyFiles, h1]
      rw [ih c1, hb]
    rcases key_class_cases f with hc | hc | hc | hc
    · rw [hstep c (classifyFile_index st c f hc)]
      have hm := (hx.1 hc).1
      constructor
      · intro h k hk hkm
        rcases List.mem_cons.mp hk with e | e
        · subst e; rw [hm] at hkm; exact Bool.noConfusion hkm
        · exact h k e hkm
      · intro h k hk hkm
        exact h k (List.mem_cons_of_mem _ hk) hkm
    · cases hg : c.BackendHandler.GetMetadata st f with
      | error err =>
        have h1 : RepoKnife.classifyFile st c f = (c, some err) := by
          rw [classifyFile_meta st c f hc, hg]
        simp only [RepoKnife.classifyFiles, h1]
        constructor
        · intro h; cases h
        · intro h
          obtain ⟨art, ha⟩ := h f (List.mem_cons_self _ _) hc
          rw [hg] at ha
          cases ha
      | ok art =>
        have h1 : RepoKnife.classifyFile st c f
            = ({ c with MetaMap := GoMap.set c.MetaMap f art }, none) := by
          rw [classifyFile_meta st c f hc, hg]
        rw [hstep _ h1]
        constructor
        · intro h k hk hkm
          rcases List.mem_cons.mp hk with e | e
          · subst e; exact ⟨art, hg⟩
          · exact h k e hkm
        · intro h k hk hkm
          exact h k (List.mem_cons_of_mem _ hk) hkm
    · rw [hstep _ (classifyFile_pkg st c f hc)]
      have hm := (hx.2.2.1 hc).2.2
      constructor
      · intro h k hk hkm
        rcases List.mem_cons.mp hk with e | e
        · subst e; rw [hm] at hkm; exact Bool.noConfusion hkm
        · exact h k e hkm
      · intro h k hk hkm
        exact h k (List.mem_cons_of_mem _ hk) hkm
    · rw [hstep _ (classifyFile_stray st c f hc)]
      have hm := (hx.2.2.2 hc).2.1
      constructor
      · intro h k hk hkm
        rcases List.mem_cons.mp hk with e | e
        · subst e; rw [hm] at hkm; exact Bool.noConfusion hkm
        · exact h k e hkm
      · intro h k hk hkm
        exact h k (List.mem_cons_of_mem _ hk) hkm

/-! ## Membership in what the loops append -/

theorem mem_orphanMeta (pkgs : GoMap String) (es : List (String × PackageArtifact))
    (k : String) :
    k ∈ orphanMeta pkgs es ↔
      ∃ art, (k, art) ∈ es ∧ GoMap.has pkgs (Base art.Path) = false := by
  induction es with
  | nil => simp [orphanMeta]
  | cons e es ih =>
    obtain ⟨m, a⟩ := e
    by_cases h : GoMap.has pkgs (Base a.Path) = true
    · simp only [orphanMeta, h, if_true, ih, List.mem_cons, Prod.mk.injEq]
      constructor
      · rintro ⟨art, h1, h2⟩; exact ⟨art, Or.inr h1, h2⟩
      · rintro ⟨art, h1 | h1, h2⟩
        · rw [h1.2, h] at h2; exact Bool.noConfusion h2
        · exact ⟨art, h1, h2⟩
    · have hf : GoMap.has pkgs (Base a.Path) = false := by
        cases hb : GoMap.has pkgs (Base a.Path)
        · rfl
        · exact absurd hb h
      simp only [orphanMeta, hf, Bool.false_eq_true, if_false, List.mem_cons, ih,
        Prod.mk.injEq]
      constructor
      · rintro (h1 | ⟨art, h1, h2⟩)
        · exact ⟨a, Or.inl ⟨h1, rfl⟩, hf⟩
        · exact ⟨art, Or.inr h1, h2⟩
      · rintro ⟨art, h1 | h1, h2⟩
        · exact Or.inl h1.1
        · exact Or.inr ⟨art, h1, h2⟩

theorem mem_orphanPkgs (metas : GoMap PackageArtifact) (es : List (String × String))
    (k : String) :
    k ∈ orphanPkgs metas es ↔ ∃ v, (k, v) ∈ es ∧ GoMap.has metas v = false := by
  induction es with
  | nil => simp [orphanPkgs]
  | cons e es ih =>
    obtain ⟨p, w⟩ := e
    by_cases h : GoMap.has metas w = true
    · simp only [orphanPkgs, h, if_true, ih, List.mem_cons, Prod.mk.injEq]
      constructor
      · rintro ⟨v, h1, h2⟩; exact ⟨v, Or.inr h1, h2⟩
      · rintro ⟨v, h1 | h1, h2⟩
        · rw [h1.2, h] at h2; exact Bool.noConfusion h2
        · exact ⟨v, h1, h2⟩
    · have hf : GoMap.has metas w = false := by
        cases hb : GoMap.has metas w
        · rfl
        · exact absurd hb h
      simp only [orphanPkgs, hf, Bool.false_eq_true, if_false, List.mem_cons, ih,
        Prod.mk.injEq]
      constructor
      · rintro (h1 | ⟨v, h1, h2⟩)
        · exact ⟨w, Or.inl ⟨h1, rfl⟩, hf⟩
        · exact ⟨v, Or.inr h1, h2⟩
      · rintro ⟨v, h1 | h1, h2⟩
        · exact Or.inl h1.1
        · exact Or.inr ⟨v, h1, h2⟩

theorem mem_staleFiles (db : InMemoryDatabase) (es : List (String × PackageArtifact))
    (k : String) :
    k ∈ staleFiles db es ↔
      ∃ m art, (m, art) ∈ es ∧ db.FindPackage (searchPackage art) = none ∧
        (k = m ∨ k = Base art.Path) := by
  induction es with
  | nil => simp [staleFiles]
  | cons e es ih =>
    obtain ⟨m0, a⟩ := e
    cases h : db.FindPackage (searchPackage a) with
    | none =>
      simp only [staleFiles, h, List.mem_cons, ih, Prod.mk.injEq]
      constructor
      · rintro (h1 | h1 | ⟨m, art, h1, h2, h3⟩)
        · exact ⟨m0, a, Or.inl ⟨rfl, rfl⟩, h, Or.inl h1⟩
        · exact ⟨m0, a, Or.inl ⟨rfl, rfl⟩, h, Or.inr h1⟩
        · exact ⟨m, art, Or.inr h1, h2, h3⟩
      · rintro ⟨m, art, h1 | h1, h2, h3⟩
        · rcases h3 with h3 | h3
          · exact Or.inl (h3.trans h1.1)
          · exact Or.inr (Or.inl (by rw [h3, h1.2]))
        · exact Or.inr (Or.inr ⟨m, art, h1, h2, h3⟩)
    | some q =>
      simp only [staleFiles, h, List.mem_cons, ih, Prod.mk.injEq]
      constructor
      · rintro ⟨m, art, h1, h2, h3⟩; exact ⟨m, art, Or.inr h1, h2, h3⟩
      · rintro ⟨m, art, h1 | h1, h2, h3⟩
        · rw [h1.2, h] at h2; cases h2
        · exact ⟨m, art, h1, h2, h3⟩

/-! ## The classified view -/

theorem toOption_eq_some {α : Type} (r : Except Error α) (a : α) :
    r.toOption = some a ↔ r = Except.ok a := by
  cases r with
  | error e => simp [Except.toOption]
  | ok b => simp [Except.toOption]

/-- The maps and the removal list after a successful classification of `files`
from the reset knife. -/
theorem classified_view {σ : Type} (st : σ) (c : RepoKnife σ) (listing files : List String)
    (c2 : RepoKnife σ)
    (h : RepoKnife.classifyFiles st (c.start listing) files = (c2, none)) :
    (∀ k art, (k, art) ∈ c2.MetaMap ↔
      (k ∈ files ∧ isMetaKey k = true ∧ c.BackendHandler.GetMetadata st k = Except.ok art)) ∧
    (∀ p v, (p, v) ∈ c2.PkgsMap ↔ (p ∈ files ∧ isPkgKey p = true ∧ v = siblingMeta p)) ∧
    (∀ k, GoMap.has c2.MetaMap k = true ↔ (k ∈ files ∧ isMetaKey k = true)) ∧
    (∀ p, GoMap.has c2.PkgsMap p = true ↔ (p ∈ files ∧ isPkgKey p = true)) ∧
    c2.Files2Remove = files.filter (fun f => isStrayKey f) ∧
    c2.ReciperRuntime = c.ReciperRuntime ∧ c2.BackendHandler = c.BackendHandler ∧
    c2.Specs = c.Specs ∧ c2.ProcessedFiles = listing.length := by
  obtain ⟨h1, h2, h3, h4, h5, h6, h7, h8, h9, h10⟩ := classifyFiles_ok st files _ c2 h
  have hnm : (GoMap.keys c2.MetaMap).Nodup := h8 (by simp [RepoKnife.start, GoMap.keys])
  have hnp : (GoMap.keys c2.PkgsMap).Nodup := h9 (by simp [RepoKnife.start, GoMap.keys])
  have hb : (c.start listing).BackendHandler = c.BackendHandler := rfl
  have g6 : ∀ k, GoMap.get? c2.MetaMap k =
      if k ∈ files ∧ isMetaKey k = true then (c.BackendHandler.GetMetadata st k).toOption
      else none := by
    intro k; rw [h6 k, hb]; rfl
  have g7 : ∀ k, GoMap.get? c2.PkgsMap k =
      if k ∈ files ∧ isPkgKey k = true then some (siblingMeta k) else none := by
    intro k; rw [h7 k]; rfl
  refine ⟨?_, ?_, ?_, ?_, ?_, h3, h2, h1, h4⟩
  · intro k art
    constructor
    · intro hm
      have hg := GoMap.get?_of_mem _ hnm k art hm
      rw [g6 k] at hg
      by_cases hc : k ∈ files ∧ isMetaKey k = true
      · rw [if_pos hc] at hg
        exact ⟨hc.1, hc.2, (toOption_eq_some _ _).mp hg⟩
      · rw [if_neg hc] at hg; cases hg
    · rintro ⟨hf, hm, hg⟩
      apply GoMap.mem_of_get?
      rw [g6 k, if_pos ⟨hf, hm⟩]
      exact (toOption_eq_some _ _).mpr hg
  · intro p v
    constructor
    · intro hm
      have hg := GoMap.get?_of_mem _ hnp p v hm
      rw [g7 p] at hg
      by_cases hc : p ∈ files ∧ isPkgKey p = true
      · rw [if_pos hc] at hg
        exact ⟨hc.1, hc.2, (Option.some.inj hg).symm⟩
      · rw [if_neg hc] at hg; cases hg
    · rintro ⟨hf, hm, hv⟩
      apply GoMap.mem_of_get?
      rw [g7 p, if_pos ⟨hf, hm⟩, hv]
  · intro k
    rw [GoMap.has_eq_isSome, g6 k]
    by_cases hc : k ∈ files ∧ isMetaKey k = true
    · rw [if_pos hc]
      obtain ⟨art, ha⟩ := h10 k hc.1 hc.2
      rw [hb] at ha
      simp [ha, Except.toOption, hc.1, hc.2]
    · rw [if_neg hc]
      simp only [Option.isSome_none, Bool.false_eq_true, false_iff]
      exact hc
  · intro p
    rw [GoMap.has_eq_isSome, g7 p]
    by_cases hc : p ∈ files ∧ isPkgKey p = true
    · rw [if_pos hc]; simp [hc.1, hc.2]
    · rw [if_neg hc]
      simp only [Option.isSome_none, Bool.false_eq_true, false_iff]
      exact hc
  · rw [h5]; rfl

theorem classified_nodup {σ : Type} (st : σ) (c : RepoKnife σ) (listing files : List String)
    (c2 : RepoKnife σ)
    (h : RepoKnife.classifyFiles st (c.start listing) files = (c2, none)) :
    (GoMap.keys c2.MetaMap).Nodup ∧ (GoMap.keys c2.PkgsMap).Nodup := by
  obtain ⟨_, _, _, _, _, _, _, h8, h9, _⟩ := classifyFiles_ok st files _ c2 h
  exact ⟨h8 (by simp [RepoKnife.start, GoMap.keys]), h9 (by simp [RepoKnife.start, GoMap.keys])⟩

/-! ## `Analyze` in closed form -/

theorem surviving_eq {σ : Type} (c : RepoKnife σ) (files : List String) :
    (if c.Specs.GetCleaner.HasExcludes = true then c.GetFilteredList files
     else Except.ok files) = Except.ok (c.surviving files) := by
  by_cases h : c.Specs.GetCleaner.HasExcludes = true
  · rw [if_pos h]; rfl
  · rw [if_neg h]
    have he : c.Specs.GetCleaner.Excludes = [] := by
      simp only [AniseRDCCleaner.HasExcludes, gt_iff_lt, decide_eq_true_eq, not_lt,
        Nat.le_zero, List.length_eq_zero] at h
      exact h
    have : c.surviving files = files := by
      simp [RepoKnife.surviving, he, RegexEntry]
    rw [this]

theorem mem_surviving {σ : Type} (c : RepoKnife σ) (files : List String) (k : String) :
    k ∈ c.surviving files ↔ k ∈ files ∧ RegexEntry k c.Specs.GetCleaner.Excludes = false := by
  simp [RepoKnife.surviving, List.mem_filter]

theorem ite_surviving {σ : Type} (c : RepoKnife σ) (files : List String) :
    (if c.Specs.GetCleaner.HasExcludes = true
     then (Except.ok (files.filter (fun f => !RegexEntry f c.Specs.GetCleaner.Excludes)) :
       Except Error (List String))
     else Except.ok files) = Except.ok (c.surviving files) := by
  have := surviving_eq c files
  simpa [RepoKnife.GetFilteredList] using this

/-- The result of `Analyze` when the listing succeeds, in terms of the
classification of the surviving files. -/
theorem Analyze_of_listing {σ : Type} (c : RepoKnife σ) (ord : RangeOrder) (st : σ)
    (listing : List String) (hl : c.BackendHandler.GetFilesList st = Except.ok listing) :
    c.Analyze ord st =
      match RepoKnife.classifyFiles st (c.start listing) (c.surviving listing) with
      | (c2, some err) => (c2, some err)
      | (c2, none) =>
        ({ c2 with Files2Remove :=
            c2.Files2Remove ++ (orphanMeta c2.PkgsMap (ord.metaOrder 0 c2.MetaMap) ++
              (orphanPkgs c2.MetaMap (ord.pkgsOrder 1 c2.PkgsMap) ++
                staleFiles c2.ReciperRuntime (ord.metaOrder 2 c2.MetaMap))) }, none) := by
  simp only [RepoKnife.Analyze, hl, RepoKnife.GetFilteredList, ite_surviving]
  simp only [RepoKnife.start]
  generalize hcl0 : RepoKnife.classifyFiles st _ (c.surviving listing) = r
  have hcl1 : RepoKnife.classifyFiles st (c.start listing) (c.surviving listing) = r := hcl0
  clear hcl0
  cases r with
  | mk c2 err =>
    cases err with
    | some e => rfl
    | none =>
      have hcl := hcl1
      obtain ⟨v1, v2, v3, v4, v5, v6, v7, v8, v9⟩ :=
        classified_view st c listing (c.surviving listing) c2 hcl
      simp only [checkMetaFiles_eq]
      have hno : ∀ m ∈ orphanMeta c2.PkgsMap (ord.metaOrder 0 c2.MetaMap),
          GoMap.has c2.PkgsMap m = false := by
        intro m hm
        obtain ⟨art, ha, _⟩ := (mem_orphanMeta _ _ _).mp hm
        have ha2 : (m, art) ∈ c2.MetaMap := (ord.metaOrder_perm 0 _).mem_iff.mp ha
        have hmk := ((v1 m art).mp ha2).2.1
        cases hb : GoMap.has c2.PkgsMap m with
        | false => rfl
        | true =>
          have := ((v4 m).mp hb).2
          have hx := ((key_class_excl m).2.1 hmk).1
          rw [hx] at this
          exact Bool.noConfusion this
      rw [deleteMeta2Remove_noop]
      · simp only [checkPkgFiles_eq, CheckFilesWithTrees_eq, List.append_assoc]
      · exact hno

theorem Analyze_err_of_listing {σ : Type} (c : RepoKnife σ) (ord : RangeOrder) (st : σ)
    (listing : List String) (hl : c.BackendHandler.GetFilesList st = Except.ok listing) :
    (c.Analyze ord st).2 =
      (RepoKnife.classifyFiles st (c.start listing) (c.surviving listing)).2 := by
  rw [Analyze_of_listing c ord st listing hl]
  cases RepoKnife.classifyFiles st (c.start listing) (c.surviving listing) with
  | mk c2 err => cases err <;> rfl

theorem Analyze_listing_error {σ : Type} (c : RepoKnife σ) (ord : RangeOrder) (st : σ)
    (err : Error) (hl : c.BackendHandler.GetFilesList st = Except.error err) :
    (c.Analyze ord st).2 = some err := by
  simp only [RepoKnife.Analyze, hl]

/-- A successful `Analyze` comes from a successful listing and a successful
classification of the surviving files. -/
theorem Analyze_success {σ : Type} (c : RepoKnife σ) (ord : RangeOrder) (st : σ)
    (c6 : RepoKnife σ) (h : c.Analyze ord st = (c6, none)) :
    ∃ listing c2, c.BackendHandler.GetFilesList st = Except.ok listing ∧
      RepoKnife.classifyFiles st (c.start listing) (c.surviving listing) = (c2, none) ∧
      c6 = { c2 with Files2Remove :=
            c2.Files2Remove ++ (orphanMeta c2.PkgsMap (ord.metaOrder 0 c2.MetaMap) ++
              (orphanPkgs c2.MetaMap (ord.pkgsOrder 1 c2.PkgsMap) ++
                staleFiles c2.ReciperRuntime (ord.metaOrder 2 c2.MetaMap))) } := by
  cases hl : c.BackendHandler.GetFilesList st with
  | error err =>
    have := Analyze_listing_error c ord st err hl
    rw [h] at this
    cases this
  | ok listing =>
    rw [Analyze_of_listing c ord st listing hl] at h
    cases hcl : RepoKnife.classifyFiles st (c.start listing) (c.surviving listing) with
    | mk c2 err =>
      rw [hcl] at h
      cases err with
      | some e => simp at h
      | none =>
        simp only [Prod.mk.injEq, and_true] at h
        exact ⟨listing, c2, rfl, hcl, h.symm⟩

/-- The classified view after a successful `Analyze`, in terms of the listing:
the entries of both maps and the members of `Files2Remove`. -/
theorem Analyze_view {σ : Type} (c : RepoKnife σ) (ord : RangeOrder) (st : σ)
    (c6 : RepoKnife σ) (h : c.Analyze ord st = (c6, none)) :
    ∃ listing, c.BackendHandler.GetFilesList st = Except.ok listing ∧
      (∀ k art, (k, art) ∈ c6.MetaMap ↔
        (k ∈ c.surviving listing ∧ isMetaKey k = true ∧
          c.BackendHandler.GetMetadata st k = Except.ok art)) ∧
      (∀ p v, (p, v) ∈ c6.PkgsMap ↔
        (p ∈ c.surviving listing ∧ isPkgKey p = true ∧ v = siblingMeta p)) ∧
      (∀ k, GoMap.has c6.MetaMap k = true ↔ (k ∈ c.surviving listing ∧ isMetaKey k = true)) ∧
      (∀ p, GoMap.has c6.PkgsMap p = true ↔ (p ∈ c.surviving listing ∧ isPkgKey p = true)) ∧
      (∀ k, k ∈ c6.Files2Remove ↔
        ((k ∈ c.surviving listing ∧ isStrayKey k = true) ∨
         (∃ art, (k, art) ∈ c6.MetaMap ∧ GoMap.has c6.PkgsMap (Base art.Path) = false) ∨
         (∃ v, (k, v) ∈ c6.PkgsMap ∧ GoMap.has c6.MetaMap v = false) ∨
         (∃ m art, (m, art) ∈ c6.MetaMap ∧
            c.ReciperRuntime.FindPackage (searchPackage art) = none ∧
            (k = m ∨ k = Base art.Path)))) ∧
      c6.ReciperRuntime = c.ReciperRuntime := by
  obtain ⟨listing, c2, hl, hcl, h6⟩ := Analyze_success c ord st c6 h
  obtain ⟨v1, v2, v3, v4, v5, v6, v7, v8, v9⟩ :=
    classified_view st c listing (c.surviving listing) c2 hcl
  have hM : c6.MetaMap = c2.MetaMap := by rw [h6]
  have hP : c6.PkgsMap = c2.PkgsMap := by rw [h6]
  have hR : c6.ReciperRuntime = c2.ReciperRuntime := by rw [h6]
  have hF : c6.Files2Remove =
      c2.Files2Remove ++ (orphanMeta c2.PkgsMap (ord.metaOrder 0 c2.MetaMap) ++
        (orphanPkgs c2.MetaMap (ord.pkgsOrder 1 c2.PkgsMap) ++
          staleFiles c2.ReciperRuntime (ord.metaOrder 2 c2.MetaMap))) := by rw [h6]
  refine ⟨listing, hl, ?_, ?_, ?_, ?_, ?_, hR.trans v6⟩
  · rw [hM]; exact v1
  · rw [hP]; exact v2
  · rw [hM]; exact v3
  · rw [hP]; exact v4
  · intro k
    rw [hF, hM, hP, v5, v6]
    simp only [List.mem_append, List.mem_filter, mem_orphanMeta, mem_orphanPkgs,
      mem_staleFiles, (ord.metaOrder_perm 0 c2.MetaMap).mem_iff,
      (ord.metaOrder_perm 2 c2.MetaMap).mem_iff, (ord.pkgsOrder_perm 1 c2.PkgsMap).mem_iff]

/-- After a successful `Analyze` the keys of each map are distinct. -/
theorem Analyze_nodup {σ : Type} (c : RepoKnife σ) (ord : RangeOrder) (st : σ)
    (c6 : RepoKnife σ) (h : c.Analyze ord st = (c6, none)) :
    (GoMap.keys c6.MetaMap).Nodup ∧ (GoMap.keys c6.PkgsMap).Nodup := by
  obtain ⟨listing, c2, _, hcl, h6⟩ := Analyze_success c ord st c6 h
  have := classified_nodup st c listing _ c2 hcl
  rw [h6]
  exact this

/-- When no record of `MetaMap` lacks its tarball (the basename of every
record's payload path is a key of `PkgsMap`), every entry of `Files2Remove`
after a successful `Analyze` is a listed key that matches no exclude regex and
no repository-index pattern. -/
theorem Files2Remove_listed_of_paired {σ : Type} (c : RepoKnife σ) (ord : RangeOrder)
    (st : σ) (listing : List String)
    (hl : c.BackendHandler.GetFilesList st = Except.ok listing)
    (h : (c.Analyze ord st).2 = none)
    (hpaired : ∀ m art, GoMap.get? (c.Analyze ord st).1.MetaMap m = some art →
      GoMap.has (c.Analyze ord st).1.PkgsMap (Base art.Path) = true) :
    ∀ k ∈ (c.Analyze ord st).1.Files2Remove,
      k ∈ listing ∧ RegexEntry k c.Specs.GetCleaner.Excludes = false ∧
        RegexEntry k repoRegex = false := by
  have hA : c.Analyze ord st = ((c.Analyze ord st).1, none) := Prod.ext rfl h
  obtain ⟨listing2, hl2, hMm, hPm, _, hP, hF, _⟩ := Analyze_view c ord st _ hA
  obtain ⟨nM, _⟩ := Analyze_nodup c ord st _ hA
  have hll : listing2 = listing := by
    rw [hl] at hl2
    exact (Except.ok.inj hl2).symm
  subst hll
  have hmeta : ∀ k, k ∈ c.surviving listing2 → isMetaKey k = true →
      k ∈ listing2 ∧ RegexEntry k c.Specs.GetCleaner.Excludes = false ∧
        RegexEntry k repoRegex = false := by
    intro k hk hm
    have hs := (mem_surviving c listing2 k).mp hk
    exact ⟨hs.1, hs.2, ((key_class_excl k).2.1 hm).2.2⟩
  have hpkg : ∀ k, k ∈ c.surviving listing2 → isPkgKey k = true →
      k ∈ listing2 ∧ RegexEntry k c.Specs.GetCleaner.Excludes = false ∧
        RegexEntry k repoRegex = false := by
    intro k hk hm
    have hs := (mem_surviving c listing2 k).mp hk
    exact ⟨hs.1, hs.2, ((key_class_excl k).2.2.1 hm).2.1⟩
  intro k hk
  rcases (hF k).mp hk with ⟨hs, hst⟩ | ⟨art, hm, _⟩ | ⟨v, hm, _⟩ | ⟨m, art, hm, _, hkm | hkm⟩
  · have hs2 := (mem_surviving c listing2 k).mp hs
    exact ⟨hs2.1, hs2.2, ((key_class_excl k).2.2.2 hst).1⟩
  · have := (hMm k art).mp hm
    exact hmeta k this.1 this.2.1
  · have := (hPm k v).mp hm
    exact hpkg k this.1 this.2.1
  · have := (hMm m art).mp hm
    rw [hkm]
    exact hmeta m this.1 this.2.1
  · have hb := hpaired m art (GoMap.get?_of_mem _ nM m art hm)
    have := (hP _).mp hb
    rw [hkm]
    exact hpkg _ this.1 this.2

/-! ## Claims -/

/-- C1, as stated, fails on scenario S2 (a tarball alone): the analysis
succeeds, the tarball stays a key of `PkgsMap`, and the metadata name stored
for it is not a key of `MetaMap`. -/
theorem C1_pairing_counterexample :
    ((localKnife [] [pkgA]).Analyze RangeOrder.insertion storeS2).2 = none ∧
    ¬ ((∀ m, GoMap.has ((localKnife [] [pkgA]).Analyze RangeOrder.insertion storeS2).1.MetaMap m
            = true →
          ∃ p, GoMap.get? ((localKnife [] [pkgA]).Analyze RangeOrder.insertion storeS2).1.PkgsMap p
            = some m) ∧
       (∀ p v, GoMap.get? ((localKnife [] [pkgA]).Analyze RangeOrder.insertion storeS2).1.PkgsMap p
            = some v →
          GoMap.has ((localKnife [] [pkgA]).Analyze RangeOrder.insertion storeS2).1.MetaMap v
            = true)) := by
  refine ⟨by decide, ?_⟩
  intro h
  have h2 := h.2 "a-1.0.package.tar" "a-1.0.metadata.yaml" (by decide)
  revert h2
  decide

/-- C1, amended: after a successful `Analyze`, every entry of `MetaMap` has the
basename of its record's payload path among the keys of `PkgsMap` or its key in
`Files2Remove`, and every entry of `PkgsMap` has its stored metadata name among
the keys of `MetaMap` or its key in `Files2Remove`. -/
theorem C1_pairing_or_removed {σ : Type} (c : RepoKnife σ) (ord : RangeOrder) (st : σ)
    (h : (c.Analyze ord st).2 = none) :
    (∀ m art, GoMap.get? (c.Analyze ord st).1.MetaMap m = some art →
      GoMap.has (c.Analyze ord st).1.PkgsMap (Base art.Path) = true ∨
        m ∈ (c.Analyze ord st).1.Files2Remove) ∧
    (∀ p v, GoMap.get? (c.Analyze ord st).1.PkgsMap p = some v →
      GoMap.has (c.Analyze ord st).1.MetaMap v = true ∨
        p ∈ (c.Analyze ord st).1.Files2Remove) := by
  have hA : c.Analyze ord st = ((c.Analyze ord st).1, none) := Prod.ext rfl h
  obtain ⟨listing, _, _, _, _, _, hF, _⟩ := Analyze_view c ord st _ hA
  constructor
  · intro m art hg
    have hm := GoMap.mem_of_get? _ _ _ hg
    cases hb : GoMap.has (c.Analyze ord st).1.PkgsMap (Base art.Path) with
    | true => exact Or.inl rfl
    | false => exact Or.inr ((hF m).mpr (Or.inr (Or.inl ⟨art, hm, hb⟩)))
  · intro p v hg
    have hm := GoMap.mem_of_get? _ _ _ hg
    cases hb : GoMap.has (c.Analyze ord st).1.MetaMap v with
    | true => exact Or.inl rfl
    | false => exact Or.inr ((hF p).mpr (Or.inr (Or.inr (Or.inl ⟨v, hm, hb⟩))))

/-- C1, amended, on the mixed store (a stray, a metadata file alone, a tarball
alone and a pair). -/
theorem C1_pairing_or_removed_witness :
    ((localKnife [] [pkgA]).Analyze RangeOrder.reversed storeMixed).2 = none ∧
    ((∀ m art,
        GoMap.get? ((localKnife [] [pkgA]).Analyze RangeOrder.reversed storeMixed).1.MetaMap m
          = some art →
        GoMap.has ((localKnife [] [pkgA]).Analyze RangeOrder.reversed storeMixed).1.PkgsMap
          (Base art.Path) = true ∨
        m ∈ ((localKnife [] [pkgA]).Analyze RangeOrder.reversed storeMixed).1.Files2Remove) ∧
     (∀ p v,
        GoMap.get? ((localKnife [] [pkgA]).Analyze RangeOrder.reversed storeMixed).1.PkgsMap p
          = some v →
        GoMap.has ((localKnife [] [pkgA]).Analyze RangeOrder.reversed storeMixed).1.MetaMap v
          = true ∨
        p ∈ ((localKnife [] [pkgA]).Analyze RangeOrder.reversed storeMixed).1.Files2Remove)) :=
  ⟨by decide,
   C1_pairing_or_removed (localKnife [] [pkgA]) RangeOrder.reversed storeMixed (by decide)⟩

/-- C2, as stated, fails on scenario S4 with a tree that holds only `cat/b`:
the analysis succeeds, the record of `cat/a` is still in `MetaMap`, and the
tree has no definition with its category and name. -/
theorem C2_tree_membership_counterexample :
    ((localKnife [] [pkgB]).Analyze RangeOrder.insertion storeS4).2 = none ∧
    ¬ (∀ m art,
        GoMap.get? ((localKnife [] [pkgB]).Analyze RangeOrder.insertion storeS4).1.MetaMap m
          = some art →
        ∃ d ∈ (localKnife [] [pkgB]).ReciperRuntime.World,
          d.Category = art.CompileSpec.Package.Category ∧
          d.Name = art.CompileSpec.Package.Name) := by
  refine ⟨by decide, ?_⟩
  intro h
  obtain ⟨d, hd, hc, hn⟩ := h "a-1.0.metadata.yaml" artA (by decide)
  have hd2 : d = pkgB := by simpa [localKnife] using hd
  subst hd2
  revert hn
  decide

/-- C2, amended: after a successful `Analyze`, for every record of `MetaMap`
whose key is not an entry of `Files2Remove`, the runtime tree contains a
definition with the record's category and name. -/
theorem C2_tree_membership_unless_removed {σ : Type} (c : RepoKnife σ) (ord : RangeOrder)
    (st : σ) (h : (c.Analyze ord st).2 = none) :
    ∀ m art, GoMap.get? (c.Analyze ord st).1.MetaMap m = some art →
      m ∉ (c.Analyze ord st).1.Files2Remove →
      ∃ d ∈ c.ReciperRuntime.World,
        d.Category = art.CompileSpec.Package.Category ∧
        d.Name = art.CompileSpec.Package.Name := by
  have hA : c.Analyze ord st = ((c.Analyze ord st).1, none) := Prod.ext rfl h
  obtain ⟨listing, _, _, _, _, _, hF, _⟩ := Analyze_view c ord st _ hA
  intro m art hg hnot
  have hm := GoMap.mem_of_get? _ _ _ hg
  cases hf : c.ReciperRuntime.FindPackage (searchPackage art) with
  | none =>
    exact absurd ((hF m).mpr (Or.inr (Or.inr (Or.inr ⟨m, art, hm, hf, Or.inl rfl⟩)))) hnot
  | some d =>
    have hmem := List.mem_of_find?_eq_some hf
    have hp := List.find?_some hf
    simp only [searchPackage, NewPackage, Bool.and_eq_true, beq_iff_eq] at hp
    exact ⟨d, hmem, hp.1.1, hp.1.2⟩

/-- C2, amended, on scenario S1 with the tree of `cat/a`. -/
theorem C2_tree_membership_unless_removed_witness :
    ((localKnife [] [pkgA]).Analyze RangeOrder.insertion storeS1).2 = none ∧
    (∀ m art,
      GoMap.get? ((localKnife [] [pkgA]).Analyze RangeOrder.insertion storeS1).1.MetaMap m
        = some art →
      m ∉ ((localKnife [] [pkgA]).Analyze RangeOrder.insertion storeS1).1.Files2Remove →
      ∃ d ∈ (localKnife [] [pkgA]).ReciperRuntime.World,
        d.Category = art.CompileSpec.Package.Category ∧
        d.Name = art.CompileSpec.Package.Name) :=
  ⟨by decide,
   C2_tree_membership_unless_removed (localKnife [] [pkgA]) RangeOrder.insertion storeS1
     (by decide)⟩

/-- C3, as stated, fails on scenario S2 (a tarball alone): the listed key
`a-1.0.package.tar` survives, and after the successful analysis it is both a
key of `PkgsMap` and an entry of `Files2Remove`, so it is not in exactly one of
the four sets. -/
theorem C3_partition_counterexample :
    BackendLocal.GetFilesList storeS2 = Except.ok ["a-1.0.package.tar"] ∧
    ((localKnife [] [pkgA]).Analyze RangeOrder.insertion storeS2).2 = none ∧
    RegexEntry "a-1.0.package.tar" (localKnife [] [pkgA]).Specs.GetCleaner.Excludes = false ∧
    GoMap.has ((localKnife [] [pkgA]).Analyze RangeOrder.insertion storeS2).1.PkgsMap
      "a-1.0.package.tar" = true ∧
    "a-1.0.package.tar" ∈
      ((localKnife [] [pkgA]).Analyze RangeOrder.insertion storeS2).1.Files2Remove ∧
    ¬ ((GoMap.has ((localKnife [] [pkgA]).Analyze RangeOrder.insertion storeS2).1.MetaMap
          "a-1.0.package.tar" = true ∧
        ¬ GoMap.has ((localKnife [] [pkgA]).Analyze RangeOrder.insertion storeS2).1.PkgsMap
          "a-1.0.package.tar" = true ∧
        "a-1.0.package.tar" ∉
          ((localKnife [] [pkgA]).Analyze RangeOrder.insertion storeS2).1.Files2Remove ∧
        ¬ RegexEntry "a-1.0.package.tar" repoRegex = true) ∨
       (¬ GoMap.has ((localKnife [] [pkgA]).Analyze RangeOrder.insertion storeS2).1.MetaMap
          "a-1.0.package.tar" = true ∧
        GoMap.has ((localKnife [] [pkgA]).Analyze RangeOrder.insertion storeS2).1.PkgsMap
          "a-1.0.package.tar" = true ∧
        "a-1.0.package.tar" ∉
          ((localKnife [] [pkgA]).Analyze RangeOrder.insertion storeS2).1.Files2Remove ∧
        ¬ RegexEntry "a-1.0.package.tar" repoRegex = true) ∨
       (¬ GoMap.has ((localKnife [] [pkgA]).Analyze RangeOrder.insertion storeS2).1.MetaMap
          "a-1.0.package.tar" = true ∧
        ¬ GoMap.has ((localKnife [] [pkgA]).Analyze RangeOrder.insertion storeS2).1.PkgsMap
          "a-1.0.package.tar" = true ∧
        "a-1.0.package.tar" ∈
          ((localKnife [] [pkgA]).Analyze RangeOrder.insertion storeS2).1.Files2Remove ∧
        ¬ RegexEntry "a-1.0.package.tar" repoRegex = true) ∨
       (¬ GoMap.has ((localKnife [] [pkgA]).Analyze RangeOrder.insertion storeS2).1.MetaMap
          "a-1.0.package.tar" = true ∧
        ¬ GoMap.has ((localKnife [] [pkgA]).Analyze RangeOrder.insertion storeS2).1.PkgsMap
          "a-1.0.package.tar" = true ∧
        "a-1.0.package.tar" ∉
          ((localKnife [] [pkgA]).Analyze RangeOrder.insertion storeS2).1.Files2Remove ∧
        RegexEntry "a-1.0.package.tar" repoRegex = true)) :=
  ⟨rfl, by decide, by decide, by decide, by decide, by decide⟩

/-- C3, amended: after a successful `Analyze`, every listed key that survives
exclude filtering is in at least one of the keys of `MetaMap`, the keys of
`PkgsMap`, the entries of `Files2Remove` and the keys matching a
repository-index pattern, and in at most one of the keys of `MetaMap`, the keys
of `PkgsMap` and the keys matching a repository-index pattern. -/
theorem C3_cover_and_disjoint {σ : Type} (c : RepoKnife σ) (ord : RangeOrder) (st : σ)
    (listing : List String) (hl : c.BackendHandler.GetFilesList st = Except.ok listing)
    (h : (c.Analyze ord st).2 = none) :
    ∀ k ∈ listing, RegexEntry k c.Specs.GetCleaner.Excludes = false →
      (GoMap.has (c.Analyze ord st).1.MetaMap k = true ∨
       GoMap.has (c.Analyze ord st).1.PkgsMap k = true ∨
       k ∈ (c.Analyze ord st).1.Files2Remove ∨
       RegexEntry k repoRegex = true) ∧
      ¬ (GoMap.has (c.Analyze ord st).1.MetaMap k = true ∧
         GoMap.has (c.Analyze ord st).1.PkgsMap k = true) ∧
      ¬ (GoMap.has (c.Analyze ord st).1.MetaMap k = true ∧ RegexEntry k repoRegex = true) ∧
      ¬ (GoMap.has (c.Analyze ord st).1.PkgsMap k = true ∧ RegexEntry k repoRegex = true) := by
  have hA : c.Analyze ord st = ((c.Analyze ord st).1, none) := Prod.ext rfl h
  obtain ⟨listing2, hl2, _, _, hM, hP, hF, _⟩ := Analyze_view c ord st _ hA
  have hll : listing2 = listing := by
    rw [hl] at hl2
    exact (Except.ok.inj hl2).symm
  subst hll
  intro k hk hex
  have hs : k ∈ c.surviving listing2 := (mem_surviving c listing2 k).mpr ⟨hk, hex⟩
  have hx := key_class_excl k
  refine ⟨?_, ?_, ?_, ?_⟩
  · rcases key_class_cases k with hc | hc | hc | hc
    · exact Or.inr (Or.inr (Or.inr hc))
    · exact Or.inl ((hM k).mpr ⟨hs, hc⟩)
    · exact Or.inr (Or.inl ((hP k).mpr ⟨hs, hc⟩))
    · exact Or.inr (Or.inr (Or.inl ((hF k).mpr (Or.inl ⟨hs, hc⟩))))
  · rintro ⟨h1, h2⟩
    have a := ((hM k).mp h1).2
    have b := ((hP k).mp h2).2
    rw [(hx.2.1 a).1] at b
    exact Bool.noConfusion b
  · rintro ⟨h1, h2⟩
    have a := ((hM k).mp h1).2
    have b : isIndexKey k = true := h2
    rw [(hx.2.1 a).2.2] at b
    exact Bool.noConfusion b
  · rintro ⟨h1, h2⟩
    have a := ((hP k).mp h1).2
    have b : isIndexKey k = true := h2
    rw [(hx.2.2.1 a).2.1] at b
    exact Bool.noConfusion b

/-- C3, amended, on scenario S1. -/
theorem C3_cover_and_disjoint_witness :
    BackendLocal.GetFilesList storeS1 =
      Except.ok ["a-1.0.package.tar", "a-1.0.metadata.yaml", "stray.txt", "repository.yaml"] ∧
    ((localKnife [] [pkgA]).Analyze RangeOrder.insertion storeS1).2 = none ∧
    (∀ k ∈ ["a-1.0.package.tar", "a-1.0.metadata.yaml", "stray.txt", "repository.yaml"],
      RegexEntry k (localKnife [] [pkgA]).Specs.GetCleaner.Excludes = false →
      (GoMap.has ((localKnife [] [pkgA]).Analyze RangeOrder.insertion storeS1).1.MetaMap k
          = true ∨
       GoMap.has ((localKnife [] [pkgA]).Analyze RangeOrder.insertion storeS1).1.PkgsMap k
          = true ∨
       k ∈ ((localKnife [] [pkgA]).Analyze RangeOrder.insertion storeS1).1.Files2Remove ∨
       RegexEntry k repoRegex = true) ∧
      ¬ (GoMap.has ((localKnife [] [pkgA]).Analyze RangeOrder.insertion storeS1).1.MetaMap k
          = true ∧
         GoMap.has ((localKnife [] [pkgA]).Analyze RangeOrder.insertion storeS1).1.PkgsMap k
          = true) ∧
      ¬ (GoMap.has ((localKnife [] [pkgA]).Analyze RangeOrder.insertion storeS1).1.MetaMap k
          = true ∧ RegexEntry k repoRegex = true) ∧
      ¬ (GoMap.has ((localKnife [] [pkgA]).Analyze RangeOrder.insertion storeS1).1.PkgsMap k
          = true ∧ RegexEntry k repoRegex = true)) :=
  ⟨rfl, by decide,
   C3_cover_and_disjoint (localKnife [] [pkgA]) RangeOrder.insertion storeS1 _ rfl
     (by decide)⟩

/-- C4 at its failing input: a metadata file whose record names
`repository.yaml` as payload, with no tarball and a package that is not in the
tree. The analysis succeeds and `repository.yaml`, which matches a
repository-index pattern and is listed, is an entry of `Files2Remove`. -/
theorem C4_index_key_in_Files2Remove :
    ((localKnife [] []).Analyze RangeOrder.insertion storeIndexPath).2 = none ∧
    RegexEntry "repository.yaml" repoRegex = true ∧
    ((localKnife [] []).Analyze RangeOrder.insertion storeIndexPath).1.Files2Remove =
      ["a-1.0.metadata.yaml", "a-1.0.metadata.yaml", "repository.yaml"] := by
  decide

/-- C5 at its failing input: the tarball of `cat/a` is excluded, its metadata
file is not, and the package is not in the tree. The analysis succeeds and the
excluded key `a-1.0.package.tar` is an entry of `Files2Remove`. -/
theorem C5_excluded_key_in_Files2Remove :
    ((localKnife [MustCompile "a-1.0.package.tar"] []).Analyze RangeOrder.insertion
      storeS4).2 = none ∧
    RegexEntry "a-1.0.package.tar"
      (localKnife [MustCompile "a-1.0.package.tar"] []).Specs.GetCleaner.Excludes = true ∧
    ((localKnife [MustCompile "a-1.0.package.tar"] []).Analyze RangeOrder.insertion
      storeS4).1.Files2Remove =
      ["a-1.0.metadata.yaml", "a-1.0.metadata.yaml", "a-1.0.package.tar"] := by
  decide

/-- C6: after a successful `Analyze`, `Files2Remove` contains every surviving
stray key; every metadata key whose record's payload basename is not a listed
payload key; every payload key whose sibling metadata name is not a listed
metadata key; and, for every metadata record whose package is not found in the
tree, both the metadata key and the basename of its payload path. -/
theorem C6_Files2Remove_contains {σ : Type} (c : RepoKnife σ) (ord : RangeOrder) (st : σ)
    (listing : List String) (hl : c.BackendHandler.GetFilesList st = Except.ok listing)
    (h : (c.Analyze ord st).2 = none) :
    (∀ k ∈ c.surviving listing, isStrayKey k = true →
      k ∈ (c.Analyze ord st).1.Files2Remove) ∧
    (∀ k ∈ c.surviving listing, isMetaKey k = true →
      ∀ art, c.BackendHandler.GetMetadata st k = Except.ok art →
        ¬ (Base art.Path ∈ c.surviving listing ∧ isPkgKey (Base art.Path) = true) →
        k ∈ (c.Analyze ord st).1.Files2Remove) ∧
    (∀ p ∈ c.surviving listing, isPkgKey p = true →
      ¬ (siblingMeta p ∈ c.surviving listing ∧ isMetaKey (siblingMeta p) = true) →
      p ∈ (c.Analyze ord st).1.Files2Remove) ∧
    (∀ k ∈ c.surviving listing, isMetaKey k = true →
      ∀ art, c.BackendHandler.GetMetadata st k = Except.ok art →
        c.ReciperRuntime.FindPackage (searchPackage art) = none →
        k ∈ (c.Analyze ord st).1.Files2Remove ∧
        Base art.Path ∈ (c.Analyze ord st).1.Files2Remove) := by
  have hA : c.Analyze ord st = ((c.Analyze ord st).1, none) := Prod.ext rfl h
  obtain ⟨listing2, hl2, hMm, hPm, hM, hP, hF, _⟩ := Analyze_view c ord st _ hA
  have hll : listing2 = listing := by
    rw [hl] at hl2
    exact (Except.ok.inj hl2).symm
  subst hll
  have hfalse : ∀ (b : Bool), ¬ b = true → b = false := by
    intro b hb; cases b
    · rfl
    · exact absurd rfl hb
  refine ⟨?_, ?_, ?_, ?_⟩
  · intro k hk hs
    exact (hF k).mpr (Or.inl ⟨hk, hs⟩)
  · intro k hk hm art hg hnot
    have hmem := (hMm k art).mpr ⟨hk, hm, hg⟩
    have hb : GoMap.has (c.Analyze ord st).1.PkgsMap (Base art.Path) = false :=
      hfalse _ (fun hb => hnot ((hP _).mp hb))
    exact (hF k).mpr (Or.inr (Or.inl ⟨art, hmem, hb⟩))
  · intro p hp hpk hnot
    have hmem := (hPm p (siblingMeta p)).mpr ⟨hp, hpk, rfl⟩
    have hb : GoMap.has (c.Analyze ord st).1.MetaMap (siblingMeta p) = false :=
      hfalse _ (fun hb => hnot ((hM _).mp hb))
    exact (hF p).mpr (Or.inr (Or.inr (Or.inl ⟨siblingMeta p, hmem, hb⟩)))
  · intro k hk hm art hg hf
    have hmem := (hMm k art).mpr ⟨hk, hm, hg⟩
    exact ⟨(hF k).mpr (Or.inr (Or.inr (Or.inr ⟨k, art, hmem, hf, Or.inl rfl⟩))),
           (hF _).mpr (Or.inr (Or.inr (Or.inr ⟨k, art, hmem, hf, Or.inr rfl⟩)))⟩

/-- C6 on the mixed store, with the tree of `cat/b` only (so that the pair of
`cat/a` is stale). -/
theorem C6_Files2Remove_contains_witness :
    BackendLocal.GetFilesList storeMixed =
      Except.ok ["stray.txt", "b-1.0.metadata.yaml", "c-1.0.package.tar.gz",
        "a-1.0.package.tar", "a-1.0.metadata.yaml"] ∧
    ((localKnife [] [pkgB]).Analyze RangeOrder.reversed storeMixed).2 = none ∧
    ((localKnife [] [pkgB]).Analyze RangeOrder.reversed storeMixed).1.Files2Remove =
      ["stray.txt", "b-1.0.metadata.yaml", "c-1.0.package.tar.gz",
       "a-1.0.metadata.yaml", "a-1.0.package.tar"] ∧
    ((∀ k ∈ (localKnife [] [pkgB]).surviving ["stray.txt", "b-1.0.metadata.yaml",
        "c-1.0.package.tar.gz", "a-1.0.package.tar", "a-1.0.metadata.yaml"],
      isStrayKey k = true →
      k ∈ ((localKnife [] [pkgB]).Analyze RangeOrder.reversed storeMixed).1.Files2Remove) ∧
    (∀ k ∈ (localKnife [] [pkgB]).surviving ["stray.txt", "b-1.0.metadata.yaml",
        "c-1.0.package.tar.gz", "a-1.0.package.tar", "a-1.0.metadata.yaml"],
      isMetaKey k = true →
      ∀ art, (localKnife [] [pkgB]).BackendHandler.GetMetadata storeMixed k = Except.ok art →
        ¬ (Base art.Path ∈ (localKnife [] [pkgB]).surviving ["stray.txt",
            "b-1.0.metadata.yaml", "c-1.0.package.tar.gz", "a-1.0.package.tar",
            "a-1.0.metadata.yaml"] ∧ isPkgKey (Base art.Path) = true) →
        k ∈ ((localKnife [] [pkgB]).Analyze RangeOrder.reversed storeMixed).1.Files2Remove) ∧
    (∀ p ∈ (localKnife [] [pkgB]).surviving ["stray.txt", "b-1.0.metadata.yaml",
        "c-1.0.package.tar.gz", "a-1.0.package.tar", "a-1.0.metadata.yaml"],
      isPkgKey p = true →
      ¬ (siblingMeta p ∈ (localKnife [] [pkgB]).surviving ["stray.txt",
          "b-1.0.metadata.yaml", "c-1.0.package.tar.gz", "a-1.0.package.tar",
          "a-1.0.metadata.yaml"] ∧ isMetaKey (siblingMeta p) = true) →
      p ∈ ((localKnife [] [pkgB]).Analyze RangeOrder.reversed storeMixed).1.Files2Remove) ∧
    (∀ k ∈ (localKnife [] [pkgB]).surviving ["stray.txt", "b-1.0.metadata.yaml",
        "c-1.0.package.tar.gz", "a-1.0.package.tar", "a-1.0.metadata.yaml"],
      isMetaKey k = true →
      ∀ art, (localKnife [] [pkgB]).BackendHandler.GetMetadata storeMixed k = Except.ok art →
        (localKnife [] [pkgB]).ReciperRuntime.FindPackage (searchPackage art) = none →
        k ∈ ((localKnife [] [pkgB]).Analyze RangeOrder.reversed storeMixed).1.Files2Remove ∧
        Base art.Path ∈
          ((localKnife [] [pkgB]).Analyze RangeOrder.reversed storeMixed).1.Files2Remove)) :=
  ⟨rfl, by decide, by decide,
   C6_Files2Remove_contains (localKnife [] [pkgB]) RangeOrder.reversed storeMixed _ rfl
     (by decide)⟩

/-- C7: if every surviving non-index key is a stray or belongs to a
metadata/payload pair (the record's payload basename is a listed payload key,
that payload's sibling metadata name is the metadata key, and the record's
package is found in the tree), then `Analyze` succeeds and `Files2Remove` is
exactly the list of the stray keys, in listing order. -/
theorem C7_only_strays_removed {σ : Type} (c : RepoKnife σ) (ord : RangeOrder) (st : σ)
    (listing : List String) (hl : c.BackendHandler.GetFilesList st = Except.ok listing)
    (hp : ∀ k ∈ c.surviving listing, isIndexKey k = false →
      isStrayKey k = true ∨
      ∃ m art, m ∈ c.surviving listing ∧ isMetaKey m = true ∧
        c.BackendHandler.GetMetadata st m = Except.ok art ∧
        Base art.Path ∈ c.surviving listing ∧ isPkgKey (Base art.Path) = true ∧
        siblingMeta (Base art.Path) = m ∧
        c.ReciperRuntime.FindPackage (searchPackage art) ≠ none ∧
        (k = m ∨ k = Base art.Path)) :
    (c.Analyze ord st).2 = none ∧
    (c.Analyze ord st).1.Files2Remove =
      (c.surviving listing).filter (fun f => isStrayKey f) := by
  -- every metadata key is the metadata side of a pair
  have hmeta : ∀ k ∈ c.surviving listing, isMetaKey k = true →
      ∃ art, c.BackendHandler.GetMetadata st k = Except.ok art ∧
        Base art.Path ∈ c.surviving listing ∧ isPkgKey (Base art.Path) = true ∧
        c.ReciperRuntime.FindPackage (searchPackage art) ≠ none := by
    intro k hk hm
    have hx := (key_class_excl k).2.1 hm
    rcases hp k hk hx.2.2 with hs | ⟨m, art, _, _, hg, hb, hbp, _, hf, hkm | hkm⟩
    · rw [hx.2.1] at hs; exact Bool.noConfusion hs
    · subst hkm; exact ⟨art, hg, hb, hbp, hf⟩
    · rw [← hkm, hx.1] at hbp; exact Bool.noConfusion hbp
  -- every payload key is the payload side of a pair
  have hpkg : ∀ p ∈ c.surviving listing, isPkgKey p = true →
      siblingMeta p ∈ c.surviving listing ∧ isMetaKey (siblingMeta p) = true := by
    intro p hk hpk
    have hx := (key_class_excl p).2.2.1 hpk
    rcases hp p hk hx.2.1 with hs | ⟨m, art, hms, hmm, _, _, _, hsib, _, hkm | hkm⟩
    · rw [hx.1] at hs; exact Bool.noConfusion hs
    · rw [← hkm, hx.2.2] at hmm; exact Bool.noConfusion hmm
    · rw [hkm, hsib]; exact ⟨hms, hmm⟩
  have hok : (c.Analyze ord st).2 = none := by
    rw [Analyze_err_of_listing c ord st listing hl, classifyFiles_none_iff]
    intro k hk hm
    obtain ⟨art, hg, _⟩ := hmeta k hk hm
    exact ⟨art, hg⟩
  refine ⟨hok, ?_⟩
  have hA : c.Analyze ord st = ((c.Analyze ord st).1, none) := Prod.ext rfl hok
  obtain ⟨listing2, c2, hl2, hcl, h6⟩ := Analyze_success c ord st _ hA
  have hll : listing2 = listing := by
    rw [hl] at hl2
    exact (Except.ok.inj hl2).symm
  subst hll
  obtain ⟨v1, v2, v3, v4, v5, v6, _, _, _⟩ :=
    classified_view st c listing2 (c.surviving listing2) c2 hcl
  have e1 : orphanMeta c2.PkgsMap (ord.metaOrder 0 c2.MetaMap) = [] := by
    apply List.eq_nil_iff_forall_not_mem.mpr
    intro k hk
    obtain ⟨art, ha, hb⟩ := (mem_orphanMeta _ _ _).mp hk
    have ha2 := (v1 k art).mp ((ord.metaOrder_perm 0 _).mem_iff.mp ha)
    obtain ⟨art2, hg, hbs, hbp, _⟩ := hmeta k ha2.1 ha2.2.1
    have : art2 = art := by
      have := hg.symm.trans ha2.2.2
      exact Except.ok.inj this
    subst this
    rw [(v4 _).mpr ⟨hbs, hbp⟩] at hb
    exact Bool.noConfusion hb
  have e2 : orphanPkgs c2.MetaMap (ord.pkgsOrder 1 c2.PkgsMap) = [] := by
    apply List.eq_nil_iff_forall_not_mem.mpr
    intro k hk
    obtain ⟨v, ha, hb⟩ := (mem_orphanPkgs _ _ _).mp hk
    have ha2 := (v2 k v).mp ((ord.pkgsOrder_perm 1 _).mem_iff.mp ha)
    have hs := hpkg k ha2.1 ha2.2.1
    rw [ha2.2.2, (v3 _).mpr hs] at hb
    exact Bool.noConfusion hb
  have e3 : staleFiles c2.ReciperRuntime (ord.metaOrder 2 c2.MetaMap) = [] := by
    apply List.eq_nil_iff_forall_not_mem.mpr
    intro k hk
    obtain ⟨m, art, ha, hf, _⟩ := (mem_staleFiles _ _ _).mp hk
    have ha2 := (v1 m art).mp ((ord.metaOrder_perm 2 _).mem_iff.mp ha)
    obtain ⟨art2, hg, _, _, hfound⟩ := hmeta m ha2.1 ha2.2.1
    have : art2 = art := by
      have := hg.symm.trans ha2.2.2
      exact Except.ok.inj this
    subst this
    rw [v6] at hf
    exact hfound hf
  rw [h6]
  simp only [e1, e2, e3, List.append_nil, v5]

/-- C7 on scenario S1: a pair, a stray and an index file, the package in the
tree; only the stray is removed. -/
theorem C7_only_strays_removed_witness :
    BackendLocal.GetFilesList storeS1 =
      Except.ok ["a-1.0.package.tar", "a-1.0.metadata.yaml", "stray.txt", "repository.yaml"] ∧
    ((localKnife [] [pkgA]).Analyze RangeOrder.insertion storeS1).2 = none ∧
    ((localKnife [] [pkgA]).Analyze RangeOrder.insertion storeS1).1.Files2Remove =
      ((localKnife [] [pkgA]).surviving
        ["a-1.0.package.tar", "a-1.0.metadata.yaml", "stray.txt", "repository.yaml"]).filter
        (fun f => isStrayKey f) ∧
    ((localKnife [] [pkgA]).surviving
        ["a-1.0.package.tar", "a-1.0.metadata.yaml", "stray.txt", "repository.yaml"]).filter
        (fun f => isStrayKey f) = ["stray.txt"] := by
  have hw := C7_only_strays_removed (localKnife [] [pkgA]) RangeOrder.insertion storeS1
    ["a-1.0.package.tar", "a-1.0.metadata.yaml", "stray.txt", "repository.yaml"] rfl
    (by
      intro k hk hidx
      have hk2 : k ∈ ["a-1.0.package.tar", "a-1.0.metadata.yaml", "stray.txt",
          "repository.yaml"] := ((mem_surviving _ _ _).mp hk).1
      have hpair : ∀ x, x = "a-1.0.metadata.yaml" ∨ x = "a-1.0.package.tar" →
          ∃ m art, m ∈ (localKnife [] [pkgA]).surviving
              ["a-1.0.package.tar", "a-1.0.metadata.yaml", "stray.txt", "repository.yaml"] ∧
            isMetaKey m = true ∧
            (localKnife [] [pkgA]).BackendHandler.GetMetadata storeS1 m = Except.ok art ∧
            Base art.Path ∈ (localKnife [] [pkgA]).surviving
              ["a-1.0.package.tar", "a-1.0.metadata.yaml", "stray.txt", "repository.yaml"] ∧
            isPkgKey (Base art.Path) = true ∧
            siblingMeta (Base art.Path) = m ∧
            (localKnife [] [pkgA]).ReciperRuntime.FindPackage (searchPackage art) ≠ none ∧
            (x = m ∨ x = Base art.Path) := by
        intro x hx
        refine ⟨"a-1.0.metadata.yaml", artA, by decide, by decide, rfl, by decide, by decide,
          by decide, by decide, ?_⟩
        rcases hx with hx | hx
        · exact Or.inl hx
        · exact Or.inr (by rw [hx]; decide)
      simp only [List.mem_cons, List.mem_singleton, List.mem_nil_iff, or_false] at hk2
      rcases hk2 with e | e | e | e
      · exact Or.inr (hpair k (Or.inr e))
      · exact Or.inr (hpair k (Or.inl e))
      · subst e; exact Or.inl (by decide)
      · subst e
        have hi : isIndexKey "repository.yaml" = true := by decide
        rw [hi] at hidx
        exact Bool.noConfusion hidx)
  exact ⟨rfl, hw.1, hw.2, by decide⟩

/-- C8, as stated, fails when the analysis fails: the two stores list the same
two files in opposite orders and decode them alike; with the stray listed
before the undecodable metadata file `Files2Remove` holds the stray, with the
stray listed after it `Files2Remove` is empty. -/
theorem C8_listing_order_counterexample :
    BackendLocal.GetFilesList storeStrayThenBad =
      Except.ok ["stray.txt", "bad.metadata.yaml"] ∧
    BackendLocal.GetFilesList storeBadThenStray =
      Except.ok ["bad.metadata.yaml", "stray.txt"] ∧
    List.Perm ["stray.txt", "bad.metadata.yaml"] ["bad.metadata.yaml", "stray.txt"] ∧
    (∀ k, BackendLocal.GetMetadata storeStrayThenBad k =
          BackendLocal.GetMetadata storeBadThenStray k) ∧
    "stray.txt" ∈
      ((localKnife [] []).Analyze RangeOrder.insertion storeStrayThenBad).1.Files2Remove ∧
    "stray.txt" ∉
      ((localKnife [] []).Analyze RangeOrder.insertion storeBadThenStray).1.Files2Remove := by
  refine ⟨rfl, rfl, List.Perm.swap _ _ _, ?_, by decide, by decide⟩
  intro k
  by_cases h1 : "stray.txt" = k
  · subst h1; rfl
  · by_cases h2 : "bad.metadata.yaml" = k
    · subst h2; rfl
    · have e1 : ("stray.txt" == k) = false := by simpa using h1
      have e2 : ("bad.metadata.yaml" == k) = false := by simpa using h2
      simp [BackendLocal, storeStrayThenBad, storeBadThenStray, List.find?, e1, e2]

/-- C8, amended: for two listings that are permutations of one another, with
the same metadata contents, configuration and tree, `Analyze` succeeds on one
exactly when it succeeds on the other, and when it succeeds it yields the same
`MetaMap`, the same `PkgsMap` and the same set of `Files2Remove` entries,
whatever order the maps are ranged in. -/
theorem C8_listing_order_irrelevant {σ : Type} (c : RepoKnife σ) (ord1 ord2 : RangeOrder)
    (st1 st2 : σ) (l1 l2 : List String)
    (h1 : c.BackendHandler.GetFilesList st1 = Except.ok l1)
    (h2 : c.BackendHandler.GetFilesList st2 = Except.ok l2)
    (hperm : l1.Perm l2)
    (hmeta : ∀ k, c.BackendHandler.GetMetadata st1 k = c.BackendHandler.GetMetadata st2 k) :
    ((c.Analyze ord1 st1).2 = none ↔ (c.Analyze ord2 st2).2 = none) ∧
    ((c.Analyze ord1 st1).2 = none →
      (∀ k, GoMap.get? (c.Analyze ord1 st1).1.MetaMap k =
            GoMap.get? (c.Analyze ord2 st2).1.MetaMap k) ∧
      (∀ k, GoMap.get? (c.Analyze ord1 st1).1.PkgsMap k =
            GoMap.get? (c.Analyze ord2 st2).1.PkgsMap k) ∧
      (∀ k, k ∈ (c.Analyze ord1 st1).1.Files2Remove ↔
            k ∈ (c.Analyze ord2 st2).1.Files2Remove)) := by
  have hs : ∀ k, k ∈ c.surviving l1 ↔ k ∈ c.surviving l2 := by
    intro k
    rw [mem_surviving, mem_surviving, hperm.mem_iff]
  have hiff : (c.Analyze ord1 st1).2 = none ↔ (c.Analyze ord2 st2).2 = none := by
    rw [Analyze_err_of_listing c ord1 st1 l1 h1, Analyze_err_of_listing c ord2 st2 l2 h2,
      classifyFiles_none_iff, classifyFiles_none_iff]
    have hb1 : (c.start l1).BackendHandler = c.BackendHandler := rfl
    have hb2 : (c.start l2).BackendHandler = c.BackendHandler := rfl
    rw [hb1, hb2]
    constructor
    · intro h k hk hm
      obtain ⟨art, ha⟩ := h k ((hs k).mpr hk) hm
      exact ⟨art, by rw [← hmeta k]; exact ha⟩
    · intro h k hk hm
      obtain ⟨art, ha⟩ := h k ((hs k).mp hk) hm
      exact ⟨art, by rw [hmeta k]; exact ha⟩
  refine ⟨hiff, ?_⟩
  intro hok1
  have hok2 := hiff.mp hok1
  have hA1 : c.Analyze ord1 st1 = ((c.Analyze ord1 st1).1, none) := Prod.ext rfl hok1
  have hA2 : c.Analyze ord2 st2 = ((c.Analyze ord2 st2).1, none) := Prod.ext rfl hok2
  obtain ⟨l1b, hl1, aM, aP, aHM, aHP, aF, _⟩ := Analyze_view c ord1 st1 _ hA1
  obtain ⟨l2b, hl2, bM, bP, bHM, bHP, bF, _⟩ := Analyze_view c ord2 st2 _ hA2
  have e1 : l1b = l1 := by rw [h1] at hl1; exact (Except.ok.inj hl1).symm
  have e2 : l2b = l2 := by rw [h2] at hl2; exact (Except.ok.inj hl2).symm
  subst e1; subst e2
  obtain ⟨n1M, n1P⟩ := Analyze_nodup c ord1 st1 _ hA1
  obtain ⟨n2M, n2P⟩ := Analyze_nodup c ord2 st2 _ hA2
  have em : ∀ k art, (k, art) ∈ (c.Analyze ord1 st1).1.MetaMap ↔
      (k, art) ∈ (c.Analyze ord2 st2).1.MetaMap := by
    intro k art
    rw [aM, bM, hs k, hmeta k]
  have ep : ∀ p v, (p, v) ∈ (c.Analyze ord1 st1).1.PkgsMap ↔
      (p, v) ∈ (c.Analyze ord2 st2).1.PkgsMap := by
    intro p v
    rw [aP, bP, hs p]
  have hm : ∀ k, GoMap.has (c.Analyze ord1 st1).1.MetaMap k =
      GoMap.has (c.Analyze ord2 st2).1.MetaMap k := by
    intro k
    apply Bool.eq_iff_iff.mpr
    rw [aHM, bHM, hs k]
  have hp : ∀ k, GoMap.has (c.Analyze ord1 st1).1.PkgsMap k =
      GoMap.has (c.Analyze ord2 st2).1.PkgsMap k := by
    intro k
    apply Bool.eq_iff_iff.mpr
    rw [aHP, bHP, hs k]
  refine ⟨?_, ?_, ?_⟩
  · intro k
    apply Option.ext
    intro art
    constructor
    · intro hg
      exact GoMap.get?_of_mem _ n2M k art ((em k art).mp (GoMap.mem_of_get? _ _ _ hg))
    · intro hg
      exact GoMap.get?_of_mem _ n1M k art ((em k art).mpr (GoMap.mem_of_get? _ _ _ hg))
  · intro k
    apply Option.ext
    intro v
    constructor
    · intro hg
      exact GoMap.get?_of_mem _ n2P k v ((ep k v).mp (GoMap.mem_of_get? _ _ _ hg))
    · intro hg
      exact GoMap.get?_of_mem _ n1P k v ((ep k v).mpr (GoMap.mem_of_get? _ _ _ hg))
  · intro k
    rw [aF, bF]
    simp only [em, ep, hm, hp, hs]

/-- C8, amended, on scenario S4 listed in two orders and ranged in two orders,
with a tree that holds only `cat/b`. -/
theorem C8_listing_order_irrelevant_witness :
    BackendLocal.GetFilesList storeS4 =
      Except.ok ["a-1.0.package.tar", "a-1.0.metadata.yaml"] ∧
    BackendLocal.GetFilesList storeS4.reverse =
      Except.ok ["a-1.0.metadata.yaml", "a-1.0.package.tar"] ∧
    ((localKnife [] [pkgB]).Analyze RangeOrder.insertion storeS4).2 = none ∧
    ((localKnife [] [pkgB]).Analyze RangeOrder.insertion storeS4).1.Files2Remove =
      ["a-1.0.metadata.yaml", "a-1.0.package.tar"] ∧
    (((localKnife [] [pkgB]).Analyze RangeOrder.insertion storeS4).2 = none ↔
      ((localKnife [] [pkgB]).Analyze RangeOrder.reversed storeS4.reverse).2 = none) ∧
    (∀ k, GoMap.get? ((localKnife [] [pkgB]).Analyze RangeOrder.insertion storeS4).1.MetaMap k =
      GoMap.get?
        ((localKnife [] [pkgB]).Analyze RangeOrder.reversed storeS4.reverse).1.MetaMap k) ∧
    (∀ k, GoMap.get? ((localKnife [] [pkgB]).Analyze RangeOrder.insertion storeS4).1.PkgsMap k =
      GoMap.get?
        ((localKnife [] [pkgB]).Analyze RangeOrder.reversed storeS4.reverse).1.PkgsMap k) ∧
    (∀ k, k ∈ ((localKnife [] [pkgB]).Analyze RangeOrder.insertion storeS4).1.Files2Remove ↔
      k ∈ ((localKnife [] [pkgB]).Analyze RangeOrder.reversed
        storeS4.reverse).1.Files2Remove) := by
  have hw := C8_listing_order_irrelevant (localKnife [] [pkgB]) RangeOrder.insertion
    RangeOrder.reversed storeS4 storeS4.reverse _ _ rfl rfl (List.Perm.swap _ _ _)
    (by
      intro k
      by_cases h1 : "a-1.0.package.tar" = k
      · subst h1; rfl
      · by_cases h2 : "a-1.0.metadata.yaml" = k
        · subst h2; rfl
        · have e1 : ("a-1.0.package.tar" == k) = false := by simpa using h1
          have e2 : ("a-1.0.metadata.yaml" == k) = false := by simpa using h2
          simp [localKnife, BackendLocal, storeS4, List.find?, e1, e2])
  exact ⟨rfl, rfl, by decide, by decide, hw.1, hw.2 (by decide)⟩

/-- C9: `Analyze` returns an error exactly when the listing fails, or fetching
the metadata fails for a listed key that matches no exclude regex and no
repository-index pattern and matches the metadata pattern; `GetFilteredList` and
`CheckFilesWithTrees` never return an error (the pairing loops have no error
result at all). -/
theorem C9_analyze_error_iff {σ : Type} (c : RepoKnife σ) (ord : RangeOrder) (st : σ) :
    ((c.Analyze ord st).2 ≠ none ↔
      ((∃ err, c.BackendHandler.GetFilesList st = Except.error err) ∨
       (∃ listing, c.BackendHandler.GetFilesList st = Except.ok listing ∧
          ∃ k ∈ listing, RegexEntry k c.Specs.GetCleaner.Excludes = false ∧
            RegexEntry k repoRegex = false ∧ RegexEntry k metaFilesRegex = true ∧
            ∃ err, c.BackendHandler.GetMetadata st k = Except.error err))) ∧
    (∀ (c2 : RepoKnife σ) (files : List String), ∃ l, c2.GetFilteredList files = Except.ok l) ∧
    (∀ (c2 : RepoKnife σ) (ord2 : RangeOrder), (c2.CheckFilesWithTrees ord2).2 = none) := by
  refine ⟨?_, fun c2 files => ⟨_, rfl⟩, fun c2 ord2 => rfl⟩
  cases hl : c.BackendHandler.GetFilesList st with
  | error err =>
    rw [Analyze_listing_error c ord st err hl]
    constructor
    · intro _; exact Or.inl ⟨err, rfl⟩
    · intro _ h; cases h
  | ok listing =>
    rw [Analyze_err_of_listing c ord st listing hl]
    have hb : (c.start listing).BackendHandler = c.BackendHandler := rfl
    constructor
    · intro hne
      right
      refine ⟨listing, rfl, ?_⟩
      by_contra hcon
      apply hne
      rw [classifyFiles_none_iff, hb]
      intro k hk hm
      have hks := (mem_surviving c listing k).mp hk
      simp only [isMetaKey, isIndexKey, Bool.and_eq_true, Bool.not_eq_true'] at hm
      cases hg : c.BackendHandler.GetMetadata st k with
      | ok art => exact ⟨art, rfl⟩
      | error err =>
        exact absurd ⟨k, hks.1, hks.2, hm.1, hm.2, err, hg⟩ hcon
    · rintro (⟨err, he⟩ | ⟨l2, hl2, k, hk, hex, hidx, hmeta, err, hg⟩)
      · cases he
      · have e : l2 = listing := (Except.ok.inj hl2).symm
        subst e
        intro hnone
        rw [classifyFiles_none_iff, hb] at hnone
        have hm : isMetaKey k = true := by
          simp [isMetaKey, isIndexKey, hidx, hmeta]
        obtain ⟨art, ha⟩ := hnone k ((mem_surviving c l2 k).mpr ⟨hk, hex⟩) hm
        rw [hg] at ha
        cases ha

/-- C10 at its failing input: a stray listed before a metadata file that does
not decode, not in dry-run mode. `Analyze` fails, yet `Run` returns no error,
calls `CleanFile` for the stray, and the stray is gone from the store. -/
theorem C10_run_after_failed_analyze :
    ((localCleaner false).toRepoKnife.Analyze RangeOrder.insertion storeStrayThenBad).2 =
      some "yaml: unmarshal errors" ∧
    ((localCleaner false).Run RangeOrder.insertion storeStrayThenBad).err = none ∧
    ((localCleaner false).Run RangeOrder.insertion storeStrayThenBad).cleaned =
      ["stray.txt"] ∧
    ((localCleaner false).Run RangeOrder.insertion storeStrayThenBad).store =
      [("bad.metadata.yaml", none)] := by
  decide

/-! ## What `Analyze` leaves untouched -/

theorem classifyFile_frame3 {σ : Type} (st : σ) (c : RepoKnife σ) (f : String) :
    (RepoKnife.classifyFile st c f).1.BackendHandler = c.BackendHandler ∧
    (RepoKnife.classifyFile st c f).1.Specs = c.Specs ∧
    (RepoKnife.classifyFile st c f).1.ReciperRuntime = c.ReciperRuntime := by
  rcases key_class_cases f with hc | hc | hc | hc
  · rw [classifyFile_index st c f hc]; exact ⟨rfl, rfl, rfl⟩
  · rw [classifyFile_meta st c f hc]
    cases c.BackendHandler.GetMetadata st f <;> exact ⟨rfl, rfl, rfl⟩
  · rw [classifyFile_pkg st c f hc]; exact ⟨rfl, rfl, rfl⟩
  · rw [classifyFile_stray st c f hc]; exact ⟨rfl, rfl, rfl⟩

theorem classifyFiles_frame3 {σ : Type} (st : σ) (files : List String) :
    ∀ (c : RepoKnife σ),
      (RepoKnife.classifyFiles st c files).1.BackendHandler = c.BackendHandler ∧
      (RepoKnife.classifyFiles st c files).1.Specs = c.Specs ∧
      (RepoKnife.classifyFiles st c files).1.ReciperRuntime = c.ReciperRuntime := by
  induction files with
  | nil => intro c; exact ⟨rfl, rfl, rfl⟩
  | cons f rest ih =>
    intro c
    have h1 := classifyFile_frame3 st c f
    cases hstep : RepoKnife.classifyFile st c f with
    | mk c1 err =>
      rw [hstep] at h1
      cases err with
      | some e =>
        simp only [RepoKnife.classifyFiles, hstep]
        exact h1
      | none =>
        simp only [RepoKnife.classifyFiles, hstep]
        obtain ⟨a, b, d⟩ := ih c1
        exact ⟨a.trans h1.1, b.trans h1.2.1, d.trans h1.2.2⟩

/-- `Analyze` changes neither the backend, nor the configuration, nor the tree
of the knife. -/
theorem Analyze_frame {σ : Type} (c : RepoKnife σ) (ord : RangeOrder) (st : σ) :
    (c.Analyze ord st).1.BackendHandler = c.BackendHandler ∧
    (c.Analyze ord st).1.Specs = c.Specs ∧
    (c.Analyze ord st).1.ReciperRuntime = c.ReciperRuntime := by
  cases hl : c.BackendHandler.GetFilesList st with
  | error err =>
    simp only [RepoKnife.Analyze, hl, and_self]
  | ok listing =>
    rw [Analyze_of_listing c ord st listing hl]
    have hf := classifyFiles_frame3 st (c.surviving listing) (c.start listing)
    cases hcl : RepoKnife.classifyFiles st (c.start listing) (c.surviving listing) with
    | mk c2 err =>
      rw [hcl] at hf
      cases err with
      | some e => exact hf
      | none => exact hf

/-! ## The removal loop of `Run` -/

theorem removeFiles_dry {σ : Type} (c : RepoCleaner σ) (hd : c.DryRun = true)
    (files : List String) : ∀ (acc : σ × List String),
    files.foldl (fun (acc : σ × List String) f =>
      if c.DryRun then acc
      else ((c.BackendHandler.CleanFile acc.1 f).2, acc.2 ++ [f])) acc = acc := by
  induction files with
  | nil => intro acc; rfl
  | cons f fs ih =>
    intro acc
    simp only [List.foldl_cons, hd, if_true]
    have := ih acc
    simp only [hd, if_true] at this
    exact this

theorem removeFiles_wet {σ : Type} (c : RepoCleaner σ) (hd : c.DryRun = false)
    (files : List String) : ∀ (acc : σ × List String),
    files.foldl (fun (acc : σ × List String) f =>
      if c.DryRun then acc
      else ((c.BackendHandler.CleanFile acc.1 f).2, acc.2 ++ [f])) acc =
    (files.foldl (fun s f => (c.BackendHandler.CleanFile s f).2) acc.1, acc.2 ++ files) := by
  induction files with
  | nil => intro acc; simp
  | cons f fs ih =>
    intro acc
    have h := ih ((c.BackendHandler.CleanFile acc.1 f).2, acc.2 ++ [f])
    simp only [hd, Bool.false_eq_true, if_false] at h
    simp only [List.foldl_cons, hd, Bool.false_eq_true, if_false, h, List.append_assoc,
      List.singleton_append]

/-- The store and the calls of the removal loop, in closed form. -/
theorem removeFiles_eq {σ : Type} (c : RepoCleaner σ) (st : σ) (files : List String) :
    c.removeFiles st files =
      if c.DryRun = true then (st, [])
      else (files.foldl (fun s f => (c.BackendHandler.CleanFile s f).2) st, files) := by
  cases hd : c.DryRun with
  | true =>
    simp only [RepoCleaner.removeFiles, if_true]
    exact removeFiles_dry c hd files (st, [])
  | false =>
    simp only [RepoCleaner.removeFiles, Bool.false_eq_true, if_false]
    rw [removeFiles_wet c hd files (st, [])]
    simp

/-- C11: in dry-run mode `Run` calls `CleanFile` for no key and leaves the
store as it is; otherwise the keys `CleanFile` is called with are exactly the
entries of `Files2Remove`, once per entry and in list order, whatever each call
returns, and the store is what these calls leave in turn. -/
theorem C11_run_removes_Files2Remove {σ : Type} (c : RepoCleaner σ) (ord : RangeOrder)
    (st : σ) :
    (c.Run ord st).cleaned =
      (if c.DryRun = true then [] else (c.toRepoKnife.Analyze ord st).1.Files2Remove) ∧
    (c.Run ord st).store =
      (if c.DryRun = true then st
       else (c.toRepoKnife.Analyze ord st).1.Files2Remove.foldl
         (fun s f => (c.BackendHandler.CleanFile s f).2) st) ∧
    (c.Run ord st).cleaner.Files2Remove = (c.toRepoKnife.Analyze ord st).1.Files2Remove := by
  have hb : (c.toRepoKnife.Analyze ord st).1.BackendHandler = c.BackendHandler :=
    (Analyze_frame c.toRepoKnife ord st).1
  simp only [RepoCleaner.Run, removeFiles_eq]
  cases hd : c.DryRun with
  | true => simp
  | false => simp [hb]

/-! ## The lister -/

theorem foldl_append_singleton {α β : Type} (f : α → β) (l : List α) :
    ∀ (acc : List β), l.foldl (fun (ans : List β) e => ans ++ [f e]) acc = acc ++ l.map f := by
  induction l with
  | nil => intro acc; simp
  | cons e es ih => intro acc; simp [List.foldl_cons, ih, List.append_assoc]

/-- `ListPkgsAvailable` after a successful `Analyze`, in closed form. -/
theorem ListPkgsAvailable_ok {σ : Type} (c : RepoList σ) (ord : RangeOrder) (st : σ)
    (h : (c.toRepoKnife.Analyze ord st).2 = none) :
    (c.ListPkgsAvailable ord st).2 =
      Except.ok ((ord.metaOrder 3 (c.toRepoKnife.Analyze ord st).1.MetaMap).map
        (fun e => e.2.CompileSpec.Package)) := by
  have hA : c.toRepoKnife.Analyze ord st = ((c.toRepoKnife.Analyze ord st).1, none) :=
    Prod.ext rfl h
  generalize (c.toRepoKnife.Analyze ord st).1 = k at hA
  simp only [RepoList.ListPkgsAvailable, hA]
  rw [foldl_append_singleton (fun (e : String × PackageArtifact) => e.2.CompileSpec.Package)]
  simp

/-- C13, as stated, fails on scenario S4 with a tree that holds only `cat/b`:
the record of `cat/a` is not found in the tree, `Analyze` put its metadata key
in `Files2Remove`, and `cat/a-1.0` is nevertheless listed as available. -/
theorem C13_available_counterexample :
    ((localList [] [pkgB]).ListPkgsAvailable RangeOrder.insertion storeS4).2 =
      Except.ok [pkgA] ∧
    (localList [] [pkgB]).ReciperRuntime.FindPackage (searchPackage artA) = none ∧
    "a-1.0.metadata.yaml" ∈
      ((localList [] [pkgB]).ListPkgsAvailable RangeOrder.insertion storeS4).1.Files2Remove :=
  ⟨rfl, by decide, by decide⟩

/-- C13, amended: after a successful `Analyze`, `ListPkgsAvailable` returns
exactly the packages of the records of `MetaMap`, one per record; the record of
a listed metadata key whose tarball is listed is among them, whether or not its
package is in the tree. -/
theorem C13_available_are_MetaMap_records {σ : Type} (c : RepoList σ) (ord : RangeOrder)
    (st : σ) (h : (c.toRepoKnife.Analyze ord st).2 = none) :
    ∃ res, (c.ListPkgsAvailable ord st).2 = Except.ok res ∧
      res.Perm ((c.toRepoKnife.Analyze ord st).1.MetaMap.map
        (fun e => e.2.CompileSpec.Package)) ∧
      (∀ listing, c.BackendHandler.GetFilesList st = Except.ok listing →
        ∀ m ∈ c.surviving listing, isMetaKey m = true →
          ∀ art, c.BackendHandler.GetMetadata st m = Except.ok art →
            (Base art.Path ∈ c.surviving listing ∧ isPkgKey (Base art.Path) = true) →
            art.CompileSpec.Package ∈ res) := by
  refine ⟨_, ListPkgsAvailable_ok c ord st h, ?_, ?_⟩
  · exact (ord.metaOrder_perm 3 _).map _
  · intro listing hl m hm hmk art hg _
    have hA : c.toRepoKnife.Analyze ord st = ((c.toRepoKnife.Analyze ord st).1, none) :=
      Prod.ext rfl h
    obtain ⟨listing2, hl2, hMm, _, _, _, _, _⟩ := Analyze_view c.toRepoKnife ord st _ hA
    have hll : listing2 = listing := by
      rw [hl] at hl2
      exact (Except.ok.inj hl2).symm
    subst hll
    have hmem := (hMm m art).mpr ⟨hm, hmk, hg⟩
    apply List.mem_map.mpr
    exact ⟨(m, art), (ord.metaOrder_perm 3 _).mem_iff.mpr hmem, rfl⟩

/-- C13, amended, on scenario S4 with a tree that holds only `cat/b`. -/
theorem C13_available_are_MetaMap_records_witness :
    ((localList [] [pkgB]).toRepoKnife.Analyze RangeOrder.insertion storeS4).2 = none ∧
    (∃ res, ((localList [] [pkgB]).ListPkgsAvailable RangeOrder.insertion storeS4).2 =
        Except.ok res ∧
      res.Perm (((localList [] [pkgB]).toRepoKnife.Analyze RangeOrder.insertion
        storeS4).1.MetaMap.map (fun e => e.2.CompileSpec.Package)) ∧
      (∀ listing, (localList [] [pkgB]).BackendHandler.GetFilesList storeS4 =
          Except.ok listing →
        ∀ m ∈ (localList [] [pkgB]).surviving listing, isMetaKey m = true →
          ∀ art, (localList [] [pkgB]).BackendHandler.GetMetadata storeS4 m = Except.ok art →
            (Base art.Path ∈ (localList [] [pkgB]).surviving listing ∧
              isPkgKey (Base art.Path) = true) →
            art.CompileSpec.Package ∈ res)) :=
  ⟨by decide,
   C13_available_are_MetaMap_records (localList [] [pkgB]) RangeOrder.insertion storeS4
     (by decide)⟩

theorem has_foldl_set {α : Type} (g : α → String) (l : List α) (k : String) :
    ∀ (m : GoMap Bool),
      GoMap.has (l.foldl (fun (m : GoMap Bool) e => GoMap.set m (g e) true) m) k =
        (GoMap.has m k || l.any (fun e => decide (g e = k))) := by
  induction l with
  | nil => intro m; simp
  | cons e es ih =>
    intro m
    rw [List.foldl_cons, ih, GoMap.has_set]
    by_cases h : g e = k
    · subst h
      simp
    · have h2 : ¬ k = g e := fun x => h x.symm
      simp [h, h2]

theorem foldl_keep {α : Type} (drop : α → Bool) (l : List α) :
    ∀ (acc : List α),
      l.foldl (fun (ans : List α) p => if drop p = true then ans else ans ++ [p]) acc =
        acc ++ l.filter (fun p => !drop p) := by
  induction l with
  | nil => intro acc; simp
  | cons p ps ih =>
    intro acc
    rw [List.foldl_cons, ih]
    cases h : drop p <;> simp [List.filter, h, List.append_assoc]

/-- `ListPkgsMissing` after a successful `Analyze`, in closed form: the packages
of `World`, in the order of `World`, whose fingerprint is the fingerprint of no
record of `MetaMap` and that `ToIgnore` does not drop. -/
theorem ListPkgsMissing_ok {σ V : Type} (c : RepoList σ) (lib : VersionLib V)
    (ord : RangeOrder) (st : σ) (h : (c.toRepoKnife.Analyze ord st).2 = none) :
    (c.ListPkgsMissing lib ord st).2 =
      Except.ok (c.ReciperRuntime.World.filter (fun p =>
        !((c.toRepoKnife.Analyze ord st).1.MetaMap.any (fun e =>
            decide (e.2.CompileSpec.Package.HumanReadableString = p.HumanReadableString))
          || c.Specs.List.ToIgnore lib p))) := by
  have hA : c.toRepoKnife.Analyze ord st = ((c.toRepoKnife.Analyze ord st).1, none) :=
    Prod.ext rfl h
  obtain ⟨_, hS, hR⟩ := Analyze_frame c.toRepoKnife ord st
  generalize (c.toRepoKnife.Analyze ord st).1 = k at hA hS hR
  simp only [RepoList.ListPkgsMissing, hA]
  have hstep : ∀ (p : DefaultPackage),
      GoMap.has ((ord.metaOrder 4 k.MetaMap).foldl
        (fun (m : GoMap Bool) e =>
          GoMap.set m e.2.CompileSpec.Package.HumanReadableString true) [])
        p.HumanReadableString =
      k.MetaMap.any (fun e =>
        decide (e.2.CompileSpec.Package.HumanReadableString = p.HumanReadableString)) := by
    intro p
    rw [has_foldl_set (fun (e : String × PackageArtifact) =>
      e.2.CompileSpec.Package.HumanReadableString)]
    simp only [GoMap.has, Bool.false_or]
    apply Bool.eq_iff_iff.mpr
    simp only [List.any_eq_true, (ord.metaOrder_perm 4 k.MetaMap).mem_iff]
  have hfun : (fun (ans : List DefaultPackage) (p : DefaultPackage) =>
      if GoMap.has ((ord.metaOrder 4 k.MetaMap).foldl
        (fun (m : GoMap Bool) e =>
          GoMap.set m e.2.CompileSpec.Package.HumanReadableString true) [])
        p.HumanReadableString = true then ans
      else if k.Specs.List.ToIgnore lib p = true then ans else ans ++ [p]) =
    (fun (ans : List DefaultPackage) (p : DefaultPackage) =>
      if (k.MetaMap.any (fun e =>
          decide (e.2.CompileSpec.Package.HumanReadableString = p.HumanReadableString))
        || c.Specs.List.ToIgnore lib p) = true then ans else ans ++ [p]) := by
    funext ans p
    rw [hstep p, hS]
    cases k.MetaMap.any (fun e =>
      decide (e.2.CompileSpec.Package.HumanReadableString = p.HumanReadableString)) <;>
      cases c.Specs.List.ToIgnore lib p <;> simp
  rw [hfun, foldl_keep, hR]
  simp

/-- C14 at its failing input: the metadata file of `cat/a-1.0` is listed, its
tarball is not, the tree holds `cat/a-1.0` and nothing is ignored.
`ListPkgsMissing` returns no package: `cat/a-1.0`, whose payload is absent, does
not count as missing. -/
theorem C14_missing_skips_orphan_metadata :
    BackendLocal.GetFilesList storeMetaOnly = Except.ok ["a-1.0.metadata.yaml"] ∧
    pkgA ∈ (localList [] [pkgA]).ReciperRuntime.World ∧
    (localList [] [pkgA]).Specs.List.ToIgnore specVersionLib pkgA = false ∧
    ((localList [] [pkgA]).ListPkgsMissing specVersionLib RangeOrder.insertion
      storeMetaOnly).2 = Except.ok [] :=
  ⟨rfl, by decide, by decide, rfl⟩

/-! ## The ignore list -/

theorem ignoreStep_eq {V : Type} (lib : VersionLib V) (pkg : DefaultPackage) (v : V)
    (ans : Bool) (f : AnisePackage) :
    AniseRDCList.ignoreStep lib pkg v ans f =
      (ans || AniseRDCList.entryAdmits lib pkg v f) := by
  simp only [AniseRDCList.ignoreStep, AniseRDCList.entryAdmits]
  by_cases hn : f.Name = pkg.Name
  · by_cases hc : f.Category = pkg.Category
    · cases hps : lib.ParseVersion f.Version with
      | error e => simp [hn, hc, hps]
      | ok s =>
        cases hpa : lib.PackageAdmit s v with
        | error e => simp [hn, hc, hps, hpa]
        | ok a => cases a <;> simp [hn, hc, hps, hpa]
    · simp [hn, hc]
  · simp [hn]

theorem ignore_foldl {V : Type} (lib : VersionLib V) (pkg : DefaultPackage) (v : V)
    (l : List AnisePackage) : ∀ (ans : Bool),
    l.foldl (AniseRDCList.ignoreStep lib pkg v) ans =
      (ans || l.any (AniseRDCList.entryAdmits lib pkg v)) := by
  induction l with
  | nil => intro ans; simp
  | cons f fs ih =>
    intro ans
    rw [List.foldl_cons, ih, ignoreStep_eq]
    simp [Bool.or_assoc]

/-- `ToIgnore` on a package whose version parses. -/
theorem ToIgnore_of_parsed {V : Type} (c : AniseRDCList) (lib : VersionLib V)
    (pkg : DefaultPackage) (v : V) (hp : lib.ParseVersion pkg.Version = Except.ok v) :
    c.ToIgnore lib pkg = c.ExcludePkgs.any (AniseRDCList.entryAdmits lib pkg v) := by
  cases hl : c.ExcludePkgs with
  | nil => simp [AniseRDCList.ToIgnore, AniseRDCList.HasFilters, hl]
  | cons f fs =>
    simp only [AniseRDCList.ToIgnore, AniseRDCList.HasFilters, hl, hp, ignore_foldl,
      List.length_cons, gt_iff_lt, Nat.zero_lt_succ, decide_True, if_true, Bool.false_or]

/-- C15: for a package whose version parses (and an ignore list whose selectors
all parse), `ToIgnore` is true exactly when some triple of the ignore list has
the name and the category of the package and a selector that admits the version
of the package. -/
theorem C15_ToIgnore_iff {V : Type} (c : AniseRDCList) (lib : VersionLib V)
    (pkg : DefaultPackage) (v : V) (hp : lib.ParseVersion pkg.Version = Except.ok v)
    (hsel : ∀ f ∈ c.ExcludePkgs, ∃ s, lib.ParseVersion f.Version = Except.ok s) :
    c.ToIgnore lib pkg = true ↔
      ∃ f ∈ c.ExcludePkgs, f.Name = pkg.Name ∧ f.Category = pkg.Category ∧
        ∃ s, lib.ParseVersion f.Version = Except.ok s ∧
          lib.PackageAdmit s v = Except.ok true := by
  rw [ToIgnore_of_parsed c lib pkg v hp, List.any_eq_true]
  constructor
  · rintro ⟨f, hf, ha⟩
    obtain ⟨s, hs⟩ := hsel f hf
    simp only [AniseRDCList.entryAdmits, hs, Bool.and_eq_true, decide_eq_true_eq] at ha
    refine ⟨f, hf, ha.1.1, ha.1.2, s, hs, ?_⟩
    cases hadm : lib.PackageAdmit s v with
    | error e => rw [hadm] at ha; exact absurd ha.2 (by simp)
    | ok a =>
      rw [hadm] at ha
      have : a = true := ha.2
      rw [this]
  · rintro ⟨f, hf, hn, hc, s, hs, hadm⟩
    refine ⟨f, hf, ?_⟩
    simp [AniseRDCList.entryAdmits, hn, hc, hs, hadm]

/-- C15 on the ignore list `cat/b >=0`, `cat/a <1.0`: `cat/b-1.0` is ignored,
and the theorem gives the triple that admits it. -/
theorem C15_ToIgnore_iff_witness :
    specVersionLib.ParseVersion pkgB.Version = Except.ok ⟨"", [1, 0]⟩ ∧
    ({ ExcludePkgs := [⟨"b", "cat", ">=0"⟩, ⟨"a", "cat", "<1.0"⟩] } :
      AniseRDCList).ToIgnore specVersionLib pkgB = true ∧
    ({ ExcludePkgs := [⟨"b", "cat", ">=0"⟩, ⟨"a", "cat", "<1.0"⟩] } :
      AniseRDCList).ToIgnore specVersionLib pkgA = false ∧
    (({ ExcludePkgs := [⟨"b", "cat", ">=0"⟩, ⟨"a", "cat", "<1.0"⟩] } :
      AniseRDCList).ToIgnore specVersionLib pkgB = true ↔
      ∃ f ∈ ({ ExcludePkgs := [⟨"b", "cat", ">=0"⟩, ⟨"a", "cat", "<1.0"⟩] } :
          AniseRDCList).ExcludePkgs,
        f.Name = pkgB.Name ∧ f.Category = pkgB.Category ∧
        ∃ s, specVersionLib.ParseVersion f.Version = Except.ok s ∧
          specVersionLib.PackageAdmit s ⟨"", [1, 0]⟩ = Except.ok true) :=
  ⟨rfl, by decide, by decide,
   C15_ToIgnore_iff _ specVersionLib pkgB ⟨"", [1, 0]⟩ rfl (by
     intro f hf
     simp only [List.mem_cons, List.mem_singleton, List.mem_nil_iff, or_false] at hf
     rcases hf with e | e
     · subst e; exact ⟨_, rfl⟩
     · subst e; exact ⟨_, rfl⟩)⟩

/-- C16, as stated, fails twice: with an empty ignore list `ToIgnore` is false
for a package whose version (the empty string) does not parse; and with the
single triple `cat/a` whose selector `~~` does not parse, `ToIgnore` is false
for `cat/a-1.0`. -/
theorem C16_parse_failure_counterexample :
    (∃ e, specVersionLib.ParseVersion "" = Except.error e) ∧
    ({ ExcludePkgs := [] } : AniseRDCList).ToIgnore specVersionLib
      { Name := "a", Category := "cat", Version := "" } = false ∧
    (∃ e, specVersionLib.ParseVersion "~~" = Except.error e) ∧
    ({ ExcludePkgs := [⟨"a", "cat", "~~"⟩] } : AniseRDCList).ToIgnore specVersionLib pkgA
      = false :=
  ⟨⟨_, rfl⟩, by decide, ⟨_, rfl⟩, by decide⟩

/-- C16, amended: `ToIgnore` is true whenever the ignore list is not empty and
the version of the package does not parse; it is false when the ignore list is
empty; and when the version of the package parses and every triple with the
name and category of the package has a selector that does not parse, it is
false. -/
theorem C16_ToIgnore_parse_failures {V : Type} (c : AniseRDCList) (lib : VersionLib V)
    (pkg : DefaultPackage) :
    (c.ExcludePkgs ≠ [] → (∃ e, lib.ParseVersion pkg.Version = Except.error e) →
      c.ToIgnore lib pkg = true) ∧
    (c.ExcludePkgs = [] → c.ToIgnore lib pkg = false) ∧
    ((∃ v, lib.ParseVersion pkg.Version = Except.ok v) →
      (∀ f ∈ c.ExcludePkgs, f.Name = pkg.Name → f.Category = pkg.Category →
        ∃ e, lib.ParseVersion f.Version = Except.error e) →
      c.ToIgnore lib pkg = false) := by
  refine ⟨?_, ?_, ?_⟩
  · intro hne ⟨e, he⟩
    cases hl : c.ExcludePkgs with
    | nil => exact absurd hl hne
    | cons f fs => simp [AniseRDCList.ToIgnore, AniseRDCList.HasFilters, hl, he]
  · intro hl
    simp [AniseRDCList.ToIgnore, AniseRDCList.HasFilters, hl]
  · intro ⟨v, hv⟩ hall
    rw [ToIgnore_of_parsed c lib pkg v hv]
    apply Bool.eq_false_iff.mpr
    intro hany
    obtain ⟨f, hf, ha⟩ := List.any_eq_true.mp hany
    simp only [AniseRDCList.entryAdmits, Bool.and_eq_true, decide_eq_true_eq] at ha
    obtain ⟨e, he⟩ := hall f hf ha.1.1 ha.1.2
    rw [he] at ha
    exact absurd ha.2 (by simp)

/-- C16, amended, on the ignore list with the single triple `cat/a ~~`: a
package with the empty version is ignored, `cat/a-1.0` is not. -/
theorem C16_ToIgnore_parse_failures_witness :
    ({ ExcludePkgs := [⟨"a", "cat", "~~"⟩] } : AniseRDCList).ToIgnore specVersionLib
      { Name := "b", Category := "cat", Version := "" } = true ∧
    ({ ExcludePkgs := [] } : AniseRDCList).ToIgnore specVersionLib pkgA = false ∧
    ({ ExcludePkgs := [⟨"a", "cat", "~~"⟩] } : AniseRDCList).ToIgnore specVersionLib pkgA
      = false :=
  ⟨(C16_ToIgnore_parse_failures { ExcludePkgs := [⟨"a", "cat", "~~"⟩] } specVersionLib
      { Name := "b", Category := "cat", Version := "" }).1 (by simp) ⟨_, rfl⟩,
   (C16_ToIgnore_parse_failures { ExcludePkgs := [] } specVersionLib pkgA).2.1 rfl,
   (C16_ToIgnore_parse_failures { ExcludePkgs := [⟨"a", "cat", "~~"⟩] } specVersionLib
      pkgA).2.2 ⟨_, rfl⟩ (by
        intro f hf _ _
        simp only [List.mem_singleton] at hf
        subst hf
        exact ⟨_, rfl⟩)⟩

/-! ## Running the cleaner twice -/

theorem BackendLocal_clean (dir : LocalDir) (k : String) :
    (BackendLocal.CleanFile dir k).2 = dir.filter (fun e => e.1 != k) := by
  by_cases h : dir.any (fun e => e.1 == k) = true
  · simp [BackendLocal, h]
  · have h2 : dir.filter (fun e => e.1 != k) = dir := by
      apply List.filter_eq_self.mpr
      intro e he
      simp only [List.any_eq_true, not_exists, not_and] at h
      have := h e he
      simpa using this
    rw [h2]
    simp only [BackendLocal]
    rw [if_neg h]

theorem map_fst_filter_ne {α : Type} (k : String) (dir : List (String × α)) :
    (dir.filter (fun e => e.1 != k)).map (fun e => e.1) =
      (dir.map (fun e => e.1)).filter (fun x => x != k) := by
  induction dir with
  | nil => rfl
  | cons e es ih =>
    rw [List.filter_cons, List.map_cons, List.filter_cons]
    by_cases hb : (e.1 != k) = true
    · rw [if_pos hb, if_pos hb, List.map_cons, ih]
    · rw [if_neg hb, if_neg hb, ih]

theorem find_filter_ne {α : Type} (k k2 : String) (hk2 : k2 ≠ k) (dir : List (String × α)) :
    (dir.filter (fun e => e.1 != k)).find? (fun e => e.1 == k2) =
      dir.find? (fun e => e.1 == k2) := by
  induction dir with
  | nil => rfl
  | cons e es ih =>
    rw [List.filter_cons]
    by_cases hb : (e.1 != k) = true
    · rw [if_pos hb, List.find?_cons, List.find?_cons, ih]
    · rw [if_neg hb, List.find?_cons, ih]
      have he : e.1 = k := by simpa using hb
      have hne : (e.1 == k2) = false := by
        apply beq_eq_false_iff_ne.mpr
        intro h
        exact hk2 (h.symm.trans he)
      rw [hne]

theorem BackendLocal_removesExactly : RemovesExactly BackendLocal := by
  intro dir k
  rw [BackendLocal_clean]
  constructor
  · intro listing hl
    have hl2 : listing = dir.map (fun e => e.1) := (Except.ok.inj hl).symm
    subst hl2
    show Except.ok ((dir.filter (fun e => e.1 != k)).map (fun e => e.1)) = _
    rw [map_fst_filter_ne]
  · intro k2 hk2
    show (match (dir.filter (fun e => e.1 != k)).find? (fun e => e.1 == k2) with
      | none => Except.error ("Error on open file " ++ k2)
      | some (_, none) => Except.error "yaml: unmarshal errors"
      | some (_, some art) => Except.ok art) =
      (match dir.find? (fun e => e.1 == k2) with
      | none => Except.error ("Error on open file " ++ k2)
      | some (_, none) => Except.error "yaml: unmarshal errors"
      | some (_, some art) => Except.ok art)
    rw [find_filter_ne k k2 hk2]

/-- The listing and the metadata after the removal loop, for a backend that
removes exactly the given key. -/
theorem after_removals {σ : Type} (b : RepoBackendHandler σ) (hb : RemovesExactly b)
    (files : List String) :
    ∀ (st : σ) (listing : List String), b.GetFilesList st = Except.ok listing →
      b.GetFilesList (files.foldl (fun s f => (b.CleanFile s f).2) st) =
        Except.ok (listing.filter (fun x => decide (x ∉ files))) ∧
      (∀ k2, k2 ∉ files →
        b.GetMetadata (files.foldl (fun s f => (b.CleanFile s f).2) st) k2 =
          b.GetMetadata st k2) := by
  induction files with
  | nil => intro st listing hl; simp [hl]
  | cons f fs ih =>
    intro st listing hl
    obtain ⟨h1, h2⟩ := hb st f
    obtain ⟨i1, i2⟩ := ih (b.CleanFile st f).2 _ (h1 listing hl)
    constructor
    · rw [List.foldl_cons, i1]
      congr 1
      rw [List.filter_filter]
      apply List.filter_congr
      intro x _
      by_cases hx : x = f
      · simp [hx]
      · simp [hx]
    · intro k2 hk2
      have hne : k2 ≠ f := fun h => hk2 (by rw [h]; exact List.mem_cons_self _ _)
      have hnot : k2 ∉ fs := fun h => hk2 (List.mem_cons_of_mem _ h)
      rw [List.foldl_cons, i2 k2 hnot, h2 k2 hne]

theorem classifyFiles_Files2Remove {σ : Type} (st : σ) (files : List String) :
    ∀ (c : RepoKnife σ),
      (RepoKnife.classifyFiles st c files).1.Files2Remove =
        c.Files2Remove ++ strayPrefix c.BackendHandler st files := by
  induction files with
  | nil => intro c; simp [RepoKnife.classifyFiles, strayPrefix]
  | cons f rest ih =>
    intro c
    have hx := key_class_excl f
    rcases key_class_cases f with hc | hc | hc | hc
    · simp only [RepoKnife.classifyFiles, classifyFile_index st c f hc, strayPrefix, hc,
        if_true]
      exact ih c
    · have hi := (hx.2.1 hc).2.2
      rw [RepoKnife.classifyFiles, classifyFile_meta st c f hc]
      simp only [strayPrefix, hi, hc, Bool.false_eq_true, if_false, if_true]
      cases hg : c.BackendHandler.GetMetadata st f with
      | error err => simp
      | ok art =>
        simp only []
        exact ih _
    · have hi := (hx.2.2.1 hc).2.1
      have hm := (hx.2.2.1 hc).2.2
      simp only [RepoKnife.classifyFiles, classifyFile_pkg st c f hc, strayPrefix, hi, hm, hc,
        Bool.false_eq_true, if_false, if_true]
      exact ih _
    · have hi := (hx.2.2.2 hc).1
      have hm := (hx.2.2.2 hc).2.1
      have hp := (hx.2.2.2 hc).2.2
      simp only [RepoKnife.classifyFiles, classifyFile_stray st c f hc, strayPrefix, hi, hm, hp,
        Bool.false_eq_true, if_false]
      rw [ih]
      simp [List.append_assoc]

/-- Once the strays found by a classification are removed, and no metadata file
that failed to decode is, the next classification finds no stray. -/
theorem strayPrefix_after {σ : Type} (b : RepoBackendHandler σ) (st st2 : σ)
    (removed : List String)
    (hmeta : ∀ k, k ∉ removed → b.GetMetadata st2 k = b.GetMetadata st k)
    (files : List String) :
    (∀ k ∈ strayPrefix b st files, k ∈ removed) →
    (∀ k ∈ files, isMetaKey k = true → ∀ e, b.GetMetadata st k = Except.error e →
      k ∉ removed) →
    strayPrefix b st2 (files.filter (fun x => decide (x ∉ removed))) = [] := by
  induction files with
  | nil => intro _ _; rfl
  | cons f rest ih =>
    intro h1 h2
    have h2r : ∀ k ∈ rest, isMetaKey k = true → ∀ e, b.GetMetadata st k = Except.error e →
        k ∉ removed := fun k hk => h2 k (List.mem_cons_of_mem _ hk)
    have hx := key_class_excl f
    rw [List.filter_cons]
    rcases key_class_cases f with hc | hc | hc | hc
    · have h1r : ∀ k ∈ strayPrefix b st rest, k ∈ removed := by
        intro k hk; apply h1; simp only [strayPrefix, hc, if_true]; exact hk
      by_cases hr : decide (f ∉ removed) = true
      · rw [if_pos hr]
        simp only [strayPrefix, hc, if_true]
        exact ih h1r h2r
      · rw [if_neg hr]; exact ih h1r h2r
    · have hi := (hx.2.1 hc).2.2
      cases hg : b.GetMetadata st f with
      | error err =>
        have hnr : f ∉ removed := h2 f (List.mem_cons_self _ _) hc err hg
        have hr : decide (f ∉ removed) = true := by simpa using hnr
        rw [if_pos hr]
        simp only [strayPrefix, hi, hc, Bool.false_eq_true, if_false, if_true, hmeta f hnr, hg]
      | ok art =>
        have h1r : ∀ k ∈ strayPrefix b st rest, k ∈ removed := by
          intro k hk; apply h1
          simp only [strayPrefix, hi, hc, Bool.false_eq_true, if_false, if_true, hg]
          exact hk
        by_cases hr : decide (f ∉ removed) = true
        · rw [if_pos hr]
          have hnr : f ∉ removed := by simpa using hr
          simp only [strayPrefix, hi, hc, Bool.false_eq_true, if_false, if_true, hmeta f hnr,
            hg]
          exact ih h1r h2r
        · rw [if_neg hr]; exact ih h1r h2r
    · have hi := (hx.2.2.1 hc).2.1
      have hm := (hx.2.2.1 hc).2.2
      have h1r : ∀ k ∈ strayPrefix b st rest, k ∈ removed := by
        intro k hk; apply h1
        simp only [strayPrefix, hi, hm, hc, Bool.false_eq_true, if_false, if_true]
        exact hk
      by_cases hr : decide (f ∉ removed) = true
      · rw [if_pos hr]
        simp only [strayPrefix, hi, hm, hc, Bool.false_eq_true, if_false, if_true]
        exact ih h1r h2r
      · rw [if_neg hr]; exact ih h1r h2r
    · have hi := (hx.2.2.2 hc).1
      have hm := (hx.2.2.2 hc).2.1
      have hp := (hx.2.2.2 hc).2.2
      have hsp : strayPrefix b st (f :: rest) = f :: strayPrefix b st rest := by
        simp only [strayPrefix, hi, hm, hp, Bool.false_eq_true, if_false]
      have h1r : ∀ k ∈ strayPrefix b st rest, k ∈ removed := by
        intro k hk; apply h1; rw [hsp]; exact List.mem_cons_of_mem _ hk
      have hfr : f ∈ removed := h1 f (by rw [hsp]; exact List.mem_cons_self _ _)
      have hr : ¬ decide (f ∉ removed) = true := by simpa using hfr
      rw [if_neg hr]
      exact ih h1r h2r

theorem surviving_filter {σ : Type} (c : RepoKnife σ) (listing : List String)
    (p : String → Bool) :
    c.surviving (listing.filter p) = (c.surviving listing).filter p := by
  simp only [RepoKnife.surviving, List.filter_filter]
  apply List.filter_congr
  intro x _
  exact Bool.and_comm _ _

/-- `Files2Remove` after `Analyze` depends on the knife only through its
backend, configuration and tree. -/
theorem Analyze_Files2Remove_congr {σ : Type} (c c2 : RepoKnife σ) (ord : RangeOrder) (st : σ)
    (hB : c2.BackendHandler = c.BackendHandler) (hS : c2.Specs = c.Specs)
    (hR : c2.ReciperRuntime = c.ReciperRuntime) :
    (c2.Analyze ord st).1.Files2Remove = (c.Analyze ord st).1.Files2Remove := by
  cases hl : c.BackendHandler.GetFilesList st with
  | error err =>
    have hl2 : c2.BackendHandler.GetFilesList st = Except.error err := by rw [hB]; exact hl
    simp only [RepoKnife.Analyze, hl, hl2]
  | ok listing =>
    have hl2 : c2.BackendHandler.GetFilesList st = Except.ok listing := by rw [hB]; exact hl
    rw [Analyze_of_listing c ord st listing hl, Analyze_of_listing c2 ord st listing hl2]
    have hstart : c2.start listing = c.start listing := by
      cases c; cases c2
      simp only [RepoKnife.start] at *
      simp [hB, hS, hR]
    have hsurv : c2.surviving listing = c.surviving listing := by
      simp only [RepoKnife.surviving, hS]
    rw [hstart, hsurv]

theorem strayPrefix_mem {σ : Type} (b : RepoBackendHandler σ) (st : σ)
    (files : List String) (k : String) (hk : k ∈ strayPrefix b st files) :
    k ∈ files ∧ isStrayKey k = true := by
  induction files with
  | nil => cases hk
  | cons f rest ih =>
    have hx := key_class_excl f
    rcases key_class_cases f with hc | hc | hc | hc
    · simp only [strayPrefix, hc, if_true] at hk
      exact ⟨List.mem_cons_of_mem _ (ih hk).1, (ih hk).2⟩
    · have hi := (hx.2.1 hc).2.2
      simp only [strayPrefix, hi, hc, Bool.false_eq_true, if_false, if_true] at hk
      cases hg : b.GetMetadata st f with
      | error err => rw [hg] at hk; cases hk
      | ok art =>
        rw [hg] at hk
        exact ⟨List.mem_cons_of_mem _ (ih hk).1, (ih hk).2⟩
    · have hi := (hx.2.2.1 hc).2.1
      have hm := (hx.2.2.1 hc).2.2
      simp only [strayPrefix, hi, hm, hc, Bool.false_eq_true, if_false, if_true] at hk
      exact ⟨List.mem_cons_of_mem _ (ih hk).1, (ih hk).2⟩
    · have hi := (hx.2.2.2 hc).1
      have hm := (hx.2.2.2 hc).2.1
      have hp := (hx.2.2.2 hc).2.2
      simp only [strayPrefix, hi, hm, hp, Bool.false_eq_true, if_false] at hk
      rcases List.mem_cons.mp hk with e | e
      · rw [e]; exact ⟨List.mem_cons_self _ _, hc⟩
      · exact ⟨List.mem_cons_of_mem _ (ih e).1, (ih e).2⟩

/-- After the entries of `Files2Remove` of a first analysis are removed by a
backend that removes exactly the given key, a second analysis finds nothing to
remove, when metadata and tarballs name each other as siblings. -/
theorem second_Analyze_empty {σ : Type} (c : RepoKnife σ)
    (hb : RemovesExactly c.BackendHandler) (ord1 ord2 : RangeOrder) (st : σ)
    (listing : List String) (hl : c.BackendHandler.GetFilesList st = Except.ok listing)
    (hP1 : ∀ m ∈ c.surviving listing, isMetaKey m = true →
      ∀ art, c.BackendHandler.GetMetadata st m = Except.ok art →
        isPkgKey (Base art.Path) = true ∧ siblingMeta (Base art.Path) = m)
    (hP2 : ∀ p ∈ c.surviving listing, isPkgKey p = true →
      siblingMeta p ∈ c.surviving listing → isMetaKey (siblingMeta p) = true →
      ∀ art, c.BackendHandler.GetMetadata st (siblingMeta p) = Except.ok art →
        Base art.Path = p) :
    (c.Analyze ord2 ((c.Analyze ord1 st).1.Files2Remove.foldl
      (fun s f => (c.BackendHandler.CleanFile s f).2) st)).1.Files2Remove = [] := by
  generalize hF1 : (c.Analyze ord1 st).1.Files2Remove = F1
  obtain ⟨hlist2, hmeta2⟩ := after_removals c.BackendHandler hb F1 st listing hl
  generalize hst2 : F1.foldl (fun s f => (c.BackendHandler.CleanFile s f).2) st = st2
    at hlist2 hmeta2
  have hbs : ∀ l, (c.start l).BackendHandler = c.BackendHandler := fun _ => rfl
  have hfs : ∀ l, (c.start l).Files2Remove = [] := fun _ => rfl
  -- the first run
  have hF1eq := Analyze_of_listing c ord1 st listing hl
  have hcF1 := classifyFiles_Files2Remove st (c.surviving listing) (c.start listing)
  rw [hbs, hfs, List.nil_append] at hcF1
  have hnone1 := classifyFiles_none_iff st (c.surviving listing) (c.start listing)
  rw [hbs] at hnone1
  have h1 : ∀ k ∈ strayPrefix c.BackendHandler st (c.surviving listing), k ∈ F1 := by
    intro k hk
    rw [← hF1, hF1eq]
    cases hcl : RepoKnife.classifyFiles st (c.start listing) (c.surviving listing) with
    | mk c2 err =>
      rw [hcl] at hcF1
      cases err with
      | some e => simp only []; rw [hcF1]; exact hk
      | none =>
        simp only []
        rw [hcF1]
        exact List.mem_append_left _ hk
  have h2 : ∀ k ∈ c.surviving listing, isMetaKey k = true →
      ∀ e, c.BackendHandler.GetMetadata st k = Except.error e → k ∉ F1 := by
    intro k hk hm e he
    rw [← hF1, hF1eq]
    cases hcl : RepoKnife.classifyFiles st (c.start listing) (c.surviving listing) with
    | mk c2 err =>
      rw [hcl] at hcF1 hnone1
      cases err with
      | some e2 =>
        simp only []
        rw [hcF1]
        intro hin
        have := (strayPrefix_mem _ _ _ _ hin).2
        rw [((key_class_excl k).2.1 hm).2.1] at this
        exact Bool.noConfusion this
      | none =>
        obtain ⟨art, ha⟩ := hnone1.mp rfl k hk hm
        rw [he] at ha
        cases ha
  -- the second run
  have hsurv2 : c.surviving (listing.filter (fun x => decide (x ∉ F1))) =
      (c.surviving listing).filter (fun x => decide (x ∉ F1)) := surviving_filter _ _ _
  have hsp2 := strayPrefix_after c.BackendHandler st st2 F1 hmeta2 (c.surviving listing) h1 h2
  rw [Analyze_of_listing c ord2 st2 _ hlist2, hsurv2]
  have hcF2 := classifyFiles_Files2Remove st2
    ((c.surviving listing).filter (fun x => decide (x ∉ F1)))
    (c.start (listing.filter (fun x => decide (x ∉ F1))))
  rw [hbs, hfs, List.nil_append, hsp2] at hcF2
  have hnone2 := classifyFiles_none_iff st2
    ((c.surviving listing).filter (fun x => decide (x ∉ F1)))
    (c.start (listing.filter (fun x => decide (x ∉ F1))))
  rw [hbs] at hnone2
  cases hcl2 : RepoKnife.classifyFiles st2
      (c.start (listing.filter (fun x => decide (x ∉ F1))))
      ((c.surviving listing).filter (fun x => decide (x ∉ F1))) with
  | mk k2 err2 =>
    rw [hcl2] at hcF2 hnone2
    cases err2 with
    | some e => exact hcF2
    | none =>
      simp only [] at hcF2 ⊢
      have hdec2 := hnone2.mp rfl
      have hmem2 : ∀ k, k ∈ (c.surviving listing).filter (fun x => decide (x ∉ F1)) ↔
          (k ∈ c.surviving listing ∧ k ∉ F1) := by
        intro k; simp [List.mem_filter]
      -- the first run succeeded
      have hok1 : (RepoKnife.classifyFiles st (c.start listing) (c.surviving listing)).2
          = none := by
        rw [hnone1]
        intro k hk hm
        cases hg : c.BackendHandler.GetMetadata st k with
        | ok art => exact ⟨art, rfl⟩
        | error e =>
          have hnr := h2 k hk hm e hg
          obtain ⟨art, ha⟩ := hdec2 k ((hmem2 k).mpr ⟨hk, hnr⟩) hm
          rw [hmeta2 k hnr, hg] at ha
          cases ha
      have hAok : (c.Analyze ord1 st).2 = none := by
        rw [Analyze_err_of_listing c ord1 st listing hl]; exact hok1
      have hA1 : c.Analyze ord1 st = ((c.Analyze ord1 st).1, none) := Prod.ext rfl hAok
      obtain ⟨l1, hl1, aMm, aPm, aM, aP, aF, _⟩ := Analyze_view c ord1 st _ hA1
      have el : l1 = listing := by rw [hl] at hl1; exact (Except.ok.inj hl1).symm
      subst el
      rw [hF1] at aF
      generalize (c.Analyze ord1 st).1.MetaMap = M1 at aMm aM aF
      generalize (c.Analyze ord1 st).1.PkgsMap = P1 at aPm aP aF
      obtain ⟨w1, w2, w3, w4, _, w6, _, _, _⟩ := classified_view st2 c _ _ k2 hcl2
      have hfalse : ∀ (x : Bool), x = false → ¬ x = true := by
        intro x hx; rw [hx]; exact Bool.false_ne_true
      have hdet : ∀ m a1 a2, c.BackendHandler.GetMetadata st m = Except.ok a1 →
          c.BackendHandler.GetMetadata st m = Except.ok a2 → a1 = a2 := by
        intro m a1 a2 e1 e2
        exact Except.ok.inj (e1.symm.trans e2)
      have e1 : orphanMeta k2.PkgsMap (ord2.metaOrder 0 k2.MetaMap) = [] := by
        apply List.eq_nil_iff_forall_not_mem.mpr
        intro k hk
        obtain ⟨art, ha, hbp⟩ := (mem_orphanMeta _ _ _).mp hk
        obtain ⟨hk2, hkm, hg2⟩ := (w1 k art).mp ((ord2.metaOrder_perm 0 _).mem_iff.mp ha)
        obtain ⟨hks, hkn⟩ := (hmem2 k).mp hk2
        have hg : c.BackendHandler.GetMetadata st k = Except.ok art := by
          rw [← hmeta2 k hkn]; exact hg2
        have hmem1 : (k, art) ∈ M1 := (aMm k art).mpr ⟨hks, hkm, hg⟩
        obtain ⟨hpk, hsib⟩ := hP1 k hks hkm art hg
        have hp1 : GoMap.has P1 (Base art.Path) = true := by
          cases hh : GoMap.has P1 (Base art.Path) with
          | true => rfl
          | false => exact absurd ((aF k).mpr (Or.inr (Or.inl ⟨art, hmem1, hh⟩))) hkn
        have hps := ((aP _).mp hp1).1
        have hfound : c.ReciperRuntime.FindPackage (searchPackage art) ≠ none := by
          intro hnf
          exact hkn ((aF k).mpr (Or.inr (Or.inr (Or.inr ⟨k, art, hmem1, hnf, Or.inl rfl⟩))))
        have hpin : Base art.Path ∈ F1 := by
          by_contra hnot
          exact hfalse _ hbp ((w4 _).mpr ⟨(hmem2 _).mpr ⟨hps, hnot⟩, hpk⟩)
        have hx := (key_class_excl (Base art.Path)).2.2.1 hpk
        rcases (aF _).mp hpin with ⟨_, hs⟩ | ⟨a2, hm2, _⟩ | ⟨v, hm2, hv⟩ |
            ⟨m, a2, hm2, hnf, hpm | hpm⟩
        · rw [hx.1] at hs; exact Bool.noConfusion hs
        · have := ((aMm _ a2).mp hm2).2.1
          rw [hx.2.2] at this; exact Bool.noConfusion this
        · have hv2 := ((aPm _ v).mp hm2).2.2
          rw [hv2, hsib] at hv
          exact hfalse _ hv ((aM k).mpr ⟨hks, hkm⟩)
        · have := ((aMm m a2).mp hm2).2.1
          rw [← hpm, hx.2.2] at this; exact Bool.noConfusion this
        · obtain ⟨hms, hmm, hmg⟩ := (aMm m a2).mp hm2
          have hsib2 := (hP1 m hms hmm a2 hmg).2
          rw [← hpm, hsib] at hsib2
          subst hsib2
          have := hdet k art a2 hg hmg
          subst this
          exact hfound hnf
      have e2 : orphanPkgs k2.MetaMap (ord2.pkgsOrder 1 k2.PkgsMap) = [] := by
        apply List.eq_nil_iff_forall_not_mem.mpr
        intro k hk
        obtain ⟨v, ha, hbm⟩ := (mem_orphanPkgs _ _ _).mp hk
        obtain ⟨hk2, hkp, hv⟩ := (w2 k v).mp ((ord2.pkgsOrder_perm 1 _).mem_iff.mp ha)
        obtain ⟨hks, hkn⟩ := (hmem2 k).mp hk2
        subst hv
        have hmemP : (k, siblingMeta k) ∈ P1 := (aPm k _).mpr ⟨hks, hkp, rfl⟩
        have hm1 : GoMap.has M1 (siblingMeta k) = true := by
          cases hh : GoMap.has M1 (siblingMeta k) with
          | true => rfl
          | false => exact absurd ((aF k).mpr (Or.inr (Or.inr (Or.inl ⟨_, hmemP, hh⟩)))) hkn
        obtain ⟨hms, hmm⟩ := (aM _).mp hm1
        obtain ⟨art, hart⟩ := GoMap.mem_of_has _ _ hm1
        have hg := ((aMm _ art).mp hart).2.2
        have hbase := hP2 k hks hkp hms hmm art hg
        have hmin : siblingMeta k ∈ F1 := by
          by_contra hnot
          exact hfalse _ hbm ((w3 _).mpr ⟨(hmem2 _).mpr ⟨hms, hnot⟩, hmm⟩)
        have hx := (key_class_excl (siblingMeta k)).2.1 hmm
        rcases (aF _).mp hmin with ⟨_, hs⟩ | ⟨a2, hm2, hv⟩ | ⟨v, hm2, _⟩ |
            ⟨m, a2, hm2, hnf, hpm | hpm⟩
        · rw [hx.2.1] at hs; exact Bool.noConfusion hs
        · have := hdet _ art a2 hg ((aMm _ a2).mp hm2).2.2
          subst this
          rw [hbase] at hv
          exact hfalse _ hv ((aP k).mpr ⟨hks, hkp⟩)
        · have := ((aPm _ v).mp hm2).2.1
          rw [hx.1] at this; exact Bool.noConfusion this
        · rw [← hpm] at hm2
          have := hdet _ art a2 hg ((aMm _ a2).mp hm2).2.2
          subst this
          apply hkn
          exact (aF k).mpr (Or.inr (Or.inr (Or.inr
            ⟨_, art, hart, hnf, Or.inr hbase.symm⟩)))
        · obtain ⟨hms2, hmm2, hmg2⟩ := (aMm m a2).mp hm2
          have := (hP1 m hms2 hmm2 a2 hmg2).1
          rw [← hpm, hx.1] at this; exact Bool.noConfusion this
      have e3 : staleFiles k2.ReciperRuntime (ord2.metaOrder 2 k2.MetaMap) = [] := by
        apply List.eq_nil_iff_forall_not_mem.mpr
        intro k hk
        obtain ⟨m, art, ha, hnf, _⟩ := (mem_staleFiles _ _ _).mp hk
        obtain ⟨hk2, hkm, hg2⟩ := (w1 m art).mp ((ord2.metaOrder_perm 2 _).mem_iff.mp ha)
        obtain ⟨hks, hkn⟩ := (hmem2 m).mp hk2
        have hg : c.BackendHandler.GetMetadata st m = Except.ok art := by
          rw [← hmeta2 m hkn]; exact hg2
        rw [w6] at hnf
        exact hkn ((aF m).mpr (Or.inr (Or.inr (Or.inr
          ⟨m, art, (aMm m art).mpr ⟨hks, hkm, hg⟩, hnf, Or.inl rfl⟩))))
      simp only [hcF2, e1, e2, e3, List.append_nil]

/-- C12, as stated, fails on a tarball named `*.package.tar.xz` with its
metadata file (the package being in the tree): the first run removes the
tarball, whose computed metadata name is the tarball name itself, and the
analysis of the second run then finds the metadata file without tarball. -/
theorem C12_twice_counterexample :
    ((localCleanerOn [pkgA] false).Run RangeOrder.insertion storeXz).cleaned =
      ["a-1.0.package.tar.xz"] ∧
    (((localCleanerOn [pkgA] false).Run RangeOrder.insertion storeXz).cleaner.Run
      RangeOrder.insertion
      ((localCleanerOn [pkgA] false).Run RangeOrder.insertion storeXz).store).cleaner.Files2Remove
      = ["a-1.0.metadata.yaml"] := by
  decide

/-- C12, amended: with a backend whose `CleanFile` removes exactly the given
key, running the cleaner (not dry-run) twice in a row leaves `Files2Remove`
empty after the analysis of the second run, for every initial store in which
metadata and tarballs are siblings of each other: the basename of the payload
path of every listed record is a tarball name whose metadata name is the key of
the record, and every listed tarball whose metadata name is a listed metadata
key is the basename of the payload path of that record. -/
theorem C12_second_run_empty {σ : Type} (c : RepoCleaner σ) (hd : c.DryRun = false)
    (hb : RemovesExactly c.BackendHandler) (ord1 ord2 : RangeOrder) (st : σ)
    (hP : ∀ listing, c.BackendHandler.GetFilesList st = Except.ok listing →
      (∀ m ∈ c.surviving listing, isMetaKey m = true →
        ∀ art, c.BackendHandler.GetMetadata st m = Except.ok art →
          isPkgKey (Base art.Path) = true ∧ siblingMeta (Base art.Path) = m) ∧
      (∀ p ∈ c.surviving listing, isPkgKey p = true →
        siblingMeta p ∈ c.surviving listing → isMetaKey (siblingMeta p) = true →
        ∀ art, c.BackendHandler.GetMetadata st (siblingMeta p) = Except.ok art →
          Base art.Path = p)) :
    ((c.Run ord1 st).cleaner.Run ord2 (c.Run ord1 st).store).cleaner.Files2Remove = [] := by
  obtain ⟨fB, fS, fR⟩ := Analyze_frame c.toRepoKnife ord1 st
  have hstore : (c.Run ord1 st).store =
      (c.toRepoKnife.Analyze ord1 st).1.Files2Remove.foldl
        (fun s f => (c.BackendHandler.CleanFile s f).2) st := by
    simp only [RepoCleaner.Run, removeFiles_eq, hd, Bool.false_eq_true, if_false, fB]
  have hsecond : ((c.Run ord1 st).cleaner.Run ord2 (c.Run ord1 st).store).cleaner.Files2Remove
      = ((c.toRepoKnife.Analyze ord1 st).1.Analyze ord2 (c.Run ord1 st).store).1.Files2Remove :=
    rfl
  rw [hsecond, Analyze_Files2Remove_congr c.toRepoKnife _ ord2 _ fB fS fR, hstore]
  cases hl : c.BackendHandler.GetFilesList st with
  | ok listing =>
    exact second_Analyze_empty c.toRepoKnife hb ord1 ord2 st listing hl (hP listing hl).1
      (hP listing hl).2
  | error err =>
    have h1 : (c.toRepoKnife.Analyze ord1 st).1.Files2Remove = [] := by
      simp only [RepoKnife.Analyze, hl]
    rw [h1]
    simp only [List.foldl_nil, RepoKnife.Analyze, hl]

/-- C12, amended, on scenario S1 with the tree of `cat/a`: the first run
removes the stray, the analysis of the second run finds nothing. -/
theorem C12_second_run_empty_witness :
    ((localCleanerOn [pkgA] false).Run RangeOrder.insertion storeS1).cleaned = ["stray.txt"] ∧
    (((localCleanerOn [pkgA] false).Run RangeOrder.insertion storeS1).cleaner.Run
      RangeOrder.reversed
      ((localCleanerOn [pkgA] false).Run RangeOrder.insertion storeS1).store).cleaner.Files2Remove
      = [] := by
  refine ⟨by decide, ?_⟩
  apply C12_second_run_empty (localCleanerOn [pkgA] false) rfl BackendLocal_removesExactly
  intro listing hl
  have e : listing = ["a-1.0.package.tar", "a-1.0.metadata.yaml", "stray.txt",
      "repository.yaml"] := (Except.ok.inj hl).symm
  subst e
  constructor
  · intro m hm hmk art hg
    have hm2 := ((mem_surviving _ _ _).mp hm).1
    simp only [List.mem_cons, List.mem_singleton, List.mem_nil_iff, or_false] at hm2
    rcases hm2 with e | e | e | e
    · subst e; exact absurd hmk (by decide)
    · subst e
      have ha : art = artA := (Except.ok.inj hg).symm
      subst ha
      exact ⟨by decide, by decide⟩
    · subst e; exact absurd hmk (by decide)
    · subst e; exact absurd hmk (by decide)
  · intro p hp hpk _ _ art hg
    have hp2 := ((mem_surviving _ _ _).mp hp).1
    simp only [List.mem_cons, List.mem_singleton, List.mem_nil_iff, or_false] at hp2
    rcases hp2 with e | e | e | e
    · subst e
      have ha : art = artA := (Except.ok.inj hg).symm
      subst ha
      decide
    · subst e; exact absurd hpk (by decide)
    · subst e; exact absurd hpk (by decide)
    · subst e; exact absurd hpk (by decide)

/-! ## Stage 4: what the operations on a tree keep -/

theorem GoMap.get?_delete_map {V : Type} (m : GoMap V) (k k2 : String) (g : String × V → String × V)
    (hg : ∀ e, (g e).1 = e.1) :
    GoMap.get? ((GoMap.delete m k).map g) k2 =
      if k2 = k then none else (GoMap.get? m k2).map (fun v => (g (k2, v)).2) := by
  induction m with
  | nil => simp [GoMap.delete, GoMap.get?]
  | cons e m ih =>
    simp only [GoMap.delete] at ih ⊢
    by_cases he : e.1 = k
    · have h1 : (e.1 != k) = false := by simp [he]
      rw [List.filter_cons_of_neg (by simp [h1]), ih]
      by_cases hk : k2 = k
      · simp [hk]
      · have h2 : ¬ e.1 = k2 := fun h => hk (h ▸ he)
        simp [hk, GoMap.get?, h2]
    · have h1 : (e.1 != k) = true := by simp [he]
      rw [List.filter_cons_of_pos (by simp [h1]), List.map_cons]
      by_cases h2 : e.1 = k2
      · have hk : ¬ k2 = k := fun h => he (h2.trans h)
        have h3 : (g e).1 = k2 := by rw [hg]; exact h2
        have h4 : g (k2, e.2) = g e := by rw [← h2]
        simp [GoMap.get?, h2, h3, hk, h4]
      · have h3 : ¬ (g e).1 = k2 := by rw [hg]; exact h2
        simp only [GoMap.get?, h3, if_false, h2]
        exact ih

theorem fatherIndex_lt (fs : List (Option DefaultPackage)) (father : Option DefaultPackage)
    (i : Nat) (h : fatherIndex fs father = some (some i)) : i < fs.length := by
  induction fs generalizing i with
  | nil => simp [fatherIndex] at h
  | cons f rest ih =>
    cases f with
    | none => simp [fatherIndex] at h
    | some f =>
      cases father with
      | none => simp [fatherIndex] at h
      | some g =>
        simp only [fatherIndex] at h
        by_cases hs : sameCatName f g = true
        · simp [hs] at h; subst h; simp
        · simp only [hs] at h
          cases hr : fatherIndex rest (some g) with
          | none => simp [hr] at h
          | some r =>
            cases r with
            | none => simp [hr] at h
            | some j =>
              simp [hr] at h
              subst h
              have := ih j hr
              simp; omega

theorem AddFather_fields (leaf leaf2 : Stage4Leaf) (father : Option DefaultPackage)
    (h : leaf.AddFather father = some leaf2) :
    leaf2.Package = leaf.Package ∧ leaf2.Position = leaf.Position := by
  simp only [Stage4Leaf.AddFather] at h
  cases hf : fatherIndex leaf.Father father with
  | none => simp [hf] at h
  | some r =>
    cases r with
    | none => simp [hf] at h; subst h; exact ⟨rfl, rfl⟩
    | some i => simp [hf] at h; subst h; exact ⟨rfl, rfl⟩

theorem DelFather_fields (leaf leaf2 : Stage4Leaf) (father : Option DefaultPackage)
    (h : leaf.DelFather father = some leaf2) :
    leaf2.Package = leaf.Package ∧ leaf2.Position = leaf.Position := by
  simp only [Stage4Leaf.DelFather] at h
  cases hf : fatherIndex leaf.Father father with
  | none => simp [hf] at h
  | some r =>
    cases r with
    | none => simp [hf] at h; subst h; exact ⟨rfl, rfl⟩
    | some i => simp [hf] at h; subst h; exact ⟨rfl, rfl⟩


theorem Stage4Tree.holds_of_leaf (t : Stage4Tree) (h : t.WF) (k : String) (leaf : Stage4Leaf)
    (hl : GoMap.get? t.Map k = some leaf) : t.holds k := by
  obtain ⟨hk, hp⟩ := h k leaf hl
  simp only [Stage4Tree.holds, List.mem_map]
  exact ⟨leaf.Package, List.get?_mem hp, hk⟩

theorem Stage4Tree.AddDependency_keeps (t t2 : Stage4Tree) (p : DefaultPackage)
    (father : Option DefaultPackage) (h : t.WF) (ha : t.AddDependency p father = some t2) :
    t2.WF ∧ (∀ k, t.holds k → t2.holds k) ∧ t2.holds (pkgKey p) ∧
    (∀ k, t2.holds k → t.holds k ∨ k = pkgKey p) ∧
    (∀ k, (GoMap.get? t.Map k).isSome → (GoMap.get? t2.Map k).isSome) ∧
    (GoMap.get? t2.Map (pkgKey p)).isSome := by
  simp only [Stage4Tree.AddDependency] at ha
  cases hg : GoMap.get? t.Map (pkgKey p) with
  | some leaf =>
    simp only [hg] at ha
    cases hf : leaf.AddFather father with
    | none => simp [hf] at ha
    | some leaf2 =>
      simp only [hf, Option.some.injEq] at ha
      subst ha
      obtain ⟨hpk, hpos⟩ := AddFather_fields leaf leaf2 father hf
      refine ⟨?_, fun k hk => hk, ?_, fun k hk => Or.inl hk, ?_, ?_⟩
      · intro k lf hk
        simp only [GoMap.get?_set] at hk
        by_cases hkk : k = pkgKey p
        · simp only [hkk, if_true, Option.some.injEq] at hk
          subst hk
          rw [hpk, hpos, hkk]
          exact h (pkgKey p) leaf hg
        · simp only [hkk, if_false] at hk
          exact h k lf hk
      · exact Stage4Tree.holds_of_leaf t h (pkgKey p) leaf hg
      · intro k hk
        simp only [GoMap.get?_set]
        by_cases hkk : k = pkgKey p <;> simp [hkk, hk]
      · simp [GoMap.get?_set]
  | none =>
    simp only [hg, Option.some.injEq] at ha
    subst ha
    refine ⟨?_, ?_, ?_, ?_, ?_, ?_⟩
    · intro k lf hk
      simp only [GoMap.get?_set] at hk
      by_cases hkk : k = pkgKey p
      · simp only [hkk, if_true, Option.some.injEq] at hk
        subst hk
        refine ⟨by simp [NewStage4Leaf, hkk], ?_⟩
        simp [NewStage4Leaf, List.get?_eq_getElem?]
      · simp only [hkk, if_false] at hk
        obtain ⟨h1, h2⟩ := h k lf hk
        refine ⟨h1, ?_⟩
        rw [List.get?_eq_getElem?] at h2 ⊢
        have hlt : lf.Position < t.Deps.length := by
          by_contra hc
          rw [List.getElem?_eq_none (by omega)] at h2
          cases h2
        rw [List.getElem?_append_left hlt]
        exact h2
    · intro k hk
      simp only [Stage4Tree.holds, List.map_append, List.mem_append] at hk ⊢
      exact Or.inl hk
    · simp [Stage4Tree.holds]
    · intro k hk
      simp only [Stage4Tree.holds, List.map_append, List.mem_append, List.map_cons, List.map_nil,
        List.mem_singleton] at hk ⊢
      exact hk
    · intro k hk
      simp only [GoMap.get?_set]
      by_cases hkk : k = pkgKey p <;> simp [hkk, hk]
    · simp [GoMap.get?_set]


theorem dropped_deps (deps : List DefaultPackage) (pos : Nat) (h : pos < deps.length) :
    (if (deps.length : Int) = (pos : Int) - 1 then deps.take (pos - 1)
     else if pos = 0 then deps.drop 1
     else deps.take pos ++ deps.drop (pos + 1)) = deps.eraseIdx pos := by
  have h1 : ¬ ((deps.length : Int) = (pos : Int) - 1) := by omega
  rw [if_neg h1, List.eraseIdx_eq_take_drop_succ]
  by_cases h0 : pos = 0
  · simp [h0]
  · simp [h0]

theorem Stage4Tree.DropDependency_keeps (t : Stage4Tree) (p : DefaultPackage) (h : t.WF) :
    (t.DropDependency p).1.WF ∧
    (∀ k, k ≠ pkgKey p → t.holds k → (t.DropDependency p).1.holds k) ∧
    (∀ k, (t.DropDependency p).1.holds k → t.holds k) := by
  simp only [Stage4Tree.DropDependency]
  cases hg : GoMap.get? t.Map (pkgKey p) with
  | none => exact ⟨h, fun k _ hk => hk, fun k hk => hk⟩
  | some leaf =>
    obtain ⟨hkey, hpos⟩ := h (pkgKey p) leaf hg
    rw [List.get?_eq_getElem?] at hpos
    have hlt : leaf.Position < t.Deps.length := by
      by_contra hc
      rw [List.getElem?_eq_none (by omega)] at hpos
      cases hpos
    by_cases hc : leaf.Counter > 1
    · simp only [hc, if_true]
      refine ⟨?_, fun k _ hk => hk, fun k hk => hk⟩
      intro k lf hk
      simp only [GoMap.get?_set] at hk
      by_cases hkk : k = pkgKey p
      · simp only [hkk, if_true, Option.some.injEq] at hk
        subst hk
        rw [hkk]
        exact h (pkgKey p) leaf hg
      · simp only [hkk, if_false] at hk
        exact h k lf hk
    · simp only [hc, if_false]
      rw [dropped_deps t.Deps leaf.Position hlt]
      refine ⟨?_, ?_, ?_⟩
      · intro k lf hk
        rw [GoMap.get?_delete_map _ _ _ _ (by intro e; split <;> rfl)] at hk
        by_cases hkk : k = pkgKey p
        · simp [hkk] at hk
        · simp only [hkk, if_false, Option.map_eq_some'] at hk
          obtain ⟨lf0, hlf0, hlf⟩ := hk
          obtain ⟨h1, h2⟩ := h k lf0 hlf0
          rw [List.get?_eq_getElem?] at h2
          have hne : lf0.Position ≠ leaf.Position := by
            intro he
            rw [he, hpos] at h2
            have h3 : leaf.Package = lf0.Package := Option.some.inj h2
            apply hkk
            rw [← h1, ← h3, hkey]
          rw [List.get?_eq_getElem?, List.getElem?_eraseIdx]
          by_cases hgt : lf0.Position > leaf.Position
          · simp only [hgt, if_true] at hlf
            subst hlf
            simp only
            have h4 : ¬ (lf0.Position - 1 < leaf.Position) := by omega
            have h5 : lf0.Position - 1 + 1 = lf0.Position := by omega
            rw [if_neg h4, h5]
            exact ⟨h1, h2⟩
          · simp only [hgt, if_false] at hlf
            subst hlf
            have h4 : lf0.Position < leaf.Position := by omega
            rw [if_pos h4]
            exact ⟨h1, h2⟩
      · intro k hk hh
        simp only [Stage4Tree.holds, List.mem_map] at hh ⊢
        obtain ⟨x, hx, hxk⟩ := hh
        obtain ⟨n, hn⟩ := List.mem_iff_getElem?.mp hx
        refine ⟨x, List.mem_eraseIdx_iff_getElem?.mpr ⟨n, ?_, hn⟩, hxk⟩
        intro he
        rw [he, hpos] at hn
        have h3 : leaf.Package = x := Option.some.inj hn
        apply hk
        rw [← hxk, ← h3, hkey]
      · intro k hh
        simp only [Stage4Tree.holds, List.mem_map] at hh ⊢
        obtain ⟨x, hx, hxk⟩ := hh
        exact ⟨x, List.mem_of_mem_eraseIdx hx, hxk⟩


/-! ## Stage 4: what the operations on the levels keep -/

theorem Stage4Levels.Mono.mono_refl (l : Stage4Levels) : l.Mono l :=
  fun h => ⟨h, Nat.le_refl _, fun _ _ hk => hk, fun _ _ hk => hk, fun _ => rfl⟩

theorem Stage4Levels.Mono.mono_trans {l l2 l3 : Stage4Levels} (h1 : l.Mono l2) (h2 : l2.Mono l3) :
    l.Mono l3 := by
  intro h
  obtain ⟨a1, a2, a3, a4, a5⟩ := h1 h
  obtain ⟨b1, b2, b3, b4, b5⟩ := h2 a1
  exact ⟨b1, Nat.le_trans a2 b2, fun i k hk => b3 i k (a3 i k hk), fun i k hk => b4 i k (a4 i k hk),
    fun k => (b5 k).trans (a5 k)⟩

theorem Stage4Levels.Step.step_refl (pos : Nat) (K : String) (l : Stage4Levels) : l.Step pos K l :=
  fun h => ⟨h, Nat.le_refl _, fun _ _ _ hk => hk, fun _ _ _ hk => hk, fun _ => rfl⟩

theorem Stage4Levels.Step.step_trans {pos : Nat} {K : String} {l l2 l3 : Stage4Levels}
    (h1 : l.Step pos K l2) (h2 : l2.Step pos K l3) : l.Step pos K l3 := by
  intro h
  obtain ⟨a1, a2, a3, a4, a5⟩ := h1 h
  obtain ⟨b1, b2, b3, b4, b5⟩ := h2 a1
  exact ⟨b1, Nat.le_trans a2 b2, fun i k c hk => b3 i k c (a3 i k c hk),
    fun i k c hk => b4 i k c (a4 i k c hk), fun k => (b5 k).trans (a5 k)⟩

theorem Stage4Levels.Mono.to_step {l l2 : Stage4Levels} (pos : Nat) (K : String) (h1 : l.Mono l2) :
    l.Step pos K l2 := by
  intro h
  obtain ⟨a1, a2, a3, a4, a5⟩ := h1 h
  exact ⟨a1, a2, fun i k _ hk => a3 i k hk, fun i k _ hk => a4 i k hk, a5⟩

theorem Stage4Levels.set_tree (l : Stage4Levels) (level : Nat) (t t2 : Stage4Tree)
    (hget : l.Levels.get? level = some t) (h : l.WF) (ht2 : t2.WF)
    (hreg : ∀ k, t2.holds k → (GoMap.get? l.Map k).isSome) :
    Stage4Levels.WF { l with Levels := l.Levels.set level t2 } ∧
    (∀ i, i ≠ level →
      (Stage4Levels.mk (l.Levels.set level t2) l.Map).Levels.get? i = l.Levels.get? i) ∧
    (Stage4Levels.mk (l.Levels.set level t2) l.Map).Levels.get? level = some t2 := by
  have hlt : level < l.Levels.length := by
    rw [List.get?_eq_getElem?] at hget
    by_contra hc
    rw [List.getElem?_eq_none (by omega)] at hget
    cases hget
  have e1 : ∀ i, i ≠ level →
      (Stage4Levels.mk (l.Levels.set level t2) l.Map).Levels.get? i = l.Levels.get? i := by
    intro i hi
    simp only [List.get?_eq_getElem?, List.getElem?_set]
    rw [if_neg (fun e => hi e.symm)]
  have e2 : (Stage4Levels.mk (l.Levels.set level t2) l.Map).Levels.get? level = some t2 := by
    simp only [List.get?_eq_getElem?, List.getElem?_set, if_true, hlt]
  refine ⟨⟨?_, h.2.1, ?_⟩, e1, e2⟩
  · intro t3 ht3
    rcases List.mem_or_eq_of_mem_set ht3 with h3 | h3
    · exact h.1 t3 h3
    · rw [h3]; exact ht2
  · intro i k hk
    obtain ⟨t3, ht3, hh⟩ := hk
    by_cases hi : i = level
    · subst hi
      rw [e2] at ht3
      cases ht3
      exact hreg k hh
    · rw [e1 i hi] at ht3
      exact h.2.2 i k ⟨t3, ht3, hh⟩

theorem Stage4Levels.treeAdd_mono (l l2 : Stage4Levels) (level : Nat) (p : DefaultPackage)
    (father : Option DefaultPackage) (hp : (GoMap.get? l.Map (pkgKey p)).isSome)
    (ha : l.treeAdd level p father = some l2) :
    l.Mono l2 ∧ l2.Map = l.Map ∧ l2.Levels.length = l.Levels.length ∧
    (l.WF → l2.holdsAt level (pkgKey p) ∧ (l2.leaf? level (pkgKey p)).isSome ∧
      ∀ i k, l2.holdsAt i k → l.holdsAt i k ∨ (i = level ∧ k = pkgKey p)) := by
  unfold Stage4Levels.treeAdd at ha
  cases hg : l.Levels.get? level with
  | none => simp [← List.get?_eq_getElem?, hg] at ha
  | some t =>
    simp only [← List.get?_eq_getElem?, hg] at ha
    cases hadd : t.AddDependency p father with
    | none => simp [hadd] at ha
    | some t2 =>
      simp only [hadd, Option.some.injEq] at ha
      subst ha
      have hall : l.WF → Stage4Levels.WF { l with Levels := l.Levels.set level t2 } ∧
          (∀ i, i ≠ level →
            (Stage4Levels.mk (l.Levels.set level t2) l.Map).Levels.get? i = l.Levels.get? i) ∧
          (Stage4Levels.mk (l.Levels.set level t2) l.Map).Levels.get? level = some t2 := by
        intro h
        have htwf : t.WF := h.1 t (List.get?_mem hg)
        obtain ⟨k1, k2, k3, k4, k5, k6⟩ := Stage4Tree.AddDependency_keeps t t2 p father htwf hadd
        refine Stage4Levels.set_tree l level t t2 hg h k1 ?_
        intro k hk
        rcases k4 k hk with h5 | h5
        · exact h.2.2 level k ⟨t, hg, h5⟩
        · rw [h5]; exact hp
      refine ⟨?_, rfl, by simp, ?_⟩
      · intro h
        have htwf : t.WF := h.1 t (List.get?_mem hg)
        obtain ⟨k1, k2, k3, k4, k5, k6⟩ := Stage4Tree.AddDependency_keeps t t2 p father htwf hadd
        obtain ⟨s1, s2, s3⟩ := hall h
        refine ⟨s1, by simp, ?_, ?_, fun _ => rfl⟩
        · intro i k hk
          obtain ⟨t3, ht3, hh⟩ := hk
          by_cases hi : i = level
          · subst hi
            rw [hg] at ht3
            cases ht3
            exact ⟨t2, s3, k2 k hh⟩
          · exact ⟨t3, (s2 i hi).trans ht3, hh⟩
        · intro i k hk
          simp only [Stage4Levels.leaf?] at hk ⊢
          by_cases hi : i = level
          · subst hi
            rw [hg] at hk
            rw [s3]
            exact k5 k hk
          · rw [s2 i hi]
            exact hk
      · intro h
        have htwf : t.WF := h.1 t (List.get?_mem hg)
        obtain ⟨k1, k2, k3, k4, k5, k6⟩ := Stage4Tree.AddDependency_keeps t t2 p father htwf hadd
        obtain ⟨s1, s2, s3⟩ := hall h
        refine ⟨⟨t2, s3, k3⟩, ?_, ?_⟩
        · simp only [Stage4Levels.leaf?]
          rw [s3]
          exact k6
        · intro i k hk
          obtain ⟨t3, ht3, hh⟩ := hk
          by_cases hi : i = level
          · subst hi
            rw [s3] at ht3
            cases ht3
            rcases k4 k hh with h5 | h5
            · exact Or.inl ⟨t, hg, h5⟩
            · exact Or.inr ⟨rfl, h5⟩
          · rw [s2 i hi] at ht3
            exact Or.inl ⟨t3, ht3, hh⟩

theorem Stage4Levels.treeDrop_step (l l2 : Stage4Levels) (level pos : Nat) (p : DefaultPackage)
    (hlt : level < pos) (ha : l.treeDrop level p = some l2) :
    l.Step pos (pkgKey p) l2 ∧ l2.Map = l.Map := by
  unfold Stage4Levels.treeDrop at ha
  cases hg : l.Levels.get? level with
  | none => simp [← List.get?_eq_getElem?, hg] at ha
  | some t =>
    simp only [← List.get?_eq_getElem?, hg, Option.some.injEq] at ha
    subst ha
    refine ⟨?_, rfl⟩
    intro h
    have htwf : t.WF := h.1 t (List.get?_mem hg)
    obtain ⟨k1, k2, k3⟩ := Stage4Tree.DropDependency_keeps t p htwf
    obtain ⟨s1, s2, s3⟩ := Stage4Levels.set_tree l level t (t.DropDependency p).1 hg h k1
      (fun k hk => h.2.2 level k ⟨t, hg, k3 k hk⟩)
    refine ⟨s1, by simp, ?_, ?_, fun _ => rfl⟩
    · intro i k hc hk
      obtain ⟨t3, ht3, hh⟩ := hk
      by_cases hi : i = level
      · subst hi
        rw [hg] at ht3
        cases ht3
        have hk2 : k ≠ pkgKey p := by
          rcases hc with hc | hc
          · omega
          · exact hc
        exact ⟨_, s3, k2 k hk2 hh⟩
      · exact ⟨t3, (s2 i hi).trans ht3, hh⟩
    · intro i k hc hk
      simp only [Stage4Levels.leaf?] at hk ⊢
      by_cases hi : i = level
      · subst hi
        have hk2 : k ≠ pkgKey p := by
          rcases hc with hc | hc
          · omega
          · exact hc
        rw [hg] at hk
        rw [s3]
        simp only [Stage4Tree.DropDependency]
        cases hgp : GoMap.get? t.Map (pkgKey p) with
        | none => exact hk
        | some leaf =>
          by_cases hcn : leaf.Counter > 1
          · simp only [hcn, if_true, GoMap.get?_set, if_neg hk2]
            exact hk
          · simp only [hcn, if_false]
            rw [GoMap.get?_delete_map _ _ _ _ (by intro e; split <;> rfl), if_neg hk2]
            simp only [Option.isSome_map']
            exact hk
      · rw [s2 i hi]
        exact hk

theorem Stage4Levels.onLeaf_mono (l l2 : Stage4Levels) (level : Nat) (key : String)
    (f : Stage4Leaf → Option Stage4Leaf)
    (hf : ∀ leaf leaf2, f leaf = some leaf2 →
      leaf2.Package = leaf.Package ∧ leaf2.Position = leaf.Position)
    (ha : l.onLeaf level key f = some l2) : l.Mono l2 ∧ l2.Map = l.Map := by
  unfold Stage4Levels.onLeaf at ha
  cases hg : l.Levels.get? level with
  | none => simp [← List.get?_eq_getElem?, hg] at ha
  | some t =>
    simp only [← List.get?_eq_getElem?, hg] at ha
    cases hgl : GoMap.get? t.Map key with
    | none => simp [hgl] at ha
    | some leaf =>
      simp only [hgl] at ha
      cases hfl : f leaf with
      | none => simp [hfl] at ha
      | some leaf2 =>
        simp only [hfl, Option.some.injEq] at ha
        subst ha
        refine ⟨?_, rfl⟩
        intro h
        have htwf : t.WF := h.1 t (List.get?_mem hg)
        obtain ⟨e1, e2⟩ := hf leaf leaf2 hfl
        have ht2 : Stage4Tree.WF { t with Map := GoMap.set t.Map key leaf2 } := by
          intro k lf hk
          simp only [GoMap.get?_set] at hk
          by_cases hkk : k = key
          · simp only [hkk, if_true, Option.some.injEq] at hk
            subst hk
            rw [e1, e2, hkk]
            exact htwf key leaf hgl
          · simp only [hkk, if_false] at hk
            exact htwf k lf hk
        obtain ⟨s1, s2, s3⟩ := Stage4Levels.set_tree l level t _ hg h ht2
          (fun k hk => h.2.2 level k ⟨t, hg, hk⟩)
        refine ⟨s1, by simp, ?_, ?_, fun _ => rfl⟩
        · intro i k hk
          obtain ⟨t3, ht3, hh⟩ := hk
          by_cases hi : i = level
          · subst hi
            rw [hg] at ht3
            cases ht3
            exact ⟨_, s3, hh⟩
          · exact ⟨t3, (s2 i hi).trans ht3, hh⟩
        · intro i k hk
          simp only [Stage4Levels.leaf?] at hk ⊢
          by_cases hi : i = level
          · subst hi
            rw [hg] at hk
            rw [s3]
            simp only [GoMap.get?_set]
            by_cases hkk : k = key <;> simp [hkk, hk]
          · rw [s2 i hi]
            exact hk

theorem Stage4Levels.mono_of_levels (l l2 : Stage4Levels) (hl : l2.Levels = l.Levels)
    (hm : l.WF → ∀ k o, GoMap.get? l2.Map k = some o → pkgKey o.toDefault = k)
    (hk : ∀ k, (GoMap.get? l2.Map k).isSome = (GoMap.get? l.Map k).isSome) : l.Mono l2 := by
  intro h
  refine ⟨⟨?_, hm h, ?_⟩, by rw [hl], ?_, ?_, hk⟩
  · rw [hl]; exact h.1
  · intro i k hh
    rw [hk]
    apply h.2.2 i k
    simp only [Stage4Levels.holdsAt] at hh ⊢
    rw [← hl]; exact hh
  · intro i k hh
    simp only [Stage4Levels.holdsAt] at hh ⊢
    rw [hl]; exact hh
  · intro i k hh
    simp only [Stage4Levels.leaf?] at hh ⊢
    rw [hl]; exact hh

theorem GoMap.isSome_set_same {V : Type} (m : GoMap V) (k : String) (v0 v : V)
    (h : GoMap.get? m k = some v0) (k2 : String) :
    (GoMap.get? (GoMap.set m k v) k2).isSome = (GoMap.get? m k2).isSome := by
  rw [GoMap.get?_set]
  by_cases hkk : k2 = k
  · simp [hkk, h]
  · simp [hkk]

theorem Stage4Levels.RemoveDependency_mono (l l2 : Stage4Levels) (pkg dep : DefaultPackage)
    (err : Option Error) (ha : l.RemoveDependencyFromLuetPackage pkg dep = some (l2, err)) :
    l.Mono l2 ∧ l2.Levels = l.Levels := by
  simp only [Stage4Levels.RemoveDependencyFromLuetPackage] at ha
  cases hg : GoMap.get? l.Map (pkgKey pkg) with
  | none => simp [hg] at ha
  | some o =>
    simp only [hg] at ha
    cases hr : removeRequire o.PackageRequires dep with
    | none =>
      simp only [hr, Option.some.injEq, Prod.mk.injEq] at ha
      obtain ⟨h1, _⟩ := ha
      subst h1
      exact ⟨Stage4Levels.Mono.mono_refl l, rfl⟩
    | some reqs =>
      simp only [hr, Option.some.injEq, Prod.mk.injEq] at ha
      obtain ⟨h1, _⟩ := ha
      subst h1
      refine ⟨Stage4Levels.mono_of_levels _ _ rfl ?_
        (fun k2 => GoMap.isSome_set_same l.Map (pkgKey pkg) o _ hg k2), rfl⟩
      intro h k o2 hk
      simp only [GoMap.get?_set] at hk
      by_cases hkk : k = pkgKey pkg
      · simp only [hkk, if_true, Option.some.injEq] at hk
        subst hk
        rw [hkk]
        exact h.2.1 (pkgKey pkg) o hg
      · simp only [hkk, if_false] at hk
        exact h.2.1 k o2 hk

theorem Stage4Levels.AddDependencyTo_mono (l l2 : Stage4Levels) (pkg dep : DefaultPackage)
    (ha : l.AddDependencyToLuetPackage pkg dep = some l2) :
    l.Mono l2 ∧ l2.Levels = l.Levels := by
  simp only [Stage4Levels.AddDependencyToLuetPackage] at ha
  cases hg : GoMap.get? l.Map (pkgKey pkg) with
  | none => simp [hg] at ha
  | some o =>
    simp only [hg] at ha
    by_cases hc : o.PackageRequires.any (fun d => sameCatName d dep) = true
    · simp only [hc, if_true, Option.some.injEq] at ha
      subst ha
      exact ⟨Stage4Levels.Mono.mono_refl l, rfl⟩
    · simp only [hc, Bool.false_eq_true, if_false, Option.some.injEq] at ha
      subst ha
      refine ⟨Stage4Levels.mono_of_levels _ _ rfl ?_
        (fun k2 => GoMap.isSome_set_same l.Map (pkgKey pkg) o _ hg k2), rfl⟩
      intro h k o2 hk
      simp only [GoMap.get?_set] at hk
      by_cases hkk : k = pkgKey pkg
      · simp only [hkk, if_true, Option.some.injEq] at hk
        subst hk
        rw [hkk]
        exact h.2.1 (pkgKey pkg) o hg
      · simp only [hkk, if_false] at hk
        exact h.2.1 k o2 hk

theorem addRequiresLoop_mono
    (rec : Stage4Levels → DefaultPackage → Option DefaultPackage → List String → Nat →
      Outcome Stage4Levels Bool)
    (hrec : ∀ l p f s lv l2 r, rec l p f s lv = Outcome.ret l2 r → l.Mono l2)
    (p : DefaultPackage) (stack : List String) (level : Nat) (reqs : List DefaultPackage) :
    ∀ l l2 r, addRequiresLoop rec p stack level reqs l = Outcome.ret l2 r → l.Mono l2 := by
  induction reqs with
  | nil =>
    intro l l2 r h
    simp only [addRequiresLoop, Outcome.ret.injEq] at h
    rw [← h.1]
    exact Stage4Levels.Mono.mono_refl l
  | cons d ds ih =>
    intro l l2 r h
    simp only [addRequiresLoop] at h
    cases hg : GoMap.get? l.Map (pkgKey d) with
    | none =>
      simp only [hg, Outcome.ret.injEq] at h
      rw [← h.1]
      exact Stage4Levels.Mono.mono_refl l
    | some v =>
      simp only [hg] at h
      cases hr : rec l v.toDefault (some p) stack (level + 1) with
      | crash => simp [hr] at h
      | outOfFuel => simp [hr] at h
      | ret l3 r3 =>
        have hm := hrec _ _ _ _ _ _ _ hr
        cases r3 with
        | error e =>
          simp only [hr, Outcome.ret.injEq] at h
          rw [← h.1]; exact hm
        | ok b =>
          cases b with
          | false =>
            simp only [hr, Outcome.ret.injEq] at h
            rw [← h.1]; exact hm
          | true =>
            simp only [hr] at h
            exact Stage4Levels.Mono.mono_trans hm (ih l3 l2 r h)

theorem Stage4Levels.AddDependencyRecursive_mono (depth : Nat) :
    ∀ (l : Stage4Levels) (p : DefaultPackage) (father : Option DefaultPackage)
      (stack : List String) (level : Nat) (l2 : Stage4Levels) (r : Except Error Bool),
      l.AddDependencyRecursive depth p father stack level = Outcome.ret l2 r → l.Mono l2 := by
  induction depth with
  | zero =>
    intro l p father stack level l2 r h
    simp [Stage4Levels.AddDependencyRecursive] at h
  | succ depth ih =>
    intro l p father stack level l2 r h
    simp only [Stage4Levels.AddDependencyRecursive] at h
    by_cases h1 : level ≥ l.Levels.length
    · simp only [h1, if_true, Outcome.ret.injEq] at h
      rw [← h.1]; exact Stage4Levels.Mono.mono_refl l
    · simp only [h1, if_false] at h
      by_cases h2 : (!GoMap.has l.Map (pkgKey p)) = true
      · simp only [h2, if_true, Outcome.ret.injEq] at h
        rw [← h.1]; exact Stage4Levels.Mono.mono_refl l
      · simp only [h2, Bool.false_eq_true, if_false] at h
        by_cases h3 : IsInStack stack (pkgKey p) = true
        · simp only [h3, if_true, Outcome.ret.injEq] at h
          rw [← h.1]; exact Stage4Levels.Mono.mono_refl l
        · simp only [h3, Bool.false_eq_true, if_false] at h
          cases hq : l.requires? p with
          | none => simp [hq] at h
          | some reqs =>
            simp only [hq] at h
            cases hl : addRequiresLoop (Stage4Levels.AddDependencyRecursive depth) p
                (stack ++ [pkgKey p]) level reqs l with
            | crash => simp [hl] at h
            | outOfFuel => simp [hl] at h
            | ret l3 r3 =>
              have hm := addRequiresLoop_mono _ ih p _ level reqs l l3 r3 hl
              cases r3 with
              | error e =>
                simp only [hl, Outcome.ret.injEq] at h
                rw [← h.1]; exact hm
              | ok b =>
                cases b with
                | false =>
                  simp only [hl, Outcome.ret.injEq] at h
                  rw [← h.1]; exact hm
                | true =>
                  simp only [hl] at h
                  cases ht : l3.treeAdd level p father with
                  | none => simp [ht] at h
                  | some l4 =>
                    simp only [ht, Outcome.ret.injEq] at h
                    rw [← h.1]
                    intro hwf0
                    obtain ⟨a1, a2, a3, a4, a5⟩ := hm hwf0
                    have hp3 : (GoMap.get? l3.Map (pkgKey p)).isSome := by
                      rw [a5, ← GoMap.has_eq_isSome]
                      simpa using h2
                    obtain ⟨b1, b2, b3, b4, b5⟩ :=
                      (Stage4Levels.treeAdd_mono _ _ _ _ _ hp3 ht).1 a1
                    exact ⟨b1, Nat.le_trans a2 b2, fun i k hk => b3 i k (a3 i k hk),
                      fun i k hk => b4 i k (a4 i k hk), fun k => (b5 k).trans (a5 k)⟩


/-! ## Stage 4: what the analysis of a leaf keeps -/

theorem Stage4Levels.delFathers_mono (level : Nat) (key : String) (fs : List DefaultPackage) :
    ∀ l l2, Stage4Levels.delFathers level key fs l = some l2 → l.Mono l2 := by
  induction fs with
  | nil =>
    intro l l2 h
    simp only [Stage4Levels.delFathers, Option.some.injEq] at h
    rw [← h]; exact Stage4Levels.Mono.mono_refl l
  | cons f fs ih =>
    intro l l2 h
    simp only [Stage4Levels.delFathers] at h
    cases ho : l.onLeaf level key (fun leaf => leaf.DelFather (some f)) with
    | none => simp [ho] at h
    | some l3 =>
      simp only [ho] at h
      exact Stage4Levels.Mono.mono_trans
        (Stage4Levels.onLeaf_mono l l3 level key _ (fun a b hab => DelFather_fields a b _ hab) ho).1
        (ih l3 l2 h)

theorem Stage4Levels.serializeFather_mono (sprintf : String → String → String)
    (depth pos : Nat) (pkg : DefaultPackage) (idx : Nat) (l : Stage4Levels) (v : LeafVars)
    (l2 : Stage4Levels) (v2 : LeafVars) (r : Except Error Unit)
    (h : Stage4Levels.serializeFather sprintf depth pos pkg idx l v = Outcome.ret (l2, v2) r) :
    l.Mono l2 := by
  simp only [Stage4Levels.serializeFather] at h
  cases hl : l.leaf? pos (pkgKey pkg) with
  | none => simp [hl] at h
  | some leaf =>
    simp only [hl] at h
    cases hf : leaf.Father.get? idx with
    | none => simp [← List.get?_eq_getElem?, hf] at h
    | some fo =>
      cases fo with
      | none => simp [← List.get?_eq_getElem?, hf] at h
      | some f =>
        cases hp : leaf.Father.get? (idx - 1) with
        | none => simp [← List.get?_eq_getElem?, hf, hp] at h
        | some prevo =>
          simp only [← List.get?_eq_getElem?, hf, hp] at h
          cases hr : l.RemoveDependencyFromLuetPackage f pkg with
          | none => simp [hr] at h
          | some x =>
            obtain ⟨l1, err⟩ := x
            have hm1 := (Stage4Levels.RemoveDependency_mono l l1 f pkg err hr).1
            cases err with
            | some e =>
              simp only [hr, Outcome.ret.injEq, Prod.mk.injEq] at h
              rw [← h.1.1]; exact hm1
            | none =>
              simp only [hr] at h
              cases prevo with
              | none => simp at h
              | some prev =>
                simp only at h
                cases ha : l1.AddDependencyRecursive depth prev (some f) [] pos with
                | crash => simp [ha] at h
                | outOfFuel => simp [ha] at h
                | ret l3 r3 =>
                  have hm2 := Stage4Levels.AddDependencyRecursive_mono depth _ _ _ _ _ _ _ ha
                  cases r3 with
                  | error e =>
                    simp only [ha, Outcome.ret.injEq, Prod.mk.injEq] at h
                    rw [← h.1.1]; exact Stage4Levels.Mono.mono_trans hm1 hm2
                  | ok b =>
                    cases b with
                    | false =>
                      simp only [ha, Outcome.ret.injEq, Prod.mk.injEq] at h
                      rw [← h.1.1]; exact Stage4Levels.Mono.mono_trans hm1 hm2
                    | true =>
                      simp only [ha] at h
                      cases hd : l3.AddDependencyToLuetPackage f prev with
                      | none => simp [hd] at h
                      | some l4 =>
                        simp only [hd, Outcome.ret.injEq, Prod.mk.injEq] at h
                        rw [← h.1.1]
                        exact Stage4Levels.Mono.mono_trans (Stage4Levels.Mono.mono_trans hm1 hm2)
                          (Stage4Levels.AddDependencyTo_mono _ _ _ _ hd).1

theorem Stage4Levels.serializeFathers_mono (sprintf : String → String → String)
    (depth pos : Nat) (pkg : DefaultPackage) (idxs : List Nat) :
    ∀ (l : Stage4Levels) (v : LeafVars) (l2 : Stage4Levels) (v2 : LeafVars)
      (r : Except Error Unit),
      Stage4Levels.serializeFathers sprintf depth pos pkg idxs l v = Outcome.ret (l2, v2) r →
      l.Mono l2 := by
  induction idxs with
  | nil =>
    intro l v l2 v2 r h
    simp only [Stage4Levels.serializeFathers, Outcome.ret.injEq, Prod.mk.injEq] at h
    rw [← h.1.1]; exact Stage4Levels.Mono.mono_refl l
  | cons idx rest ih =>
    intro l v l2 v2 r h
    simp only [Stage4Levels.serializeFathers] at h
    cases hs : Stage4Levels.serializeFather sprintf depth pos pkg idx l v with
    | crash => simp [hs] at h
    | outOfFuel => simp [hs] at h
    | ret s r3 =>
      obtain ⟨l3, v3⟩ := s
      have hm := Stage4Levels.serializeFather_mono _ _ _ _ _ _ _ _ _ _ hs
      cases r3 with
      | error e =>
        simp only [hs, Outcome.ret.injEq, Prod.mk.injEq] at h
        rw [← h.1.1]; exact hm
      | ok u =>
        simp only [hs] at h
        exact Stage4Levels.Mono.mono_trans hm (ih l3 v3 l2 v2 r h)

theorem Stage4Levels.dropUpper_step (l l2 : Stage4Levels) (level pos : Nat)
    (pkg : DefaultPackage) (det det2 : Option Stage4Leaf) (hlt : level < pos)
    (h : l.dropUpper level pkg det = some (l2, det2)) : l.Step pos (pkgKey pkg) l2 := by
  simp only [Stage4Levels.dropUpper] at h
  cases ht : l.treeDrop level pkg with
  | none => simp [ht] at h
  | some l3 =>
    have hs := (Stage4Levels.treeDrop_step l l3 level pos pkg hlt ht).1
    simp only [ht] at h
    have : l3 = l2 := by
      split at h <;> simp only [Option.some.injEq, Prod.mk.injEq] at h <;> exact h.1
    rw [← this]; exact hs


theorem Stage4Levels.upperFather_step (sprintf : String → String → String)
    (depth nextLevel pos : Nat) (pkg : DefaultPackage) (idx : Nat) (l : Stage4Levels)
    (det : Option Stage4Leaf) (v : LeafVars) (l2 : Stage4Levels) (det2 : Option Stage4Leaf)
    (v2 : LeafVars) (r : Except Error Unit) (hlt : nextLevel < pos)
    (h : Stage4Levels.upperFather sprintf depth nextLevel pkg idx l det v =
      Outcome.ret (l2, det2, v2) r) : l.Step pos (pkgKey pkg) l2 := by
  simp only [Stage4Levels.upperFather] at h
  cases hl : l.upperLeaf? nextLevel (pkgKey pkg) det with
  | none => simp [hl] at h
  | some leaf2 =>
    simp only [hl] at h
    cases hf : leaf2.Father.get? idx with
    | none => simp [← List.get?_eq_getElem?, hf] at h
    | some fo =>
      cases fo with
      | none => simp [← List.get?_eq_getElem?, hf] at h
      | some f =>
        simp only [← List.get?_eq_getElem?, hf] at h
        split at h
        · cases hd : l.dropUpper nextLevel pkg det with
          | none => simp [hd] at h
          | some x =>
            obtain ⟨l1, det1⟩ := x
            simp only [hd, Outcome.ret.injEq, Prod.mk.injEq] at h
            rw [← h.1.1]
            exact Stage4Levels.dropUpper_step _ _ _ _ _ _ _ hlt hd
        · split at h
          · simp only [Outcome.ret.injEq, Prod.mk.injEq] at h
            rw [← h.1.1]; exact Stage4Levels.Step.step_refl _ _ _
          · split at h
            · simp only [Outcome.ret.injEq, Prod.mk.injEq] at h
              rw [← h.1.1]; exact Stage4Levels.Step.step_refl _ _ _
            · cases hr : l.RemoveDependencyFromLuetPackage f pkg with
              | none => simp [hr] at h
              | some x =>
                obtain ⟨l1, err⟩ := x
                have hm1 := (Stage4Levels.RemoveDependency_mono l l1 f pkg err hr).1
                cases err with
                | some e =>
                  simp only [hr, Outcome.ret.injEq, Prod.mk.injEq] at h
                  rw [← h.1.1]; exact hm1.to_step _ _
                | none =>
                  simp only [hr] at h
                  cases hlast : v.lastFatherLeaf with
                  | none => simp [hlast] at h
                  | some last =>
                    simp only [hlast] at h
                    cases ha : l1.AddDependencyRecursive depth last (some f) [] nextLevel with
                    | crash => simp [ha] at h
                    | outOfFuel => simp [ha] at h
                    | ret l3 r3 =>
                      have hm2 := Stage4Levels.AddDependencyRecursive_mono depth _ _ _ _ _ _ _ ha
                      cases r3 with
                      | error e =>
                        simp only [ha, Outcome.ret.injEq, Prod.mk.injEq] at h
                        rw [← h.1.1]; exact (Stage4Levels.Mono.mono_trans hm1 hm2).to_step _ _
                      | ok b =>
                        cases b with
                        | false =>
                          simp only [ha, Outcome.ret.injEq, Prod.mk.injEq] at h
                          rw [← h.1.1]; exact (Stage4Levels.Mono.mono_trans hm1 hm2).to_step _ _
                        | true =>
                          simp only [ha] at h
                          cases hd : l3.AddDependencyToLuetPackage f last with
                          | none => simp [hd] at h
                          | some l4 =>
                            simp only [hd, Outcome.ret.injEq, Prod.mk.injEq] at h
                            rw [← h.1.1]
                            exact (Stage4Levels.Mono.mono_trans (Stage4Levels.Mono.mono_trans hm1 hm2)
                              (Stage4Levels.AddDependencyTo_mono _ _ _ _ hd).1).to_step _ _

theorem Stage4Levels.upperFathers_step (sprintf : String → String → String)
    (depth nextLevel pos : Nat) (pkg : DefaultPackage) (hlt : nextLevel < pos)
    (idxs : List Nat) :
    ∀ (l : Stage4Levels) (det : Option Stage4Leaf) (v : LeafVars) (l2 : Stage4Levels)
      (det2 : Option Stage4Leaf) (v2 : LeafVars) (r : Except Error Unit),
      Stage4Levels.upperFathers sprintf depth nextLevel pkg idxs l det v =
        Outcome.ret (l2, det2, v2) r → l.Step pos (pkgKey pkg) l2 := by
  induction idxs with
  | nil =>
    intro l det v l2 det2 v2 r h
    simp only [Stage4Levels.upperFathers, Outcome.ret.injEq, Prod.mk.injEq] at h
    rw [← h.1.1]; exact Stage4Levels.Step.step_refl _ _ _
  | cons idx rest ih =>
    intro l det v l2 det2 v2 r h
    simp only [Stage4Levels.upperFathers] at h
    cases hs : Stage4Levels.upperFather sprintf depth nextLevel pkg idx l det v with
    | crash => simp [hs] at h
    | outOfFuel => simp [hs] at h
    | ret s r3 =>
      obtain ⟨l3, det3, v3⟩ := s
      have hm := Stage4Levels.upperFather_step _ _ _ pos _ _ _ _ _ _ _ _ _ hlt hs
      cases r3 with
      | error e =>
        simp only [hs, Outcome.ret.injEq, Prod.mk.injEq] at h
        rw [← h.1.1]; exact hm
      | ok u =>
        simp only [hs] at h
        exact Stage4Levels.Step.step_trans hm (ih l3 det3 v3 l2 det2 v2 r h)

theorem Stage4Levels.delUpperFathers_mono (level : Nat) (key : String)
    (fs : List DefaultPackage) :
    ∀ l det l2 det2, Stage4Levels.delUpperFathers level key fs l det = some (l2, det2) →
      l.Mono l2 := by
  induction fs with
  | nil =>
    intro l det l2 det2 h
    simp only [Stage4Levels.delUpperFathers, Option.some.injEq, Prod.mk.injEq] at h
    rw [← h.1]; exact Stage4Levels.Mono.mono_refl l
  | cons f fs ih =>
    intro l det l2 det2 h
    simp only [Stage4Levels.delUpperFathers] at h
    cases det with
    | some c =>
      simp only at h
      cases hc : c.DelFather (some f) with
      | none => simp [hc] at h
      | some c2 =>
        simp only [hc] at h
        exact ih l (some c2) l2 det2 h
    | none =>
      simp only at h
      cases ho : l.onLeaf level key (fun leaf => leaf.DelFather (some f)) with
      | none => simp [ho] at h
      | some l3 =>
        simp only [ho] at h
        exact Stage4Levels.Mono.mono_trans
          (Stage4Levels.onLeaf_mono l l3 level key _ (fun a b hab => DelFather_fields a b _ hab)
            ho).1 (ih l3 none l2 det2 h)


theorem Stage4Levels.upperFound_step (sprintf : String → String → String)
    (depth nextLevel pos : Nat) (pkg : DefaultPackage) (l : Stage4Levels) (v : LeafVars)
    (leaf2 : Stage4Leaf) (l2 : Stage4Levels) (v2 : LeafVars) (r : Except Error Unit)
    (hlt : nextLevel < pos)
    (h : Stage4Levels.upperFound sprintf depth nextLevel pkg l v leaf2 = Outcome.ret (l2, v2) r) :
    l.Step pos (pkgKey pkg) l2 := by
  simp only [Stage4Levels.upperFound] at h
  split at h
  · split at h
    · cases ht : l.treeDrop nextLevel pkg with
      | none => simp [ht] at h
      | some l1 =>
        simp only [ht, Outcome.ret.injEq, Prod.mk.injEq] at h
        rw [← h.1.1]
        exact (Stage4Levels.treeDrop_step l l1 nextLevel pos pkg hlt ht).1
    · simp only [Outcome.ret.injEq, Prod.mk.injEq] at h
      rw [← h.1.1]; exact Stage4Levels.Step.step_refl _ _ _
  · cases hu : Stage4Levels.upperFathers sprintf depth nextLevel pkg
        (List.range leaf2.Father.length) l none { v with toRemove := [] } with
    | crash => simp [hu] at h
    | outOfFuel => simp [hu] at h
    | ret s r3 =>
      obtain ⟨l1, det1, v1⟩ := s
      have hs1 := Stage4Levels.upperFathers_step _ _ _ pos _ hlt _ _ _ _ _ _ _ _ hu
      cases r3 with
      | error e =>
        simp only [hu, Outcome.ret.injEq, Prod.mk.injEq] at h
        rw [← h.1.1]; exact hs1
      | ok u =>
        simp only [hu] at h
        cases hd : Stage4Levels.delUpperFathers nextLevel (pkgKey pkg) v1.toRemove l1 det1 with
        | none => simp [hd] at h
        | some x =>
          obtain ⟨l3, det3⟩ := x
          have hs2 := (Stage4Levels.delUpperFathers_mono _ _ _ _ _ _ _ hd).to_step pos (pkgKey pkg)
          simp only [hd] at h
          split at h
          · cases ht : l3.treeDrop nextLevel pkg with
            | none => simp [ht] at h
            | some l4 =>
              simp only [ht, Outcome.ret.injEq, Prod.mk.injEq] at h
              rw [← h.1.1]
              exact Stage4Levels.Step.step_trans (Stage4Levels.Step.step_trans hs1 hs2)
                (Stage4Levels.treeDrop_step l3 l4 nextLevel pos pkg hlt ht).1
          · simp only [Outcome.ret.injEq, Prod.mk.injEq] at h
            rw [← h.1.1]
            exact Stage4Levels.Step.step_trans hs1 hs2

theorem debugLastFather_ret (o : Outcome (Stage4Levels × LeafVars) Unit) (l2 : Stage4Levels)
    (v2 : LeafVars) (r : Except Error Unit) (h : debugLastFather o = Outcome.ret (l2, v2) r) :
    ∃ r2, o = Outcome.ret (l2, v2) r2 := by
  cases o with
  | crash => simp [debugLastFather] at h
  | outOfFuel => simp [debugLastFather] at h
  | ret s r3 =>
    obtain ⟨l3, v3⟩ := s
    cases r3 with
    | error e =>
      simp only [debugLastFather, Outcome.ret.injEq, Prod.mk.injEq] at h
      exact ⟨Except.error e, by rw [h.1.1, h.1.2]⟩
    | ok u =>
      simp only [debugLastFather] at h
      cases hl : v3.lastFatherLeaf with
      | none => simp [hl] at h
      | some x =>
        simp only [hl, Outcome.ret.injEq, Prod.mk.injEq] at h
        exact ⟨Except.ok u, by rw [h.1.1, h.1.2]⟩

theorem Stage4Levels.upperLevel_step (sprintf : String → String → String)
    (depth nextLevel pos : Nat) (pkg : DefaultPackage) (l : Stage4Levels) (v : LeafVars)
    (l2 : Stage4Levels) (v2 : LeafVars) (r : Except Error Unit) (hlt : nextLevel < pos)
    (h : Stage4Levels.upperLevel sprintf depth nextLevel pkg l v = Outcome.ret (l2, v2) r) :
    l.Step pos (pkgKey pkg) l2 := by
  unfold Stage4Levels.upperLevel at h
  cases hg : l.Levels.get? nextLevel with
  | none => simp [← List.get?_eq_getElem?, hg] at h
  | some t =>
    simp only [← List.get?_eq_getElem?, hg] at h
    obtain ⟨r2, h2⟩ := debugLastFather_ret _ _ _ _ h
    cases hm : GoMap.get? t.Map (pkgKey pkg) with
    | none =>
      simp only [hm, Outcome.ret.injEq, Prod.mk.injEq] at h2
      rw [← h2.1.1]; exact Stage4Levels.Step.step_refl _ _ _
    | some leaf2 =>
      simp only [hm] at h2
      exact Stage4Levels.upperFound_step _ _ _ _ _ _ _ _ _ _ _ hlt h2

theorem Stage4Levels.upperLevels_step (sprintf : String → String → String)
    (depth pos : Nat) (pkg : DefaultPackage) (levels : List Nat) :
    ∀ (l : Stage4Levels) (v : LeafVars) (l2 : Stage4Levels) (v2 : LeafVars)
      (r : Except Error Unit), (∀ n ∈ levels, n < pos) →
      Stage4Levels.upperLevels sprintf depth pkg levels l v = Outcome.ret (l2, v2) r →
      l.Step pos (pkgKey pkg) l2 := by
  induction levels with
  | nil =>
    intro l v l2 v2 r _ h
    simp only [Stage4Levels.upperLevels, Outcome.ret.injEq, Prod.mk.injEq] at h
    rw [← h.1.1]; exact Stage4Levels.Step.step_refl _ _ _
  | cons n rest ih =>
    intro l v l2 v2 r hn h
    simp only [Stage4Levels.upperLevels] at h
    cases hs : Stage4Levels.upperLevel sprintf depth n pkg l v with
    | crash => simp [hs] at h
    | outOfFuel => simp [hs] at h
    | ret s r3 =>
      obtain ⟨l3, v3⟩ := s
      have hm := Stage4Levels.upperLevel_step _ _ _ pos _ _ _ _ _ _
        (hn n (List.mem_cons_self n rest)) hs
      cases r3 with
      | error e =>
        simp only [hs, Outcome.ret.injEq, Prod.mk.injEq] at h
        rw [← h.1.1]; exact hm
      | ok u =>
        simp only [hs] at h
        exact Stage4Levels.Step.step_trans hm
          (ih l3 v3 l2 v2 r (fun m hm2 => hn m (List.mem_cons_of_mem n hm2)) h)

theorem Stage4Levels.leafFathers_mono (sprintf : String → String → String) (depth : Nat)
    (l : Stage4Levels) (pos : Nat) (leaf : Stage4Leaf) (l2 : Stage4Levels) (v2 : LeafVars)
    (r : Except Error Unit)
    (h : l.leafFathers sprintf depth pos leaf = Outcome.ret (l2, v2) r) : l.Mono l2 := by
  simp only [Stage4Levels.leafFathers] at h
  split at h
  · split at h
    · split at h
      · rename_i l1 v1 u hs
        have hm1 := Stage4Levels.serializeFathers_mono _ _ _ _ _ _ _ _ _ _ hs
        cases hd : Stage4Levels.delFathers pos (pkgKey leaf.Package) v1.toRemove l1 with
        | none => simp [hd] at h
        | some l3 =>
          simp only [hd, Outcome.ret.injEq, Prod.mk.injEq] at h
          rw [← h.1.1]
          exact Stage4Levels.Mono.mono_trans hm1 (Stage4Levels.delFathers_mono _ _ _ _ _ hd)
      · exact Stage4Levels.serializeFathers_mono _ _ _ _ _ _ _ _ _ _ h
    · simp only [Outcome.ret.injEq, Prod.mk.injEq] at h
      rw [← h.1.1]; exact Stage4Levels.Mono.mono_refl l
  · split at h
    · simp only [Outcome.ret.injEq, Prod.mk.injEq] at h
      rw [← h.1.1]; exact Stage4Levels.Mono.mono_refl l
    · simp only [Outcome.ret.injEq, Prod.mk.injEq] at h
      rw [← h.1.1]; exact Stage4Levels.Mono.mono_refl l

theorem Stage4Levels.AnalyzeLeaf_step (sprintf : String → String → String) (depth : Nat)
    (l : Stage4Levels) (pos : Nat) (leaf : Stage4Leaf) (l2 : Stage4Levels)
    (r : Except Error Bool) (h : l.AnalyzeLeaf sprintf depth pos leaf = Outcome.ret l2 r) :
    l.Step pos (pkgKey leaf.Package) l2 := by
  simp only [Stage4Levels.AnalyzeLeaf] at h
  split at h
  · simp at h
  · split at h
    · simp only [Outcome.ret.injEq] at h
      rw [← h.1]; exact Stage4Levels.Step.step_refl _ _ _
    · cases hf : l.leafFathers sprintf depth pos leaf with
      | crash => simp [hf] at h
      | outOfFuel => simp [hf] at h
      | ret s r3 =>
        obtain ⟨l3, v3⟩ := s
        have hm := (Stage4Levels.leafFathers_mono _ _ _ _ _ _ _ _ hf).to_step pos (pkgKey leaf.Package)
        cases r3 with
        | error e =>
          simp only [hf, Outcome.ret.injEq] at h
          rw [← h.1]; exact hm
        | ok u =>
          simp only [hf] at h
          cases hu : Stage4Levels.upperLevels sprintf depth leaf.Package (List.range pos).reverse
              l3 v3 with
          | crash => simp [hu] at h
          | outOfFuel => simp [hu] at h
          | ret s4 r4 =>
            obtain ⟨l4, v4⟩ := s4
            have hs := Stage4Levels.upperLevels_step _ _ pos _ _ _ _ _ _ _
              (by intro n hn; simpa using hn) hu
            cases r4 with
            | error e =>
              simp only [hu, Outcome.ret.injEq] at h
              rw [← h.1]; exact Stage4Levels.Step.step_trans hm hs
            | ok u4 =>
              simp only [hu, Outcome.ret.injEq] at h
              rw [← h.1]; exact Stage4Levels.Step.step_trans hm hs


/-! ## Stage 4: no key leaves the levels -/

theorem Stage4Levels.Keeps.keeps_refl (l : Stage4Levels) : l.Keeps l :=
  fun h => ⟨h, Nat.le_refl _, fun _ hk => hk, fun _ => rfl⟩

theorem Stage4Levels.Keeps.keeps_trans {l l2 l3 : Stage4Levels} (h1 : l.Keeps l2) (h2 : l2.Keeps l3) :
    l.Keeps l3 := by
  intro h
  obtain ⟨a1, a2, a3, a5⟩ := h1 h
  obtain ⟨b1, b2, b3, b5⟩ := h2 a1
  exact ⟨b1, Nat.le_trans a2 b2, fun k hk => b3 k (a3 k hk), fun k => (b5 k).trans (a5 k)⟩

theorem Stage4Levels.Mono.mono_keeps {l l2 : Stage4Levels} (h1 : l.Mono l2) : l.Keeps l2 := by
  intro h
  obtain ⟨a1, a2, a3, _, a5⟩ := h1 h
  exact ⟨a1, a2, fun k ⟨i, hk⟩ => ⟨i, a3 i k hk⟩, a5⟩

theorem Stage4Levels.holdsAt_of_leaf (l : Stage4Levels) (h : l.WF) (pos : Nat) (k : String)
    (leaf : Stage4Leaf) (hl : l.leaf? pos k = some leaf) :
    l.holdsAt pos k ∧ pkgKey leaf.Package = k := by
  unfold Stage4Levels.leaf? at hl
  cases hg : l.Levels.get? pos with
  | none => simp [← List.get?_eq_getElem?, hg] at hl
  | some t =>
    simp only [← List.get?_eq_getElem?, hg] at hl
    have htwf : t.WF := h.1 t (List.get?_mem hg)
    exact ⟨⟨t, hg, Stage4Tree.holds_of_leaf t htwf k leaf hl⟩, (htwf k leaf hl).1⟩

theorem Stage4Levels.Step.step_keeps {l l2 : Stage4Levels} {pos : Nat} {K : String}
    (h1 : l.Step pos K l2) (hK : l.WF → l.holdsAt pos K) : l.Keeps l2 := by
  intro h
  obtain ⟨a1, a2, a3, _, a5⟩ := h1 h
  refine ⟨a1, a2, ?_, a5⟩
  intro k ⟨i, hk⟩
  by_cases hkk : k = K
  · subst hkk
    exact ⟨pos, a3 pos k (Or.inl (Nat.le_refl _)) (hK h)⟩
  · exact ⟨i, a3 i k (Or.inr hkk) hk⟩

theorem Stage4Levels.analyzeLeafs_keeps (sprintf : String → String → String)
    (depth pos : Nat) (keys : List String) :
    ∀ (l l2 : Stage4Levels) (r : Except Error Bool),
      Stage4Levels.analyzeLeafs sprintf depth pos keys l = Outcome.ret l2 r → l.Keeps l2 := by
  induction keys with
  | nil =>
    intro l l2 r h
    simp only [Stage4Levels.analyzeLeafs, Outcome.ret.injEq] at h
    rw [← h.1]; exact Stage4Levels.Keeps.keeps_refl l
  | cons k ks ih =>
    intro l l2 r h
    simp only [Stage4Levels.analyzeLeafs] at h
    cases hl : l.leaf? pos k with
    | none =>
      simp only [hl] at h
      exact ih l l2 r h
    | some leaf =>
      simp only [hl] at h
      cases ha : l.AnalyzeLeaf sprintf depth pos leaf with
      | crash => simp [ha] at h
      | outOfFuel => simp [ha] at h
      | ret l3 r3 =>
        have hk : l.Keeps l3 := by
          refine (Stage4Levels.AnalyzeLeaf_step _ _ _ _ _ _ _ ha).step_keeps ?_
          intro hwf
          obtain ⟨h1, h2⟩ := Stage4Levels.holdsAt_of_leaf l hwf pos k leaf hl
          rw [h2]; exact h1
        cases r3 with
        | error e =>
          simp only [ha, Outcome.ret.injEq] at h
          rw [← h.1]; exact hk
        | ok b =>
          cases b with
          | true =>
            simp only [ha, Outcome.ret.injEq] at h
            rw [← h.1]; exact hk
          | false =>
            simp only [ha] at h
            exact Stage4Levels.Keeps.keeps_trans hk (ih l3 l2 r h)

theorem Stage4Levels.analyzeLevelLeafs_keeps (sprintf : String → String → String)
    (ord : KeyOrder) (step depth : Nat) (l : Stage4Levels) (pos : Nat) (l2 : Stage4Levels)
    (r : Except Error Bool)
    (h : l.analyzeLevelLeafs sprintf ord step depth pos = Outcome.ret l2 r) : l.Keeps l2 := by
  unfold Stage4Levels.analyzeLevelLeafs at h
  cases hg : l.Levels.get? pos with
  | none => simp [← List.get?_eq_getElem?, hg] at h
  | some t =>
    simp only [← List.get?_eq_getElem?, hg] at h
    exact Stage4Levels.analyzeLeafs_keeps _ _ _ _ _ _ _ h

theorem Stage4Levels.resolveLoop_keeps (sprintf : String → String → String) (ord : KeyOrder)
    (depth initialLevels : Nat) (fuel : Nat) :
    ∀ (step : Nat) (l : Stage4Levels) (pos : Nat) (l2 : Stage4Levels) (r : Except Error Unit),
      Stage4Levels.resolveLoop sprintf ord depth initialLevels fuel step l pos =
        Outcome.ret l2 r → l.Keeps l2 := by
  induction fuel with
  | zero =>
    intro step l pos l2 r h
    simp [Stage4Levels.resolveLoop] at h
  | succ fuel ih =>
    intro step l pos l2 r h
    simp only [Stage4Levels.resolveLoop] at h
    split at h
    · cases ha : l.analyzeLevelLeafs sprintf ord step depth (pos - 1) with
      | crash => simp [ha] at h
      | outOfFuel => simp [ha] at h
      | ret l3 r3 =>
        have hk := Stage4Levels.analyzeLevelLeafs_keeps _ _ _ _ _ _ _ _ ha
        cases r3 with
        | error e =>
          simp only [ha, Outcome.ret.injEq] at h
          rw [← h.1]; exact hk
        | ok b =>
          simp only [ha] at h
          exact Stage4Levels.Keeps.keeps_trans hk (ih _ _ _ _ _ h)
    · simp only [Outcome.ret.injEq] at h
      rw [← h.1]; exact Stage4Levels.Keeps.keeps_refl l

theorem NewStage4Tree_WF (id : Nat) : (NewStage4Tree id).WF := by
  intro k leaf h
  simp [NewStage4Tree, GoMap.get?] at h

theorem Stage4Levels.holdsAt_AddTree (l : Stage4Levels) (id : Nat) (i : Nat) (k : String)
    (h : (l.AddTree (NewStage4Tree id)).holdsAt i k) : l.holdsAt i k := by
  obtain ⟨t, ht, hh⟩ := h
  simp only [Stage4Levels.AddTree] at ht
  rw [List.get?_eq_getElem?] at ht
  by_cases hlt : i < l.Levels.length
  · rw [List.getElem?_append_left hlt] at ht
    exact ⟨t, by rw [List.get?_eq_getElem?]; exact ht, hh⟩
  · rw [List.getElem?_append_right (by omega)] at ht
    have : t = NewStage4Tree id := by
      cases hi : i - l.Levels.length with
      | zero => simp [hi] at ht; exact ht.symm
      | succ n => simp [hi] at ht
    subst this
    simp [Stage4Tree.holds, NewStage4Tree] at hh

theorem Stage4Levels.AddTree_mono (l : Stage4Levels) (id : Nat) :
    l.Mono (l.AddTree (NewStage4Tree id)) := by
  intro h
  refine ⟨⟨?_, h.2.1, ?_⟩, by simp [Stage4Levels.AddTree], ?_, ?_, fun _ => rfl⟩
  · intro t2 ht2
    simp only [Stage4Levels.AddTree, List.mem_append, List.mem_singleton] at ht2
    rcases ht2 with h2 | h2
    · exact h.1 t2 h2
    · rw [h2]; exact NewStage4Tree_WF id
  · intro i k hk
    exact h.2.2 i k (Stage4Levels.holdsAt_AddTree l id i k hk)
  · intro i k ⟨t2, ht2, hh⟩
    refine ⟨t2, ?_, hh⟩
    rw [List.get?_eq_getElem?] at ht2 ⊢
    simp only [Stage4Levels.AddTree]
    have hlt : i < l.Levels.length := by
      by_contra hc
      rw [List.getElem?_eq_none (by omega)] at ht2
      cases ht2
    rw [List.getElem?_append_left hlt]
    exact ht2
  · intro i k hk
    unfold Stage4Levels.leaf? at hk ⊢
    cases hg : l.Levels.get? i with
    | none => simp [← List.get?_eq_getElem?, hg] at hk
    | some t2 =>
      have hlt : i < l.Levels.length := by
        rw [List.get?_eq_getElem?] at hg
        by_contra hc
        rw [List.getElem?_eq_none (by omega)] at hg
        cases hg
      have hg2 : (l.AddTree (NewStage4Tree id)).Levels.get? i = some t2 := by
        rw [List.get?_eq_getElem?] at hg ⊢
        simp only [Stage4Levels.AddTree]
        rw [List.getElem?_append_left hlt]
        exact hg
      simp only [← List.get?_eq_getElem?, hg] at hk
      simp only [← List.get?_eq_getElem?, hg2]
      exact hk

theorem Stage4Levels.addMissingLevels_mono (l : Stage4Levels) (n : Nat) :
    l.Mono (l.addMissingLevels n) := by
  unfold Stage4Levels.addMissingLevels
  generalize l.Levels.length = base
  have key : ∀ (xs : List Nat) (acc : Stage4Levels), l.Mono acc →
      l.Mono (xs.foldl (fun acc i => acc.AddTree (NewStage4Tree (base + (i + 1)))) acc) := by
    intro xs
    induction xs with
    | nil => intro acc h; exact h
    | cons x xs ih =>
      intro acc h
      simp only [List.foldl_cons]
      exact ih _ (Stage4Levels.Mono.mono_trans h (Stage4Levels.AddTree_mono acc _))
  exact key _ l (Stage4Levels.Mono.mono_refl l)

theorem Stage4Levels.Resolve_keeps (sprintf : String → String → String) (ord : KeyOrder)
    (depth fuel step : Nat) (l l2 : Stage4Levels) (r : Except Error Unit)
    (h : l.Resolve sprintf ord depth fuel step = Outcome.ret l2 r) : l.Keeps l2 := by
  unfold Stage4Levels.Resolve at h
  cases hh : l.Levels.head? with
  | none => simp [hh] at h
  | some t0 =>
    simp only [hh] at h
    exact Stage4Levels.Keeps.keeps_trans (Stage4Levels.addMissingLevels_mono l _).mono_keeps
      (Stage4Levels.resolveLoop_keeps _ _ _ _ _ _ _ _ _ _ h)

theorem alignLoop_mono (depth : Nat) (keys : List String) :
    ∀ (l l2 : Stage4Levels) (r : Except Error Unit),
      alignLoop depth keys l = Outcome.ret l2 r → l.Mono l2 := by
  induction keys with
  | nil =>
    intro l l2 r h
    simp only [alignLoop, Outcome.ret.injEq] at h
    rw [← h.1]; exact Stage4Levels.Mono.mono_refl l
  | cons k ks ih =>
    intro l l2 r h
    simp only [alignLoop] at h
    cases hg : GoMap.get? l.Map k with
    | none =>
      simp only [hg] at h
      exact ih l l2 r h
    | some v =>
      simp only [hg] at h
      cases hh : l.Levels.head? with
      | none => simp [hh] at h
      | some t0 =>
        simp only [hh] at h
        split at h
        · exact ih l l2 r h
        · cases ha : l.AddDependencyRecursive depth v.toDefault none [] 0 with
          | crash => simp [ha] at h
          | outOfFuel => simp [ha] at h
          | ret l3 r3 =>
            have hm := Stage4Levels.AddDependencyRecursive_mono depth _ _ _ _ _ _ _ ha
            cases r3 with
            | error e =>
              simp only [ha, Outcome.ret.injEq] at h
              rw [← h.1]; exact hm
            | ok b =>
              simp only [ha] at h
              exact Stage4Levels.Mono.mono_trans hm (ih l3 l2 r h)

theorem alignAndResolve_keeps (sprintf : String → String → String) (ord : KeyOrder)
    (fuel : Nat) (w w2 : Stage4Worker) (r : Except Error Unit)
    (h : alignAndResolve sprintf ord fuel w = Outcome.ret w2 r) : w.Levels.Keeps w2.Levels := by
  simp only [alignAndResolve, Stage4AlignLevel1] at h
  cases ha : alignLoop fuel (ord.order 0 (GoMap.keys w.Levels.Map)) w.Levels with
  | crash => simp [ha] at h
  | outOfFuel => simp [ha] at h
  | ret l1 r1 =>
    have hm := (alignLoop_mono _ _ _ _ _ ha).mono_keeps
    simp only [ha] at h
    cases hr : l1.Resolve sprintf ord fuel fuel 2 with
    | crash => simp [hr] at h
    | outOfFuel => simp [hr] at h
    | ret l2 r2 =>
      simp only [hr, Outcome.ret.injEq] at h
      rw [← h.1]
      exact Stage4Levels.Keeps.keeps_trans hm (Stage4Levels.Resolve_keeps _ _ _ _ _ _ _ _ hr)


/-! ## Stage 4: the level construction -/

theorem Stage4Levels.AddDependency_spec (l : Stage4Levels) (p : LuetPackage)
    (father : Option DefaultPackage) (level : Nat) (l2 : Stage4Levels) (r : Except Error Unit)
    (hlv : level < l.Levels.length) (hwf : l.WF)
    (h : l.AddDependency p father level = Outcome.ret l2 r) :
    l2.WF ∧ l2.Levels.length = l.Levels.length ∧
    (∀ i k, l.holdsAt i k → l2.holdsAt i k) ∧
    l2.holdsAt level (pkgKey p.toDefault) ∧
    (∀ i k, l2.holdsAt i k → l.holdsAt i k ∨ (i = level ∧ k = pkgKey p.toDefault)) ∧
    (∀ k, (GoMap.get? l2.Map k).isSome →
      (GoMap.get? l.Map k).isSome ∨ k = pkgKey p.toDefault) := by
  simp only [Stage4Levels.AddDependency] at h
  have h0 : ¬ level ≥ l.Levels.length := by omega
  simp only [h0, if_false] at h
  cases hg : GoMap.get? l.Map (pkgKey p.toDefault) with
  | some v =>
    simp only [hg] at h
    cases ht : l.treeAdd level v.toDefault father with
    | none => simp [ht] at h
    | some l3 =>
      simp only [ht, Outcome.ret.injEq] at h
      obtain ⟨h1, _⟩ := h
      subst h1
      have hk : pkgKey v.toDefault = pkgKey p.toDefault := hwf.2.1 _ _ hg
      have hp : (GoMap.get? l.Map (pkgKey v.toDefault)).isSome := by rw [hk, hg]; rfl
      obtain ⟨m1, m2, m3, m4⟩ := Stage4Levels.treeAdd_mono _ _ _ _ _ hp ht
      obtain ⟨a1, a2, a3, a4, a5⟩ := m1 hwf
      obtain ⟨b1, b2, b3⟩ := m4 hwf
      rw [hk] at b1 b3
      exact ⟨a1, m3, a3, b1, b3, fun k hk2 => Or.inl (by rw [← a5]; exact hk2)⟩
  | none =>
    simp only [hg] at h
    cases ht : Stage4Levels.treeAdd { l with Map := GoMap.set l.Map (pkgKey p.toDefault) p }
        level p.toDefault father with
    | none => simp [ht] at h
    | some l3 =>
      simp only [ht, Outcome.ret.injEq] at h
      obtain ⟨h1, _⟩ := h
      subst h1
      have hwf1 : Stage4Levels.WF { l with Map := GoMap.set l.Map (pkgKey p.toDefault) p } := by
        refine ⟨hwf.1, ?_, ?_⟩
        · intro k o hk
          simp only [GoMap.get?_set] at hk
          by_cases hkk : k = pkgKey p.toDefault
          · simp only [hkk, if_true, Option.some.injEq] at hk
            subst hk; exact hkk.symm
          · simp only [hkk, if_false] at hk
            exact hwf.2.1 k o hk
        · intro i k hk
          simp only [GoMap.get?_set]
          by_cases hkk : k = pkgKey p.toDefault
          · simp [hkk]
          · simp only [hkk, if_false]
            exact hwf.2.2 i k hk
      have hp : (GoMap.get? (Stage4Levels.mk l.Levels
          (GoMap.set l.Map (pkgKey p.toDefault) p)).Map (pkgKey p.toDefault)).isSome := by
        simp [GoMap.get?_set]
      obtain ⟨m1, m2, m3, m4⟩ := Stage4Levels.treeAdd_mono _ _ _ _ _ hp ht
      obtain ⟨a1, a2, a3, a4, a5⟩ := m1 hwf1
      obtain ⟨b1, b2, b3⟩ := m4 hwf1
      refine ⟨a1, m3, a3, b1, b3, ?_⟩
      intro k hk2
      rw [a5] at hk2
      simp only [GoMap.get?_set] at hk2
      by_cases hkk : k = pkgKey p.toDefault
      · exact Or.inr hkk
      · simp only [hkk, if_false] at hk2
        exact Or.inl hk2

theorem Stage4Worker.Grows.grows_refl (w : Stage4Worker) : w.Grows w :=
  ⟨Nat.le_refl _, fun _ _ h => h, fun _ _ h => h⟩

theorem Stage4Worker.Grows.grows_trans {w w2 w3 : Stage4Worker} (h1 : w.Grows w2) (h2 : w2.Grows w3) :
    w.Grows w3 :=
  ⟨Nat.le_trans h1.1 h2.1, fun i k h => h2.2.1 i k (h1.2.1 i k h),
   fun k o h => h2.2.2 k o (h1.2.2 k o h)⟩

theorem toLuet_toDefault (d : DefaultPackage) : d.toLuet.toDefault = d := by
  cases d; rfl

theorem Stage4Worker.registered (db : BuildDatabase) (w : Stage4Worker) (h : w.WF db) (i : Nat)
    (k : String) (hk : w.Levels.holdsAt i k) : (GoMap.get? w.Map k).isSome :=
  h.2.2 k (h.1.2.2 i k hk)

theorem requiresOf_atoms (db : BuildDatabase) (p d : DefaultPackage)
    (hd : d ∈ db.requiresOf p) : d ∈ db.atoms := by
  simp only [BuildDatabase.requiresOf, BuildDatabase.FindPackages] at hd
  cases hf : db.World.filter (fun q => q.Category == p.Category && q.Name == p.Name) with
  | nil => simp [hf] at hd
  | cons q qs =>
    simp only [hf] at hd
    have hq : q ∈ db.World := by
      have : q ∈ db.World.filter (fun q => q.Category == p.Category && q.Name == p.Name) := by
        rw [hf]; exact List.mem_cons_self q qs
      exact (List.mem_filter.mp this).1
    simp only [BuildDatabase.atoms, List.mem_flatMap]
    exact ⟨q, hq, List.mem_cons_of_mem _ hd⟩

theorem addDepsLoop_spec (db : BuildDatabase)
    (rec : LuetPackage → Option DefaultPackage → Stage4Worker → Nat → List String →
      Outcome Stage4Worker Unit)
    (hrec : ∀ (X : Nat → String → Prop) pkg father w level stack w2,
      w.WF db → w.Closed X → 1 ≤ level → level ≤ w.Levels.Levels.length + 1 →
      (db.FindPackages { Category := pkg.Category, Name := pkg.Name, Version := ">=0" } =
        Except.ok [] → pkg.PackageRequires = []) →
      pkg.toDefault ∈ db.atoms →
      rec pkg father w level stack = Outcome.ret w2 (Except.ok ()) →
      w2.WF db ∧ w2.Closed X ∧ w.Grows w2 ∧ w2.Levels.holdsAt (level - 1) (pkgKey pkg.toDefault))
    (X : Nat → String → Prop) (father : DefaultPackage) (level : Nat) (stack : List String)
    (deps : List DefaultPackage) :
    ∀ w w2, w.WF db → w.Closed X → level ≤ w.Levels.Levels.length →
      (∀ d ∈ deps, d ∈ db.atoms) →
      addDepsLoop rec father level stack deps w = Outcome.ret w2 (Except.ok ()) →
      w2.WF db ∧ w2.Closed X ∧ w.Grows w2 ∧ ∀ d ∈ deps, w2.Levels.holdsAt level (pkgKey d) := by
  induction deps with
  | nil =>
    intro w w2 hwf hcl _ _ h
    simp only [addDepsLoop, Outcome.ret.injEq] at h
    rw [← h.1]
    exact ⟨hwf, hcl, Stage4Worker.Grows.grows_refl w, by simp⟩
  | cons dep deps ih =>
    intro w w2 hwf hcl hlen hat h
    simp only [addDepsLoop] at h
    cases hr : rec dep.toLuet (some father) w (level + 1) stack with
    | crash => simp [hr] at h
    | outOfFuel => simp [hr] at h
    | ret w3 r3 =>
      cases r3 with
      | error e => simp [hr] at h
      | ok u =>
        simp only [hr] at h
        obtain ⟨a1, a2, a3, a4⟩ := hrec X dep.toLuet (some father) w (level + 1) stack w3 hwf hcl
          (by omega) (by omega) (by intro _; rfl)
          (by rw [toLuet_toDefault]; exact hat dep (List.mem_cons_self dep deps)) hr
        obtain ⟨b1, b2, b3, b4⟩ := ih w3 w2 a1 a2 (Nat.le_trans hlen a3.1)
          (fun d hd => hat d (List.mem_cons_of_mem dep hd)) h
        refine ⟨b1, b2, Stage4Worker.Grows.grows_trans a3 b3, ?_⟩
        intro d hd
        rcases List.mem_cons.mp hd with h1 | h1
        · subst h1
          rw [toLuet_toDefault] at a4
          exact b3.2.1 _ _ a4
        · exact b4 d h1

theorem requiresOf_of_find (db : BuildDatabase) (pkg : LuetPackage) (ppp : List LuetPackage)
    (hf : db.FindPackages { Category := pkg.Category, Name := pkg.Name, Version := ">=0" } =
      Except.ok ppp)
    (hpre : db.FindPackages { Category := pkg.Category, Name := pkg.Name, Version := ">=0" } =
        Except.ok [] → pkg.PackageRequires = []) :
    (match ppp with
      | q :: _ => ({ pkg with PackageRequires := q.PackageRequires } : LuetPackage)
      | [] => pkg).PackageRequires =
    db.requiresOf (match ppp with
      | q :: _ => ({ pkg with PackageRequires := q.PackageRequires } : LuetPackage)
      | [] => pkg).toDefault := by
  cases ppp with
  | nil =>
    simp only [BuildDatabase.requiresOf, LuetPackage.toDefault, hf]
    exact hpre hf
  | cons q qs =>
    simp only [BuildDatabase.requiresOf, LuetPackage.toDefault, hf]

theorem Stage4AddDeps2Levels_spec (db : BuildDatabase) (depth : Nat) :
    ∀ (X : Nat → String → Prop) (pkg : LuetPackage) (father : Option DefaultPackage)
      (w : Stage4Worker) (level : Nat) (stack : List String) (w2 : Stage4Worker),
      w.WF db → w.Closed X → 1 ≤ level → level ≤ w.Levels.Levels.length + 1 →
      (db.FindPackages { Category := pkg.Category, Name := pkg.Name, Version := ">=0" } =
        Except.ok [] → pkg.PackageRequires = []) →
      pkg.toDefault ∈ db.atoms →
      Stage4AddDeps2Levels db depth pkg father w level stack = Outcome.ret w2 (Except.ok ()) →
      w2.WF db ∧ w2.Closed X ∧ w.Grows w2 ∧
        w2.Levels.holdsAt (level - 1) (pkgKey pkg.toDefault) := by
  induction depth with
  | zero =>
    intro X pkg father w level stack w2 _ _ _ _ _ _ h
    simp [Stage4AddDeps2Levels] at h
  | succ depth ih =>
    intro X pkg father w level stack w2 hwf hcl hl1 hl2 hpre hatom h
    simp only [Stage4AddDeps2Levels] at h
    split at h
    · simp at h
    · -- the tree of the level
      have hw1 : ∃ w1 : Stage4Worker, w1 = (if w.Levels.Levels.length < level then
            { w with Levels := w.Levels.AddTree (NewStage4Tree level) } else w) ∧
          w1.WF db ∧ w1.Closed X ∧ w.Grows w1 ∧ level ≤ w1.Levels.Levels.length := by
        refine ⟨_, rfl, ?_⟩
        by_cases hc : w.Levels.Levels.length < level
        · simp only [hc, if_true]
          obtain ⟨m1, m2, m3, m4, m5⟩ := Stage4Levels.AddTree_mono w.Levels level hwf.1
          refine ⟨⟨m1, hwf.2.1, ?_⟩, ?_, ⟨m2, m3, fun _ _ hk => hk⟩, ?_⟩
          · intro k hk
            exact hwf.2.2 k hk
          · intro i k o hk ho hx d hd
            exact m3 _ _ (hcl i k o (Stage4Levels.holdsAt_AddTree _ _ _ _ hk) ho hx d hd)
          · simp only [Stage4Levels.AddTree, List.length_append, List.length_singleton]
            omega
        · simp only [hc, if_false]
          exact ⟨hwf, hcl, Stage4Worker.Grows.grows_refl w, by omega⟩
      obtain ⟨w1, hw1e, hwf1, hcl1, hg1, hlen1⟩ := hw1
      rw [← hw1e] at h
      -- the object of the key
      have hobj : ∀ pkg3 w2b,
          (match GoMap.get? w1.Map (pkgKey pkg.toDefault) with
            | some v => (Except.ok (v, w1) : Except Error (LuetPackage × Stage4Worker))
            | none =>
              match db.FindPackages
                  { Category := pkg.Category, Name := pkg.Name, Version := ">=0" } with
              | Except.error err =>
                Except.error ("Error on retrieve dependencies of the package " ++ pkg.Category ++
                  "/" ++ pkg.Name ++ ": " ++ err)
              | Except.ok ppp =>
                let pkg2 : LuetPackage :=
                  match ppp with
                  | q :: _ => { pkg with PackageRequires := q.PackageRequires }
                  | [] => pkg
                Except.ok (pkg2, { w1 with Map := GoMap.set w1.Map (pkgKey pkg.toDefault) pkg2 }))
            = Except.ok (pkg3, w2b) →
          w2b.WF db ∧ w2b.Closed X ∧ w1.Grows w2b ∧ w2b.Levels = w1.Levels ∧
          GoMap.get? w2b.Map (pkgKey pkg.toDefault) = some pkg3 := by
        intro pkg3 w2b he
        cases hg : GoMap.get? w1.Map (pkgKey pkg.toDefault) with
        | some v =>
          simp only [hg, Except.ok.injEq, Prod.mk.injEq] at he
          obtain ⟨e1, e2⟩ := he
          subst e1; subst e2
          exact ⟨hwf1, hcl1, Stage4Worker.Grows.grows_refl _, rfl, hg⟩
        | none =>
          simp only [hg] at he
          cases hf : db.FindPackages
              { Category := pkg.Category, Name := pkg.Name, Version := ">=0" } with
          | error err => simp [hf] at he
          | ok ppp =>
            simp only [hf, Except.ok.injEq, Prod.mk.injEq] at he
            obtain ⟨e1, e2⟩ := he
            have hreq := requiresOf_of_find db pkg ppp hf hpre
            rw [e1] at hreq
            have hid3 : pkg3.toDefault = pkg.toDefault := by
              rw [← e1]
              cases ppp <;> rfl
            have hkey3 : pkgKey pkg3.toDefault = pkgKey pkg.toDefault := by rw [hid3]
            subst e2
            have hnot : ∀ i, ¬ w1.Levels.holdsAt i (pkgKey pkg.toDefault) := by
              intro i hk
              have := Stage4Worker.registered db w1 hwf1 i _ hk
              rw [hg] at this
              cases this
            refine ⟨⟨hwf1.1, ?_, ?_⟩, ?_, ⟨Nat.le_refl _, fun _ _ hk => hk, ?_⟩, rfl, ?_⟩
            · intro k o hk
              simp only [GoMap.get?_set] at hk
              by_cases hkk : k = pkgKey pkg.toDefault
              · simp only [hkk, if_true, Option.some.injEq] at hk
                rw [← hk]
                rw [e1]
                exact ⟨by rw [hkk]; exact hkey3, hreq, by rw [hid3]; exact hatom⟩
              · simp only [hkk, if_false] at hk
                exact hwf1.2.1 k o hk
            · intro k hk
              simp only [GoMap.get?_set]
              by_cases hkk : k = pkgKey pkg.toDefault
              · simp [hkk]
              · simp only [hkk, if_false]
                exact hwf1.2.2 k hk
            · intro i k o hk ho hx d hd
              simp only [GoMap.get?_set] at ho
              by_cases hkk : k = pkgKey pkg.toDefault
              · rw [hkk] at hk
                exact absurd hk (hnot i)
              · simp only [hkk, if_false] at ho
                exact hcl1 i k o hk ho hx d hd
            · intro k o hk
              simp only [GoMap.get?_set]
              by_cases hkk : k = pkgKey pkg.toDefault
              · rw [hkk, hg] at hk
                cases hk
              · simp only [hkk, if_false]
                exact hk
            · simp only [GoMap.get?_set, if_true]
              rw [e1]
      split at h
      · simp at h
      · rename_i pkg3 w2b hmatch
        obtain ⟨hwf2, hcl2, hg2, hlv2, hget2⟩ := hobj pkg3 w2b hmatch
        have hkey3 : pkgKey pkg3.toDefault = pkgKey pkg.toDefault := (hwf2.2.1 _ _ hget2).1
        have hlen2 : level - 1 < w2b.Levels.Levels.length := by
          rw [hlv2]; omega
        cases ha : w2b.Levels.AddDependency pkg3 father (level - 1) with
        | crash => simp [ha] at h
        | outOfFuel => simp [ha] at h
        | ret l3 r3 =>
          simp only [ha] at h
          obtain ⟨s1, s2, s3, s4, s5, s6⟩ :=
            Stage4Levels.AddDependency_spec _ _ _ _ _ _ hlen2 hwf2.1 ha
          rw [hkey3] at s4 s5 s6
          have hwf3 : Stage4Worker.WF db { w2b with Levels := l3 } := by
            refine ⟨s1, hwf2.2.1, ?_⟩
            intro k hk
            rcases s6 k hk with h5 | h5
            · exact hwf2.2.2 k h5
            · rw [h5]
              show (GoMap.get? w2b.Map (pkgKey pkg.toDefault)).isSome = true
              rw [hget2]; rfl
          have hcl3 : Stage4Worker.Closed { w2b with Levels := l3 }
              (fun i k => X i k ∨ (i = level - 1 ∧ k = pkgKey pkg.toDefault)) := by
            intro i k o hk ho hx d hd
            rcases s5 i k hk with h5 | h5
            · exact s3 _ _ (hcl2 i k o h5 ho (fun hxx => hx (Or.inl hxx)) d hd)
            · exact absurd (Or.inr h5) hx
          have hlen3 : level ≤ (Stage4Worker.mk l3 w2b.Map).Levels.Levels.length := by
            show level ≤ l3.Levels.length
            rw [s2, hlv2]; exact hlen1
          have hreq3 := (hwf2.2.1 _ _ hget2).2.1
          obtain ⟨c1, c2, c3, c4⟩ := addDepsLoop_spec db (Stage4AddDeps2Levels db depth) ih
            (fun i k => X i k ∨ (i = level - 1 ∧ k = pkgKey pkg.toDefault))
            pkg3.toDefault level (stack ++ [pkgKey pkg.toDefault]) pkg3.PackageRequires
            { w2b with Levels := l3 } w2 hwf3 hcl3 hlen3
            (fun d hd => requiresOf_atoms db pkg3.toDefault d (by rw [← hreq3]; exact hd)) h
          have hg3 : w2b.Grows { w2b with Levels := l3 } :=
            ⟨by show w2b.Levels.Levels.length ≤ l3.Levels.length; rw [s2], s3, fun _ _ hk => hk⟩
          have hgall : w.Grows w2 :=
            Stage4Worker.Grows.grows_trans hg1 (Stage4Worker.Grows.grows_trans hg2
              (Stage4Worker.Grows.grows_trans hg3 c3))
          refine ⟨c1, ?_, hgall, c3.2.1 _ _ s4⟩
          intro i k o hk ho hx d hd
          by_cases hx2 : i = level - 1 ∧ k = pkgKey pkg.toDefault
          · obtain ⟨e1, e2⟩ := hx2
            subst e1; subst e2
            have ho3 : GoMap.get? w2.Map (pkgKey pkg.toDefault) = some pkg3 :=
              c3.2.2 _ _ hget2
            rw [ho3] at ho
            cases ho
            have hlv : level - 1 + 1 = level := by omega
            rw [hlv]
            exact c4 d hd
          · exact c2 i k o hk ho (fun hxx => hxx.elim hx hx2) d hd

/-! ## The roots of the levels -/

theorem FindPackage_ok (db : BuildDatabase) (p : DefaultPackage) (r : LuetPackage)
    (h : db.FindPackage p = Except.ok r) : r ∈ db.World ∧ r.toDefault = p := by
  simp only [BuildDatabase.FindPackage] at h
  cases hf : db.World.find? (fun q =>
      q.Category == p.Category && q.Name == p.Name && q.Version == p.Version) with
  | none => simp [hf] at h
  | some q =>
    simp only [hf, Except.ok.injEq] at h
    subst h
    have h1 := List.find?_some hf
    have h2 := List.mem_of_find?_eq_some hf
    simp only [Bool.and_eq_true, beq_iff_eq] at h1
    refine ⟨h2, ?_⟩
    cases p
    simp only [LuetPackage.toDefault, DefaultPackage.mk.injEq]
    exact ⟨h1.1.2, h1.1.1, h1.2⟩

theorem FindPackages_of_mem (db : BuildDatabase) (r : LuetPackage) (h : r ∈ db.World) :
    db.FindPackages { Category := r.Category, Name := r.Name, Version := ">=0" } ≠
      Except.ok [] := by
  simp only [BuildDatabase.FindPackages, ne_eq, Except.ok.injEq]
  intro hc
  have : r ∈ db.World.filter (fun q => q.Category == r.Category && q.Name == r.Name) := by
    apply List.mem_filter.mpr
    exact ⟨h, by simp⟩
  rw [hc] at this
  cases this

theorem mem_atoms_of_world (db : BuildDatabase) (r : LuetPackage) (h : r ∈ db.World) :
    r.toDefault ∈ db.atoms := by
  simp only [BuildDatabase.atoms, List.mem_flatMap]
  exact ⟨r, h, List.mem_cons_self _ _⟩

theorem resolveMissings_spec (db : BuildDatabase) (list : List DefaultPackage) :
    ∀ (acc : GoMap DefaultPackage × List LuetPackage) (m : GoMap DefaultPackage)
      (pl : List LuetPackage),
      resolveMissings db list acc = Except.ok (m, pl) →
      m = list.foldl (fun m p => GoMap.set m p.HumanReadableString p) acc.1 ∧
      ∃ rs, pl = acc.2 ++ rs ∧ (∀ r ∈ rs, r ∈ db.World) ∧
        (∀ p ∈ list, ∃ r ∈ rs, r.toDefault = p) := by
  induction list with
  | nil =>
    intro acc m pl h
    simp only [resolveMissings, Except.ok.injEq] at h
    subst h
    exact ⟨rfl, [], by simp, by simp, by simp⟩
  | cons p rest ih =>
    intro acc m pl h
    simp only [resolveMissings] at h
    cases hf : db.FindPackage p with
    | error e => simp [hf] at h
    | ok r =>
      simp only [hf] at h
      obtain ⟨h1, rs, h2, h3, h4⟩ := ih _ m pl h
      obtain ⟨f1, f2⟩ := FindPackage_ok db p r hf
      refine ⟨by rw [h1]; rfl, r :: rs, by rw [h2]; simp, ?_, ?_⟩
      · intro r2 hr2
        rcases List.mem_cons.mp hr2 with h5 | h5
        · rw [h5]; exact f1
        · exact h3 r2 h5
      · intro q hq
        rcases List.mem_cons.mp hq with h5 | h5
        · exact ⟨r, List.mem_cons_self _ _, by rw [h5]; exact f2⟩
        · obtain ⟨r2, hr2, hr3⟩ := h4 q h5
          exact ⟨r2, List.mem_cons_of_mem _ hr2, hr3⟩

theorem addRoots_spec (db : BuildDatabase) (depth : Nat) (pl : List LuetPackage) :
    ∀ (w w2 : Stage4Worker), w.WF db → w.Closed (fun _ _ => False) →
      1 ≤ w.Levels.Levels.length → (∀ r ∈ pl, r ∈ db.World) →
      addRoots db depth pl w = Outcome.ret w2 (Except.ok ()) →
      w2.WF db ∧ w2.Closed (fun _ _ => False) ∧ w.Grows w2 ∧
        ∀ r ∈ pl, w2.Levels.holdsAt 0 (pkgKey r.toDefault) := by
  induction pl with
  | nil =>
    intro w w2 hwf hcl _ _ h
    simp only [addRoots, Outcome.ret.injEq] at h
    rw [← h.1]
    exact ⟨hwf, hcl, Stage4Worker.Grows.grows_refl w, by simp⟩
  | cons p rest ih =>
    intro w w2 hwf hcl hlen hw h
    simp only [addRoots] at h
    cases hr : Stage4AddDeps2Levels db depth p none w 1 [] with
    | crash => simp [hr] at h
    | outOfFuel => simp [hr] at h
    | ret w3 r3 =>
      cases r3 with
      | error e => simp [hr] at h
      | ok u =>
        simp only [hr] at h
        have hp := hw p (List.mem_cons_self _ _)
        obtain ⟨a1, a2, a3, a4⟩ := Stage4AddDeps2Levels_spec db depth (fun _ _ => False) p none
          w 1 [] w3 hwf hcl (Nat.le_refl 1) (by omega)
          (fun hc => absurd hc (FindPackages_of_mem db p hp)) (mem_atoms_of_world db p hp) hr
        obtain ⟨b1, b2, b3, b4⟩ := ih w3 w2 a1 a2 (Nat.le_trans hlen a3.1)
          (fun r hr2 => hw r (List.mem_cons_of_mem _ hr2)) h
        refine ⟨b1, b2, Stage4Worker.Grows.grows_trans a3 b3, ?_⟩
        intro r hr2
        rcases List.mem_cons.mp hr2 with h5 | h5
        · rw [h5]
          exact b3.2.1 _ _ a4
        · exact b4 r h5

theorem initial_worker (db : BuildDatabase) :
    Stage4Worker.WF db { Levels := NewStage4LevelsWithSize 1, Map := [] } ∧
    Stage4Worker.Closed { Levels := NewStage4LevelsWithSize 1, Map := [] } (fun _ _ => False) ∧
    1 ≤ (NewStage4LevelsWithSize 1).Levels.length := by
  have hl : NewStage4LevelsWithSize 1 = { Levels := [NewStage4Tree 1], Map := [] } := rfl
  rw [hl]
  have hno : ∀ i k, ¬ Stage4Levels.holdsAt { Levels := [NewStage4Tree 1], Map := [] } i k := by
    intro i k ⟨t, ht, hh⟩
    cases i with
    | zero =>
      simp at ht
      subst ht
      simp [Stage4Tree.holds, NewStage4Tree] at hh
    | succ n => simp at ht
  refine ⟨⟨⟨?_, ?_, ?_⟩, ?_, ?_⟩, ?_, by simp⟩
  · intro t ht
    simp only [List.mem_singleton] at ht
    rw [ht]; exact NewStage4Tree_WF 1
  · intro k o hk
    simp [GoMap.get?] at hk
  · intro i k hk
    exact absurd hk (hno i k)
  · intro k o hk
    simp [GoMap.get?] at hk
  · intro k hk
    simp [GoMap.get?] at hk
  · intro i k o hk
    exact absurd hk (hno i k)


/-! ## The emission -/

theorem nested_foldl {α β γ : Type} (f : β → γ → β) (g : α → List γ) (ts : List α) :
    ∀ a : β, ts.foldl (fun acc t => (g t).foldl f acc) a = (ts.flatMap g).foldl f a := by
  induction ts with
  | nil => intro a; rfl
  | cons t ts ih =>
    intro a
    simp only [List.foldl_cons, List.flatMap_cons, List.foldl_append]
    exact ih _

theorem retrieve_prefix (M : GoMap DefaultPackage) (D : List DefaultPackage) :
    ∀ acc : List DefaultPackage × GoMap Bool,
      ∃ new, (D.foldl (retrieveStep M) acc).1 = acc.1 ++ new := by
  induction D with
  | nil => intro acc; exact ⟨[], by simp⟩
  | cons d D ih =>
    intro acc
    simp only [List.foldl_cons]
    obtain ⟨new, hnew⟩ := ih (retrieveStep M acc d)
    rw [hnew]
    simp only [retrieveStep]
    by_cases hp : GoMap.has acc.2 (pkgKey d) = true
    · simp only [hp, if_true]
      exact ⟨new, rfl⟩
    · simp only [hp, Bool.false_eq_true, if_false]
      cases hg : GoMap.get? M (pkgKey d) with
      | none => exact ⟨new, rfl⟩
      | some v => exact ⟨v :: new, by simp⟩

theorem retrieve_processed (M : GoMap DefaultPackage) (D : List DefaultPackage) :
    ∀ (acc : List DefaultPackage × GoMap Bool) (k : String),
      GoMap.has (D.foldl (retrieveStep M) acc).2 k = true ↔
        GoMap.has acc.2 k = true ∨ k ∈ D.map pkgKey := by
  induction D with
  | nil => intro acc k; simp
  | cons d D ih =>
    intro acc k
    simp only [List.foldl_cons, List.map_cons, List.mem_cons]
    rw [ih]
    simp only [retrieveStep]
    by_cases hp : GoMap.has acc.2 (pkgKey d) = true
    · simp only [hp, if_true]
      constructor
      · rintro (h | h)
        · exact Or.inl h
        · exact Or.inr (Or.inr h)
      · rintro (h | h | h)
        · exact Or.inl h
        · rw [h]; exact Or.inl hp
        · exact Or.inr h
    · simp only [hp, Bool.false_eq_true, if_false, GoMap.has_set, Bool.or_eq_true,
        decide_eq_true_eq]
      constructor
      · rintro ((h | h) | h)
        · exact Or.inr (Or.inl h)
        · exact Or.inl h
        · exact Or.inr (Or.inr h)
      · rintro (h | h | h)
        · exact Or.inl (Or.inr h)
        · exact Or.inl (Or.inl h)
        · exact Or.inr h

theorem retrieve_mem (M : GoMap DefaultPackage) (D : List DefaultPackage) :
    ∀ (acc : List DefaultPackage × GoMap Bool) (p : DefaultPackage),
      p ∈ (D.foldl (retrieveStep M) acc).1 ↔
        p ∈ acc.1 ∨ ∃ d ∈ D, GoMap.has acc.2 (pkgKey d) = false ∧
          GoMap.get? M (pkgKey d) = some p := by
  induction D with
  | nil => intro acc p; simp
  | cons d D ih =>
    intro acc p
    simp only [List.foldl_cons]
    rw [ih]
    simp only [retrieveStep]
    by_cases hp : GoMap.has acc.2 (pkgKey d) = true
    · simp only [hp, if_true]
      constructor
      · rintro (h | ⟨d2, hd2, h1, h2⟩)
        · exact Or.inl h
        · exact Or.inr ⟨d2, List.mem_cons_of_mem _ hd2, h1, h2⟩
      · rintro (h | ⟨d2, hd2, h1, h2⟩)
        · exact Or.inl h
        · rcases List.mem_cons.mp hd2 with h3 | h3
          · rw [h3, hp] at h1; cases h1
          · exact Or.inr ⟨d2, h3, h1, h2⟩
    · have hp2 : GoMap.has acc.2 (pkgKey d) = false := by simpa using hp
      simp only [hp, Bool.false_eq_true, if_false, GoMap.has_set]
      constructor
      · rintro (h | ⟨d2, hd2, h1, h2⟩)
        · cases hg : GoMap.get? M (pkgKey d) with
          | none =>
            simp only [hg] at h
            exact Or.inl h
          | some v =>
            simp only [hg, List.mem_append, List.mem_singleton] at h
            rcases h with h | h
            · exact Or.inl h
            · exact Or.inr ⟨d, List.mem_cons_self _ _, hp2, by rw [hg, h]⟩
        · simp only [Bool.or_eq_false_iff, decide_eq_false_iff_not] at h1
          exact Or.inr ⟨d2, List.mem_cons_of_mem _ hd2, h1.2, h2⟩
      · rintro (h | ⟨d2, hd2, h1, h2⟩)
        · left
          cases hg : GoMap.get? M (pkgKey d) with
          | none => exact h
          | some v => simp [h]
        · by_cases hk : pkgKey d2 = pkgKey d
          · left
            rw [hk] at h2
            simp [h2]
          · rcases List.mem_cons.mp hd2 with h3 | h3
            · rw [h3] at hk; exact absurd rfl hk
            · right
              refine ⟨d2, h3, ?_, h2⟩
              simp [hk, h1]

theorem retrieve_nodup (M : GoMap DefaultPackage) (D : List DefaultPackage)
    (hM : ∀ d ∈ D, ∀ p, GoMap.get? M (pkgKey d) = some p → pkgKey p = pkgKey d) :
    ∀ (acc : List DefaultPackage × GoMap Bool), acc.1.Nodup →
      (∀ p ∈ acc.1, GoMap.has acc.2 (pkgKey p) = true) →
      (D.foldl (retrieveStep M) acc).1.Nodup := by
  induction D with
  | nil => intro acc h _; exact h
  | cons d D ih =>
    intro acc hn hproc
    simp only [List.foldl_cons]
    have hM2 : ∀ d2 ∈ D, ∀ p, GoMap.get? M (pkgKey d2) = some p → pkgKey p = pkgKey d2 :=
      fun d2 hd2 => hM d2 (List.mem_cons_of_mem _ hd2)
    apply ih hM2
    · simp only [retrieveStep]
      by_cases hp : GoMap.has acc.2 (pkgKey d) = true
      · simp only [hp, if_true]; exact hn
      · simp only [hp, Bool.false_eq_true, if_false]
        cases hg : GoMap.get? M (pkgKey d) with
        | none => exact hn
        | some v =>
          simp only
          rw [List.nodup_append]
          refine ⟨hn, List.nodup_singleton v, ?_⟩
          intro x hx hx2
          simp only [List.mem_singleton] at hx2
          subst hx2
          have h1 := hproc x hx
          rw [hM d (List.mem_cons_self _ _) x hg] at h1
          exact hp h1
    · intro p hp2
      simp only [retrieveStep] at hp2 ⊢
      by_cases hp : GoMap.has acc.2 (pkgKey d) = true
      · simp only [hp, if_true] at hp2 ⊢
        exact hproc p hp2
      · simp only [hp, Bool.false_eq_true, if_false, GoMap.has_set, Bool.or_eq_true,
          decide_eq_true_eq] at hp2 ⊢
        cases hg : GoMap.get? M (pkgKey d) with
        | none =>
          simp only [hg] at hp2
          exact Or.inr (hproc p hp2)
        | some v =>
          simp only [hg, List.mem_append, List.mem_singleton] at hp2
          rcases hp2 with h | h
          · exact Or.inr (hproc p h)
          · left
            rw [h]
            exact hM d (List.mem_cons_self _ _) v hg


/-! ## The map of the missing packages -/

theorem missings_fold_values (L : List DefaultPackage) (xs : List DefaultPackage)
    (hxs : ∀ p ∈ xs, p ∈ L) :
    ∀ acc : GoMap DefaultPackage,
      (∀ k v, GoMap.get? acc k = some v → v ∈ L ∧ k = v.HumanReadableString) →
      ∀ k v, GoMap.get? (xs.foldl (fun m p => GoMap.set m p.HumanReadableString p) acc) k =
        some v → v ∈ L ∧ k = v.HumanReadableString := by
  induction xs with
  | nil => intro acc h; exact h
  | cons x xs ih =>
    intro acc h
    simp only [List.foldl_cons]
    apply ih (fun p hp => hxs p (List.mem_cons_of_mem _ hp))
    intro k v hk
    simp only [GoMap.get?_set] at hk
    by_cases hkk : k = x.HumanReadableString
    · simp only [hkk, if_true, Option.some.injEq] at hk
      subst hk
      exact ⟨hxs x (List.mem_cons_self _ _), hkk⟩
    · simp only [hkk, if_false] at hk
      exact h k v hk

theorem missings_fold_other (xs : List DefaultPackage) (k : String)
    (hk : k ∉ xs.map DefaultPackage.HumanReadableString) :
    ∀ acc : GoMap DefaultPackage,
      GoMap.get? (xs.foldl (fun m p => GoMap.set m p.HumanReadableString p) acc) k =
        GoMap.get? acc k := by
  induction xs with
  | nil => intro acc; rfl
  | cons x xs ih =>
    intro acc
    simp only [List.map_cons, List.mem_cons, not_or] at hk
    simp only [List.foldl_cons]
    rw [ih hk.2, GoMap.get?_set, if_neg hk.1]

theorem missings_fold_get (xs : List DefaultPackage)
    (hn : (xs.map DefaultPackage.HumanReadableString).Nodup) :
    ∀ (acc : GoMap DefaultPackage) (p : DefaultPackage), p ∈ xs →
      GoMap.get? (xs.foldl (fun m p => GoMap.set m p.HumanReadableString p) acc)
        p.HumanReadableString = some p := by
  induction xs with
  | nil => intro acc p hp; cases hp
  | cons x xs ih =>
    intro acc p hp
    simp only [List.map_cons, List.nodup_cons] at hn
    simp only [List.foldl_cons]
    rcases List.mem_cons.mp hp with h | h
    · subst h
      rw [missings_fold_other xs _ hn.1, GoMap.get?_set, if_pos rfl]
    · exact ih hn.2 _ p h

theorem GoMap.get?_of_mem_keys {V : Type} (m : GoMap V) (k : String) (h : k ∈ GoMap.keys m) :
    ∃ v, GoMap.get? m k = some v := by
  simp only [GoMap.keys, List.mem_map] at h
  obtain ⟨e, he, hek⟩ := h
  have h1 : GoMap.has m k = true := by
    rw [← hek]
    exact GoMap.has_of_mem m e.1 e.2 he
  rw [GoMap.has_eq_isSome] at h1
  exact Option.isSome_iff_exists.mp h1

theorem GoMap.mem_keys_of_get? {V : Type} (m : GoMap V) (k : String) (v : V)
    (h : GoMap.get? m k = some v) : k ∈ GoMap.keys m := by
  simp only [GoMap.keys, List.mem_map]
  exact ⟨(k, v), GoMap.mem_of_get? m k v h, rfl⟩

theorem addCatNameKeys_values (ord : KeyOrder) (L : List DefaultPackage)
    (m0 : GoMap DefaultPackage)
    (h0 : ∀ k v, GoMap.get? m0 k = some v → v ∈ L ∧ k = v.HumanReadableString) :
    ∀ k v, GoMap.get? (addCatNameKeys ord m0) k = some v →
      v ∈ L ∧ (k = v.HumanReadableString ∨ k = pkgKey v) := by
  simp only [addCatNameKeys]
  have key : ∀ (ks : List String) (m : GoMap DefaultPackage),
      (∀ k v, GoMap.get? m k = some v → v ∈ L ∧ (k = v.HumanReadableString ∨ k = pkgKey v)) →
      ∀ k v, GoMap.get? (ks.foldl (fun m k =>
          match GoMap.get? m k with
          | some v => GoMap.set m (pkgKey v) v
          | none => m) m) k = some v →
        v ∈ L ∧ (k = v.HumanReadableString ∨ k = pkgKey v) := by
    intro ks
    induction ks with
    | nil => intro m h; exact h
    | cons x ks ih =>
      intro m h
      simp only [List.foldl_cons]
      apply ih
      intro k v hk
      cases hx : GoMap.get? m x with
      | none =>
        simp only [hx] at hk
        exact h k v hk
      | some vx =>
        simp only [hx, GoMap.get?_set] at hk
        by_cases hkk : k = pkgKey vx
        · simp only [hkk, if_true, Option.some.injEq] at hk
          subst hk
          exact ⟨(h x vx hx).1, Or.inr hkk⟩
        · simp only [hkk, if_false] at hk
          exact h k v hk
  exact key _ m0 (fun k v hk => ⟨(h0 k v hk).1, Or.inl (h0 k v hk).2⟩)

theorem addCatNameKeys_get (ord : KeyOrder) (L : List DefaultPackage)
    (m0 : GoMap DefaultPackage)
    (hkeys : (L.map pkgKey).Nodup)
    (hfp : (L.map DefaultPackage.HumanReadableString).Nodup)
    (hclash : ∀ p ∈ L, ∀ q ∈ L, p.HumanReadableString ≠ pkgKey q)
    (h0 : ∀ k, k ∈ GoMap.keys m0 → ∃ q ∈ L, k = q.HumanReadableString)
    (h1 : ∀ p ∈ L, GoMap.get? m0 p.HumanReadableString = some p) :
    ∀ p ∈ L, GoMap.get? (addCatNameKeys ord m0) (pkgKey p) = some p := by
  simp only [addCatNameKeys]
  have key : ∀ (ks : List String) (m : GoMap DefaultPackage) (A : DefaultPackage → Prop),
      (∀ k ∈ ks, ∃ q ∈ L, k = q.HumanReadableString) →
      (∀ p ∈ L, GoMap.get? m p.HumanReadableString = some p) →
      (∀ p ∈ L, A p → GoMap.get? m (pkgKey p) = some p) →
      ∀ p ∈ L, (A p ∨ p.HumanReadableString ∈ ks) →
        GoMap.get? (ks.foldl (fun m k =>
          match GoMap.get? m k with
          | some v => GoMap.set m (pkgKey v) v
          | none => m) m) (pkgKey p) = some p := by
    intro ks
    induction ks with
    | nil =>
      intro m A _ _ hA p hp hc
      rcases hc with hc | hc
      · exact hA p hp hc
      · cases hc
    | cons x ks ih =>
      intro m A hks hH hA p hp hc
      simp only [List.foldl_cons]
      obtain ⟨q, hq, hxq⟩ := hks x (List.mem_cons_self _ _)
      have hgx : GoMap.get? m x = some q := by rw [hxq]; exact hH q hq
      simp only [hgx]
      apply ih (GoMap.set m (pkgKey q) q) (fun p => A p ∨ p.HumanReadableString = x)
        (fun k hk => hks k (List.mem_cons_of_mem _ hk))
      · intro p2 hp2
        rw [GoMap.get?_set, if_neg (hclash p2 hp2 q hq)]
        exact hH p2 hp2
      · intro p2 hp2 hA2
        rw [GoMap.get?_set]
        by_cases hk : pkgKey p2 = pkgKey q
        · have : p2 = q := List.inj_on_of_nodup_map hkeys hp2 hq hk
          rw [if_pos hk, this]
        · rw [if_neg hk]
          rcases hA2 with h | h
          · exact hA p2 hp2 h
          · exfalso
            apply hk
            have : p2 = q :=
              List.inj_on_of_nodup_map hfp hp2 hq (h.trans hxq)
            rw [this]
      · exact hp
      · rcases hc with hc | hc
        · exact Or.inl (Or.inl hc)
        · rcases List.mem_cons.mp hc with h | h
          · exact Or.inl (Or.inr h)
          · exact Or.inr h
  intro p hp
  apply key _ m0 (fun _ => False)
    (fun k hk => h0 k ((ord.order_perm 1 _).mem_iff.mp hk)) h1 (fun _ _ hf => hf.elim) p hp
  right
  exact (ord.order_perm 1 _).mem_iff.mpr (GoMap.mem_keys_of_get? m0 _ p (h1 p hp))


/-! ## The levels behind the answer -/

theorem orderMissings_levels (db : BuildDatabase) (list : List DefaultPackage)
    (withResolve : Bool) (sprintf : String → String → String) (ord : KeyOrder) (fuel : Nat)
    (res : List DefaultPackage)
    (h : orderMissings db list withResolve sprintf ord fuel = Outcome.ret () (Except.ok res)) :
    ∃ w : Stage4Worker,
      res = retrieveMissingOrdered ord w
        (list.foldl (fun m p => GoMap.set m p.HumanReadableString p) []) ∧
      w.Levels.WF ∧ (∀ p ∈ list, w.Levels.holds (pkgKey p)) ∧
      (∀ k, w.Levels.holds k → k ∈ db.atoms.map pkgKey) ∧
      (∀ p ∈ list, p ∈ db.atoms) ∧
      (withResolve = false → w.WF db ∧ w.Closed (fun _ _ => False)) := by
  simp only [orderMissings] at h
  cases hr : resolveMissings db list ([], []) with
  | error e => simp [hr] at h
  | ok x =>
    obtain ⟨mM, pList⟩ := x
    simp only [hr] at h
    obtain ⟨hm, rs, hrs, hworld, hall⟩ := resolveMissings_spec db list _ _ _ hr
    simp only [List.nil_append] at hrs hm
    subst hrs
    obtain ⟨i1, i2, i3⟩ := initial_worker db
    cases ha : addRoots db fuel pList
        { Levels := NewStage4LevelsWithSize 1, Map := [] } with
    | crash => simp [ha] at h
    | outOfFuel => simp [ha] at h
    | ret worker r1 =>
      cases r1 with
      | error e => simp [ha] at h
      | ok u =>
        simp only [ha] at h
        obtain ⟨a1, a2, a3, a4⟩ := addRoots_spec db fuel pList _ worker i1 i2 i3 hworld ha
        have hatoms : ∀ p ∈ list, p ∈ db.atoms := by
          intro p hp
          obtain ⟨r, hr1, hr2⟩ := hall p hp
          rw [← hr2]
          exact mem_atoms_of_world db r (hworld r hr1)
        have hroots : ∀ p ∈ list, worker.Levels.holds (pkgKey p) := by
          intro p hp
          obtain ⟨r, hr1, hr2⟩ := hall p hp
          rw [← hr2]
          exact ⟨0, a4 r hr1⟩
        have hprov : ∀ k, (GoMap.get? worker.Levels.Map k).isSome → k ∈ db.atoms.map pkgKey := by
          intro k hk
          obtain ⟨o, ho⟩ := Option.isSome_iff_exists.mp (a1.2.2 k hk)
          obtain ⟨o1, _, o3⟩ := a1.2.1 k o ho
          exact List.mem_map.mpr ⟨o.toDefault, o3, o1⟩
        by_cases hw : withResolve = true
        · simp only [hw, if_true] at h
          cases hal : alignAndResolve sprintf ord fuel worker with
          | crash => simp [hal] at h
          | outOfFuel => simp [hal] at h
          | ret worker2 r2 =>
            simp only [hal, Outcome.ret.injEq, Except.ok.injEq, true_and] at h
            obtain ⟨k1, k2, k3, k4⟩ := alignAndResolve_keeps _ _ _ _ _ _ hal a1.1
            refine ⟨worker2, by rw [← h, hm], k1, fun p hp => k3 _ (hroots p hp), ?_, hatoms, ?_⟩
            · intro k ⟨i, hk⟩
              apply hprov
              rw [← k4]
              exact k1.2.2 i k hk
            · intro hc
              rw [hw] at hc
              cases hc
        · simp only [hw, Bool.false_eq_true, if_false, Outcome.ret.injEq, Except.ok.injEq,
            true_and] at h
          refine ⟨worker, by rw [← h, hm], a1.1, hroots, ?_, hatoms, fun _ => ⟨a1, a2⟩⟩
          intro k ⟨i, hk⟩
          exact hprov k (a1.1.2.2 i k hk)

theorem mem_reverse_deps (l : Stage4Levels) (d : DefaultPackage) :
    d ∈ l.Levels.reverse.flatMap (fun t => t.Deps) ↔ ∃ t ∈ l.Levels, d ∈ t.Deps := by
  simp only [List.mem_flatMap, List.mem_reverse]

theorem holds_iff_dep (l : Stage4Levels) (k : String) :
    l.holds k ↔ ∃ d ∈ l.Levels.reverse.flatMap (fun t => t.Deps), pkgKey d = k := by
  constructor
  · rintro ⟨i, t, ht, hh⟩
    simp only [Stage4Tree.holds, List.mem_map] at hh
    obtain ⟨d, hd, hdk⟩ := hh
    exact ⟨d, (mem_reverse_deps l d).mpr ⟨t, List.get?_mem ht, hd⟩, hdk⟩
  · rintro ⟨d, hd, hdk⟩
    obtain ⟨t, ht, hd2⟩ := (mem_reverse_deps l d).mp hd
    obtain ⟨i, hi⟩ := List.mem_iff_get?.mp ht
    exact ⟨i, t, hi, List.mem_map.mpr ⟨d, hd2, hdk⟩⟩

theorem orderMissings_perm (db : BuildDatabase) (list : List DefaultPackage)
    (withResolve : Bool) (sprintf : String → String → String) (ord : KeyOrder) (fuel : Nat)
    (res : List DefaultPackage)
    (hkeys : (list.map pkgKey).Nodup)
    (hfp : (list.map DefaultPackage.HumanReadableString).Nodup)
    (hclash : ∀ p ∈ list, p.HumanReadableString ∉ db.atoms.map pkgKey)
    (h : orderMissings db list withResolve sprintf ord fuel = Outcome.ret () (Except.ok res)) :
    res.Perm list := by
  obtain ⟨w, hres, hwf, hroots, hprov, hatoms, _⟩ :=
    orderMissings_levels db list withResolve sprintf ord fuel res h
  have hm0 := missings_fold_values list list (fun p hp => hp) []
    (by intro k v hk; simp [GoMap.get?] at hk)
  have hE1 := addCatNameKeys_values ord list _ hm0
  have hcl2 : ∀ p ∈ list, ∀ q ∈ list, p.HumanReadableString ≠ pkgKey q := by
    intro p hp q hq hc
    exact hclash p hp (List.mem_map.mpr ⟨q, hatoms q hq, hc.symm⟩)
  have hE2 := addCatNameKeys_get ord list _ hkeys hfp hcl2
    (by
      intro k hk
      obtain ⟨v, hv⟩ := GoMap.get?_of_mem_keys _ k hk
      exact ⟨v, (hm0 k v hv).1, (hm0 k v hv).2⟩)
    (fun p hp => missings_fold_get list hfp [] p hp)
  have hflat : res = ((w.Levels.Levels.reverse.flatMap (fun t => t.Deps)).foldl
      (retrieveStep (addCatNameKeys ord
        (list.foldl (fun m p => GoMap.set m p.HumanReadableString p) []))) ([], [])).1 := by
    rw [hres]
    simp only [retrieveMissingOrdered]
    rw [nested_foldl]
  have hM : ∀ d ∈ w.Levels.Levels.reverse.flatMap (fun t => t.Deps), ∀ p,
      GoMap.get? (addCatNameKeys ord
        (list.foldl (fun m p => GoMap.set m p.HumanReadableString p) [])) (pkgKey d) = some p →
      pkgKey p = pkgKey d := by
    intro d hd p hp
    obtain ⟨hpl, hk⟩ := hE1 _ _ hp
    rcases hk with hk | hk
    · exfalso
      apply hclash p hpl
      rw [← hk]
      exact hprov _ ((holds_iff_dep w.Levels _).mpr ⟨d, hd, rfl⟩)
    · exact hk.symm
  apply (List.perm_ext_iff_of_nodup ?_ (List.Nodup.of_map _ hkeys)).mpr
  · intro p
    rw [hflat, retrieve_mem]
    constructor
    · rintro (hc | ⟨d, hd, _, hg⟩)
      · cases hc
      · exact (hE1 _ _ hg).1
    · intro hp
      right
      obtain ⟨d, hd, hdk⟩ := (holds_iff_dep w.Levels _).mp (hroots p hp)
      exact ⟨d, hd, rfl, by rw [hdk]; exact hE2 p hp⟩
  · rw [hflat]
    exact retrieve_nodup _ _ hM _ List.nodup_nil (by intro p hp; cases hp)

/-! ## The missing packages in build order -/

theorem ListPkgsMissingByDeps_value {σ V : Type} (c : RepoList σ) (lib : VersionLib V)
    (rord : RangeOrder) (st : σ) (db : BuildDatabase) (withResolve : Bool)
    (sprintf : String → String → String) (ord : KeyOrder) (fuel : Nat)
    (list res : List DefaultPackage)
    (hm : (c.ListPkgsMissing lib rord st).2 = Except.ok list)
    (hr : (c.ListPkgsMissingByDeps lib rord st (Except.ok db) withResolve sprintf ord
      fuel).value = some res) :
    orderMissings db list withResolve sprintf ord fuel = Outcome.ret () (Except.ok res) := by
  simp only [RepoList.ListPkgsMissingByDeps] at hr
  cases hl : c.ListPkgsMissing lib rord st with
  | mk c1 r =>
    rw [hl] at hm
    simp only at hm
    subst hm
    simp only [hl] at hr
    cases ho : orderMissings db list withResolve sprintf ord fuel with
    | crash => simp [ho, Outcome.value] at hr
    | outOfFuel => simp [ho, Outcome.value] at hr
    | ret s r2 =>
      cases r2 with
      | error e => simp [ho, Outcome.value] at hr
      | ok v =>
        simp only [ho, Outcome.value, Option.some.injEq] at hr
        rw [hr]

/-- C17, as worded, fails: of two missing versions of `cat/a`,
`ListPkgsMissingByDeps` (without resolve) returns only one. -/
theorem C17_same_name_counterexample :
    ((localList [] [pkgA, pkgA2]).ListPkgsMissing specVersionLib RangeOrder.insertion []).2 =
      Except.ok [pkgA, pkgA2] ∧
    ((localList [] [pkgA, pkgA2]).ListPkgsMissingByDeps specVersionLib RangeOrder.insertion []
      (Except.ok buildTwoVersions) false goSprintf KeyOrder.insertion 10).value =
      some [pkgA2] ∧
    ¬ [pkgA2].Perm [pkgA, pkgA2] := by
  refine ⟨rfl, by decide, ?_⟩
  intro h
  have := h.length_eq
  simp at this

/-- C17, amended: when `ListPkgsMissingByDeps` (with or without resolve)
returns a list, it is a permutation of the list `ListPkgsMissing` returns,
provided the missing packages have pairwise distinct keys category/name,
pairwise distinct fingerprints category/name-version, and no fingerprint of a
missing package is the key of a package or of a require of the build catalog. -/
theorem C17_missing_by_deps_permutation {σ V : Type} (c : RepoList σ) (lib : VersionLib V)
    (rord : RangeOrder) (st : σ) (db : BuildDatabase) (withResolve : Bool)
    (sprintf : String → String → String) (ord : KeyOrder) (fuel : Nat)
    (list res : List DefaultPackage)
    (hm : (c.ListPkgsMissing lib rord st).2 = Except.ok list)
    (hr : (c.ListPkgsMissingByDeps lib rord st (Except.ok db) withResolve sprintf ord
      fuel).value = some res)
    (hkeys : (list.map pkgKey).Nodup)
    (hfp : (list.map DefaultPackage.HumanReadableString).Nodup)
    (hclash : ∀ p ∈ list, p.HumanReadableString ∉ db.atoms.map pkgKey) :
    res.Perm list :=
  orderMissings_perm db list withResolve sprintf ord fuel res hkeys hfp hclash
    (ListPkgsMissingByDeps_value c lib rord st db withResolve sprintf ord fuel list res hm hr)

/-- C17, amended, with resolve, on a catalog in which `cat/a` requires
`cat/b`. -/
theorem C17_missing_by_deps_permutation_witness :
    ((localList [] [pkgA, pkgB]).ListPkgsMissing specVersionLib RangeOrder.insertion []).2 =
      Except.ok [pkgA, pkgB] ∧
    ((localList [] [pkgA, pkgB]).ListPkgsMissingByDeps specVersionLib RangeOrder.insertion []
      (Except.ok buildAB) true goSprintf KeyOrder.insertion 10).value = some [pkgB, pkgA] ∧
    [pkgB, pkgA].Perm [pkgA, pkgB] :=
  ⟨rfl, by decide,
   C17_missing_by_deps_permutation (localList [] [pkgA, pkgB]) specVersionLib
     RangeOrder.insertion [] buildAB true goSprintf KeyOrder.insertion 10 [pkgA, pkgB]
     [pkgB, pkgA] rfl (by decide) (by decide) (by decide) (by decide)⟩

/-! ## The order of the answer without resolve -/

theorem sameCatName_iff (p q : DefaultPackage) :
    sameCatName p q = true ↔ p.Category = q.Category ∧ p.Name = q.Name := by
  simp [sameCatName]

theorem pkgKey_of_same (p q : DefaultPackage) (h : sameCatName p q = true) :
    pkgKey p = pkgKey q := by
  obtain ⟨h1, h2⟩ := (sameCatName_iff p q).mp h
  simp [pkgKey, h1, h2]

theorem requiresOf_of_same (db : BuildDatabase) (p q : DefaultPackage)
    (h : sameCatName p q = true) : db.requiresOf p = db.requiresOf q := by
  obtain ⟨h1, h2⟩ := (sameCatName_iff p q).mp h
  simp [BuildDatabase.requiresOf, h1, h2]

theorem Closed_step (db : BuildDatabase) (w : Stage4Worker) (hwf : w.WF db)
    (hcl : w.Closed (fun _ _ => False)) (hfaith : db.KeyFaithful)
    (p q pa : DefaultPackage) (hpa : pa ∈ db.atoms) (hsame : sameCatName pa p = true)
    (hreq : db.Requires p q) (i : Nat) (hi : w.Levels.holdsAt i (pkgKey p)) :
    w.Levels.holdsAt (i + 1) (pkgKey q) ∧ ∃ qa ∈ db.atoms, sameCatName qa q = true := by
  obtain ⟨d, hd, hdq⟩ := hreq
  obtain ⟨o, ho⟩ := Option.isSome_iff_exists.mp (Stage4Worker.registered db w hwf i _ hi)
  obtain ⟨o1, o2, o3⟩ := hwf.2.1 _ o ho
  have hk : pkgKey o.toDefault = pkgKey pa := by
    rw [o1, pkgKey_of_same pa p hsame]
  have hs : sameCatName o.toDefault pa = true := hfaith _ o3 _ hpa hk
  have hreqs : o.PackageRequires = db.requiresOf p := by
    rw [o2, requiresOf_of_same db _ _ hs, requiresOf_of_same db _ _ hsame]
  have hd2 : d ∈ o.PackageRequires := by rw [hreqs]; exact hd
  have := hcl i _ o hi ho (fun hf => hf) d hd2
  rw [pkgKey_of_same d q hdq] at this
  exact ⟨this, d, requiresOf_atoms db p d hd, hdq⟩

theorem Closed_path (db : BuildDatabase) (w : Stage4Worker) (hwf : w.WF db)
    (hcl : w.Closed (fun _ _ => False)) (hfaith : db.KeyFaithful)
    (a b : DefaultPackage) (ha : a ∈ db.atoms) (h : db.DependsOn a b)
    (i : Nat) (hi : w.Levels.holdsAt i (pkgKey a)) :
    ∃ n, 1 ≤ n ∧ w.Levels.holdsAt (i + n) (pkgKey b) := by
  have key : (∃ n, 1 ≤ n ∧ w.Levels.holdsAt (i + n) (pkgKey b)) ∧
      ∃ qa ∈ db.atoms, sameCatName qa b = true := by
    induction h with
    | single hab =>
      obtain ⟨h1, h2⟩ := Closed_step db w hwf hcl hfaith a _ a ha
        (by simp [sameCatName]) hab i hi
      exact ⟨⟨1, Nat.le_refl 1, h1⟩, h2⟩
    | tail _ hbc ih =>
      obtain ⟨⟨n, hn, hh⟩, qa, hqa, hqs⟩ := ih
      obtain ⟨h1, h2⟩ := Closed_step db w hwf hcl hfaith _ _ qa hqa hqs hbc (i + n) hh
      exact ⟨⟨n + 1, by omega, by rw [← Nat.add_assoc]; exact h1⟩, h2⟩
  exact key.1

theorem exists_max_level (l : Stage4Levels) (k : String) (h : l.holds k) :
    ∃ m, l.holdsAt m k ∧ ∀ i, m < i → ¬ l.holdsAt i k := by
  have hb : ∀ i, l.holdsAt i k → i < l.Levels.length := by
    intro i ⟨t, ht, _⟩
    rw [List.get?_eq_getElem?] at ht
    by_contra hc
    rw [List.getElem?_eq_none (by omega)] at ht
    cases ht
  have key : ∀ n, (∃ i, l.holdsAt i k ∧ l.Levels.length ≤ i + n) →
      ∃ m, l.holdsAt m k ∧ ∀ i, m < i → ¬ l.holdsAt i k := by
    intro n
    induction n with
    | zero =>
      rintro ⟨i, hi, hle⟩
      have := hb i hi
      omega
    | succ n ih =>
      rintro ⟨i, hi, hle⟩
      by_cases hex : ∃ j, i < j ∧ l.holdsAt j k
      · obtain ⟨j, hj, hjk⟩ := hex
        exact ih ⟨j, hjk, by omega⟩
      · exact ⟨i, hi, fun j hj hjk => hex ⟨j, hj, hjk⟩⟩
  obtain ⟨i, hi⟩ := h
  exact key l.Levels.length ⟨i, hi, by omega⟩

theorem mem_deps_drop (l : Stage4Levels) (m : Nat) (d : DefaultPackage) :
    d ∈ (l.Levels.drop (m + 1)).reverse.flatMap (fun t => t.Deps) ↔
      ∃ i t, m < i ∧ l.Levels.get? i = some t ∧ d ∈ t.Deps := by
  simp only [List.mem_flatMap, List.mem_reverse]
  constructor
  · rintro ⟨t, ht, hd⟩
    obtain ⟨n, hn⟩ := List.mem_iff_get?.mp ht
    rw [List.get?_eq_getElem?, List.getElem?_drop] at hn
    exact ⟨m + 1 + n, t, by omega, by rw [List.get?_eq_getElem?]; exact hn, hd⟩
  · rintro ⟨i, t, hi, ht, hd⟩
    refine ⟨t, List.mem_iff_get?.mpr ⟨i - (m + 1), ?_⟩, hd⟩
    rw [List.get?_eq_getElem?, List.getElem?_drop]
    have : m + 1 + (i - (m + 1)) = i := by omega
    rw [this, ← List.get?_eq_getElem?]
    exact ht

theorem index_order {α : Type} (l1 l2 : List α) (a b : α) (i j : Nat)
    (hn : (l1 ++ l2).Nodup) (hb : b ∈ l1) (ha : a ∉ l1)
    (hi : (l1 ++ l2).get? i = some a) (hj : (l1 ++ l2).get? j = some b) : j < i := by
  rw [List.get?_eq_getElem?] at hi hj
  have h1 : l1.length ≤ i := by
    by_contra hc
    rw [List.getElem?_append_left (by omega)] at hi
    exact ha (List.mem_iff_getElem?.mpr ⟨i, hi⟩)
  have h2 : j < l1.length := by
    by_contra hc
    rw [List.getElem?_append_right (by omega)] at hj
    have hb2 : b ∈ l2 := List.mem_iff_getElem?.mpr ⟨_, hj⟩
    exact (List.nodup_append.mp hn).2.2 hb hb2
  omega


theorem orderMissings_order (db : BuildDatabase) (list : List DefaultPackage)
    (sprintf : String → String → String) (ord : KeyOrder) (fuel : Nat)
    (res : List DefaultPackage) (hfaith : db.KeyFaithful)
    (hclash : ∀ p ∈ list, p.HumanReadableString ∉ db.atoms.map pkgKey)
    (h : orderMissings db list false sprintf ord fuel = Outcome.ret () (Except.ok res)) :
    ∀ i j a b, res.get? i = some a → res.get? j = some b → db.DependsOn a b → j < i := by
  obtain ⟨w, hres, hwfl, hroots, hprov, hatoms, hno⟩ :=
    orderMissings_levels db list false sprintf ord fuel res h
  obtain ⟨hwf, hcl⟩ := hno rfl
  have hm0 := missings_fold_values list list (fun p hp => hp) []
    (by intro k v hk; simp [GoMap.get?] at hk)
  have hE1 := addCatNameKeys_values ord list _ hm0
  generalize hMdef : addCatNameKeys ord
    (list.foldl (fun m p => GoMap.set m p.HumanReadableString p) []) = M at hE1
  have hflat : res = ((w.Levels.Levels.reverse.flatMap (fun t => t.Deps)).foldl
      (retrieveStep M) ([], [])).1 := by
    subst hMdef
    rw [hres]
    simp only [retrieveMissingOrdered]
    rw [nested_foldl]
  have hM : ∀ d ∈ w.Levels.Levels.reverse.flatMap (fun t => t.Deps), ∀ p,
      GoMap.get? M (pkgKey d) = some p → pkgKey p = pkgKey d := by
    intro d hd p hp
    obtain ⟨hpl, hk⟩ := hE1 _ _ hp
    rcases hk with hk | hk
    · exfalso
      apply hclash p hpl
      rw [← hk]
      exact hprov _ ((holds_iff_dep w.Levels _).mpr ⟨d, hd, rfl⟩)
    · exact hk.symm
  have hmem : ∀ p, p ∈ res → p ∈ list ∧
      ∃ d ∈ w.Levels.Levels.reverse.flatMap (fun t => t.Deps),
        GoMap.get? M (pkgKey d) = some p ∧ pkgKey p = pkgKey d := by
    intro p hp
    rw [hflat, retrieve_mem] at hp
    rcases hp with hc | ⟨d, hd, _, hg⟩
    · cases hc
    · exact ⟨(hE1 _ _ hg).1, d, hd, hg, hM d hd p hg⟩
  intro i j a b hi hj hdep
  obtain ⟨hal, da, hda, hga, hka⟩ := hmem a (List.get?_mem hi)
  obtain ⟨hbl, dbb, hdb, hgb, hkb⟩ := hmem b (List.get?_mem hj)
  have hholda : w.Levels.holds (pkgKey a) := (holds_iff_dep w.Levels _).mpr ⟨da, hda, hka.symm⟩
  obtain ⟨m, hm1, hm2⟩ := exists_max_level w.Levels (pkgKey a) hholda
  obtain ⟨n, hn, hnb⟩ := Closed_path db w hwf hcl hfaith a b (hatoms a hal) hdep m hm1
  have hnodup : res.Nodup := by
    rw [hflat]
    exact retrieve_nodup _ _ hM _ List.nodup_nil (by intro p hp; cases hp)
  -- the trees below the level m and the others
  have hsplit : w.Levels.Levels.reverse.flatMap (fun t => t.Deps) =
      (w.Levels.Levels.drop (m + 1)).reverse.flatMap (fun t => t.Deps) ++
      (w.Levels.Levels.take (m + 1)).reverse.flatMap (fun t => t.Deps) := by
    rw [← List.flatMap_append, ← List.reverse_append, List.take_append_drop]
  rw [hsplit, List.foldl_append] at hflat
  obtain ⟨new, hnew⟩ := retrieve_prefix M
    ((w.Levels.Levels.take (m + 1)).reverse.flatMap (fun t => t.Deps))
    ((((w.Levels.Levels.drop (m + 1)).reverse.flatMap (fun t => t.Deps)).foldl
      (retrieveStep M) ([], [])))
  rw [hnew] at hflat
  have hbin : b ∈ (((w.Levels.Levels.drop (m + 1)).reverse.flatMap (fun t => t.Deps)).foldl
      (retrieveStep M) ([], [])).1 := by
    rw [retrieve_mem]
    right
    obtain ⟨t, ht, hh⟩ := hnb
    simp only [Stage4Tree.holds, List.mem_map] at hh
    obtain ⟨d, hd, hdk⟩ := hh
    refine ⟨d, (mem_deps_drop w.Levels m d).mpr ⟨m + n, t, by omega, ht, hd⟩, rfl, ?_⟩
    rw [hdk, hkb]
    exact hgb
  have hanot : a ∉ (((w.Levels.Levels.drop (m + 1)).reverse.flatMap (fun t => t.Deps)).foldl
      (retrieveStep M) ([], [])).1 := by
    intro hc
    rw [retrieve_mem] at hc
    rcases hc with hc | ⟨d, hd, _, hg⟩
    · cases hc
    · obtain ⟨i2, t, hi2, ht, hdt⟩ := (mem_deps_drop w.Levels m d).mp hd
      have hd2 : d ∈ w.Levels.Levels.reverse.flatMap (fun t => t.Deps) :=
        (mem_reverse_deps w.Levels d).mpr ⟨t, List.get?_mem ht, hdt⟩
      have hk := hM d hd2 a hg
      exact hm2 i2 hi2 ⟨t, ht, List.mem_map.mpr ⟨d, hdt, hk.symm⟩⟩
  rw [hflat] at hi hj hnodup
  exact index_order _ _ a b i j hnodup hbin hanot hi hj

/-- C18, as worded, fails: the version 1.0 of `cat/a` requires `cat/b`, the
catalog lists the version 2.0 (without requires) first, and `cat/a-1.0` is
returned before `cat/b-1.0`. -/
theorem C18_first_definition_counterexample :
    (∃ r, buildMixed.FindPackage pkgA = Except.ok r ∧ anyVersion pkgB ∈ r.PackageRequires) ∧
    ((localList [] [pkgA, pkgB]).ListPkgsMissingByDeps specVersionLib RangeOrder.insertion []
      (Except.ok buildMixed) false goSprintf KeyOrder.insertion 10).value =
      some [pkgA, pkgB] :=
  ⟨⟨buildDef pkgA [pkgB], rfl, by decide⟩, by decide⟩

/-- C18, amended: without resolve, when the keys category/name of the catalog
identify category and name and no fingerprint of a missing package is such a
key, for every pair `a`, `b` of the returned list such that the node of `a`
reaches the node of `b` through the requires of the nodes (those of the first
definition the catalog lists for the category and name), `b` comes before
`a`. -/
theorem C18_order_without_resolve {σ V : Type} (c : RepoList σ) (lib : VersionLib V)
    (rord : RangeOrder) (st : σ) (db : BuildDatabase)
    (sprintf : String → String → String) (ord : KeyOrder) (fuel : Nat)
    (list res : List DefaultPackage)
    (hm : (c.ListPkgsMissing lib rord st).2 = Except.ok list)
    (hr : (c.ListPkgsMissingByDeps lib rord st (Except.ok db) false sprintf ord
      fuel).value = some res)
    (hfaith : db.KeyFaithful)
    (hclash : ∀ p ∈ list, p.HumanReadableString ∉ db.atoms.map pkgKey) :
    ∀ i j a b, res.get? i = some a → res.get? j = some b → db.DependsOn a b → j < i :=
  orderMissings_order db list sprintf ord fuel res hfaith hclash
    (ListPkgsMissingByDeps_value c lib rord st db false sprintf ord fuel list res hm hr)


/-- C18, amended, on a catalog in which `cat/a` requires `cat/b`: `cat/b`
comes before `cat/a`. -/
theorem C18_order_without_resolve_witness :
    ((localList [] [pkgA, pkgB]).ListPkgsMissingByDeps specVersionLib RangeOrder.insertion []
      (Except.ok buildAB) false goSprintf KeyOrder.insertion 10).value = some [pkgB, pkgA] ∧
    buildAB.KeyFaithful ∧ buildAB.DependsOn pkgA pkgB ∧
    ∀ i j, [pkgB, pkgA].get? i = some pkgA → [pkgB, pkgA].get? j = some pkgB → j < i :=
  ⟨by decide, by unfold BuildDatabase.KeyFaithful; decide,
   Relation.TransGen.single ⟨anyVersion pkgB, by decide, by decide⟩,
   fun i j hi hj =>
     C18_order_without_resolve (localList [] [pkgA, pkgB]) specVersionLib
       RangeOrder.insertion [] buildAB goSprintf KeyOrder.insertion 10 [pkgA, pkgB]
       [pkgB, pkgA] rfl (by decide) (by unfold BuildDatabase.KeyFaithful; decide) (by decide)
       i j pkgA pkgB hi hj
       (Relation.TransGen.single ⟨anyVersion pkgB, by decide, by decide⟩)⟩

/-! ## A larger recursion allowance changes no call that returned -/

theorem Outcome.Below.of_eq {σ α : Type} {a b : Outcome σ α} (h : a = b) : a.Below b :=
  Or.inr h

theorem Outcome.Below.below_trans {σ α : Type} {a b c : Outcome σ α} (h1 : a.Below b)
    (h2 : b.Below c) : a.Below c := by
  rcases h1 with h1 | h1
  · exact Or.inl h1
  · rw [h1]; exact h2

theorem Outcome.Below.eq_of_ne {σ α : Type} {a b : Outcome σ α} (h : a.Below b)
    (hne : a ≠ Outcome.outOfFuel) : b = a := by
  rcases h with h | h
  · exact absurd h hne
  · exact h.symm

theorem Outcome.Below.eq_outOfFuel {σ α : Type} {a : Outcome σ α}
    (h : a.Below Outcome.outOfFuel) : a = Outcome.outOfFuel := by
  rcases h with h | h <;> exact h

theorem addRequiresLoop_below
    (rec1 rec2 : Stage4Levels → DefaultPackage → Option DefaultPackage → List String → Nat →
      Outcome Stage4Levels Bool)
    (hrec : ∀ l p f s n, (rec1 l p f s n).Below (rec2 l p f s n))
    (p : DefaultPackage) (stack : List String) (level : Nat) (ds : List DefaultPackage) :
    ∀ l, (addRequiresLoop rec1 p stack level ds l).Below
      (addRequiresLoop rec2 p stack level ds l) := by
  induction ds with
  | nil => intro l; exact Or.inr rfl
  | cons d ds ih =>
    intro l
    simp only [addRequiresLoop]
    cases hg : GoMap.get? l.Map (pkgKey d) with
    | none => exact Or.inr rfl
    | some v =>
      simp only
      rcases hrec l v.toDefault (some p) stack (level + 1) with h | h
      · rw [h]; exact Or.inl rfl
      · rw [h]
        cases rec2 l v.toDefault (some p) stack (level + 1) with
        | crash => exact Or.inr rfl
        | outOfFuel => exact Or.inr rfl
        | ret l2 r =>
          cases r with
          | error e => exact Or.inr rfl
          | ok b =>
            cases b with
            | false => exact Or.inr rfl
            | true => exact ih l2

theorem Stage4Levels.AddDependencyRecursive_succ (d : Nat) :
    ∀ (l : Stage4Levels) (p : DefaultPackage) (father : Option DefaultPackage)
      (stack : List String) (level : Nat),
      (l.AddDependencyRecursive d p father stack level).Below
        (l.AddDependencyRecursive (d + 1) p father stack level) := by
  induction d with
  | zero => intro l p father stack level; exact Or.inl rfl
  | succ d ih =>
    intro l p father stack level
    rw [Stage4Levels.AddDependencyRecursive, Stage4Levels.AddDependencyRecursive]
    split
    · exact Or.inr rfl
    · split
      · exact Or.inr rfl
      · split
        · exact Or.inr rfl
        · cases l.requires? p with
          | none => exact Or.inr rfl
          | some reqs =>
            simp only
            rcases addRequiresLoop_below _ _ ih p (stack ++ [pkgKey p]) level reqs l with h | h
            · rw [h]; exact Or.inl rfl
            · rw [h]; exact Or.inr rfl

theorem Stage4Levels.AddDependencyRecursive_below {d d2 : Nat} (h : d ≤ d2)
    (l : Stage4Levels) (p : DefaultPackage) (father : Option DefaultPackage)
    (stack : List String) (level : Nat) :
    (l.AddDependencyRecursive d p father stack level).Below
      (l.AddDependencyRecursive d2 p father stack level) := by
  induction h with
  | refl => exact Or.inr rfl
  | step _ ih => exact ih.below_trans (Stage4Levels.AddDependencyRecursive_succ _ l p father stack level)

theorem Stage4Levels.serializeFather_below {d d2 : Nat} (h : d ≤ d2)
    (sprintf : String → String → String) (pos : Nat) (pkg : DefaultPackage) (idx : Nat)
    (l : Stage4Levels) (v : LeafVars) :
    (Stage4Levels.serializeFather sprintf d pos pkg idx l v).Below
      (Stage4Levels.serializeFather sprintf d2 pos pkg idx l v) := by
  unfold Stage4Levels.serializeFather
  split <;> try exact Or.inr rfl
  split <;> try exact Or.inr rfl
  split <;> try exact Or.inr rfl
  split <;> try exact Or.inr rfl
  rcases Stage4Levels.AddDependencyRecursive_below h _ _ _ _ _ with hh | hh <;> rw [hh]
  · exact Or.inl rfl
  · exact Or.inr rfl

theorem Stage4Levels.serializeFathers_below {d d2 : Nat} (h : d ≤ d2)
    (sprintf : String → String → String) (pos : Nat) (pkg : DefaultPackage) (idxs : List Nat) :
    ∀ (l : Stage4Levels) (v : LeafVars),
      (Stage4Levels.serializeFathers sprintf d pos pkg idxs l v).Below
        (Stage4Levels.serializeFathers sprintf d2 pos pkg idxs l v) := by
  induction idxs with
  | nil => intro l v; exact Or.inr rfl
  | cons idx rest ih =>
    intro l v
    simp only [Stage4Levels.serializeFathers]
    rcases Stage4Levels.serializeFather_below h sprintf pos pkg idx l v with hh | hh <;> rw [hh]
    · exact Or.inl rfl
    · split
      · exact ih _ _
      · exact Or.inr rfl

theorem Stage4Levels.upperFather_below {d d2 : Nat} (h : d ≤ d2)
    (sprintf : String → String → String) (nextLevel : Nat) (pkg : DefaultPackage) (idx : Nat)
    (l : Stage4Levels) (detached : Option Stage4Leaf) (v : LeafVars) :
    (Stage4Levels.upperFather sprintf d nextLevel pkg idx l detached v).Below
      (Stage4Levels.upperFather sprintf d2 nextLevel pkg idx l detached v) := by
  unfold Stage4Levels.upperFather
  split <;> try exact Or.inr rfl
  split <;> try exact Or.inr rfl
  split <;> try exact Or.inr rfl
  split <;> try exact Or.inr rfl
  split <;> try exact Or.inr rfl
  split <;> try exact Or.inr rfl
  split <;> try exact Or.inr rfl
  rcases Stage4Levels.AddDependencyRecursive_below h _ _ _ _ _ with hh | hh <;> rw [hh]
  · exact Or.inl rfl
  · exact Or.inr rfl

theorem Stage4Levels.upperFathers_below {d d2 : Nat} (h : d ≤ d2)
    (sprintf : String → String → String) (nextLevel : Nat) (pkg : DefaultPackage)
    (idxs : List Nat) :
    ∀ (l : Stage4Levels) (detached : Option Stage4Leaf) (v : LeafVars),
      (Stage4Levels.upperFathers sprintf d nextLevel pkg idxs l detached v).Below
        (Stage4Levels.upperFathers sprintf d2 nextLevel pkg idxs l detached v) := by
  induction idxs with
  | nil => intro l detached v; exact Or.inr rfl
  | cons idx rest ih =>
    intro l detached v
    simp only [Stage4Levels.upperFathers]
    rcases Stage4Levels.upperFather_below h sprintf nextLevel pkg idx l detached v with hh | hh <;>
      rw [hh]
    · exact Or.inl rfl
    · split
      · exact ih _ _ _
      · exact Or.inr rfl

theorem Stage4Levels.upperFound_below {d d2 : Nat} (h : d ≤ d2)
    (sprintf : String → String → String) (nextLevel : Nat) (pkg : DefaultPackage)
    (l : Stage4Levels) (v : LeafVars) (l2 : Stage4Leaf) :
    (Stage4Levels.upperFound sprintf d nextLevel pkg l v l2).Below
      (Stage4Levels.upperFound sprintf d2 nextLevel pkg l v l2) := by
  unfold Stage4Levels.upperFound
  split <;> try exact Or.inr rfl
  rcases Stage4Levels.upperFathers_below h sprintf nextLevel pkg _ l none _ with hh | hh <;>
    rw [hh]
  · exact Or.inl rfl
  · exact Or.inr rfl

theorem Stage4Levels.upperLevel_below {d d2 : Nat} (h : d ≤ d2)
    (sprintf : String → String → String) (nextLevel : Nat) (pkg : DefaultPackage)
    (l : Stage4Levels) (v : LeafVars) :
    (Stage4Levels.upperLevel sprintf d nextLevel pkg l v).Below
      (Stage4Levels.upperLevel sprintf d2 nextLevel pkg l v) := by
  unfold Stage4Levels.upperLevel
  split <;> try exact Or.inr rfl
  split <;> try exact Or.inr rfl
  rcases Stage4Levels.upperFound_below h sprintf nextLevel pkg l v _ with hh | hh <;> rw [hh]
  · exact Or.inl rfl
  · exact Or.inr rfl

theorem Stage4Levels.upperLevels_below {d d2 : Nat} (h : d ≤ d2)
    (sprintf : String → String → String) (pkg : DefaultPackage) (levels : List Nat) :
    ∀ (l : Stage4Levels) (v : LeafVars),
      (Stage4Levels.upperLevels sprintf d pkg levels l v).Below
        (Stage4Levels.upperLevels sprintf d2 pkg levels l v) := by
  induction levels with
  | nil => intro l v; exact Or.inr rfl
  | cons n rest ih =>
    intro l v
    simp only [Stage4Levels.upperLevels]
    rcases Stage4Levels.upperLevel_below h sprintf n pkg l v with hh | hh <;> rw [hh]
    · exact Or.inl rfl
    · split
      · exact ih _ _
      · exact Or.inr rfl

theorem Stage4Levels.leafFathers_below {d d2 : Nat} (h : d ≤ d2)
    (sprintf : String → String → String) (l : Stage4Levels) (pos : Nat) (leaf : Stage4Leaf) :
    (l.leafFathers sprintf d pos leaf).Below (l.leafFathers sprintf d2 pos leaf) := by
  unfold Stage4Levels.leafFathers
  simp only
  split <;> try exact Or.inr rfl
  split <;> try exact Or.inr rfl
  rcases Stage4Levels.serializeFathers_below h sprintf pos leaf.Package _ l _ with hh | hh <;>
    rw [hh]
  · exact Or.inl rfl
  · exact Or.inr rfl

theorem Stage4Levels.AnalyzeLeaf_below {d d2 : Nat} (h : d ≤ d2)
    (sprintf : String → String → String) (l : Stage4Levels) (pos : Nat) (leaf : Stage4Leaf) :
    (l.AnalyzeLeaf sprintf d pos leaf).Below (l.AnalyzeLeaf sprintf d2 pos leaf) := by
  unfold Stage4Levels.AnalyzeLeaf
  split <;> try exact Or.inr rfl
  split <;> try exact Or.inr rfl
  rcases Stage4Levels.leafFathers_below h sprintf l pos leaf with hh | hh <;> rw [hh]
  · exact Or.inl rfl
  · split <;> try exact Or.inr rfl
    rcases Stage4Levels.upperLevels_below h sprintf leaf.Package _ _ _ with hh2 | hh2 <;>
      rw [hh2]
    · exact Or.inl rfl
    · exact Or.inr rfl

theorem Stage4Levels.analyzeLeafs_below {d d2 : Nat} (h : d ≤ d2)
    (sprintf : String → String → String) (pos : Nat) (keys : List String) :
    ∀ (l : Stage4Levels),
      (Stage4Levels.analyzeLeafs sprintf d pos keys l).Below
        (Stage4Levels.analyzeLeafs sprintf d2 pos keys l) := by
  induction keys with
  | nil => intro l; exact Or.inr rfl
  | cons k ks ih =>
    intro l
    simp only [Stage4Levels.analyzeLeafs]
    split
    · exact ih l
    · rcases Stage4Levels.AnalyzeLeaf_below h sprintf l pos _ with hh | hh <;> rw [hh]
      · exact Or.inl rfl
      · split
        · exact ih _
        · exact Or.inr rfl

theorem Stage4Levels.analyzeLevelLeafs_below {d d2 : Nat} (h : d ≤ d2)
    (sprintf : String → String → String) (ord : KeyOrder) (step : Nat) (l : Stage4Levels)
    (pos : Nat) :
    (l.analyzeLevelLeafs sprintf ord step d pos).Below
      (l.analyzeLevelLeafs sprintf ord step d2 pos) := by
  unfold Stage4Levels.analyzeLevelLeafs
  split
  · exact Or.inr rfl
  · exact Stage4Levels.analyzeLeafs_below h sprintf pos _ l

theorem Stage4Levels.resolveLoop_below_depth {d d2 : Nat} (h : d ≤ d2)
    (sprintf : String → String → String) (ord : KeyOrder) (initialLevels fuel : Nat) :
    ∀ (step : Nat) (l : Stage4Levels) (pos : Nat),
      (Stage4Levels.resolveLoop sprintf ord d initialLevels fuel step l pos).Below
        (Stage4Levels.resolveLoop sprintf ord d2 initialLevels fuel step l pos) := by
  induction fuel with
  | zero => intro step l pos; exact Or.inl rfl
  | succ fuel ih =>
    intro step l pos
    simp only [Stage4Levels.resolveLoop]
    split
    · rcases Stage4Levels.analyzeLevelLeafs_below h sprintf ord step l (pos - 1) with hh | hh <;>
        rw [hh]
      · exact Or.inl rfl
      · split <;> try exact Or.inr rfl
        exact ih _ _ _
    · exact Or.inr rfl

theorem Stage4Levels.resolveLoop_succ (sprintf : String → String → String) (ord : KeyOrder)
    (depth initialLevels fuel : Nat) :
    ∀ (step : Nat) (l : Stage4Levels) (pos : Nat),
      (Stage4Levels.resolveLoop sprintf ord depth initialLevels fuel step l pos).Below
        (Stage4Levels.resolveLoop sprintf ord depth initialLevels (fuel + 1) step l pos) := by
  induction fuel with
  | zero => intro step l pos; exact Or.inl rfl
  | succ fuel ih =>
    intro step l pos
    rw [Stage4Levels.resolveLoop, Stage4Levels.resolveLoop]
    split
    · split <;> try exact Or.inr rfl
      exact ih _ _ _
    · exact Or.inr rfl

theorem Stage4Levels.resolveLoop_below {d d2 f f2 : Nat} (h : d ≤ d2) (hf : f ≤ f2)
    (sprintf : String → String → String) (ord : KeyOrder) (initialLevels : Nat)
    (step : Nat) (l : Stage4Levels) (pos : Nat) :
    (Stage4Levels.resolveLoop sprintf ord d initialLevels f step l pos).Below
      (Stage4Levels.resolveLoop sprintf ord d2 initialLevels f2 step l pos) := by
  refine (Stage4Levels.resolveLoop_below_depth h sprintf ord initialLevels f step l pos).below_trans ?_
  induction hf with
  | refl => exact Or.inr rfl
  | step _ ih => exact ih.below_trans (Stage4Levels.resolveLoop_succ _ _ _ _ _ _ _ _)

theorem Stage4Levels.Resolve_below {d d2 f f2 : Nat} (h : d ≤ d2) (hf : f ≤ f2)
    (sprintf : String → String → String) (ord : KeyOrder) (step : Nat) (l : Stage4Levels) :
    (l.Resolve sprintf ord d f step).Below (l.Resolve sprintf ord d2 f2 step) := by
  unfold Stage4Levels.Resolve
  split
  · exact Or.inr rfl
  · exact Stage4Levels.resolveLoop_below h hf _ _ _ _ _ _

theorem alignLoop_below {d d2 : Nat} (h : d ≤ d2) (keys : List String) :
    ∀ (l : Stage4Levels), (alignLoop d keys l).Below (alignLoop d2 keys l) := by
  induction keys with
  | nil => intro l; exact Or.inr rfl
  | cons k ks ih =>
    intro l
    simp only [alignLoop]
    split
    · exact ih l
    · split
      · exact Or.inr rfl
      · split
        · exact ih l
        · rcases Stage4Levels.AddDependencyRecursive_below h l _ none [] 0 with hh | hh <;>
            rw [hh]
          · exact Or.inl rfl
          · split <;> try exact Or.inr rfl
            exact ih _

theorem Stage4AlignLevel1_below {d d2 : Nat} (h : d ≤ d2) (ord : KeyOrder) (w : Stage4Worker) :
    (Stage4AlignLevel1 ord d w).Below (Stage4AlignLevel1 ord d2 w) := by
  unfold Stage4AlignLevel1
  rcases alignLoop_below h (ord.order 0 (GoMap.keys w.Levels.Map)) w.Levels with hh | hh <;>
    rw [hh]
  · exact Or.inl rfl
  · exact Or.inr rfl

theorem addDepsLoop_below
    (rec1 rec2 : LuetPackage → Option DefaultPackage → Stage4Worker → Nat → List String →
      Outcome Stage4Worker Unit)
    (hrec : ∀ p f w n s, (rec1 p f w n s).Below (rec2 p f w n s))
    (father : DefaultPackage) (level : Nat) (stack : List String) (deps : List DefaultPackage) :
    ∀ w, (addDepsLoop rec1 father level stack deps w).Below
      (addDepsLoop rec2 father level stack deps w) := by
  induction deps with
  | nil => intro w; exact Or.inr rfl
  | cons dep deps ih =>
    intro w
    simp only [addDepsLoop]
    rcases hrec dep.toLuet (some father) w (level + 1) stack with hh | hh <;> rw [hh]
    · exact Or.inl rfl
    · split
      · exact ih _
      · exact Or.inr rfl

theorem Stage4AddDeps2Levels_succ (db : BuildDatabase) (d : Nat) :
    ∀ (pkg : LuetPackage) (father : Option DefaultPackage) (w : Stage4Worker) (level : Nat)
      (stack : List String),
      (Stage4AddDeps2Levels db d pkg father w level stack).Below
        (Stage4AddDeps2Levels db (d + 1) pkg father w level stack) := by
  induction d with
  | zero => intro pkg father w level stack; exact Or.inl rfl
  | succ d ih =>
    intro pkg father w level stack
    rw [Stage4AddDeps2Levels, Stage4AddDeps2Levels]
    split
    · exact Or.inr rfl
    · simp only
      split
      · exact Or.inr rfl
      · split <;> try exact Or.inr rfl
        exact addDepsLoop_below _ _ ih _ _ _ _ _

theorem Stage4AddDeps2Levels_below (db : BuildDatabase) {d d2 : Nat} (h : d ≤ d2)
    (pkg : LuetPackage) (father : Option DefaultPackage) (w : Stage4Worker) (level : Nat)
    (stack : List String) :
    (Stage4AddDeps2Levels db d pkg father w level stack).Below
      (Stage4AddDeps2Levels db d2 pkg father w level stack) := by
  induction h with
  | refl => exact Or.inr rfl
  | step _ ih => exact ih.below_trans (Stage4AddDeps2Levels_succ db _ pkg father w level stack)

theorem addRoots_below (db : BuildDatabase) {d d2 : Nat} (h : d ≤ d2) (ps : List LuetPackage) :
    ∀ w, (addRoots db d ps w).Below (addRoots db d2 ps w) := by
  induction ps with
  | nil => intro w; exact Or.inr rfl
  | cons p rest ih =>
    intro w
    simp only [addRoots]
    rcases Stage4AddDeps2Levels_below db h p none w 1 [] with hh | hh <;> rw [hh]
    · exact Or.inl rfl
    · split <;> try exact Or.inr rfl
      exact ih _

theorem alignAndResolve_below {f f2 : Nat} (h : f ≤ f2) (sprintf : String → String → String)
    (ord : KeyOrder) (w : Stage4Worker) :
    (alignAndResolve sprintf ord f w).Below (alignAndResolve sprintf ord f2 w) := by
  unfold alignAndResolve
  rcases Stage4AlignLevel1_below h ord w with hh | hh <;> rw [hh]
  · exact Or.inl rfl
  · split <;> try exact Or.inr rfl
    rcases Stage4Levels.Resolve_below h h sprintf ord 2 _ with hh2 | hh2 <;> rw [hh2]
    · exact Or.inl rfl
    · exact Or.inr rfl

theorem orderMissings_below {f f2 : Nat} (h : f ≤ f2) (db : BuildDatabase)
    (list : List DefaultPackage) (withResolve : Bool) (sprintf : String → String → String)
    (ord : KeyOrder) :
    (orderMissings db list withResolve sprintf ord f).Below
      (orderMissings db list withResolve sprintf ord f2) := by
  unfold orderMissings
  split <;> try exact Or.inr rfl
  rcases addRoots_below db h _ _ with hh | hh <;> rw [hh]
  · exact Or.inl rfl
  · split <;> try exact Or.inr rfl
    split <;> try exact Or.inr rfl
    rcases alignAndResolve_below h sprintf ord _ with hh2 | hh2 <;> rw [hh2]
    · exact Or.inl rfl
    · exact Or.inr rfl

theorem ListPkgsMissingByDeps_below {σ V : Type} {f f2 : Nat} (h : f ≤ f2) (c : RepoList σ)
    (lib : VersionLib V) (rord : RangeOrder) (st : σ) (trees : Except Error BuildDatabase)
    (withResolve : Bool) (sprintf : String → String → String) (ord : KeyOrder) :
    (c.ListPkgsMissingByDeps lib rord st trees withResolve sprintf ord f).Below
      (c.ListPkgsMissingByDeps lib rord st trees withResolve sprintf ord f2) := by
  unfold RepoList.ListPkgsMissingByDeps
  split <;> try exact Or.inr rfl
  split <;> try exact Or.inr rfl
  rcases orderMissings_below h _ _ withResolve sprintf ord with hh | hh <;> rw [hh]
  · exact Or.inl rfl
  · exact Or.inr rfl


/-! ## The rounds of the loop of `Resolve` -/

theorem Outcome.state?_eq {σ : Type} {o : Outcome σ Unit} {s : σ} (h : o.state? = some s) :
    o = Outcome.ret s (Except.ok ()) := by
  cases o with
  | crash => simp [Outcome.state?] at h
  | outOfFuel => simp [Outcome.state?] at h
  | ret s2 r =>
    cases r with
    | error e => simp [Outcome.state?] at h
    | ok u =>
      simp only [Outcome.state?, Option.some.injEq] at h
      rw [h]

theorem Stage4Levels.Resolve_eq (sprintf : String → String → String) (ord : KeyOrder)
    (depth fuel step : Nat) (l l1 : Stage4Levels) (pos : Nat)
    (h : l.resolveStart = some (l1, pos)) :
    l.Resolve sprintf ord depth fuel step =
      Stage4Levels.resolveLoop sprintf ord depth l1.Levels.length fuel step l1 pos := by
  unfold Stage4Levels.resolveStart at h
  unfold Stage4Levels.Resolve
  cases hh : l.Levels.head? with
  | none => simp [hh] at h
  | some t0 =>
    simp only [hh, Option.some.injEq, Prod.mk.injEq] at h
    obtain ⟨h1, h2⟩ := h
    subst h2
    subst h1
    rfl

theorem Stage4Levels.resolveRounds_depth {d d2 : Nat} (h : d ≤ d2)
    (sprintf : String → String → String) (ord : KeyOrder) (initialLevels k : Nat) :
    ∀ (step : Nat) (l : Stage4Levels) (pos : Nat) (x : Stage4Levels × Nat),
      Stage4Levels.resolveRounds sprintf ord d initialLevels k step l pos = some x →
      Stage4Levels.resolveRounds sprintf ord d2 initialLevels k step l pos = some x := by
  induction k with
  | zero => intro step l pos x hx; exact hx
  | succ k ih =>
    intro step l pos x hx
    simp only [Stage4Levels.resolveRounds] at hx ⊢
    split at hx
    · rename_i hpos
      simp only [hpos, if_true]
      rcases Stage4Levels.analyzeLevelLeafs_below h sprintf ord step l (pos - 1) with hh | hh
      · rw [hh] at hx; simp at hx
      · rw [← hh]
        split at hx
        · exact ih _ _ _ _ hx
        · simp at hx
    · simp at hx

theorem Stage4Levels.resolveRounds_insertion (sprintf : String → String → String)
    (depth initialLevels k : Nat) :
    ∀ (step step2 : Nat) (l : Stage4Levels) (pos : Nat),
      Stage4Levels.resolveRounds sprintf KeyOrder.insertion depth initialLevels k step l pos =
        Stage4Levels.resolveRounds sprintf KeyOrder.insertion depth initialLevels k step2 l
          pos := by
  induction k with
  | zero => intro step step2 l pos; rfl
  | succ k ih =>
    intro step step2 l pos
    simp only [Stage4Levels.resolveRounds]
    have e : l.analyzeLevelLeafs sprintf KeyOrder.insertion step depth (pos - 1) =
        l.analyzeLevelLeafs sprintf KeyOrder.insertion step2 depth (pos - 1) := rfl
    rw [e]
    split
    · split
      · exact ih _ _ _ _
      · rfl
    · rfl

theorem Stage4Levels.resolveRounds_add (sprintf : String → String → String) (ord : KeyOrder)
    (depth initialLevels k k2 : Nat) :
    ∀ (step : Nat) (l : Stage4Levels) (pos : Nat),
      Stage4Levels.resolveRounds sprintf ord depth initialLevels (k + k2) step l pos =
        (Stage4Levels.resolveRounds sprintf ord depth initialLevels k step l pos).bind
          (fun x => Stage4Levels.resolveRounds sprintf ord depth initialLevels k2 (step + k)
            x.1 x.2) := by
  induction k with
  | zero => intro step l pos; simp [Stage4Levels.resolveRounds]
  | succ k ih =>
    intro step l pos
    rw [Nat.succ_add]
    simp only [Stage4Levels.resolveRounds]
    split
    · split
      · rw [ih]
        have e : step + 1 + k = step + (k + 1) := by omega
        rw [e]
      · rfl
    · rfl

theorem Stage4Levels.resolveLoop_rounds (sprintf : String → String → String) (ord : KeyOrder)
    (depth initialLevels k fuel : Nat) :
    ∀ (step : Nat) (l : Stage4Levels) (pos : Nat) (x : Stage4Levels × Nat),
      Stage4Levels.resolveRounds sprintf ord depth initialLevels k step l pos = some x →
      Stage4Levels.resolveLoop sprintf ord depth initialLevels (k + fuel) step l pos =
        Stage4Levels.resolveLoop sprintf ord depth initialLevels fuel (step + k) x.1 x.2 := by
  induction k with
  | zero =>
    intro step l pos x hx
    simp only [Stage4Levels.resolveRounds, Option.some.injEq] at hx
    rw [← hx]; simp
  | succ k ih =>
    intro step l pos x hx
    rw [Nat.succ_add]
    simp only [Stage4Levels.resolveRounds] at hx
    simp only [Stage4Levels.resolveLoop]
    split at hx
    · rename_i hpos
      simp only [hpos, if_true]
      split at hx
      · rename_i l2 rescan heq
        rw [heq]
        simp only
        rw [ih _ _ _ _ hx]
        have e : step + 1 + k = step + (k + 1) := by omega
        rw [e]
      · simp at hx
    · simp at hx

/-- A loop of `Resolve` that is, after `k` rounds and for every `k`, still
running never returns. -/
theorem Stage4Levels.resolveLoop_forever (sprintf : String → String → String) (ord : KeyOrder)
    (depth initialLevels step : Nat) (l : Stage4Levels) (pos : Nat)
    (h : ∀ k, (Stage4Levels.resolveRounds sprintf ord depth initialLevels k step l pos).isSome)
    (fuel : Nat) :
    Stage4Levels.resolveLoop sprintf ord depth initialLevels fuel step l pos =
      Outcome.outOfFuel := by
  obtain ⟨x, hx⟩ := Option.isSome_iff_exists.mp (h fuel)
  have e := Stage4Levels.resolveLoop_rounds sprintf ord depth initialLevels fuel 0 step l pos x hx
  rw [Nat.add_zero] at e
  rw [e]
  rfl

theorem buildLoop_enters :
    ((addRoots buildLoop 12 [buildDef pkgA [pkgE, pkgD]]
        { Levels := NewStage4LevelsWithSize 1, Map := [] }).state?.bind fun w =>
      (Stage4AlignLevel1 KeyOrder.insertion 12 w).state?.bind fun w1 =>
        w1.Levels.resolveStart.bind fun s =>
          (Stage4Levels.resolveRounds goSprintf KeyOrder.insertion 12 s.1.Levels.length 17 2
            s.1 s.2).map fun r => (s.1.Levels.length, r)) = some (7, loopLevels, 7) := by
  decide

theorem loopLevels_cycle :
    Stage4Levels.resolveRounds goSprintf KeyOrder.insertion 12 7 7 0 loopLevels 7 =
      some (loopLevels, 7) := by
  decide

theorem loopLevels_rounds (n step : Nat) :
    ∀ k, (Stage4Levels.resolveRounds goSprintf KeyOrder.insertion (12 + n) 7 k step
      loopLevels 7).isSome := by
  have hc : ∀ step, Stage4Levels.resolveRounds goSprintf KeyOrder.insertion (12 + n) 7 7 step
      loopLevels 7 = some (loopLevels, 7) := by
    intro step
    rw [Stage4Levels.resolveRounds_insertion goSprintf (12 + n) 7 7 step 0]
    exact Stage4Levels.resolveRounds_depth (Nat.le_add_right 12 n) _ _ _ _ _ _ _ _
      loopLevels_cycle
  have hm : ∀ m step, Stage4Levels.resolveRounds goSprintf KeyOrder.insertion (12 + n) 7
      (7 * m) step loopLevels 7 = some (loopLevels, 7) := by
    intro m
    induction m with
    | zero => intro step; rfl
    | succ m ih =>
      intro step
      have e : 7 * (m + 1) = 7 + 7 * m := by omega
      rw [e, Stage4Levels.resolveRounds_add, hc]
      exact ih _
  intro k
  have hk := hm k step
  have e : 7 * k = k + 6 * k := by omega
  rw [e, Stage4Levels.resolveRounds_add] at hk
  cases hr : Stage4Levels.resolveRounds goSprintf KeyOrder.insertion (12 + n) 7 k step
      loopLevels 7 with
  | none => rw [hr] at hk; simp at hk
  | some x => rfl

/-! ## A catalog on which `Resolve` never returns -/

theorem BuildDatabase.acyclic_of_rank (db : BuildDatabase) (rank : String → Nat)
    (h : ∀ w ∈ db.World, ∀ d ∈ w.PackageRequires, rank w.Name < rank d.Name) :
    ∀ p, ¬ db.DependsOn p p := by
  have step : ∀ p q, db.Requires p q → rank p.Name < rank q.Name := by
    intro p q hr
    obtain ⟨d, hd, hs⟩ := hr
    simp only [BuildDatabase.requiresOf, BuildDatabase.FindPackages] at hd
    cases hf : db.World.filter (fun q => q.Category == p.Category && q.Name == p.Name) with
    | nil => simp [hf] at hd
    | cons w ws =>
      simp only [hf] at hd
      have hw : w ∈ db.World.filter (fun q => q.Category == p.Category && q.Name == p.Name) := by
        rw [hf]; exact List.mem_cons_self w ws
      obtain ⟨hw1, hw2⟩ := List.mem_filter.mp hw
      simp only [Bool.and_eq_true, beq_iff_eq] at hw2
      have h1 := h w hw1 d hd
      rw [hw2.2, ((sameCatName_iff d q).mp hs).2] at h1
      exact h1
  have trans : ∀ p q, db.DependsOn p q → rank p.Name < rank q.Name := by
    intro p q hpq
    induction hpq with
    | single hr => exact step _ _ hr
    | tail _ hr ih => exact Nat.lt_trans ih (step _ _ hr)
  intro p hp
  exact Nat.lt_irrefl _ (trans p p hp)

theorem buildLoop_acyclic : ∀ p, ¬ buildLoop.DependsOn p p :=
  BuildDatabase.acyclic_of_rank buildLoop
    (fun s => if s = "a" then 0 else if s = "d" then 1 else if s = "f" then 3
      else if s = "e" then 4 else 2) (by decide)

theorem buildTwice_acyclic : ∀ p, ¬ buildTwice.DependsOn p p :=
  BuildDatabase.acyclic_of_rank buildTwice
    (fun s => if s = "a" then 0 else if s = "b" then 1 else if s = "c" then 2
      else if s = "d" then 3 else if s = "e" then 4 else if s = "f" then 5 else 6) (by decide)

/-- On the catalog `buildLoop` with `a` missing and the maps visited in the
order of insertion, whatever the recursion allowance from 12 on: the level
construction and the alignment return, and the loop of `Resolve` never ends,
whatever the number of rounds it is given. -/
theorem buildLoop_resolve (n : Nat) :
    ∃ w w1, addRoots buildLoop (12 + n) [buildDef pkgA [pkgE, pkgD]]
        { Levels := NewStage4LevelsWithSize 1, Map := [] } = Outcome.ret w (Except.ok ()) ∧
      Stage4AlignLevel1 KeyOrder.insertion (12 + n) w = Outcome.ret w1 (Except.ok ()) ∧
      ∀ fuel, w1.Levels.Resolve goSprintf KeyOrder.insertion (12 + n) fuel 2 =
        Outcome.outOfFuel := by
  have hE := buildLoop_enters
  cases hA : (addRoots buildLoop 12 [buildDef pkgA [pkgE, pkgD]]
      { Levels := NewStage4LevelsWithSize 1, Map := [] }).state? with
  | none => rw [hA] at hE; simp at hE
  | some w =>
    rw [hA] at hE
    simp only [Option.some_bind] at hE
    cases hB : (Stage4AlignLevel1 KeyOrder.insertion 12 w).state? with
    | none => rw [hB] at hE; simp at hE
    | some w1 =>
      rw [hB] at hE
      simp only [Option.some_bind] at hE
      cases hC : w1.Levels.resolveStart with
      | none => rw [hC] at hE; simp at hE
      | some s =>
        obtain ⟨l1, pos⟩ := s
        rw [hC] at hE
        simp only [Option.some_bind] at hE
        cases hD : Stage4Levels.resolveRounds goSprintf KeyOrder.insertion 12 l1.Levels.length
            17 2 l1 pos with
        | none => rw [hD] at hE; simp at hE
        | some x =>
          rw [hD] at hE
          simp only [Option.map_some', Option.some.injEq, Prod.mk.injEq] at hE
          obtain ⟨hlen, hx⟩ := hE
          have hA2 := Outcome.state?_eq hA
          have hB2 := Outcome.state?_eq hB
          have hle : 12 ≤ 12 + n := Nat.le_add_right 12 n
          refine ⟨w, w1, ?_, ?_, ?_⟩
          · refine (addRoots_below buildLoop hle _ _).eq_of_ne ?_ |>.trans hA2
            rw [hA2]; simp
          · refine (Stage4AlignLevel1_below hle _ _).eq_of_ne ?_ |>.trans hB2
            rw [hB2]; simp
          · intro fuel
            rw [Stage4Levels.Resolve_eq _ _ _ _ _ _ l1 pos hC, hlen]
            apply Stage4Levels.resolveLoop_forever
            intro k
            rw [hlen] at hD
            have hD2 := Stage4Levels.resolveRounds_depth hle _ _ _ _ _ _ _ _ hD
            by_cases hk : k ≤ 17
            · have e : 17 = k + (17 - k) := by omega
              rw [e, Stage4Levels.resolveRounds_add] at hD2
              cases hr : Stage4Levels.resolveRounds goSprintf KeyOrder.insertion (12 + n) 7 k 2
                  l1 pos with
              | none => rw [hr] at hD2; simp at hD2
              | some y => rfl
            · have e : k = 17 + (k - 17) := by omega
              rw [e, Stage4Levels.resolveRounds_add, hD2, hx]
              exact loopLevels_rounds n _ _

theorem orderMissings_buildLoop (fuel : Nat) :
    orderMissings buildLoop [pkgA] true goSprintf KeyOrder.insertion fuel =
      Outcome.outOfFuel := by
  have key : orderMissings buildLoop [pkgA] true goSprintf KeyOrder.insertion (12 + fuel) =
      Outcome.outOfFuel := by
    obtain ⟨w, w1, h1, h2, h3⟩ := buildLoop_resolve fuel
    have hm : resolveMissings buildLoop [pkgA] ([], []) =
        Except.ok (GoMap.set [] pkgA.HumanReadableString pkgA, [buildDef pkgA [pkgE, pkgD]]) :=
      rfl
    simp only [orderMissings, hm, h1, if_true, alignAndResolve, h2, h3]
  have hb := orderMissings_below (Nat.le_add_left fuel 12) buildLoop [pkgA] true goSprintf
    KeyOrder.insertion
  rw [key] at hb
  exact hb.eq_outOfFuel

theorem Outcome.Below.value_eq {σ α : Type} {a b : Outcome σ α} (h : a.Below b) {r : α}
    (hv : a.value = some r) : b.value = some r := by
  rcases h with h | h
  · rw [h] at hv; simp [Outcome.value] at hv
  · rw [← h]; exact hv

/-! ## The termination of the resolver -/

/-- C20, the defect: `Resolve` does not terminate on every acyclic catalog. On
the catalog `buildLoop`, in which no package reaches itself and `c` lists its
require `e` twice, with `a` missing and the maps visited in the order of
insertion: the level construction and the alignment return (for every
recursion allowance from 12 on), the loop of `Resolve` never ends, whatever the
number of rounds it is given, so that `ListPkgsMissingByDeps` with resolve
never returns; without resolve it returns `[a]`. -/
theorem C20_resolve_rescans_forever :
    (∀ p, ¬ buildLoop.DependsOn p p) ∧
    (∀ n, ∃ w w1,
      addRoots buildLoop (12 + n) [buildDef pkgA [pkgE, pkgD]]
        { Levels := NewStage4LevelsWithSize 1, Map := [] } = Outcome.ret w (Except.ok ()) ∧
      Stage4AlignLevel1 KeyOrder.insertion (12 + n) w = Outcome.ret w1 (Except.ok ()) ∧
      ∀ fuel, w1.Levels.Resolve goSprintf KeyOrder.insertion (12 + n) fuel 2 =
        Outcome.outOfFuel) ∧
    (∀ fuel, (localList [] [pkgA]).ListPkgsMissingByDeps specVersionLib RangeOrder.insertion []
      (Except.ok buildLoop) true goSprintf KeyOrder.insertion fuel = Outcome.outOfFuel) ∧
    (∀ n, ((localList [] [pkgA]).ListPkgsMissingByDeps specVersionLib RangeOrder.insertion []
      (Except.ok buildLoop) false goSprintf KeyOrder.insertion (12 + n)).value =
        some [pkgA]) := by
  refine ⟨buildLoop_acyclic, buildLoop_resolve, ?_, ?_⟩
  · intro fuel
    have hl : (localList [] [pkgA]).ListPkgsMissing specVersionLib RangeOrder.insertion [] =
        (((localList [] [pkgA]).ListPkgsMissing specVersionLib RangeOrder.insertion []).1,
          Except.ok [pkgA]) := rfl
    unfold RepoList.ListPkgsMissingByDeps
    rw [hl]
    simp only [orderMissings_buildLoop]
  · intro n
    exact (ListPkgsMissingByDeps_below (Nat.le_add_right 12 n) _ _ _ _ _ _ _ _).value_eq
      (by decide)

/-! ## The order of the answer with resolve -/

/-- C19, the defect: with resolve the answer can list a package before one it
requires. On the catalog `buildTwice`, in which no package reaches itself, `b`
requires `c`, and `c` lists its require `g` twice, with `c`, `b` and `a`
missing and the maps visited in the order of insertion (for every recursion
allowance from 12 on): with resolve the answer is `[b, c, a]`, `b` before the
`c` it requires; without resolve it is `[c, b, a]`. -/
theorem C19_resolve_breaks_order :
    (∀ p, ¬ buildTwice.DependsOn p p) ∧
    buildTwice.DependsOn pkgB pkgC ∧
    (∀ n, ((localList [] [pkgC, pkgB, pkgA]).ListPkgsMissingByDeps specVersionLib
      RangeOrder.insertion [] (Except.ok buildTwice) true goSprintf KeyOrder.insertion
      (12 + n)).value = some [pkgB, pkgC, pkgA]) ∧
    (∀ n, ((localList [] [pkgC, pkgB, pkgA]).ListPkgsMissingByDeps specVersionLib
      RangeOrder.insertion [] (Except.ok buildTwice) false goSprintf KeyOrder.insertion
      (12 + n)).value = some [pkgC, pkgB, pkgA]) :=
  ⟨buildTwice_acyclic,
   Relation.TransGen.single ⟨anyVersion pkgC, by decide, by decide⟩,
   fun n => (ListPkgsMissingByDeps_below (Nat.le_add_right 12 n) _ _ _ _ _ _ _ _).value_eq
     (by decide),
   fun n => (ListPkgsMissingByDeps_below (Nat.le_add_right 12 n) _ _ _ _ _ _ _ _).value_eq
     (by decide)⟩

/-! ## The slot of a category -/

theorem slotMajor_of_no_slash (slot : String) (h : slot.data.contains '/' = false) :
    slotMajor slot = slot := by
  unfold slotMajor
  have : slot.data.takeWhile (fun ch => ch != '/') = slot.data := by
    apply List.takeWhile_eq_self_iff.mpr
    intro ch hch
    simp only [bne_iff_ne, ne_eq]
    intro hc
    subst hc
    simp at h
    exact h hch
  rw [this]

theorem SanitizeCategory_eq (cat slot : String) :
    SanitizeCategory cat slot =
      if slotMajor slot = "0" ∨ slotMajor slot = "" then cat
      else cat ++ "-" ++ slotMajor slot := by
  unfold SanitizeCategory
  by_cases h0 : slot = "0"
  · subst h0
    have : slotMajor "0" = "0" := by decide
    simp [this]
  · have h1 : (if slot.data.contains '/' then slotMajor slot else slot) = slotMajor slot := by
      split
      · rfl
      · rename_i hc
        exact (slotMajor_of_no_slash slot (by simpa using hc)).symm
    simp only [bne_iff_ne, ne_eq, h0, not_false_eq_true, if_true, h1, Bool.and_eq_true,
      decide_eq_true_eq]
    by_cases ha : slotMajor slot = "0"
    · simp [ha]
    · by_cases hb : slotMajor slot = ""
      · simp [hb]
      · simp [ha, hb]

/-- C22: `SanitizeCategory(c, s)` is `c` when the part of `s` before the first
`/` is `"0"`, is `c`, then `-`, then that part when the part is any other
string that is not empty, and is `c` for the empty slot. -/
theorem C22_SanitizeCategory (c s : String) :
    (slotMajor s = "0" → SanitizeCategory c s = c) ∧
    (slotMajor s ≠ "0" → slotMajor s ≠ "" → SanitizeCategory c s = c ++ "-" ++ slotMajor s) ∧
    (s = "" → SanitizeCategory c s = c) := by
  refine ⟨?_, ?_, ?_⟩
  · intro h; rw [SanitizeCategory_eq]; simp [h]
  · intro h1 h2; rw [SanitizeCategory_eq]; simp [h1, h2]
  · intro h; subst h; rw [SanitizeCategory_eq]
    have : slotMajor "" = "" := by decide
    simp [this]

/-- C22 at the slots `0/2.1`, `3.11/3.11m` and the empty slot. -/
theorem C22_SanitizeCategory_witness :
    slotMajor "0/2.1" = "0" ∧ SanitizeCategory "dev-libs" "0/2.1" = "dev-libs" ∧
    slotMajor "3.11/3.11m" = "3.11" ∧
    SanitizeCategory "dev-lang" "3.11/3.11m" = "dev-lang-3.11" ∧
    SanitizeCategory "dev-lang" "" = "dev-lang" :=
  ⟨by decide, (C22_SanitizeCategory "dev-libs" "0/2.1").1 (by decide), by decide,
   (C22_SanitizeCategory "dev-lang" "3.11/3.11m").2.1 (by decide) (by decide),
   (C22_SanitizeCategory "dev-lang" "").2.2 rfl⟩

/-! ## The payload of a dropped metadata key -/

/-- C24 at its failing input: the record of `a-1.0.metadata.yaml` names the
payload `x-1.0.package.tar`, which is not listed, so the key is pushed by the
first pairing loop; `a-1.0.package.tar` is listed and its metadata name is that
key; the package is in the tree. The analysis succeeds, the dropped key is
still a key of `MetaMap`, and the payload is not an entry of `Files2Remove`. -/
theorem C24_payload_of_dropped_metadata :
    ((localKnife [] [pkgA]).Analyze RangeOrder.insertion storeOtherPath).2 = none ∧
    siblingMeta "a-1.0.package.tar" = "a-1.0.metadata.yaml" ∧
    GoMap.has ((localKnife [] [pkgA]).Analyze RangeOrder.insertion storeOtherPath).1.PkgsMap
      "x-1.0.package.tar" = false ∧
    GoMap.has ((localKnife [] [pkgA]).Analyze RangeOrder.insertion storeOtherPath).1.MetaMap
      "a-1.0.metadata.yaml" = true ∧
    ((localKnife [] [pkgA]).Analyze RangeOrder.insertion storeOtherPath).1.Files2Remove =
      ["a-1.0.metadata.yaml"] := by
  decide

/-! ## A root added twice -/

/-- C29 at its failing input: two versions of `cat/a` are missing. The second
root is added with a nil father to the leaf of the first: `AddFather` finds no
father to compare with, appends the nil father and counts it. With resolve the
dump of the levels then dereferences it, and `ListPkgsMissingByDeps` dies. -/
theorem C29_nil_father_recorded :
    (((NewStage4Tree 1).AddDependency pkgA none).bind
      (fun t => t.AddDependency pkgA2 none)).map (fun t => GoMap.get? t.Map "cat/a") =
      some (some { Package := pkgA, Father := [none], Position := 0, Counter := 2 }) ∧
    ((localList [] [pkgA, pkgA2]).ListPkgsMissing specVersionLib RangeOrder.insertion []).2 =
      Except.ok [pkgA, pkgA2] ∧
    ∀ n, (localList [] [pkgA, pkgA2]).ListPkgsMissingByDeps specVersionLib RangeOrder.insertion
      [] (Except.ok buildTwoVersions) true goSprintf KeyOrder.insertion (10 + n) =
      Outcome.crash := by
  refine ⟨by decide, rfl, ?_⟩
  intro n
  have h10 : (localList [] [pkgA, pkgA2]).ListPkgsMissingByDeps specVersionLib
      RangeOrder.insertion [] (Except.ok buildTwoVersions) true goSprintf KeyOrder.insertion 10 =
      Outcome.crash := by rfl
  have hb := ListPkgsMissingByDeps_below (Nat.le_add_right 10 n) (localList [] [pkgA, pkgA2])
    specVersionLib RangeOrder.insertion [] (Except.ok buildTwoVersions) true goSprintf
    KeyOrder.insertion
  rw [h10] at hb
  rcases hb with hb | hb
  · cases hb
  · exact hb.symm

/-! ## A missing package that the build catalog does not define -/

theorem resolveMissings_error (db : BuildDatabase) (list : List DefaultPackage) :
    ∀ (acc : GoMap DefaultPackage × List LuetPackage) (p : DefaultPackage), p ∈ list →
      (∀ r, db.FindPackage p ≠ Except.ok r) →
      ∃ q, q ∈ list ∧ (∀ r, db.FindPackage q ≠ Except.ok r) ∧
        resolveMissings db list acc =
          Except.error ("Error on resolve package " ++ q.HumanReadableString) := by
  induction list with
  | nil => intro acc p hp; cases hp
  | cons x rest ih =>
    intro acc p hp hf
    simp only [resolveMissings]
    cases hx : db.FindPackage x with
    | error e =>
      refine ⟨x, List.mem_cons_self x rest, ?_, rfl⟩
      intro r hc
      rw [hx] at hc
      cases hc
    | ok r0 =>
      have hpr : p ∈ rest := by
        rcases List.mem_cons.mp hp with h | h
        · subst h; exact absurd hx (hf r0)
        · exact h
      obtain ⟨q, hq, hqf, he⟩ := ih (GoMap.set acc.1 x.HumanReadableString x, acc.2 ++ [r0]) p
        hpr hf
      exact ⟨q, List.mem_cons_of_mem x hq, hqf, he⟩

/-- C21, as worded, fails: `cat/a` and `cat/b` are missing and the build
catalog defines `cat/b` alone. `ListPkgsMissingByDeps`, with or without
resolve, returns the error of the lookup of `cat/a` and no list: `cat/b` is
not returned. -/
theorem C21_unresolved_root_counterexample :
    ((localList [] [pkgA, pkgB]).ListPkgsMissing specVersionLib RangeOrder.insertion []).2 =
      Except.ok [pkgA, pkgB] ∧
    (∀ r, buildOnlyB.FindPackage pkgA ≠ Except.ok r) ∧
    buildOnlyB.FindPackage pkgB = Except.ok (buildDef pkgB []) ∧
    ∀ withResolve fuel, ∃ c1,
      (localList [] [pkgA, pkgB]).ListPkgsMissingByDeps specVersionLib RangeOrder.insertion []
        (Except.ok buildOnlyB) withResolve goSprintf KeyOrder.insertion fuel =
        Outcome.ret c1 (Except.error "Error on resolve package cat/a-1.0") :=
  ⟨rfl, (by intro r h; cases h), rfl, fun _ _ => ⟨_, rfl⟩⟩

/-- C21, amended: when a missing package cannot be resolved in the build
catalog (its lookup returns an error), `ListPkgsMissingByDeps` fails as a
whole: it returns the error `Error on resolve package` with the fingerprint of
such a missing package, and no list. -/
theorem C21_unresolved_root_fails {σ V : Type} (c : RepoList σ) (lib : VersionLib V)
    (rord : RangeOrder) (st : σ) (db : BuildDatabase) (withResolve : Bool)
    (sprintf : String → String → String) (ord : KeyOrder) (fuel : Nat)
    (list : List DefaultPackage) (p : DefaultPackage)
    (hm : (c.ListPkgsMissing lib rord st).2 = Except.ok list)
    (hp : p ∈ list) (hf : ∀ r, db.FindPackage p ≠ Except.ok r) :
    ∃ c1 q, q ∈ list ∧ (∀ r, db.FindPackage q ≠ Except.ok r) ∧
      c.ListPkgsMissingByDeps lib rord st (Except.ok db) withResolve sprintf ord fuel =
        Outcome.ret c1 (Except.error ("Error on resolve package " ++ q.HumanReadableString)) := by
  obtain ⟨q, hq, hqf, he⟩ := resolveMissings_error db list ([], []) p hp hf
  cases hl : c.ListPkgsMissing lib rord st with
  | mk c1 r =>
    rw [hl] at hm
    simp only at hm
    subst hm
    refine ⟨c1, q, hq, hqf, ?_⟩
    simp only [RepoList.ListPkgsMissingByDeps, hl, orderMissings, he]

/-- C21, amended, at the catalog that defines `cat/b` alone, with `cat/a` and
`cat/b` missing. -/
theorem C21_unresolved_root_fails_witness :
    ((localList [] [pkgA, pkgB]).ListPkgsMissing specVersionLib RangeOrder.insertion []).2 =
      Except.ok [pkgA, pkgB] ∧ pkgA ∈ [pkgA, pkgB] ∧
    (∀ r, buildOnlyB.FindPackage pkgA ≠ Except.ok r) ∧
    ∃ c1 q, q ∈ [pkgA, pkgB] ∧ (∀ r, buildOnlyB.FindPackage q ≠ Except.ok r) ∧
      (localList [] [pkgA, pkgB]).ListPkgsMissingByDeps specVersionLib RangeOrder.insertion []
        (Except.ok buildOnlyB) true goSprintf KeyOrder.insertion 10 =
        Outcome.ret c1 (Except.error ("Error on resolve package " ++ q.HumanReadableString)) :=
  ⟨rfl, by decide, (by intro r h; cases h),
   C21_unresolved_root_fails (localList [] [pkgA, pkgB]) specVersionLib RangeOrder.insertion []
     buildOnlyB true goSprintf KeyOrder.insertion 10 [pkgA, pkgB] pkgA rfl (by decide)
     (by intro r h; cases h)⟩

/-! ## A missing package that requires itself -/

theorem Stage4AddDeps2Levels_cycle (db : BuildDatabase) (depth : Nat) (pkg : LuetPackage)
    (father : Option DefaultPackage) (w : Stage4Worker) (level : Nat) (stack : List String)
    (h : IsInStack stack (pkgKey pkg.toDefault) = true) :
    Stage4AddDeps2Levels db (depth + 1) pkg father w level stack =
      Outcome.ret w (Except.error ("Cycle for package " ++ pkgKey pkg.toDefault)) := by
  simp only [Stage4AddDeps2Levels, h, if_true]

theorem addRoots_no_cycle (db : BuildDatabase) (hfaith : db.KeyFaithful) (depth : Nat)
    (pl : List LuetPackage) (w : Stage4Worker) (hw : ∀ r ∈ pl, r ∈ db.World)
    (h : addRoots db depth pl { Levels := NewStage4LevelsWithSize 1, Map := [] } =
      Outcome.ret w (Except.ok ()))
    (r : LuetPackage) (hr : r ∈ pl) : ¬ db.DependsOn r.toDefault r.toDefault := by
  intro hcyc
  obtain ⟨i1, i2, i3⟩ := initial_worker db
  obtain ⟨a1, a2, _, a4⟩ := addRoots_spec db depth pl _ w i1 i2 i3 hw h
  obtain ⟨m, hm, hmax⟩ := exists_max_level w.Levels (pkgKey r.toDefault) ⟨0, a4 r hr⟩
  obtain ⟨n, hn, hh⟩ := Closed_path db w a1 a2 hfaith r.toDefault r.toDefault
    (mem_atoms_of_world db r (hw r hr)) hcyc m hm
  exact hmax (m + n) (by omega) hh

theorem buildCycle_cycle : buildCycle.DependsOn pkgA pkgA := by
  have h1 : buildCycle.Requires pkgA pkgB := ⟨anyVersion pkgB, by decide, by decide⟩
  have h2 : buildCycle.Requires pkgB pkgA := ⟨anyVersion pkgA, by decide, by decide⟩
  exact Relation.TransGen.tail (Relation.TransGen.single h1) h2

/-- C25, as worded, fails: `cat/a` requires `cat/b`, `cat/b` requires `cat/a`,
and `cat/a` is missing. The level construction ends with the error of the
cycle, and `ListPkgsMissingByDeps`, with or without resolve, returns that error
and no list (for every recursion allowance from 3 on). -/
theorem C25_cycle_counterexample :
    buildCycle.DependsOn pkgA pkgA ∧
    ∀ withResolve n, ∃ c1,
      (localList [] [pkgA]).ListPkgsMissingByDeps specVersionLib RangeOrder.insertion []
        (Except.ok buildCycle) withResolve goSprintf KeyOrder.insertion (3 + n) =
        Outcome.ret c1
          (Except.error "Error on initialize stage4 tree: Cycle for package cat/a") := by
  refine ⟨buildCycle_cycle, ?_⟩
  intro withResolve n
  have h3 : (localList [] [pkgA]).ListPkgsMissingByDeps specVersionLib RangeOrder.insertion []
      (Except.ok buildCycle) withResolve goSprintf KeyOrder.insertion 3 =
      Outcome.ret ((localList [] [pkgA]).ListPkgsMissing specVersionLib RangeOrder.insertion []).1
        (Except.error "Error on initialize stage4 tree: Cycle for package cat/a") := by
    cases withResolve <;> rfl
  have hb := ListPkgsMissingByDeps_below (Nat.le_add_right 3 n) (localList [] [pkgA])
    specVersionLib RangeOrder.insertion [] (Except.ok buildCycle) withResolve goSprintf
    KeyOrder.insertion
  rw [h3] at hb
  rcases hb with hb | hb
  · cases hb
  · exact ⟨_, hb.symm⟩

/-- When a missing package reaches itself through the requires of the nodes,
`ListPkgsMissingByDeps` returns no list, whatever the recursion allowance. -/
theorem ListPkgsMissingByDeps_cycle_no_list {σ V : Type} (c : RepoList σ) (lib : VersionLib V)
    (rord : RangeOrder) (st : σ) (db : BuildDatabase) (withResolve : Bool)
    (sprintf : String → String → String) (ord : KeyOrder) (fuel : Nat)
    (list : List DefaultPackage) (p : DefaultPackage)
    (hm : (c.ListPkgsMissing lib rord st).2 = Except.ok list)
    (hp : p ∈ list) (hcyc : db.DependsOn p p) (hfaith : db.KeyFaithful) :
    (∀ (depth : Nat) (pkg : LuetPackage) (father : Option DefaultPackage) (w : Stage4Worker)
        (level : Nat) (stack : List String), IsInStack stack (pkgKey pkg.toDefault) = true →
        Stage4AddDeps2Levels db (depth + 1) pkg father w level stack =
          Outcome.ret w (Except.error ("Cycle for package " ++ pkgKey pkg.toDefault))) ∧
    (c.ListPkgsMissingByDeps lib rord st (Except.ok db) withResolve sprintf ord fuel).value =
      none := by
  refine ⟨fun depth pkg father w level stack h =>
    Stage4AddDeps2Levels_cycle db depth pkg father w level stack h, ?_⟩
  cases hv : (c.ListPkgsMissingByDeps lib rord st (Except.ok db) withResolve sprintf ord
      fuel).value with
  | none => rfl
  | some res =>
    exfalso
    have ho := ListPkgsMissingByDeps_value c lib rord st db withResolve sprintf ord fuel list res
      hm hv
    simp only [orderMissings] at ho
    cases hr : resolveMissings db list ([], []) with
    | error e => simp [hr] at ho
    | ok x =>
      obtain ⟨mM, pList⟩ := x
      simp only [hr] at ho
      obtain ⟨_, rs, hrs, hworld, hall⟩ := resolveMissings_spec db list _ _ _ hr
      simp only [List.nil_append] at hrs
      subst hrs
      cases ha : addRoots db fuel pList { Levels := NewStage4LevelsWithSize 1, Map := [] } with
      | crash => simp [ha] at ho
      | outOfFuel => simp [ha] at ho
      | ret worker r1 =>
        cases r1 with
        | error e => simp [ha] at ho
        | ok u =>
          obtain ⟨r, hr1, hr2⟩ := hall p hp
          apply addRoots_no_cycle db hfaith fuel pList worker hworld ha r hr1
          rw [hr2]
          exact hcyc

/-! ## The level construction returns -/

theorem fatherIndex_of_some (fs : List (Option DefaultPackage)) (g : DefaultPackage)
    (h : ∀ f ∈ fs, f ≠ none) : fatherIndex fs (some g) ≠ none := by
  induction fs with
  | nil => simp [fatherIndex]
  | cons f rest ih =>
    have ih2 := ih (fun x hx => h x (List.mem_cons_of_mem _ hx))
    cases f with
    | none => exact absurd rfl (h none (List.mem_cons_self _ _))
    | some f =>
      simp only [fatherIndex]
      split
      · simp
      · split
        · simp
        · rename_i o ho
          exact ih2

theorem AddFather_some (leaf : Stage4Leaf) (g : DefaultPackage)
    (h : ∀ f ∈ leaf.Father, f ≠ none) :
    ∃ leaf2, leaf.AddFather (some g) = some leaf2 ∧ ∀ f ∈ leaf2.Father, f ≠ none := by
  simp only [Stage4Leaf.AddFather]
  cases hf : fatherIndex leaf.Father (some g) with
  | none => exact absurd hf (fatherIndex_of_some _ _ h)
  | some r =>
    cases r with
    | some i => exact ⟨leaf, rfl, h⟩
    | none =>
      refine ⟨_, rfl, ?_⟩
      intro f hfm
      simp only [List.mem_append, List.mem_singleton] at hfm
      rcases hfm with h1 | h1
      · exact h f h1
      · rw [h1]; simp

theorem Stage4Tree.AddDependency_noNilFather (t : Stage4Tree) (p : DefaultPackage)
    (father : Option DefaultPackage)
    (hn : ∀ k leaf, GoMap.get? t.Map k = some leaf → ∀ f ∈ leaf.Father, f ≠ none)
    (hf : father ≠ none ∨ GoMap.get? t.Map (pkgKey p) = none) :
    ∃ t2, t.AddDependency p father = some t2 ∧
      ∀ k leaf, GoMap.get? t2.Map k = some leaf → ∀ f ∈ leaf.Father, f ≠ none := by
  simp only [Stage4Tree.AddDependency]
  cases hg : GoMap.get? t.Map (pkgKey p) with
  | some leaf =>
    have hfa : father ≠ none := by
      rcases hf with h1 | h1
      · exact h1
      · rw [hg] at h1; cases h1
    cases father with
    | none => exact absurd rfl hfa
    | some g =>
      obtain ⟨leaf2, h2, h3⟩ := AddFather_some leaf g (hn _ _ hg)
      simp only [h2]
      refine ⟨_, rfl, ?_⟩
      intro k lf hk
      simp only [GoMap.get?_set] at hk
      by_cases hkk : k = pkgKey p
      · simp only [hkk, if_true, Option.some.injEq] at hk
        rw [← hk]; exact h3
      · simp only [hkk, if_false] at hk
        exact hn k lf hk
  | none =>
    refine ⟨_, rfl, ?_⟩
    intro k lf hk
    simp only [GoMap.get?_set] at hk
    by_cases hkk : k = pkgKey p
    · simp only [hkk, if_true, Option.some.injEq] at hk
      rw [← hk]
      cases father with
      | none => simp [NewStage4Leaf]
      | some g => simp [NewStage4Leaf]
    · simp only [hkk, if_false] at hk
      exact hn k lf hk

theorem Stage4Levels.treeAdd_noNil (l : Stage4Levels) (level : Nat) (p : DefaultPackage)
    (father : Option DefaultPackage) (hlv : level < l.Levels.length) (hn : l.NoNilFather)
    (hf : father ≠ none ∨ l.leaf? level (pkgKey p) = none) :
    ∃ l2, l.treeAdd level p father = some l2 ∧ l2.NoNilFather := by
  simp only [Stage4Levels.treeAdd]
  cases hg : l.Levels.get? level with
  | none =>
    rw [List.get?_eq_getElem?, List.getElem?_eq_none_iff] at hg
    omega
  | some t =>
    have hleaf : ∀ k, l.leaf? level k = GoMap.get? t.Map k := by
      intro k; simp only [Stage4Levels.leaf?, hg]
    obtain ⟨t2, h2, h3⟩ := Stage4Tree.AddDependency_noNilFather t p father
      (fun k leaf hk => hn level k leaf (by rw [hleaf]; exact hk))
      (by rw [← hleaf]; exact hf)
    simp only [← List.get?_eq_getElem?, hg, h2]
    refine ⟨_, rfl, ?_⟩
    intro i k leaf hk
    simp only [Stage4Levels.leaf?] at hk
    by_cases hi : i = level
    · subst hi
      rw [List.get?_eq_getElem?, List.getElem?_set_self hlv] at hk
      exact h3 k leaf hk
    · rw [List.get?_eq_getElem?, List.getElem?_set_ne (Ne.symm hi)] at hk
      apply hn i k leaf
      simp only [Stage4Levels.leaf?]
      rw [List.get?_eq_getElem?]
      exact hk

theorem Stage4Levels.AddDependency_noNil (l : Stage4Levels) (p : LuetPackage)
    (father : Option DefaultPackage) (level : Nat) (hlv : level < l.Levels.length)
    (hwf : l.WF) (hn : l.NoNilFather)
    (hf : father ≠ none ∨ ¬ l.holdsAt level (pkgKey p.toDefault)) :
    ∃ l2 r, l.AddDependency p father level = Outcome.ret l2 r ∧ l2.NoNilFather := by
  simp only [Stage4Levels.AddDependency]
  have h0 : ¬ level ≥ l.Levels.length := by omega
  simp only [h0, if_false]
  have hleaf : father ≠ none ∨ l.leaf? level (pkgKey p.toDefault) = none := by
    rcases hf with h1 | h1
    · exact Or.inl h1
    · right
      cases hl : l.leaf? level (pkgKey p.toDefault) with
      | none => rfl
      | some leaf => exact absurd (Stage4Levels.holdsAt_of_leaf l hwf _ _ _ hl).1 h1
  cases hg : GoMap.get? l.Map (pkgKey p.toDefault) with
  | some v =>
    have hk : pkgKey v.toDefault = pkgKey p.toDefault := hwf.2.1 _ _ hg
    obtain ⟨l2, h2, h3⟩ := Stage4Levels.treeAdd_noNil l level v.toDefault father hlv hn
      (by rw [hk]; exact hleaf)
    simp only [h2]
    exact ⟨_, _, rfl, h3⟩
  | none =>
    obtain ⟨l2, h2, h3⟩ := Stage4Levels.treeAdd_noNil
      { l with Map := GoMap.set l.Map (pkgKey p.toDefault) p } level p.toDefault father hlv
      (fun i k leaf hk => hn i k leaf hk) hleaf
    simp only [h2]
    exact ⟨_, _, rfl, h3⟩

theorem Stage4Levels.AddTree_noNil (l : Stage4Levels) (id : Nat) (hn : l.NoNilFather) :
    (l.AddTree (NewStage4Tree id)).NoNilFather := by
  intro i k leaf hk
  simp only [Stage4Levels.leaf?, Stage4Levels.AddTree] at hk
  rw [List.get?_eq_getElem?] at hk
  by_cases hlt : i < l.Levels.length
  · rw [List.getElem?_append_left hlt] at hk
    apply hn i k leaf
    simp only [Stage4Levels.leaf?]
    rw [List.get?_eq_getElem?]
    exact hk
  · rw [List.getElem?_append_right (by omega)] at hk
    cases hi : i - l.Levels.length with
    | zero => simp [hi, NewStage4Tree, GoMap.get?] at hk
    | succ n => simp [hi] at hk

theorem stack_length_le (stack keys : List String) (hn : stack.Nodup)
    (hs : ∀ k ∈ stack, k ∈ keys) : stack.length ≤ keys.length :=
  (List.Nodup.subperm hn hs).length_le

theorem not_mem_of_IsInStack (stack : List String) (k : String)
    (h : ¬ IsInStack stack k = true) : k ∉ stack := by
  intro hk
  apply h
  simp only [IsInStack, List.any_eq_true, beq_iff_eq]
  exact ⟨k, hk, rfl⟩

theorem Stage4Worker.closed_true (w : Stage4Worker) : w.Closed (fun _ _ => True) := by
  intro i k o _ _ hx
  exact absurd trivial hx

theorem addDepsLoop_returns (db : BuildDatabase)
    (rec : LuetPackage → Option DefaultPackage → Stage4Worker → Nat → List String →
      Outcome Stage4Worker Unit)
    (stack : List String)
    (hspec : ∀ pkg father (w : Stage4Worker) level w2, w.WF db → 1 ≤ level →
      level ≤ w.Levels.Levels.length + 1 →
      (db.FindPackages { Category := pkg.Category, Name := pkg.Name, Version := ">=0" } =
        Except.ok [] → pkg.PackageRequires = []) →
      pkg.toDefault ∈ db.atoms →
      rec pkg father w level stack = Outcome.ret w2 (Except.ok ()) →
      w2.WF db ∧ w.Grows w2)
    (hret : ∀ pkg (f : DefaultPackage) (w : Stage4Worker) level, w.WF db → 1 ≤ level →
      level ≤ w.Levels.Levels.length + 1 →
      (db.FindPackages { Category := pkg.Category, Name := pkg.Name, Version := ">=0" } =
        Except.ok [] → pkg.PackageRequires = []) →
      pkg.toDefault ∈ db.atoms → w.Levels.NoNilFather →
      ∃ w2 r, rec pkg (some f) w level stack = Outcome.ret w2 r ∧
        ((r = Except.ok () ∧ w2.Levels.NoNilFather ∧
          ∀ i k, w2.Levels.holdsAt i k →
            w.Levels.holdsAt i k ∨ (i = level - 1 ∧ k = pkgKey pkg.toDefault) ∨ level ≤ i) ∨
         ∃ key, r = Except.error ("Cycle for package " ++ key)))
    (father : DefaultPackage) (level : Nat) (deps : List DefaultPackage) :
    ∀ (w : Stage4Worker), w.WF db → level ≤ w.Levels.Levels.length →
      (∀ d ∈ deps, d ∈ db.atoms) → w.Levels.NoNilFather →
      ∃ w2 r, addDepsLoop rec father level stack deps w = Outcome.ret w2 r ∧
        ((r = Except.ok () ∧ w2.Levels.NoNilFather ∧
          ∀ i k, w2.Levels.holdsAt i k → w.Levels.holdsAt i k ∨ level ≤ i) ∨
         ∃ key, r = Except.error ("Cycle for package " ++ key)) := by
  induction deps with
  | nil =>
    intro w _ _ _ hn
    exact ⟨w, _, rfl, Or.inl ⟨rfl, hn, fun _ _ h => Or.inl h⟩⟩
  | cons dep deps ih =>
    intro w hwf hlen hat hn
    simp only [addDepsLoop]
    have hdep : dep.toLuet.toDefault ∈ db.atoms := by
      rw [toLuet_toDefault]; exact hat dep (List.mem_cons_self dep deps)
    obtain ⟨w3, r3, h3, hcase⟩ := hret dep.toLuet father w (level + 1) hwf (by omega) (by omega)
      (by intro _; rfl) hdep hn
    rcases hcase with ⟨hr, hn3, hfr⟩ | ⟨key, hr⟩
    · subst hr
      obtain ⟨a1, a3⟩ := hspec dep.toLuet (some father) w (level + 1) w3 hwf (by omega)
        (by omega) (by intro _; rfl) hdep h3
      obtain ⟨w2, r, h2, hcase2⟩ := ih w3 a1 (Nat.le_trans hlen a3.1)
        (fun d hd => hat d (List.mem_cons_of_mem dep hd)) hn3
      refine ⟨w2, r, by rw [h3]; exact h2, ?_⟩
      rcases hcase2 with ⟨hr2, hn2, hfr2⟩ | hc
      · refine Or.inl ⟨hr2, hn2, ?_⟩
        intro i k hk
        rcases hfr2 i k hk with h5 | h5
        · rcases hfr i k h5 with h6 | h6 | h6
          · exact Or.inl h6
          · right; omega
          · right; omega
        · exact Or.inr h5
      · exact Or.inr hc
    · subst hr
      exact ⟨w3, _, by rw [h3], Or.inr ⟨key, rfl⟩⟩

theorem addObject_returns (db : BuildDatabase)
    (rec : LuetPackage → Option DefaultPackage → Stage4Worker → Nat → List String →
      Outcome Stage4Worker Unit)
    (stack : List String)
    (hspec : ∀ pkg father (w : Stage4Worker) level w2, w.WF db → 1 ≤ level →
      level ≤ w.Levels.Levels.length + 1 →
      (db.FindPackages { Category := pkg.Category, Name := pkg.Name, Version := ">=0" } =
        Except.ok [] → pkg.PackageRequires = []) →
      pkg.toDefault ∈ db.atoms →
      rec pkg father w level stack = Outcome.ret w2 (Except.ok ()) →
      w2.WF db ∧ w.Grows w2)
    (hret : ∀ pkg (f : DefaultPackage) (w : Stage4Worker) level, w.WF db → 1 ≤ level →
      level ≤ w.Levels.Levels.length + 1 →
      (db.FindPackages { Category := pkg.Category, Name := pkg.Name, Version := ">=0" } =
        Except.ok [] → pkg.PackageRequires = []) →
      pkg.toDefault ∈ db.atoms → w.Levels.NoNilFather →
      ∃ w2 r, rec pkg (some f) w level stack = Outcome.ret w2 r ∧
        ((r = Except.ok () ∧ w2.Levels.NoNilFather ∧
          ∀ i k, w2.Levels.holdsAt i k →
            w.Levels.holdsAt i k ∨ (i = level - 1 ∧ k = pkgKey pkg.toDefault) ∨ level ≤ i) ∨
         ∃ key, r = Except.error ("Cycle for package " ++ key)))
    (pkg3 : LuetPackage) (father : Option DefaultPackage) (level : Nat) (w2b : Stage4Worker)
    (key : String) (hwf2 : w2b.WF db) (hl1 : 1 ≤ level)
    (hlen : level ≤ w2b.Levels.Levels.length) (hn : w2b.Levels.NoNilFather)
    (hget2 : GoMap.get? w2b.Map key = some pkg3)
    (hf : father ≠ none ∨ ¬ w2b.Levels.holdsAt (level - 1) key) :
    ∃ w2 r,
      (match w2b.Levels.AddDependency pkg3 father (level - 1) with
        | Outcome.crash => Outcome.crash
        | Outcome.outOfFuel => Outcome.outOfFuel
        | Outcome.ret l3 _ =>
          addDepsLoop rec pkg3.toDefault level stack pkg3.PackageRequires
            { w2b with Levels := l3 }) = Outcome.ret w2 r ∧
      ((r = Except.ok () ∧ w2.Levels.NoNilFather ∧
        ∀ i k, w2.Levels.holdsAt i k →
          w2b.Levels.holdsAt i k ∨ (i = level - 1 ∧ k = key) ∨ level ≤ i) ∨
       ∃ key, r = Except.error ("Cycle for package " ++ key)) := by
  have hkey3 : pkgKey pkg3.toDefault = key := (hwf2.2.1 _ _ hget2).1
  have hlen2 : level - 1 < w2b.Levels.Levels.length := by omega
  obtain ⟨l3, r3, ha, hn3⟩ := Stage4Levels.AddDependency_noNil w2b.Levels pkg3 father (level - 1)
    hlen2 hwf2.1 hn (by rw [hkey3]; exact hf)
  obtain ⟨s1, s2, s3, s4, s5, s6⟩ :=
    Stage4Levels.AddDependency_spec _ _ _ _ _ _ hlen2 hwf2.1 ha
  rw [hkey3] at s4 s5 s6
  have hwf3 : Stage4Worker.WF db { w2b with Levels := l3 } := by
    refine ⟨s1, hwf2.2.1, ?_⟩
    intro k hk
    rcases s6 k hk with h5 | h5
    · exact hwf2.2.2 k h5
    · rw [h5]
      show (GoMap.get? w2b.Map key).isSome = true
      rw [hget2]; rfl
  have hlen3 : level ≤ (Stage4Worker.mk l3 w2b.Map).Levels.Levels.length := by
    show level ≤ l3.Levels.length
    rw [s2]; exact hlen
  have hreq3 := (hwf2.2.1 _ _ hget2).2.1
  obtain ⟨w2, r, h2, hcase⟩ := addDepsLoop_returns db rec stack hspec hret pkg3.toDefault level
    pkg3.PackageRequires { w2b with Levels := l3 } hwf3 hlen3
    (fun d hd => requiresOf_atoms db pkg3.toDefault d (by rw [← hreq3]; exact hd)) hn3
  refine ⟨w2, r, by rw [ha]; exact h2, ?_⟩
  rcases hcase with ⟨hr, hn2, hfr⟩ | hc
  · refine Or.inl ⟨hr, hn2, ?_⟩
    intro i k hk
    rcases hfr i k hk with h5 | h5
    · rcases s5 i k h5 with h6 | h6
      · exact Or.inl h6
      · exact Or.inr (Or.inl h6)
    · exact Or.inr (Or.inr h5)
  · exact Or.inr hc

theorem Stage4AddDeps2Levels_newTree (db : BuildDatabase) (depth : Nat) (pkg : LuetPackage)
    (father : Option DefaultPackage) (w : Stage4Worker) (level : Nat) (stack : List String)
    (hin : IsInStack stack (pkgKey pkg.toDefault) = false)
    (hc : w.Levels.Levels.length < level) (hl2 : level ≤ w.Levels.Levels.length + 1) :
    Stage4AddDeps2Levels db (depth + 1) pkg father w level stack =
      Stage4AddDeps2Levels db (depth + 1) pkg father
        { w with Levels := w.Levels.AddTree (NewStage4Tree level) } level stack := by
  have hc2 : ¬ (w.Levels.AddTree (NewStage4Tree level)).Levels.length < level := by
    simp only [Stage4Levels.AddTree, List.length_append, List.length_singleton]
    omega
  simp only [Stage4AddDeps2Levels, hin, hc, hc2, if_true, if_false, Bool.false_eq_true]

theorem Stage4AddDeps2Levels_core (db : BuildDatabase) (depth : Nat) (stack : List String)
    (pkg : LuetPackage)
    (hspec : ∀ pkg2 father (w : Stage4Worker) level w2, w.WF db → 1 ≤ level →
      level ≤ w.Levels.Levels.length + 1 →
      (db.FindPackages { Category := pkg2.Category, Name := pkg2.Name, Version := ">=0" } =
        Except.ok [] → pkg2.PackageRequires = []) →
      pkg2.toDefault ∈ db.atoms →
      Stage4AddDeps2Levels db depth pkg2 father w level (stack ++ [pkgKey pkg.toDefault]) =
        Outcome.ret w2 (Except.ok ()) →
      w2.WF db ∧ w.Grows w2)
    (hret : ∀ pkg2 (f : DefaultPackage) (w : Stage4Worker) level, w.WF db → 1 ≤ level →
      level ≤ w.Levels.Levels.length + 1 →
      (db.FindPackages { Category := pkg2.Category, Name := pkg2.Name, Version := ">=0" } =
        Except.ok [] → pkg2.PackageRequires = []) →
      pkg2.toDefault ∈ db.atoms → w.Levels.NoNilFather →
      ∃ w2 r, Stage4AddDeps2Levels db depth pkg2 (some f) w level
          (stack ++ [pkgKey pkg.toDefault]) = Outcome.ret w2 r ∧
        ((r = Except.ok () ∧ w2.Levels.NoNilFather ∧
          ∀ i k, w2.Levels.holdsAt i k →
            w.Levels.holdsAt i k ∨ (i = level - 1 ∧ k = pkgKey pkg2.toDefault) ∨ level ≤ i) ∨
         ∃ key, r = Except.error ("Cycle for package " ++ key)))
    (father : Option DefaultPackage) (w : Stage4Worker) (level : Nat)
    (hin : IsInStack stack (pkgKey pkg.toDefault) = false)
    (hwf : w.WF db) (hl1 : 1 ≤ level) (hlen : level ≤ w.Levels.Levels.length)
    (hpre : db.FindPackages { Category := pkg.Category, Name := pkg.Name, Version := ">=0" } =
        Except.ok [] → pkg.PackageRequires = [])
    (hatom : pkg.toDefault ∈ db.atoms) (hn : w.Levels.NoNilFather)
    (hf : father ≠ none ∨ ¬ w.Levels.holdsAt (level - 1) (pkgKey pkg.toDefault)) :
    ∃ w2 r, Stage4AddDeps2Levels db (depth + 1) pkg father w level stack = Outcome.ret w2 r ∧
      ((r = Except.ok () ∧ w2.Levels.NoNilFather ∧
        ∀ i k, w2.Levels.holdsAt i k →
          w.Levels.holdsAt i k ∨ (i = level - 1 ∧ k = pkgKey pkg.toDefault) ∨ level ≤ i) ∨
       ∃ key, r = Except.error ("Cycle for package " ++ key)) := by
  have hc : ¬ w.Levels.Levels.length < level := by omega
  simp only [Stage4AddDeps2Levels, hin, hc, if_false, Bool.false_eq_true]
  cases hg : GoMap.get? w.Map (pkgKey pkg.toDefault) with
  | some v =>
    simp only []
    exact addObject_returns db (Stage4AddDeps2Levels db depth) _ hspec hret v father level w
      (pkgKey pkg.toDefault) hwf hl1 hlen hn hg hf
  | none =>
    simp only [BuildDatabase.FindPackages]
    have hfp : db.FindPackages { Category := pkg.Category, Name := pkg.Name, Version := ">=0" } =
        Except.ok (db.World.filter (fun q => q.Category == pkg.Category && q.Name == pkg.Name)) :=
      rfl
    have hnot : ∀ i, ¬ w.Levels.holdsAt i (pkgKey pkg.toDefault) := by
      intro i hk
      have := Stage4Worker.registered db w hwf i _ hk
      rw [hg] at this
      cases this
    have tail : ∀ pkg3 : LuetPackage, pkg3.toDefault = pkg.toDefault →
        pkg3.PackageRequires = db.requiresOf pkg3.toDefault →
        ∃ w2 r,
          (match w.Levels.AddDependency pkg3 father (level - 1) with
            | Outcome.crash => Outcome.crash
            | Outcome.outOfFuel => Outcome.outOfFuel
            | Outcome.ret l3 _ =>
              addDepsLoop (Stage4AddDeps2Levels db depth) pkg3.toDefault level
                (stack ++ [pkgKey pkg.toDefault]) pkg3.PackageRequires
                { Levels := l3, Map := GoMap.set w.Map (pkgKey pkg.toDefault) pkg3 }) =
            Outcome.ret w2 r ∧
          ((r = Except.ok () ∧ w2.Levels.NoNilFather ∧
            ∀ i k, w2.Levels.holdsAt i k →
              w.Levels.holdsAt i k ∨ (i = level - 1 ∧ k = pkgKey pkg.toDefault) ∨ level ≤ i) ∨
           ∃ key, r = Except.error ("Cycle for package " ++ key)) := by
      intro pkg3 hid3 hreq
      have hwf2 : Stage4Worker.WF db
          { w with Map := GoMap.set w.Map (pkgKey pkg.toDefault) pkg3 } := by
        refine ⟨hwf.1, ?_, ?_⟩
        · intro k o hk
          simp only [GoMap.get?_set] at hk
          by_cases hkk : k = pkgKey pkg.toDefault
          · simp only [hkk, if_true, Option.some.injEq] at hk
            rw [← hk]
            exact ⟨by rw [hkk, hid3], hreq, by rw [hid3]; exact hatom⟩
          · simp only [hkk, if_false] at hk
            exact hwf.2.1 k o hk
        · intro k hk
          simp only [GoMap.get?_set]
          by_cases hkk : k = pkgKey pkg.toDefault
          · simp [hkk]
          · simp only [hkk, if_false]
            exact hwf.2.2 k hk
      exact addObject_returns db (Stage4AddDeps2Levels db depth) _ hspec hret pkg3 father level
        { w with Map := GoMap.set w.Map (pkgKey pkg.toDefault) pkg3 }
        (pkgKey pkg.toDefault) hwf2 hl1 hlen hn (by simp [GoMap.get?_set]) hf
    cases hppp : db.World.filter
        (fun q => q.Category == pkg.Category && q.Name == pkg.Name) with
    | nil =>
      rw [hppp] at hfp
      exact tail pkg rfl (requiresOf_of_find db pkg [] hfp hpre)
    | cons q qs =>
      rw [hppp] at hfp
      exact tail { pkg with PackageRequires := q.PackageRequires } rfl
        (requiresOf_of_find db pkg (q :: qs) hfp hpre)

/-- With a recursion allowance above the number of packages the catalog names,
`Stage4AddDeps2Levels` returns: without an error, or with the error of a
cycle. It neither dies nor uses up the allowance. -/
theorem Stage4AddDeps2Levels_returns (db : BuildDatabase) (depth : Nat) :
    ∀ (pkg : LuetPackage) (father : Option DefaultPackage) (w : Stage4Worker) (level : Nat)
      (stack : List String),
      w.WF db → 1 ≤ level → level ≤ w.Levels.Levels.length + 1 →
      (db.FindPackages { Category := pkg.Category, Name := pkg.Name, Version := ">=0" } =
        Except.ok [] → pkg.PackageRequires = []) →
      pkg.toDefault ∈ db.atoms → w.Levels.NoNilFather →
      (father ≠ none ∨ ¬ w.Levels.holdsAt (level - 1) (pkgKey pkg.toDefault)) →
      stack.Nodup → (∀ k ∈ stack, k ∈ db.atoms.map pkgKey) →
      db.atoms.length < depth + stack.length →
      ∃ w2 r, Stage4AddDeps2Levels db depth pkg father w level stack = Outcome.ret w2 r ∧
        ((r = Except.ok () ∧ w2.Levels.NoNilFather ∧
          ∀ i k, w2.Levels.holdsAt i k →
            w.Levels.holdsAt i k ∨ (i = level - 1 ∧ k = pkgKey pkg.toDefault) ∨ level ≤ i) ∨
         ∃ key, r = Except.error ("Cycle for package " ++ key)) := by
  induction depth with
  | zero =>
    intro pkg father w level stack _ _ _ _ _ _ _ hnd hsub hb
    have := stack_length_le stack (db.atoms.map pkgKey) hnd hsub
    rw [List.length_map] at this
    omega
  | succ depth ih =>
    intro pkg father w level stack hwf hl1 hl2 hpre hatom hn hf hnd hsub hb
    by_cases hin : IsInStack stack (pkgKey pkg.toDefault) = true
    · refine ⟨w, _, Stage4AddDeps2Levels_cycle db depth pkg father w level stack hin,
        Or.inr ⟨_, rfl⟩⟩
    · have hin2 : IsInStack stack (pkgKey pkg.toDefault) = false := by
        cases hb2 : IsInStack stack (pkgKey pkg.toDefault)
        · rfl
        · exact absurd hb2 hin
      have hnd2 : (stack ++ [pkgKey pkg.toDefault]).Nodup := by
        rw [List.nodup_append]
        refine ⟨hnd, List.nodup_singleton _, ?_⟩
        intro x hx1 hx2
        rw [List.mem_singleton] at hx2
        subst hx2
        exact not_mem_of_IsInStack stack _ hin hx1
      have hsub2 : ∀ k ∈ stack ++ [pkgKey pkg.toDefault], k ∈ db.atoms.map pkgKey := by
        intro k hk
        rcases List.mem_append.mp hk with h1 | h1
        · exact hsub k h1
        · rw [List.mem_singleton] at h1
          rw [h1]
          exact List.mem_map.mpr ⟨_, hatom, rfl⟩
      have hb2 : db.atoms.length < depth + (stack ++ [pkgKey pkg.toDefault]).length := by
        rw [List.length_append, List.length_singleton]
        omega
      have hspec : ∀ pkg2 father (w : Stage4Worker) level w2, w.WF db → 1 ≤ level →
          level ≤ w.Levels.Levels.length + 1 →
          (db.FindPackages { Category := pkg2.Category, Name := pkg2.Name, Version := ">=0" } =
            Except.ok [] → pkg2.PackageRequires = []) →
          pkg2.toDefault ∈ db.atoms →
          Stage4AddDeps2Levels db depth pkg2 father w level (stack ++ [pkgKey pkg.toDefault]) =
            Outcome.ret w2 (Except.ok ()) →
          w2.WF db ∧ w.Grows w2 := by
        intro pkg2 father2 w0 level2 w2 h1 h2 h3 h4 h5 h6
        obtain ⟨a1, _, a3, _⟩ := Stage4AddDeps2Levels_spec db depth (fun _ _ => True) pkg2
          father2 w0 level2 _ w2 h1 w0.closed_true h2 h3 h4 h5 h6
        exact ⟨a1, a3⟩
      have hret : ∀ pkg2 (f : DefaultPackage) (w : Stage4Worker) level, w.WF db → 1 ≤ level →
          level ≤ w.Levels.Levels.length + 1 →
          (db.FindPackages { Category := pkg2.Category, Name := pkg2.Name, Version := ">=0" } =
            Except.ok [] → pkg2.PackageRequires = []) →
          pkg2.toDefault ∈ db.atoms → w.Levels.NoNilFather →
          ∃ w2 r, Stage4AddDeps2Levels db depth pkg2 (some f) w level
              (stack ++ [pkgKey pkg.toDefault]) = Outcome.ret w2 r ∧
            ((r = Except.ok () ∧ w2.Levels.NoNilFather ∧
              ∀ i k, w2.Levels.holdsAt i k →
                w.Levels.holdsAt i k ∨ (i = level - 1 ∧ k = pkgKey pkg2.toDefault) ∨
                  level ≤ i) ∨
             ∃ key, r = Except.error ("Cycle for package " ++ key)) := by
        intro pkg2 f w0 level2 h1 h2 h3 h4 h5 h6
        exact ih pkg2 (some f) w0 level2 _ h1 h2 h3 h4 h5 h6 (Or.inl (by simp)) hnd2 hsub2 hb2
      by_cases hc : w.Levels.Levels.length < level
      · rw [Stage4AddDeps2Levels_newTree db depth pkg father w level stack hin2 hc hl2]
        obtain ⟨m1, m2, m3, m4, m5⟩ := Stage4Levels.AddTree_mono w.Levels level hwf.1
        have hwf1 : Stage4Worker.WF db
            { w with Levels := w.Levels.AddTree (NewStage4Tree level) } :=
          ⟨m1, hwf.2.1, fun k hk => hwf.2.2 k hk⟩
        have hlen1 : level ≤ (w.Levels.AddTree (NewStage4Tree level)).Levels.length := by
          simp only [Stage4Levels.AddTree, List.length_append, List.length_singleton]
          omega
        have hf1 : father ≠ none ∨
            ¬ (w.Levels.AddTree (NewStage4Tree level)).holdsAt (level - 1)
              (pkgKey pkg.toDefault) := by
          rcases hf with h1 | h1
          · exact Or.inl h1
          · exact Or.inr (fun hh => h1 (Stage4Levels.holdsAt_AddTree _ _ _ _ hh))
        obtain ⟨w2, r, h2, hcase⟩ := Stage4AddDeps2Levels_core db depth stack pkg hspec hret
          father { w with Levels := w.Levels.AddTree (NewStage4Tree level) } level hin2 hwf1 hl1
          hlen1 hpre hatom (Stage4Levels.AddTree_noNil _ _ hn) hf1
        refine ⟨w2, r, h2, ?_⟩
        rcases hcase with ⟨hr, hn2, hfr⟩ | hcy
        · refine Or.inl ⟨hr, hn2, ?_⟩
          intro i k hk
          rcases hfr i k hk with h5 | h5 | h5
          · exact Or.inl (Stage4Levels.holdsAt_AddTree _ _ _ _ h5)
          · exact Or.inr (Or.inl h5)
          · exact Or.inr (Or.inr h5)
        · exact Or.inr hcy
      · exact Stage4AddDeps2Levels_core db depth stack pkg hspec hret father w level hin2 hwf hl1
          (by omega) hpre hatom hn hf

theorem cycle_message (key : String) :
    "Error on initialize stage4 tree: " ++ ("Cycle for package " ++ key) =
      "Error on initialize stage4 tree: Cycle for package " ++ key := by
  rw [← String.append_assoc]
  rfl

/-- With a recursion allowance above the number of packages the catalog names,
the loop that adds the missing packages to the first level returns when no two
of them have the same key: without an error, or with the error of a cycle. -/
theorem addRoots_returns (db : BuildDatabase) (depth : Nat) (hd : db.atoms.length < depth)
    (pl : List LuetPackage) :
    ∀ (w : Stage4Worker), w.WF db → 1 ≤ w.Levels.Levels.length → (∀ r ∈ pl, r ∈ db.World) →
      w.Levels.NoNilFather → (pl.map (fun r => pkgKey r.toDefault)).Nodup →
      (∀ r ∈ pl, ¬ w.Levels.holdsAt 0 (pkgKey r.toDefault)) →
      ∃ w2 r, addRoots db depth pl w = Outcome.ret w2 r ∧
        (r = Except.ok () ∨
         ∃ key, r = Except.error ("Error on initialize stage4 tree: Cycle for package " ++ key)) := by
  induction pl with
  | nil => intro w _ _ _ _ _ _; exact ⟨w, _, rfl, Or.inl rfl⟩
  | cons p rest ih =>
    intro w hwf hlen hw hn hnd hnot
    have hp := hw p (List.mem_cons_self _ _)
    have hpre : db.FindPackages { Category := p.Category, Name := p.Name, Version := ">=0" } =
        Except.ok [] → p.PackageRequires = [] :=
      fun hc => absurd hc (FindPackages_of_mem db p hp)
    obtain ⟨w3, r3, h3, hcase⟩ := Stage4AddDeps2Levels_returns db depth p none w 1 [] hwf
      (Nat.le_refl 1) (by omega) hpre (mem_atoms_of_world db p hp) hn
      (Or.inr (hnot p (List.mem_cons_self _ _))) List.nodup_nil (by simp) (by simpa using hd)
    simp only [addRoots]
    rcases hcase with ⟨hr, hn3, hfr⟩ | ⟨key, hr⟩
    · subst hr
      obtain ⟨a1, _, a3, _⟩ := Stage4AddDeps2Levels_spec db depth (fun _ _ => True) p none
        w 1 [] w3 hwf w.closed_true (Nat.le_refl 1) (by omega) hpre
        (mem_atoms_of_world db p hp) h3
      rw [List.map_cons, List.nodup_cons] at hnd
      obtain ⟨w2, r, h2, hc2⟩ := ih w3 a1 (Nat.le_trans hlen a3.1)
        (fun r hr2 => hw r (List.mem_cons_of_mem _ hr2)) hn3 hnd.2
        (by
          intro r hr2 hh
          rcases hfr 0 _ hh with h5 | h5 | h5
          · exact hnot r (List.mem_cons_of_mem _ hr2) h5
          · apply hnd.1
            rw [← h5.2]
            exact List.mem_map.mpr ⟨r, hr2, rfl⟩
          · omega)
      exact ⟨w2, r, by rw [h3]; exact h2, hc2⟩
    · subst hr
      exact ⟨w3, _, by rw [h3], Or.inr ⟨key, congrArg Except.error (cycle_message key)⟩⟩

theorem initial_noNil : (NewStage4LevelsWithSize 1).NoNilFather ∧
    ∀ k, ¬ (NewStage4LevelsWithSize 1).holdsAt 0 k := by
  have hl : NewStage4LevelsWithSize 1 = { Levels := [NewStage4Tree 1], Map := [] } := rfl
  rw [hl]
  constructor
  · intro i k leaf hk
    simp only [Stage4Levels.leaf?] at hk
    cases i with
    | zero => simp [NewStage4Tree, GoMap.get?] at hk
    | succ n => simp at hk
  · intro k ⟨t, ht, hh⟩
    simp at ht
    subst ht
    simp [Stage4Tree.holds, NewStage4Tree] at hh

theorem resolveMissings_defined (db : BuildDatabase) (list : List DefaultPackage)
    (hdef : ∀ q ∈ list, ∃ r, db.FindPackage q = Except.ok r) :
    ∀ (acc : GoMap DefaultPackage × List LuetPackage),
      ∃ m pl, resolveMissings db list acc = Except.ok (m, acc.2 ++ pl) ∧
        pl.map (fun r => r.toDefault) = list ∧ ∀ r ∈ pl, r ∈ db.World := by
  induction list with
  | nil => intro acc; exact ⟨acc.1, [], by simp [resolveMissings], rfl, by simp⟩
  | cons p rest ih =>
    intro acc
    obtain ⟨r, hr⟩ := hdef p (List.mem_cons_self _ _)
    obtain ⟨f1, f2⟩ := FindPackage_ok db p r hr
    obtain ⟨m, pl, h1, h2, h3⟩ := ih (fun q hq => hdef q (List.mem_cons_of_mem _ hq))
      (GoMap.set acc.1 p.HumanReadableString p, acc.2 ++ [r])
    refine ⟨m, r :: pl, ?_, ?_, ?_⟩
    · simp only [resolveMissings, hr, h1, List.append_assoc, List.singleton_append]
    · simp only [List.map_cons, f2, h2]
    · intro x hx
      rcases List.mem_cons.mp hx with h5 | h5
      · rw [h5]; exact f1
      · exact h3 x h5

/-- With three versions of `cat/c` missing before `cat/a`, the level
construction dies on the nil father of the leaf of `cat/c` before it meets the
cycle; with `cat/c` missing and not defined, the lookup fails first. -/
theorem orderMissings_before_cycle :
    (∀ withResolve, orderMissings buildCycleThree
      [pkgC, { pkgC with Version := "2.0" }, { pkgC with Version := "3.0" }, pkgA] withResolve
      goSprintf KeyOrder.insertion 20 = Outcome.crash) ∧
    (∀ withResolve, orderMissings buildCycle [pkgC, pkgA] withResolve goSprintf
      KeyOrder.insertion 20 =
        Outcome.ret () (Except.error "Error on resolve package cat/c-1.0")) := by
  constructor <;> intro withResolve <;> cases withResolve <;> rfl

/-- C25, amended: when `Stage4AddDeps2Levels` meets a package whose key is
already on the descent stack, it returns, without recursing and with the
worker as it is, the error `Cycle for package` with the key. So when every
missing package has a definition in the build catalog, no two missing packages
have the same key, the keys of the catalog identify category and name, and a
missing package reaches itself through the requires of the nodes,
`ListPkgsMissingByDeps` returns the error `Error on initialize stage4 tree:
Cycle for package` with a key, and no list (for every recursion allowance above
the number of packages the catalog names). -/
theorem C25_cycle_is_an_error {σ V : Type} (c : RepoList σ) (lib : VersionLib V)
    (rord : RangeOrder) (st : σ) (db : BuildDatabase) (withResolve : Bool)
    (sprintf : String → String → String) (ord : KeyOrder) (fuel : Nat)
    (list : List DefaultPackage) (p : DefaultPackage)
    (hm : (c.ListPkgsMissing lib rord st).2 = Except.ok list)
    (hdef : ∀ q ∈ list, ∃ r, db.FindPackage q = Except.ok r)
    (hkeys : (list.map pkgKey).Nodup)
    (hp : p ∈ list) (hcyc : db.DependsOn p p) (hfaith : db.KeyFaithful)
    (hfuel : db.atoms.length < fuel) :
    (∀ (depth : Nat) (pkg : LuetPackage) (father : Option DefaultPackage) (w : Stage4Worker)
        (level : Nat) (stack : List String), IsInStack stack (pkgKey pkg.toDefault) = true →
        Stage4AddDeps2Levels db (depth + 1) pkg father w level stack =
          Outcome.ret w (Except.error ("Cycle for package " ++ pkgKey pkg.toDefault))) ∧
    ∃ c1 key,
      c.ListPkgsMissingByDeps lib rord st (Except.ok db) withResolve sprintf ord fuel =
        Outcome.ret c1
          (Except.error ("Error on initialize stage4 tree: Cycle for package " ++ key)) := by
  refine ⟨fun depth pkg father w level stack h =>
    Stage4AddDeps2Levels_cycle db depth pkg father w level stack h, ?_⟩
  obtain ⟨m, pl, hres, hmap, hworld⟩ := resolveMissings_defined db list hdef ([], [])
  simp only [List.nil_append] at hres
  obtain ⟨i1, _, i3⟩ := initial_worker db
  obtain ⟨n1, n2⟩ := initial_noNil
  have hnd : (pl.map (fun r => pkgKey r.toDefault)).Nodup := by
    have : pl.map (fun r => pkgKey r.toDefault) = list.map pkgKey := by
      rw [← hmap, List.map_map]
      rfl
    rw [this]; exact hkeys
  obtain ⟨w2, r, hadd, hcase⟩ := addRoots_returns db fuel hfuel pl
    { Levels := NewStage4LevelsWithSize 1, Map := [] } i1 i3 hworld n1 hnd
    (fun r _ => n2 _)
  have hkey : ∃ key, r = Except.error
      ("Error on initialize stage4 tree: Cycle for package " ++ key) := by
    rcases hcase with hr | hr
    · exfalso
      subst hr
      have hpm : p ∈ pl.map (fun r => r.toDefault) := by rw [hmap]; exact hp
      obtain ⟨r0, hr0, hr1⟩ := List.mem_map.mp hpm
      apply addRoots_no_cycle db hfaith fuel pl w2 hworld hadd r0 hr0
      rw [hr1]
      exact hcyc
    · exact hr
  obtain ⟨key, hr⟩ := hkey
  subst hr
  cases hl : c.ListPkgsMissing lib rord st with
  | mk c1 r1 =>
    rw [hl] at hm
    simp only at hm
    subst hm
    refine ⟨c1, key, ?_⟩
    simp only [RepoList.ListPkgsMissingByDeps, hl, orderMissings, hres, hadd]

/-- C25, amended, at the catalog in which `cat/a` and `cat/b` require each
other, with `cat/a` missing. -/
theorem C25_cycle_is_an_error_witness :
    ((localList [] [pkgA]).ListPkgsMissing specVersionLib RangeOrder.insertion []).2 =
      Except.ok [pkgA] ∧ buildCycle.FindPackage pkgA = Except.ok (buildDef pkgA [pkgB]) ∧
    ([pkgA].map pkgKey).Nodup ∧ pkgA ∈ [pkgA] ∧ buildCycle.DependsOn pkgA pkgA ∧
    buildCycle.KeyFaithful ∧ buildCycle.atoms.length < 10 ∧
    IsInStack ["cat/a", "cat/b"] (pkgKey (anyVersion pkgA).toLuet.toDefault) = true ∧
    Stage4AddDeps2Levels buildCycle (0 + 1) (anyVersion pkgA).toLuet (some (anyVersion pkgB))
      { Levels := NewStage4LevelsWithSize 1, Map := [] } 3 ["cat/a", "cat/b"] =
      Outcome.ret { Levels := NewStage4LevelsWithSize 1, Map := [] }
        (Except.error ("Cycle for package " ++ pkgKey (anyVersion pkgA).toLuet.toDefault)) ∧
    ∃ c1 key,
      (localList [] [pkgA]).ListPkgsMissingByDeps specVersionLib RangeOrder.insertion []
        (Except.ok buildCycle) true goSprintf KeyOrder.insertion 10 =
        Outcome.ret c1
          (Except.error ("Error on initialize stage4 tree: Cycle for package " ++ key)) :=
  have hc : buildCycle.DependsOn pkgA pkgA := buildCycle_cycle
  have hk : buildCycle.KeyFaithful := by unfold BuildDatabase.KeyFaithful; decide
  have h := C25_cycle_is_an_error (localList [] [pkgA]) specVersionLib RangeOrder.insertion []
    buildCycle true goSprintf KeyOrder.insertion 10 [pkgA] pkgA rfl
    (by
      intro q hq
      rw [List.mem_singleton] at hq
      subst hq
      exact ⟨_, rfl⟩)
    (by decide) (by decide) hc hk (by decide)
  ⟨rfl, rfl, by decide, by decide, hc, hk, by decide, by decide,
   h.1 0 _ _ _ 3 _ (by decide), h.2⟩

/-! ## The tree check, the removal list, and the requires graph of the levels -/

theorem FindPackage_eq_none_iff (db : InMemoryDatabase) (p : DefaultPackage) :
    db.FindPackage p = none ↔ p ∉ db.World := by
  simp only [InMemoryDatabase.FindPackage, List.find?_eq_none, Bool.and_eq_true, beq_iff_eq,
    not_and]
  constructor
  · intro h hp
    exact h p hp ⟨rfl, rfl⟩ rfl
  · intro h q hq hc hv
    apply h
    have : q = p := by
      cases q; cases p; simp_all
    rw [← this]; exact hq

/-- C23, as stated, fails on the pair of `cat/a-1.0` with a tree that defines
`cat/a` only in version 2.0: the tree has a definition with the record's
category and name, the package looked up carries the record's own version, and
`CheckFilesWithTrees` adds both the metadata key and the payload to
`Files2Remove`; so does the whole `Analyze` on scenario S4. -/
theorem C23_any_version_counterexample :
    (∃ q ∈ (pairKnife [pkgA2]).ReciperRuntime.World,
      q.Category = artA.CompileSpec.Package.Category ∧
      q.Name = artA.CompileSpec.Package.Name) ∧
    GoMap.get? (pairKnife [pkgA2]).MetaMap "a-1.0.metadata.yaml" = some artA ∧
    GoMap.has (pairKnife [pkgA2]).PkgsMap (Base artA.Path) = true ∧
    (searchPackage artA).Version = "1.0" ∧
    ((pairKnife [pkgA2]).CheckFilesWithTrees RangeOrder.insertion).1.Files2Remove =
      ["a-1.0.metadata.yaml", "a-1.0.package.tar"] ∧
    ((localKnife [] [pkgA2]).Analyze RangeOrder.insertion storeS4).2 = none ∧
    ((localKnife [] [pkgA2]).Analyze RangeOrder.insertion storeS4).1.Files2Remove =
      ["a-1.0.metadata.yaml", "a-1.0.package.tar"] := by
  decide

/-- C23, amended: the tree check looks a record up by category, name and the
record's own version. For a metadata record whose package (category, name and
version) has a definition in the tree, the body of the loop of
`CheckFilesWithTrees` leaves the knife as it is, and whenever the whole loop
appends the record's key or the basename of its payload path to
`Files2Remove`, it does so for another record of `MetaMap`, one whose package
has no definition in the tree. -/
theorem C23_exact_version_lookup {σ : Type} (c : RepoKnife σ) (ord : RangeOrder)
    (m : String) (art : PackageArtifact)
    (hdef : art.CompileSpec.Package ∈ c.ReciperRuntime.World) :
    RepoKnife.checkTree c (m, art) = c ∧
    ∃ added, (c.CheckFilesWithTrees ord).1.Files2Remove = c.Files2Remove ++ added ∧
      ∀ f ∈ added, (f = m ∨ f = Base art.Path) →
        ∃ m2 art2, (m2, art2) ∈ c.MetaMap ∧
          art2.CompileSpec.Package ∉ c.ReciperRuntime.World ∧ art2 ≠ art ∧
          (f = m2 ∨ f = Base art2.Path) := by
  constructor
  · cases hf : c.ReciperRuntime.FindPackage (searchPackage art) with
    | none =>
      exact absurd hdef ((FindPackage_eq_none_iff _ _).mp hf)
    | some q => simp [RepoKnife.checkTree, hf]
  · refine ⟨staleFiles c.ReciperRuntime (ord.metaOrder 2 c.MetaMap), ?_, ?_⟩
    · rw [CheckFilesWithTrees_eq]
    · intro f hf _
      obtain ⟨m2, art2, hmem, hnone, hk⟩ := (mem_staleFiles _ _ _).mp hf
      have hnot : art2.CompileSpec.Package ∉ c.ReciperRuntime.World :=
        (FindPackage_eq_none_iff _ _).mp hnone
      refine ⟨m2, art2, (ord.metaOrder_perm 2 _).mem_iff.mp hmem, hnot, ?_, hk⟩
      intro he
      rw [he] at hnot
      exact hnot hdef

/-- C23, amended, on the pair of `cat/a-1.0` with the tree of `cat/a-1.0`. -/
theorem C23_exact_version_lookup_witness :
    artA.CompileSpec.Package ∈ (pairKnife [pkgA]).ReciperRuntime.World ∧
    (RepoKnife.checkTree (pairKnife [pkgA]) ("a-1.0.metadata.yaml", artA) = pairKnife [pkgA] ∧
     ∃ added, ((pairKnife [pkgA]).CheckFilesWithTrees RangeOrder.insertion).1.Files2Remove =
        (pairKnife [pkgA]).Files2Remove ++ added ∧
      ∀ f ∈ added, (f = "a-1.0.metadata.yaml" ∨ f = Base artA.Path) →
        ∃ m2 art2, (m2, art2) ∈ (pairKnife [pkgA]).MetaMap ∧
          art2.CompileSpec.Package ∉ (pairKnife [pkgA]).ReciperRuntime.World ∧ art2 ≠ artA ∧
          (f = m2 ∨ f = Base art2.Path)) :=
  ⟨by decide,
   C23_exact_version_lookup (pairKnife [pkgA]) RangeOrder.insertion "a-1.0.metadata.yaml" artA
     (by decide)⟩

/-- C27, as stated, fails when another listed metadata record, whose package is
not in the tree, names the same payload: with the pair of `cat/a-1.0`, the tree
of `cat/a-1.0` and a record of `cat/b-1.0` that names `a-1.0.package.tar`, the
analysis succeeds, the pair is valid, and the payload is an entry of
`Files2Remove`. When that record names `a-1.0.metadata.yaml` instead, the
metadata key of the pair is an entry of `Files2Remove`. -/
theorem C27_shared_payload_counterexample :
    ((localKnife [] [pkgA]).Analyze RangeOrder.insertion storeSharedPayload).2 = none ∧
    BackendLocal.GetFilesList storeSharedPayload =
      Except.ok ["a-1.0.package.tar", "a-1.0.metadata.yaml", "b-1.0.metadata.yaml"] ∧
    isMetaKey "a-1.0.metadata.yaml" = true ∧ isPkgKey "a-1.0.package.tar" = true ∧
    BackendLocal.GetMetadata storeSharedPayload "a-1.0.metadata.yaml" = Except.ok artA ∧
    Base artA.Path = "a-1.0.package.tar" ∧
    siblingMeta "a-1.0.package.tar" = "a-1.0.metadata.yaml" ∧
    (localKnife [] [pkgA]).ReciperRuntime.FindPackage (searchPackage artA) = some pkgA ∧
    "a-1.0.package.tar" ∈
      ((localKnife [] [pkgA]).Analyze RangeOrder.insertion storeSharedPayload).1.Files2Remove ∧
    ((localKnife [] [pkgA]).Analyze RangeOrder.insertion storeNamesMetadata).2 = none ∧
    BackendLocal.GetFilesList storeNamesMetadata =
      Except.ok ["a-1.0.package.tar", "a-1.0.metadata.yaml", "b-1.0.metadata.yaml"] ∧
    BackendLocal.GetMetadata storeNamesMetadata "a-1.0.metadata.yaml" = Except.ok artA ∧
    "a-1.0.metadata.yaml" ∈
      ((localKnife [] [pkgA]).Analyze RangeOrder.insertion storeNamesMetadata).1.Files2Remove := by
  refine ⟨by decide, rfl, by decide, by decide, rfl, by decide, by decide, by decide, by decide,
    by decide, rfl, rfl, by decide⟩

/-- C27, amended: after a successful `Analyze`, when a listed metadata key `m`
and a listed payload key `p` (not excluded, not index) form a valid artifact
(the basename of the payload path of the record of `m` is `p`, the sibling
metadata name of `p` is `m`, the package of `m` is found in the tree) and no
listed metadata record whose package is not found in the tree has a payload
path whose basename is `m` or `p`, neither `m` nor `p` is an entry of
`Files2Remove`. -/
theorem C27_valid_artifact_kept {σ : Type} (c : RepoKnife σ) (ord : RangeOrder) (st : σ)
    (listing : List String) (m p : String) (art : PackageArtifact)
    (hl : c.BackendHandler.GetFilesList st = Except.ok listing)
    (h : (c.Analyze ord st).2 = none)
    (hm : m ∈ c.surviving listing) (hmk : isMetaKey m = true)
    (hp : p ∈ c.surviving listing) (hpk : isPkgKey p = true)
    (hart : c.BackendHandler.GetMetadata st m = Except.ok art)
    (hbase : Base art.Path = p) (hsib : siblingMeta p = m)
    (hfound : c.ReciperRuntime.FindPackage (searchPackage art) ≠ none)
    (hother : ∀ m2 art2, m2 ∈ c.surviving listing → isMetaKey m2 = true →
      c.BackendHandler.GetMetadata st m2 = Except.ok art2 →
      c.ReciperRuntime.FindPackage (searchPackage art2) = none →
      Base art2.Path ≠ m ∧ Base art2.Path ≠ p) :
    m ∉ (c.Analyze ord st).1.Files2Remove ∧ p ∉ (c.Analyze ord st).1.Files2Remove := by
  have hA : c.Analyze ord st = ((c.Analyze ord st).1, none) := Prod.ext rfl h
  obtain ⟨listing2, hl2, hMm, hPm, hM, hP, hF, _⟩ := Analyze_view c ord st _ hA
  have hll : listing2 = listing := by
    rw [hl] at hl2
    exact (Except.ok.inj hl2).symm
  subst hll
  have hmx := (key_class_excl m).2.1 hmk
  have hpx := (key_class_excl p).2.2.1 hpk
  constructor
  · intro hk
    rcases (hF m).mp hk with ⟨_, hst⟩ | ⟨a2, hm2, hno⟩ | ⟨v, hm2, _⟩ | ⟨m2, a2, hm2, hnf, hkm | hkm⟩
    · rw [hmx.2.1] at hst; exact Bool.noConfusion hst
    · have h2 := (hMm m a2).mp hm2
      have he : a2 = art := by
        have := h2.2.2; rw [hart] at this; exact (Except.ok.inj this).symm
      subst he
      rw [hbase, (hP p).mpr ⟨hp, hpk⟩] at hno
      exact Bool.noConfusion hno
    · have h2 := (hPm m v).mp hm2
      rw [hmx.1] at h2
      exact Bool.noConfusion h2.2.1
    · subst hkm
      have h2 := (hMm m a2).mp hm2
      have he : a2 = art := by
        have := h2.2.2; rw [hart] at this; exact (Except.ok.inj this).symm
      subst he
      exact hfound hnf
    · have h2 := (hMm m2 a2).mp hm2
      exact (hother m2 a2 h2.1 h2.2.1 h2.2.2 hnf).1 hkm.symm
  · intro hk
    rcases (hF p).mp hk with ⟨_, hst⟩ | ⟨a2, hm2, _⟩ | ⟨v, hm2, hno⟩ | ⟨m2, a2, hm2, hnf, hkm | hkm⟩
    · rw [hpx.1] at hst; exact Bool.noConfusion hst
    · have h2 := (hMm p a2).mp hm2
      rw [hpx.2.2] at h2
      exact Bool.noConfusion h2.2.1
    · have h2 := (hPm p v).mp hm2
      rw [h2.2.2, hsib, (hM m).mpr ⟨hm, hmk⟩] at hno
      exact Bool.noConfusion hno
    · subst hkm
      have h2 := (hMm p a2).mp hm2
      rw [hpx.2.2] at h2
      exact Bool.noConfusion h2.2.1
    · have h2 := (hMm m2 a2).mp hm2
      exact (hother m2 a2 h2.1 h2.2.1 h2.2.2 hnf).2 hkm.symm

/-- C27, amended, on scenario S1 with the tree of `cat/a-1.0`. -/
theorem C27_valid_artifact_kept_witness :
    (BackendLocal.GetFilesList storeS1 =
      Except.ok ["a-1.0.package.tar", "a-1.0.metadata.yaml", "stray.txt", "repository.yaml"] ∧
     ((localKnife [] [pkgA]).Analyze RangeOrder.insertion storeS1).2 = none ∧
     "a-1.0.metadata.yaml" ∈ (localKnife [] [pkgA]).surviving
        ["a-1.0.package.tar", "a-1.0.metadata.yaml", "stray.txt", "repository.yaml"] ∧
     "a-1.0.package.tar" ∈ (localKnife [] [pkgA]).surviving
        ["a-1.0.package.tar", "a-1.0.metadata.yaml", "stray.txt", "repository.yaml"]) ∧
    ("a-1.0.metadata.yaml" ∉
        ((localKnife [] [pkgA]).Analyze RangeOrder.insertion storeS1).1.Files2Remove ∧
     "a-1.0.package.tar" ∉
        ((localKnife [] [pkgA]).Analyze RangeOrder.insertion storeS1).1.Files2Remove) :=
  ⟨⟨rfl, by decide, by decide, by decide⟩,
   C27_valid_artifact_kept (localKnife [] [pkgA]) RangeOrder.insertion storeS1
     ["a-1.0.package.tar", "a-1.0.metadata.yaml", "stray.txt", "repository.yaml"]
     "a-1.0.metadata.yaml" "a-1.0.package.tar" artA rfl (by decide) (by decide) (by decide)
     (by decide) (by decide) rfl (by decide) (by decide) (by decide)
     (by
       intro m2 art2 hm2 hk2 hg hnf
       have hs : m2 = "a-1.0.metadata.yaml" := by
         have := (mem_surviving _ _ _).mp hm2
         rcases this.1 with _ | ⟨_, h1⟩
         · revert hk2; decide
         · rcases h1 with _ | ⟨_, h2⟩
           · rfl
           · rcases h2 with _ | ⟨_, h3⟩
             · revert hk2; decide
             · rcases h3 with _ | ⟨_, h4⟩
               · revert hk2; decide
               · cases h4
       subst hs
       have : art2 = artA := by
         have h1 : BackendLocal.GetMetadata storeS1 "a-1.0.metadata.yaml" = Except.ok artA := rfl
         have h2 : (localKnife [] [pkgA]).BackendHandler.GetMetadata storeS1 "a-1.0.metadata.yaml"
             = Except.ok artA := h1
         rw [h2] at hg
         exact (Except.ok.inj hg).symm
       subst this
       revert hnf
       decide)⟩

theorem orphanMeta_sublist (pkgs : GoMap String) (es : List (String × PackageArtifact)) :
    (orphanMeta pkgs es).Sublist (es.map Prod.fst) := by
  induction es with
  | nil => simp [orphanMeta]
  | cons e es ih =>
    simp only [orphanMeta, List.map_cons]
    split
    · exact List.Sublist.cons _ ih
    · exact List.Sublist.cons₂ _ ih

theorem orphanPkgs_sublist (metas : GoMap PackageArtifact) (es : List (String × String)) :
    (orphanPkgs metas es).Sublist (es.map Prod.fst) := by
  induction es with
  | nil => simp [orphanPkgs]
  | cons e es ih =>
    simp only [orphanPkgs, List.map_cons]
    split
    · exact List.Sublist.cons _ ih
    · exact List.Sublist.cons₂ _ ih

/-- The keys appended by the tree check are distinct when the visited keys are
distinct, no payload basename of a record that is not found is a visited key,
and two records that are not found do not name the same payload. -/
theorem staleFiles_nodup (db : InMemoryDatabase) (es : List (String × PackageArtifact))
    (hk : (es.map Prod.fst).Nodup)
    (h1 : ∀ e ∈ es, db.FindPackage (searchPackage e.2) = none →
      ∀ e2 ∈ es, Base e.2.Path ≠ e2.1)
    (h2 : ∀ e ∈ es, ∀ e2 ∈ es, db.FindPackage (searchPackage e.2) = none →
      db.FindPackage (searchPackage e2.2) = none → Base e.2.Path = Base e2.2.Path →
      e.1 = e2.1) :
    (staleFiles db es).Nodup := by
  induction es with
  | nil => simp [staleFiles]
  | cons e es ih =>
    have hk2 : e.1 ∉ es.map Prod.fst ∧ (es.map Prod.fst).Nodup := by
      rw [List.map_cons] at hk
      exact List.nodup_cons.mp hk
    have ih2 := ih hk2.2
      (fun a ha hs b hb => h1 a (List.mem_cons_of_mem _ ha) hs b (List.mem_cons_of_mem _ hb))
      (fun a ha b hb => h2 a (List.mem_cons_of_mem _ ha) b (List.mem_cons_of_mem _ hb))
    cases hf : db.FindPackage (searchPackage e.2) with
    | some q => simpa [staleFiles, hf] using ih2
    | none =>
      simp only [staleFiles, hf]
      have hself := List.mem_cons_self e es
      refine List.nodup_cons.mpr ⟨?_, List.nodup_cons.mpr ⟨?_, ih2⟩⟩
      · intro hmem
        rcases List.mem_cons.mp hmem with he | hmem
        · exact h1 e hself hf e hself he.symm
        · obtain ⟨m, art, hma, hs, hkm | hkm⟩ := (mem_staleFiles _ _ _).mp hmem
          · apply hk2.1
            rw [hkm]
            exact List.mem_map.mpr ⟨(m, art), hma, rfl⟩
          · exact h1 (m, art) (List.mem_cons_of_mem _ hma) hs e hself hkm.symm
      · intro hmem
        obtain ⟨m, art, hma, hs, hkm | hkm⟩ := (mem_staleFiles _ _ _).mp hmem
        · exact h1 e hself hf (m, art) (List.mem_cons_of_mem _ hma) hkm
        · have := h2 e hself (m, art) (List.mem_cons_of_mem _ hma) hf hs hkm
          apply hk2.1
          rw [this]
          exact List.mem_map.mpr ⟨(m, art), hma, rfl⟩

/-- Counting the occurrences of a key in the strays of a listing followed by a
duplicate-free list of listed keys that are not strays. -/
theorem count_strays_append (files rest : List String) (hn : rest.Nodup)
    (hr : ∀ x ∈ rest, x ∈ files ∧ isStrayKey x = false) (k : String) :
    (files.filter (fun f => isStrayKey f) ++ rest).count k ≤ files.count k := by
  rw [List.count_append]
  cases hs : isStrayKey k with
  | true =>
    have h0 : rest.count k = 0 := by
      apply List.count_eq_zero.mpr
      intro hm
      have := (hr k hm).2
      rw [hs] at this
      exact Bool.noConfusion this
    rw [h0, Nat.add_zero]
    exact List.Sublist.count_le (List.filter_sublist files) k
  | false =>
    have h0 : (files.filter (fun f => isStrayKey f)).count k = 0 := by
      apply List.count_eq_zero.mpr
      intro hm
      have := (List.mem_filter.mp hm).2
      rw [hs] at this
      exact Bool.noConfusion this
    rw [h0, Nat.zero_add]
    by_cases hm : k ∈ rest
    · have h1 : rest.count k ≤ 1 := List.nodup_iff_count_le_one.mp hn k
      have h2 : 0 < files.count k := List.count_pos_iff.mpr (hr k hm).1
      omega
    · rw [List.count_eq_zero.mpr hm]
      exact Nat.zero_le _

/-- C28, as stated, fails with a duplicate-free listing. Two records that are
not found in the tree name the same payload: the payload is entered twice. A
payload without its own metadata file, named by the record of a package that is
not found: the payload is entered twice. A record that is not found and names a
file that is not in the store: its key is entered twice and the file that is
not listed once. -/
theorem C28_submultiset_counterexample :
    ((localKnife [] []).Analyze RangeOrder.insertion storeSharedPayload).2 = none ∧
    BackendLocal.GetFilesList storeSharedPayload =
      Except.ok ["a-1.0.package.tar", "a-1.0.metadata.yaml", "b-1.0.metadata.yaml"] ∧
    ((localKnife [] []).Analyze RangeOrder.insertion storeSharedPayload).1.Files2Remove =
      ["a-1.0.metadata.yaml", "a-1.0.package.tar", "b-1.0.metadata.yaml",
       "a-1.0.package.tar"] ∧
    ((localKnife [] []).Analyze RangeOrder.insertion storeForeignPayload).2 = none ∧
    BackendLocal.GetFilesList storeForeignPayload =
      Except.ok ["a-1.0.package.tar", "b-1.0.metadata.yaml"] ∧
    ((localKnife [] []).Analyze RangeOrder.insertion storeForeignPayload).1.Files2Remove =
      ["a-1.0.package.tar", "b-1.0.metadata.yaml", "a-1.0.package.tar"] ∧
    ((localKnife [] []).Analyze RangeOrder.insertion storeOtherPath).2 = none ∧
    BackendLocal.GetFilesList storeOtherPath =
      Except.ok ["a-1.0.metadata.yaml", "a-1.0.package.tar"] ∧
    ((localKnife [] []).Analyze RangeOrder.insertion storeOtherPath).1.Files2Remove =
      ["a-1.0.metadata.yaml", "a-1.0.metadata.yaml", "x-1.0.package.tar"] := by
  refine ⟨by decide, rfl, by decide, by decide, rfl, by decide, by decide, rfl, by decide⟩

/-- C28, amended: after a successful `Analyze`, when every record of `MetaMap`
whose package is not found in the tree names a listed payload (the basename of
its payload path is a key of `PkgsMap`) whose sibling metadata name is a key of
`MetaMap` and which no other such record names, `Files2Remove` is a
sub-multiset of the filtered listing: no key occurs in it more often than in
the listing that survived the excludes. -/
theorem C28_Files2Remove_submultiset {σ : Type} (c : RepoKnife σ) (ord : RangeOrder)
    (st : σ) (listing : List String)
    (hl : c.BackendHandler.GetFilesList st = Except.ok listing)
    (h : (c.Analyze ord st).2 = none)
    (hstale : ∀ m art, GoMap.get? (c.Analyze ord st).1.MetaMap m = some art →
      c.ReciperRuntime.FindPackage (searchPackage art) = none →
      GoMap.has (c.Analyze ord st).1.PkgsMap (Base art.Path) = true ∧
      GoMap.has (c.Analyze ord st).1.MetaMap (siblingMeta (Base art.Path)) = true ∧
      ∀ m2 art2, GoMap.get? (c.Analyze ord st).1.MetaMap m2 = some art2 →
        c.ReciperRuntime.FindPackage (searchPackage art2) = none →
        Base art2.Path = Base art.Path → m2 = m) :
    ∀ k, (c.Analyze ord st).1.Files2Remove.count k ≤ (c.surviving listing).count k := by
  have hA : c.Analyze ord st = ((c.Analyze ord st).1, none) := Prod.ext rfl h
  obtain ⟨listing2, c2, hl2, hcl, h6⟩ := Analyze_success c ord st _ hA
  have hll : listing2 = listing := by
    rw [hl] at hl2
    exact (Except.ok.inj hl2).symm
  subst hll
  obtain ⟨v1, v2, v3, v4, v5, v6, _, _, _⟩ :=
    classified_view st c listing2 (c.surviving listing2) c2 hcl
  obtain ⟨nM, nP⟩ := classified_nodup st c listing2 _ c2 hcl
  have hM : (c.Analyze ord st).1.MetaMap = c2.MetaMap := by rw [h6]
  have hP : (c.Analyze ord st).1.PkgsMap = c2.PkgsMap := by rw [h6]
  have hF : (c.Analyze ord st).1.Files2Remove =
      c2.Files2Remove ++ (orphanMeta c2.PkgsMap (ord.metaOrder 0 c2.MetaMap) ++
        (orphanPkgs c2.MetaMap (ord.pkgsOrder 1 c2.PkgsMap) ++
          staleFiles c2.ReciperRuntime (ord.metaOrder 2 c2.MetaMap))) := by rw [h6]
  rw [hM, hP] at hstale
  rw [hF, v5, v6]
  -- the three conditions on the records that are not found, over the entries
  have hs : ∀ m art, (m, art) ∈ c2.MetaMap →
      c.ReciperRuntime.FindPackage (searchPackage art) = none →
      GoMap.has c2.PkgsMap (Base art.Path) = true ∧
      GoMap.has c2.MetaMap (siblingMeta (Base art.Path)) = true ∧
      ∀ m2 art2, (m2, art2) ∈ c2.MetaMap →
        c.ReciperRuntime.FindPackage (searchPackage art2) = none →
        Base art2.Path = Base art.Path → m2 = m := by
    intro m art hm hnf
    obtain ⟨s1, s2, s3⟩ := hstale m art (GoMap.get?_of_mem _ nM m art hm) hnf
    exact ⟨s1, s2, fun m2 art2 hm2 => s3 m2 art2 (GoMap.get?_of_mem _ nM m2 art2 hm2)⟩
  have metaKey : ∀ m art, (m, art) ∈ c2.MetaMap →
      m ∈ c.surviving listing2 ∧ isMetaKey m = true := fun m art hm =>
    ⟨((v1 m art).mp hm).1, ((v1 m art).mp hm).2.1⟩
  have pkgKey : ∀ p, GoMap.has c2.PkgsMap p = true →
      p ∈ c.surviving listing2 ∧ isPkgKey p = true := fun p hp => (v4 p).mp hp
  have p0 := ord.metaOrder_perm 0 c2.MetaMap
  have p1 := ord.pkgsOrder_perm 1 c2.PkgsMap
  have p2 := ord.metaOrder_perm 2 c2.MetaMap
  -- membership in the three appended lists
  have memOM : ∀ x, x ∈ orphanMeta c2.PkgsMap (ord.metaOrder 0 c2.MetaMap) →
      ∃ art, (x, art) ∈ c2.MetaMap ∧ GoMap.has c2.PkgsMap (Base art.Path) = false := by
    intro x hx
    obtain ⟨art, ha, hb⟩ := (mem_orphanMeta _ _ _).mp hx
    exact ⟨art, p0.mem_iff.mp ha, hb⟩
  have memOP : ∀ x, x ∈ orphanPkgs c2.MetaMap (ord.pkgsOrder 1 c2.PkgsMap) →
      x ∈ c.surviving listing2 ∧ isPkgKey x = true ∧
        GoMap.has c2.MetaMap (siblingMeta x) = false := by
    intro x hx
    obtain ⟨v, ha, hb⟩ := (mem_orphanPkgs _ _ _).mp hx
    have := (v2 x v).mp (p1.mem_iff.mp ha)
    rw [this.2.2] at hb
    exact ⟨this.1, this.2.1, hb⟩
  have memST : ∀ x, x ∈ staleFiles c.ReciperRuntime (ord.metaOrder 2 c2.MetaMap) →
      ∃ m art, (m, art) ∈ c2.MetaMap ∧
        c.ReciperRuntime.FindPackage (searchPackage art) = none ∧
        (x = m ∨ x = Base art.Path) := by
    intro x hx
    obtain ⟨m, art, ha, hb, hc⟩ := (mem_staleFiles _ _ _).mp hx
    exact ⟨m, art, p2.mem_iff.mp ha, hb, hc⟩
  have metaNotPkg : ∀ x, isMetaKey x = true → isPkgKey x = true → False := by
    intro x h1 h2
    have := ((key_class_excl x).2.1 h1).1
    rw [h2] at this
    exact Bool.noConfusion this
  apply count_strays_append
  · -- the appended keys are distinct
    refine List.nodup_append.mpr ⟨?_, List.nodup_append.mpr ⟨?_, ?_, ?_⟩, ?_⟩
    · exact List.Nodup.sublist (orphanMeta_sublist _ _) ((p0.map Prod.fst).nodup_iff.mpr nM)
    · exact List.Nodup.sublist (orphanPkgs_sublist _ _) ((p1.map Prod.fst).nodup_iff.mpr nP)
    · apply staleFiles_nodup
      · exact (p2.map Prod.fst).nodup_iff.mpr nM
      · intro e he hnf e2 he2 heq
        have hb := (hs e.1 e.2 (p2.mem_iff.mp he) hnf).1
        have hm2 := metaKey e2.1 e2.2 (p2.mem_iff.mp he2)
        rw [heq] at hb
        exact metaNotPkg _ hm2.2 (pkgKey _ hb).2
      · intro e he e2 he2 hnf hnf2 heq
        exact (hs e2.1 e2.2 (p2.mem_iff.mp he2) hnf2).2.2 e.1 e.2 (p2.mem_iff.mp he) hnf heq
    · intro x hx1 hx2
      obtain ⟨hxs, hxp, hxm⟩ := memOP x hx1
      obtain ⟨m, art, hm, hnf, hk | hk⟩ := memST x hx2
      · subst hk
        exact metaNotPkg _ (metaKey _ art hm).2 hxp
      · subst hk
        have := (hs m art hm hnf).2.1
        rw [hxm] at this
        exact Bool.noConfusion this
    · intro x hx1 hx2
      obtain ⟨art, hm, hno⟩ := memOM x hx1
      rcases List.mem_append.mp hx2 with hx2 | hx2
      · exact metaNotPkg _ (metaKey _ art hm).2 (memOP x hx2).2.1
      · obtain ⟨m2, art2, hm2, hnf, hk | hk⟩ := memST x hx2
        · subst hk
          have he : art2 = art := by
            have h1 := GoMap.get?_of_mem _ nM _ _ hm
            have h2 := GoMap.get?_of_mem _ nM _ _ hm2
            rw [h1] at h2
            exact (Option.some.inj h2).symm
          subst he
          have := (hs _ _ hm2 hnf).1
          rw [hno] at this
          exact Bool.noConfusion this
        · subst hk
          exact metaNotPkg _ (metaKey _ art hm).2 (pkgKey _ (hs m2 art2 hm2 hnf).1).2
  · -- the appended keys are listed and are not strays
    intro x hx
    have ofMeta : ∀ y, y ∈ c.surviving listing2 ∧ isMetaKey y = true →
        y ∈ c.surviving listing2 ∧ isStrayKey y = false := fun y hy =>
      ⟨hy.1, ((key_class_excl y).2.1 hy.2).2.1⟩
    have ofPkg : ∀ y, y ∈ c.surviving listing2 ∧ isPkgKey y = true →
        y ∈ c.surviving listing2 ∧ isStrayKey y = false := fun y hy =>
      ⟨hy.1, ((key_class_excl y).2.2.1 hy.2).1⟩
    rcases List.mem_append.mp hx with hx | hx
    · obtain ⟨art, hm, _⟩ := memOM x hx
      exact ofMeta x (metaKey x art hm)
    · rcases List.mem_append.mp hx with hx | hx
      · exact ofPkg x ⟨(memOP x hx).1, (memOP x hx).2.1⟩
      · obtain ⟨m, art, hm, hnf, hk | hk⟩ := memST x hx
        · subst hk; exact ofMeta _ (metaKey _ art hm)
        · subst hk; exact ofPkg _ (pkgKey _ (hs m art hm hnf).1)

/-- C28, amended, on scenario S1 with an empty tree: the record of the pair is
not found, and the stray, the metadata file and the tarball are entered once
each. -/
theorem C28_Files2Remove_submultiset_witness :
    (BackendLocal.GetFilesList storeS1 =
      Except.ok ["a-1.0.package.tar", "a-1.0.metadata.yaml", "stray.txt", "repository.yaml"] ∧
     ((localKnife [] []).Analyze RangeOrder.insertion storeS1).2 = none ∧
     ((localKnife [] []).Analyze RangeOrder.insertion storeS1).1.Files2Remove =
       ["stray.txt", "a-1.0.metadata.yaml", "a-1.0.package.tar"]) ∧
    ∀ k, ((localKnife [] []).Analyze RangeOrder.insertion storeS1).1.Files2Remove.count k ≤
      ((localKnife [] []).surviving
        ["a-1.0.package.tar", "a-1.0.metadata.yaml", "stray.txt", "repository.yaml"]).count k :=
  ⟨⟨rfl, by decide, by decide⟩,
   C28_Files2Remove_submultiset (localKnife [] []) RangeOrder.insertion storeS1
     ["a-1.0.package.tar", "a-1.0.metadata.yaml", "stray.txt", "repository.yaml"] rfl
     (by decide)
     (by
       have hM : ((localKnife [] []).Analyze RangeOrder.insertion storeS1).1.MetaMap =
           [("a-1.0.metadata.yaml", artA)] := by decide
       have hP : ((localKnife [] []).Analyze RangeOrder.insertion storeS1).1.PkgsMap =
           [("a-1.0.package.tar", "a-1.0.metadata.yaml")] := by decide
       rw [hM, hP]
       have one : ∀ m art, GoMap.get? [("a-1.0.metadata.yaml", artA)] m = some art →
           m = "a-1.0.metadata.yaml" ∧ art = artA := by
         intro m art hg
         have hmem := GoMap.mem_of_get? _ _ _ hg
         rcases List.mem_singleton.mp hmem with he
         exact ⟨(Prod.mk.inj he).1, (Prod.mk.inj he).2⟩
       intro m art hg _
       obtain ⟨e1, e2⟩ := one m art hg
       subst e1; subst e2
       refine ⟨by decide, by decide, ?_⟩
       intro m2 art2 hg2 _ _
       exact (one m2 art2 hg2).1)⟩

theorem addRequiresLoop_not_false
    (rec : Stage4Levels → DefaultPackage → Option DefaultPackage → List String → Nat →
      Outcome Stage4Levels Bool)
    (hrec : ∀ l p f s n l2, rec l p f s n ≠ Outcome.ret l2 (Except.ok false))
    (p : DefaultPackage) (stack : List String) (level : Nat) (ds : List DefaultPackage) :
    ∀ l l2, addRequiresLoop rec p stack level ds l ≠ Outcome.ret l2 (Except.ok false) := by
  induction ds with
  | nil => intro l l2 h; simp [addRequiresLoop] at h
  | cons d ds ih =>
    intro l l2 h
    simp only [addRequiresLoop] at h
    split at h
    · cases h
    · rename_i v _
      split at h
      · exact ih _ _ h
      · rename_i hne
        exact hrec _ _ _ _ _ _ h

/-- `AddDependencyRecursive` never answers false: it returns an error or
answers true. -/
theorem Stage4Levels.AddDependencyRecursive_not_false (depth : Nat) :
    ∀ (l : Stage4Levels) (p : DefaultPackage) (father : Option DefaultPackage)
      (stack : List String) (level : Nat) (l2 : Stage4Levels),
      l.AddDependencyRecursive depth p father stack level ≠ Outcome.ret l2 (Except.ok false) := by
  induction depth with
  | zero => intro l p father stack level l2 h; simp [Stage4Levels.AddDependencyRecursive] at h
  | succ depth ih =>
    intro l p father stack level l2 h
    rw [Stage4Levels.AddDependencyRecursive] at h
    split at h
    · cases h
    · split at h
      · cases h
      · split at h
        · cases h
        · split at h
          · cases h
          · split at h
            · split at h
              · cases h
              · cases h
            · exact addRequiresLoop_not_false _ ih _ _ _ _ _ _ h

theorem Stage4Levels.acyclic_of_key_rank (l : Stage4Levels) (rank : String → Nat)
    (h : ∀ e ∈ l.Map, ∀ d ∈ e.2.PackageRequires, rank e.1 < rank (pkgKey d)) : l.Acyclic := by
  have step : ∀ k k2, l.Requires k k2 → rank k < rank k2 := by
    intro k k2 hr
    obtain ⟨o, hg, d, hd, hk⟩ := hr
    have := h (k, o) (GoMap.mem_of_get? _ _ _ hg) d hd
    rw [hk] at this
    exact this
  have trans : ∀ k k2, Relation.TransGen l.Requires k k2 → rank k < rank k2 := by
    intro k k2 hkk
    induction hkk with
    | single hr => exact step _ _ hr
    | tail _ hr ih => exact Nat.lt_trans ih (step _ _ hr)
  intro k hk
  exact Nat.lt_irrefl _ (trans k k hk)

theorem Stage4Levels.Requires_of_keys (l : Stage4Levels) (k k2 : String)
    (h : k2 ∈ l.requiresKeys k) : l.Requires k k2 := by
  simp only [Stage4Levels.requiresKeys] at h
  cases hg : GoMap.get? l.Map k with
  | none => rw [hg] at h; cases h
  | some o =>
    rw [hg] at h
    obtain ⟨d, hd, he⟩ := List.mem_map.mp h
    exact ⟨o, hg, d, hd, he⟩

theorem twiceLevels_reached :
    ((addRoots buildTwice 12 [buildDef pkgA [pkgB, pkgG]]
        { Levels := NewStage4LevelsWithSize 1, Map := [] }).state?.bind fun w =>
      (Stage4AlignLevel1 KeyOrder.insertion 12 w).state?.bind fun w1 =>
        w1.Levels.resolveStart.bind fun s =>
          Stage4Levels.resolveRounds goSprintf KeyOrder.insertion 12 s.1.Levels.length 5 2
            s.1 s.2) = some (twiceLevels, 5) := by
  decide

theorem twiceLevels_acyclic : twiceLevels.Acyclic :=
  Stage4Levels.acyclic_of_key_rank twiceLevels
    (fun s => if s = "cat/a" then 0 else if s = "cat/b" then 1 else if s = "cat/c" then 2
      else if s = "cat/d" then 3 else if s = "cat/e" then 4 else if s = "cat/f" then 5 else 6)
    (by decide)

theorem twiceLevels_analyze :
    (twiceLevels.AnalyzeLeaf goSprintf 12 4 twiceLeaf).value = some true ∧
    (twiceLevels.AnalyzeLeaf goSprintf 12 4 twiceLeaf).state?.map
      (fun l2 => (l2.requiresKeys "cat/b", l2.requiresKeys "cat/c")) =
      some (["cat/f", "cat/c", "cat/d"], ["cat/d", "cat/f", "cat/b"]) := by
  decide

/-- C26 fails: `AnalyzeLeaf` does not keep the requires graph acyclic. On the
catalog `buildTwice` with `a` missing, the loop of `Resolve` reaches
`twiceLevels` after five rounds and then analyses the leaf of `e` in the fifth
tree. The registered requires of `twiceLevels` are acyclic. Whatever the
recursion allowance from 12 on, `AnalyzeLeaf` returns without an error, asks
for a rescan, and leaves registered objects in which `b` requires `c` and `c`
requires `b`: in the third tree the fathers of `e` are `b`, `d`, `c`, the
father `c` is given the require `b` and loses `e`, while `b` requires `c`
already. `AddDependencyRecursive` never answers false, whatever its
arguments. -/
theorem C26_AnalyzeLeaf_closes_cycle :
    ((addRoots buildTwice 12 [buildDef pkgA [pkgB, pkgG]]
        { Levels := NewStage4LevelsWithSize 1, Map := [] }).state?.bind fun w =>
      (Stage4AlignLevel1 KeyOrder.insertion 12 w).state?.bind fun w1 =>
        w1.Levels.resolveStart.bind fun s =>
          Stage4Levels.resolveRounds goSprintf KeyOrder.insertion 12 s.1.Levels.length 5 2
            s.1 s.2) = some (twiceLevels, 5) ∧
    (twiceLevels.Levels.get? 4).map (fun t => GoMap.keys t.Map) = some ["cat/e"] ∧
    twiceLevels.leaf? 4 "cat/e" = some twiceLeaf ∧
    twiceLevels.Acyclic ∧
    twiceLevels.Requires "cat/b" "cat/c" ∧
    (∀ n, ∃ l2,
      twiceLevels.AnalyzeLeaf goSprintf (12 + n) 4 twiceLeaf = Outcome.ret l2 (Except.ok true) ∧
      l2.requiresKeys "cat/b" = ["cat/f", "cat/c", "cat/d"] ∧
      l2.requiresKeys "cat/c" = ["cat/d", "cat/f", "cat/b"] ∧
      l2.Requires "cat/b" "cat/c" ∧ l2.Requires "cat/c" "cat/b" ∧ ¬ l2.Acyclic) ∧
    (∀ (depth : Nat) (l : Stage4Levels) (p : DefaultPackage) (father : Option DefaultPackage)
      (stack : List String) (level : Nat) (l2 : Stage4Levels),
      l.AddDependencyRecursive depth p father stack level ≠
        Outcome.ret l2 (Except.ok false)) := by
  refine ⟨twiceLevels_reached, by decide, by decide, twiceLevels_acyclic,
    Stage4Levels.Requires_of_keys _ _ _ (by decide), ?_,
    Stage4Levels.AddDependencyRecursive_not_false⟩
  intro n
  obtain ⟨hv, hs⟩ := twiceLevels_analyze
  have hb := Stage4Levels.AnalyzeLeaf_below (Nat.le_add_right 12 n) goSprintf twiceLevels 4
    twiceLeaf
  cases h12 : twiceLevels.AnalyzeLeaf goSprintf 12 4 twiceLeaf with
  | crash => rw [h12] at hv; cases hv
  | outOfFuel => rw [h12] at hv; cases hv
  | ret l2 r =>
    cases r with
    | error e => rw [h12] at hv; cases hv
    | ok b =>
      rw [h12] at hv hs hb
      have hbt : b = true := by
        simp only [Outcome.value, Option.some.injEq] at hv
        exact hv
      subst hbt
      simp only [Outcome.state?, Option.map_some', Option.some.injEq, Prod.mk.injEq] at hs
      have hne : (Outcome.ret l2 (Except.ok true) : Outcome Stage4Levels Bool) ≠
          Outcome.outOfFuel := by
        intro hc; cases hc
      have hbc : l2.Requires "cat/b" "cat/c" :=
        Stage4Levels.Requires_of_keys _ _ _ (by rw [hs.1]; decide)
      have hcb : l2.Requires "cat/c" "cat/b" :=
        Stage4Levels.Requires_of_keys _ _ _ (by rw [hs.2]; decide)
      refine ⟨l2, hb.eq_of_ne hne, hs.1, hs.2, hbc, hcb, ?_⟩
      intro hac
      exact hac "cat/b" (Relation.TransGen.tail (Relation.TransGen.single hbc) hcb)

end Devkit
